import Mathlib

/-!
# adclours: style composition, colour resolution, escape stripping and text layout

A shallow embedding of `src/adclours.mjs`.

* A JavaScript string is the list of its UTF-16 code units (`JSString`); every string
  operation of the source (`+`, `startsWith`, `slice`, `length`, the character classes of a
  regular expression without the `u` flag) works on code units.
* An object literal used as a table is an association list in declaration order; reading
  `table[key]` also sees the properties every object inherits from `Object.prototype`.
* A regular expression is a small syntax tree, run by a backtracking matcher that lists
  the possible ends of a match in the order in which the engine tries them.
* A number that reaches an escape code is an integer, `NaN` or an infinity (`JSNum`);
  arithmetic is done on doubles (`F64`): the exact result of each operation, rounded to
  the nearest double, a tie going to the even one.
* The widths, paddings and counts of the layout functions are integers, and a string has
  no greatest length; `repeat` raises a `RangeError` on a negative count.
* A `throw` is the `error` of `Except`.
-/

namespace Adclours

/-! ## Strings -/

/-- A JavaScript string, as the list of its UTF-16 code units. -/
abbrev JSString := List Nat

/-- The UTF-16 code units of one Unicode scalar value. -/
def utf16 (c : Char) : List Nat :=
  if c.toNat < 0x10000 then [c.toNat]
  else [0xD800 + (c.toNat - 0x10000) / 0x400, 0xDC00 + (c.toNat - 0x10000) % 0x400]

/-- The JavaScript string written as the literal `s`. -/
def js (s : String) : JSString := s.toList.flatMap utf16

/-- The code unit of a character of the Basic Multilingual Plane. -/
def cu (c : Char) : Nat := c.toNat

/-- The escape character U+001B. -/
def ESC : Nat := 0x1b

/-- The single-unit control sequence introducer U+009B. -/
def CSI : Nat := 0x9b

/-! ## Numbers -/

/-- A number as the code reads and prints it: an integer, `NaN`, or an infinity. -/
inductive JSNum where
  | nan
  | int (i : Int)
  | inf (neg : Bool)
  deriving DecidableEq, Repr

/-- Decimal writing of a natural number. -/
def natToString (n : Nat) : JSString := (Nat.toDigits 10 n).map Char.toNat

/-- Value of a hexadecimal digit, if the code unit is one. -/
def hexDigitVal (c : Nat) : Option Nat :=
  if cu '0' ≤ c ∧ c ≤ cu '9' then some (c - cu '0')
  else if cu 'A' ≤ c ∧ c ≤ cu 'F' then some (c - cu 'A' + 10)
  else if cu 'a' ≤ c ∧ c ≤ cu 'f' then some (c - cu 'a' + 10)
  else none

/-- White space and line terminators skipped by `parseInt`. -/
def isStrWhiteSpace (c : Nat) : Bool :=
  c = 9 || c = 10 || c = 11 || c = 12 || c = 13 || c = 32 || c = 0xA0 || c = 0x1680 ||
  (0x2000 ≤ c && c ≤ 0x200A) || c = 0x2028 || c = 0x2029 || c = 0x202F || c = 0x205F ||
  c = 0x3000 || c = 0xFEFF

/-- Longest leading run of hexadecimal digits, as digit values. -/
def hexDigitsPrefix : JSString → List Nat
  | [] => []
  | c :: t =>
    match hexDigitVal c with
    | some d => d :: hexDigitsPrefix t
    | none => []

/-- The call `parseInt(s, 16)`: leading white space is skipped, one sign is read, one
`0x`/`0X` is dropped, then the longest run of hexadecimal digits is read; no digit gives
`NaN`. (Exact as long as the value is below 2^53; the source passes two code units.) -/
def parseInt16 (s : JSString) : JSNum :=
  let s1 := s.dropWhile isStrWhiteSpace
  let neg := s1.head? = some (cu '-')
  let s2 := if s1.head? = some (cu '-') ∨ s1.head? = some (cu '+') then s1.tail else s1
  let s3 :=
    match s2 with
    | a :: b :: t => if a = cu '0' ∧ (b = cu 'x' ∨ b = cu 'X') then t else s2
    | _ => s2
  match hexDigitsPrefix s3 with
  | [] => .nan
  | ds =>
    let v : Int := (ds.foldl (fun acc d => 16 * acc + d) 0 : Nat)
    .int (if neg then -v else v)

/-! ## Doubles -/

/-- Binary logarithm, rounded down, by halving at most `fuel` times. -/
def log2Fuel : Nat → Nat → Nat
  | 0, _ => 0
  | fuel + 1, n => if 2 ≤ n then log2Fuel fuel (n / 2) + 1 else 0

/-- Binary logarithm of a natural number, rounded down (`0` for `0`). -/
def log2 (n : Nat) : Nat := log2Fuel n n

/-- The power `2 ^ e` for an integer exponent. -/
def pow2 (e : Int) : ℚ :=
  if 0 ≤ e then ((2 ^ e.toNat : Nat) : ℚ) else 1 / ((2 ^ (-e).toNat : Nat) : ℚ)

/-- The binary exponent of a non-zero rational: the greatest `e` with `2 ^ e ≤ |q|`. -/
def exponent (q : ℚ) : Int :=
  let k : Int := (log2 q.num.natAbs : Int) - (log2 q.den : Int)
  if pow2 k ≤ |q| then k else k - 1

/-- Rounding to the nearest integer, a tie going to the even one. -/
def roundHalfEven (x : ℚ) : Int :=
  if x - ⌊x⌋ < 1 / 2 then ⌊x⌋
  else if 1 / 2 < x - ⌊x⌋ then ⌊x⌋ + 1
  else if ⌊x⌋ % 2 = 0 then ⌊x⌋ else ⌊x⌋ + 1

/-- A value of the language's Number type, a double: `NaN`, an infinity, or a finite
value given exactly. The sign of zero is not kept: no operation of the source tells `-0`
from `0` (it prints as `0`, compares as `0`, and the only division by it in the source
is the `0 / 0` of `generateShades`, which is `NaN` for either sign). -/
inductive F64 where
  | nan
  | inf (neg : Bool)
  | fin (q : ℚ)
  deriving DecidableEq, Repr

/-- Rounding of an exact result to a double, to nearest with ties to even: 53 significant
bits, least exponent `-1074` (subnormal numbers), and overflow to an infinity from
`2 ^ 1024` on. -/
def RN (q : ℚ) : F64 :=
  if q = 0 then .fin 0
  else
    let ulp := pow2 (max (exponent q) (-1022) - 52)
    let y := (roundHalfEven (q / ulp) : ℚ) * ulp
    if pow2 1024 ≤ |y| then .inf (decide (y < 0)) else .fin y

/-- Unary minus. -/
def F64.neg : F64 → F64
  | .nan => .nan
  | .inf s => .inf (!s)
  | .fin q => .fin (-q)

/-- The operator `+`. -/
def F64.add : F64 → F64 → F64
  | .fin a, .fin b => RN (a + b)
  | .fin _, .inf s => .inf s
  | .inf s, .fin _ => .inf s
  | .inf s, .inf t => if s = t then .inf s else .nan
  | _, _ => .nan

/-- The operator `-`. -/
def F64.sub (x y : F64) : F64 := x.add y.neg

/-- The operator `*`. -/
def F64.mul : F64 → F64 → F64
  | .fin a, .fin b => RN (a * b)
  | .fin a, .inf s => if a = 0 then .nan else .inf (xor s (decide (a < 0)))
  | .inf s, .fin a => if a = 0 then .nan else .inf (xor s (decide (a < 0)))
  | .inf s, .inf t => .inf (xor s t)
  | _, _ => .nan

/-- The operator `/` (a zero divisor is taken as `+0`). -/
def F64.div : F64 → F64 → F64
  | .fin a, .fin b =>
    if b = 0 then (if a = 0 then .nan else .inf (decide (a < 0))) else RN (a / b)
  | .fin _, .inf _ => .fin 0
  | .inf s, .fin b => .inf (xor s (decide (b < 0)))
  | _, _ => .nan

/-- The operator `<`; every comparison with `NaN` is false. -/
def F64.lt : F64 → F64 → Bool
  | .fin a, .fin b => decide (a < b)
  | .fin _, .inf s => !s
  | .inf s, .fin _ => s
  | .inf s, .inf t => s && !t
  | _, _ => false

/-- The call `Math.round(x)`: the nearest integer, a tie going up. -/
def F64.round : F64 → F64
  | .fin q => .fin ⌊q + 1 / 2⌋
  | x => x

/-- The call `Math.pow(x, 2)`, taken as the correctly rounded square. -/
def F64.square (x : F64) : F64 := x.mul x

/-- Square root of a natural number, rounded down, found bit by bit from bit `b - 1`. -/
def isqrtBits : Nat → Nat → Nat → Nat
  | 0, _, acc => acc
  | b + 1, n, acc =>
    if (acc + 2 ^ b) ^ 2 ≤ n then isqrtBits b n (acc + 2 ^ b) else isqrtBits b n acc

/-- Square root of a natural number, rounded down. -/
def isqrt (n : Nat) : Nat := isqrtBits (log2 n / 2 + 1) n 0

/-- The double nearest to the square root of a positive rational. -/
def sqrtRN (q : ℚ) : ℚ :=
  let e := exponent q
  let ulp := pow2 ((e - e % 2) / 2 - 52)
  let z := q / (ulp * ulp)
  let m := isqrt ⌊z⌋.toNat
  let half : ℚ := (m : ℚ) + 1 / 2
  let r : Nat :=
    if z < half * half then m
    else if half * half < z then m + 1
    else if m % 2 = 0 then m else m + 1
  (r : ℚ) * ulp

/-- The call `Math.sqrt(x)`: the correctly rounded square root. -/
def F64.sqrt : F64 → F64
  | .nan => .nan
  | .inf s => if s then .nan else .inf false
  | .fin q => if q < 0 then .nan else if q = 0 then .fin 0 else .fin (sqrtRN q)

/-- A number read for arithmetic (doubles hold every integer below `2 ^ 53` exactly). -/
def JSNum.toF64 : JSNum → F64
  | .nan => .nan
  | .int i => .fin i
  | .inf s => .inf s

/-- A rounded double as the number that is printed. -/
def F64.toJSNum : F64 → JSNum
  | .nan => .nan
  | .inf s => .inf s
  | .fin q => .int ⌊q⌋

/-- An integer as a double. -/
def F64.ofNat (n : Nat) : F64 := .fin n

/-- The digits `s` and the decimal exponent `n` that the language's `Number::toString`
takes for an integer-valued double `x` of `D` decimal digits: the least number `k` of
digits for which some `s` of `k` digits has `s * 10 ^ (n - k)` rounding to `x`, and of such
`s` the one nearest to `x` (the even one on a tie). Only the two multiples of
`10 ^ (D - k)` around `x` can be the nearest, and `k = D` always succeeds. -/
def shortestDigits (x : Nat) : Nat × Nat :=
  let D := (natToString x).length
  let pick : Nat → Option (Nat × Nat) := fun k =>
    let p := 10 ^ (D - k)
    let lo := x / p
    let hi := lo + 1
    let okLo : Bool := decide (RN ((lo * p : Nat) : ℚ) = .fin (x : ℚ))
    let okHi : Bool := decide (RN ((hi * p : Nat) : ℚ) = .fin (x : ℚ))
    let best : Option Nat :=
      if okLo && okHi then
        (if x - lo * p < hi * p - x then some lo
          else if hi * p - x < x - lo * p then some hi
          else if lo % 2 = 0 then some lo else some hi)
      else if okLo then some lo
      else if okHi then some hi
      else none
    best.map (fun s => if s = 10 ^ k then (10 ^ (k - 1), D + 1) else (s, D))
  ((List.range D).findSome? (fun j => pick (j + 1))).getD (x, D)

/-- The writing of `s * 10 ^ (n - k)` for `s` of `k ≤ n` digits: the digits and `n - k`
zeros up to `n = 21`, the exponent form `d.ddde+N` beyond. -/
def formatDigits (s n : Nat) : JSString :=
  let digits := natToString s
  if n ≤ 21 then digits ++ List.replicate (n - digits.length) (cu '0')
  else
    match digits with
    | [] => []
    | [d] => d :: (js "e+" ++ natToString (n - 1))
    | d :: rest => d :: cu '.' :: (rest ++ js "e+" ++ natToString (n - 1))

/-- The text of a number inside a template literal (the language's `ToString`). An integer
below `2 ^ 53` in absolute value is a double and is written with all its decimal digits, with
a sign when negative. A larger integer stands for the double nearest to it and is written as
the language writes that double: the shortest digits that read back as the same double,
followed by zeros up to 21 digits and in exponent form beyond (`2 ^ 64` is
`18446744073709552000`, `255 * 10 ^ 30` is `2.55e+32`), or `Infinity` from `2 ^ 1024` on. -/
def numberToString : JSNum → JSString
  | .nan => js "NaN"
  | .int i =>
    if i.natAbs < 9007199254740992 then
      (if i < 0 then cu '-' :: natToString i.natAbs else natToString i.natAbs)
    else
      match RN (i.natAbs : ℚ) with
      | .fin q =>
        (if i < 0 then [cu '-'] else []) ++
          formatDigits (shortestDigits ⌊q⌋.toNat).1 (shortestDigits ⌊q⌋.toNat).2
      | _ => if i < 0 then js "-Infinity" else js "Infinity"
  | .inf neg => if neg then js "-Infinity" else js "Infinity"

/-! ## Regular expressions -/

/-- The fragment of regular-expression syntax the source uses. Quantifiers are greedy. -/
inductive Regex where
  /-- Character class, as a list of inclusive code-unit ranges. -/
  | cls (ranges : List (Nat × Nat))
  /-- Concatenation. -/
  | seq (a b : Regex)
  /-- Bounded quantifier `a{min,max}`. -/
  | rep (a : Regex) (min max : Nat)
  /-- The quantifier `a*`. -/
  | star (a : Regex)
  /-- The quantifier `a?`. -/
  | opt (a : Regex)

/-- Membership of a code unit in a class. -/
def inClass (ranges : List (Nat × Nat)) (c : Nat) : Bool :=
  ranges.any (fun r => r.1 ≤ c && c ≤ r.2)

/-- The language's `RepeatMatcher` for a greedy quantifier: one more iteration is tried
before stopping; an iteration that consumes nothing once `min` is reached is rejected.
The result lists the remaining inputs of all ways to match, first choice first. -/
def repeatMatcher (m : JSString → List JSString) : Nat → Nat → JSString → List JSString
  | _, 0, x => [x]
  | min, max + 1, x =>
    let more := (m x).flatMap (fun y =>
      if min = 0 ∧ y.length = x.length then [] else repeatMatcher m (min - 1) max y)
    if min ≠ 0 then more else more ++ [x]

/-- Backtracking matcher: `run r s` lists, in the order the engine tries them, the
remainders of `s` after each way of matching `r` at the start of `s`. An iteration of
`*` consumes at least one code unit, so `*` is the quantifier `{0, length of the input}`
(`run_star_bound` shows that a larger bound changes nothing). -/
def Regex.run : Regex → JSString → List JSString
  | .cls ranges, s =>
    match s with
    | [] => []
    | c :: t => if inClass ranges c then [t] else []
  | .seq a b, s => (Regex.run a s).flatMap (Regex.run b)
  | .rep a min max, s => repeatMatcher (Regex.run a) min max s
  | .star a, s => repeatMatcher (Regex.run a) 0 s.length s
  | .opt a, s => repeatMatcher (Regex.run a) 0 1 s

/-- The match the engine reports at the start of `s`: the remainder after the first
successful way, if any. -/
def Regex.matchAt (r : Regex) (s : JSString) : Option JSString := (r.run s).head?

/-- The call `/^r$/.test(s)`: some way of matching `r` consumes the whole of `s`. -/
def Regex.testAnchored (r : Regex) (s : JSString) : Bool := (r.run s).any (fun t => t.isEmpty)

/-- The call `s.replace(/r/g, '')`, scanning from the left with `fuel` steps: a match is
dropped and the scan goes on after it; a code unit at which nothing matches is kept. -/
def replaceAllEmpty (r : Regex) : Nat → JSString → JSString
  | 0, s => s
  | _ + 1, [] => []
  | fuel + 1, c :: t =>
    match r.matchAt (c :: t) with
    | some rest =>
      if rest.length < (c :: t).length then replaceAllEmpty r fuel rest
      else c :: replaceAllEmpty r fuel t
    | none => c :: replaceAllEmpty r fuel t

/-- The call `s.match(/r/g)`, scanning from the left with `fuel` steps: the list of the
matched substrings (the empty list when the call gives `null`). -/
def matchAll (r : Regex) : Nat → JSString → List JSString
  | 0, _ => []
  | _ + 1, [] => []
  | fuel + 1, c :: t =>
    match r.matchAt (c :: t) with
    | some rest =>
      if rest.length < (c :: t).length then
        (c :: t).take ((c :: t).length - rest.length) :: matchAll r fuel rest
      else [] :: matchAll r fuel t
    | none => matchAll r fuel t

/-- Inclusive range of a class, between two characters. -/
def rg (a b : Char) : Nat × Nat := (cu a, cu b)

/-- A single character of a class. -/
def ch (a : Char) : Nat × Nat := (cu a, cu a)

/-- The class `[0-9]`. -/
def digitClass : Regex := .cls [rg '0' '9']

/-- The class `\w`. -/
def wordClass : Regex := .cls [rg 'A' 'Z', rg 'a' 'z', rg '0' '9', ch '_']

/-- The source's `ansiRegex`:
`/[\u001b\u009b][[()#;?]*(?:[0-9]{1,4}(?:;[0-9]{0,4})*)?[0-9A-ORZcf-nqry=><]/g`. -/
def ansiRegex : Regex :=
  .seq (.cls [(ESC, ESC), (CSI, CSI)])
    (.seq (.star (.cls [ch '[', ch '(', ch ')', ch '#', ch ';', ch '?']))
      (.seq
        (.opt (.seq (.rep digitClass 1 4)
          (.star (.seq (.cls [ch ';']) (.rep digitClass 0 4)))))
        (.cls [rg '0' '9', rg 'A' 'O', ch 'R', ch 'Z', ch 'c', rg 'f' 'n', ch 'q', ch 'r',
          ch 'y', ch '=', ch '>', ch '<'])))

/-- The source's `strip`: `text.replace(ansiRegex, '')`. -/
def strip (text : JSString) : JSString := replaceAllEmpty ansiRegex text.length text

/-! ## Objects used as tables -/

/-- An object literal with string values: its own properties in declaration order. -/
abbrev Table := List (JSString × JSString)

/-- The names every object inherits from `Object.prototype`; each holds a function or an
object, never a string. -/
def objectPrototypeKeys : List JSString :=
  [js "constructor", js "hasOwnProperty", js "isPrototypeOf", js "propertyIsEnumerable",
   js "toLocaleString", js "toString", js "valueOf", js "__proto__", js "__defineGetter__",
   js "__defineSetter__", js "__lookupGetter__", js "__lookupSetter__"]

/-- What reading `table[key]` gives. -/
inductive Lookup where
  /-- An own property, with its string value. -/
  | own (v : JSString)
  /-- A property inherited from `Object.prototype`: a truthy value that is not a string. -/
  | inherited
  /-- No such property: `undefined`. -/
  | undefined
  deriving DecidableEq, Repr

/-- The read `table[key]`. -/
def getProperty (table : Table) (key : JSString) : Lookup :=
  match table.lookup key with
  | some v => .own v
  | none => if key ∈ objectPrototypeKeys then .inherited else .undefined

/-- The string a truthiness test lets through: an own, non-empty string value. -/
def truthyString : Lookup → Option JSString
  | .own v => if v ≠ [] then some v else none
  | _ => none

/-- Assignment of one property: an existing key keeps its place and takes the new value,
a new key goes to the end. -/
def setProperty (table : Table) (key value : JSString) : Table :=
  if table.lookup key = none then table ++ [(key, value)]
  else table.map (fun kv => if kv.1 = key then (kv.1, value) else kv)

/-- The object spread `{...a, ...b}`. -/
def spread (a b : Table) : Table :=
  b.foldl (fun acc kv => setProperty acc kv.1 kv.2) (a.foldl (fun acc kv => setProperty acc kv.1 kv.2) [])

/-! ## The registries -/

/-- The source's `styleCodes`: styles, reset and the basic sixteen colours, foreground
and background. -/
def styleCodes : Table :=
  [(js "reset", js "\x1b[0m"), (js "bold", js "\x1b[1m"), (js "dim", js "\x1b[2m"),
   (js "italic", js "\x1b[3m"), (js "underline", js "\x1b[4m"), (js "inverse", js "\x1b[7m"),
   (js "hidden", js "\x1b[8m"), (js "strikethrough", js "\x1b[9m"),
   (js "overline", js "\x1b[53m"), (js "black", js "\x1b[30m"), (js "red", js "\x1b[31m"),
   (js "green", js "\x1b[32m"), (js "yellow", js "\x1b[33m"), (js "blue", js "\x1b[34m"),
   (js "magenta", js "\x1b[35m"), (js "cyan", js "\x1b[36m"), (js "white", js "\x1b[37m"),
   (js "gray", js "\x1b[90m"), (js "brightRed", js "\x1b[91m"),
   (js "brightGreen", js "\x1b[92m"), (js "brightYellow", js "\x1b[93m"),
   (js "brightBlue", js "\x1b[94m"), (js "brightMagenta", js "\x1b[95m"),
   (js "brightCyan", js "\x1b[96m"), (js "brightWhite", js "\x1b[97m"),
   (js "bgBlack", js "\x1b[40m"), (js "bgRed", js "\x1b[41m"), (js "bgGreen", js "\x1b[42m"),
   (js "bgYellow", js "\x1b[43m"), (js "bgBlue", js "\x1b[44m"),
   (js "bgMagenta", js "\x1b[45m"), (js "bgCyan", js "\x1b[46m"), (js "bgWhite", js "\x1b[47m"),
   (js "bgGray", js "\x1b[100m"), (js "bgBrightRed", js "\x1b[101m"),
   (js "bgBrightGreen", js "\x1b[102m"), (js "bgBrightYellow", js "\x1b[103m"),
   (js "bgBrightBlue", js "\x1b[104m"), (js "bgBrightMagenta", js "\x1b[105m"),
   (js "bgBrightCyan", js "\x1b[106m"), (js "bgBrightWhite", js "\x1b[107m")]

/-- The source's `ansiHexMapping`: hex values of the sixteen basic colour names. -/
def ansiHexMapping : Table :=
  [(js "black", js "#000000"), (js "red", js "#CD0000"), (js "green", js "#00CD00"),
   (js "yellow", js "#CDCD00"), (js "blue", js "#0000CD"), (js "magenta", js "#CD00CD"),
   (js "cyan", js "#00CDCD"), (js "white", js "#E5E5E5"), (js "gray", js "#808080"),
   (js "brightRed", js "#FF0000"), (js "brightGreen", js "#00FF00"),
   (js "brightYellow", js "#FFFF00"), (js "brightBlue", js "#0000FF"),
   (js "brightMagenta", js "#FF00FF"), (js "brightCyan", js "#00FFFF"),
   (js "brightWhite", js "#FFFFFF")]

/-- The source's `extendedColors`. -/
def extendedColors : Table :=
  [(js "maroon", js "#800000"), (js "darkred", js "#8B0000"), (js "firebrick", js "#B22222"),
   (js "crimson", js "#DC143C"), (js "tomato", js "#FF6347"), (js "coral", js "#FF7F50"),
   (js "indianred", js "#CD5C5C"), (js "lightcoral", js "#F08080"), (js "salmon", js "#FA8072"),
   (js "darksalmon", js "#E9967A"), (js "lightsalmon", js "#FFA07A"),
   (js "orangered", js "#FF4500"), (js "darkorange", js "#FF8C00"), (js "orange", js "#FFA500"),
   (js "gold", js "#FFD700"), (js "yellowgreen", js "#9ACD32"), (js "olivedrab", js "#6B8E23"),
   (js "olive", js "#808000"), (js "darkolivegreen", js "#556B2F"),
   (js "forestgreen", js "#228B22"), (js "seagreen", js "#2E8B57"),
   (js "mediumseagreen", js "#3CB371"), (js "darkcyan", js "#008B8B"),
   (js "teal", js "#008080"), (js "darkturquoise", js "#00CED1"),
   (js "turquoise", js "#40E0D0"), (js "lightseagreen", js "#20B2AA"),
   (js "cadetblue", js "#5F9EA0"), (js "steelblue", js "#4682B4"),
   (js "cornflowerblue", js "#6495ED"), (js "royalblue", js "#4169E1"),
   (js "mediumblue", js "#0000CD"), (js "darkblue", js "#00008B"), (js "navy", js "#000080"),
   (js "midnightblue", js "#191970"), (js "indigo", js "#4B0082"),
   (js "darkmagenta", js "#8B008B"), (js "purple", js "#800080"),
   (js "mediumorchid", js "#BA55D3"), (js "orchid", js "#DA70D6"), (js "violet", js "#EE82EE"),
   (js "plum", js "#DDA0DD"), (js "thistle", js "#D8BFD8"), (js "silver", js "#C0C0C0"),
   (js "lightgray", js "#D3D3D3"), (js "darkgray", js "#A9A9A9"), (js "dimgray", js "#696969"),
   (js "slategray", js "#708090"), (js "lightslategray", js "#778899"),
   (js "rosybrown", js "#BC8F8F"), (js "palevioletred", js "#D87093"),
   (js "hotpink", js "#FF69B4"), (js "deeppink", js "#FF1493"), (js "fuchsia", js "#FF00FF"),
   (js "paleturquoise", js "#AFEEEE"), (js "lightblue", js "#ADD8E6"),
   (js "skyblue", js "#87CEEB"), (js "deepskyblue", js "#00BFFF"),
   (js "dodgerblue", js "#1E90FF"), (js "azure", js "#F0FFFF"), (js "aliceblue", js "#F0F8FF"),
   (js "ghostwhite", js "#F8F8FF")]

/-- The source's `allNamedColors`: `{...extendedColors, ...ansiHexMapping}`. -/
def allNamedColors : Table := spread extendedColors ansiHexMapping

/-! ## Colour resolution -/

deriving instance DecidableEq for Except

/-- What a `throw` carries. -/
inductive JSError where
  /-- A `TypeError` raised by the language (calling what is not a function). -/
  | typeError
  /-- A `RangeError` raised by the language (`repeat` with a negative count). -/
  | rangeError
  /-- An `Error` thrown by the source with a message. -/
  | error (msg : JSString)
  deriving DecidableEq, Repr

/-- An argument of `toRgb`. -/
inductive ColorArg where
  /-- A string: a colour name or a hex writing. -/
  | str (s : JSString)
  /-- An array of numbers. -/
  | arr (xs : List JSNum)
  /-- Any other value (`undefined`, `null`, a number, a plain object). -/
  | other
  deriving DecidableEq, Repr

/-- The triple `[0, 0, 0]`. -/
def black : List JSNum := [.int 0, .int 0, .int 0]

/-- The pattern `\w{2}`. -/
def wordPair : Regex := .rep wordClass 2 2

/-- The source's `toRgb`. A name whose table entry is inherited from `Object.prototype`
replaces `c` by a value without `startsWith`, and the call of it raises a `TypeError`. -/
def toRgb (c : ColorArg) : Except JSError (List JSNum) :=
  match c with
  | .str s =>
    match getProperty allNamedColors s with
    | .inherited => .error .typeError
    | namedColorHex =>
      let c1 : JSString := (truthyString namedColorHex).getD s
      if c1.head? = some (cu '#') then
        let sanitizedHex := c1.tail
        if sanitizedHex.length = 3 then
          .ok (sanitizedHex.map (fun h => parseInt16 [h, h]))
        else
          let hexMatch := matchAll wordPair sanitizedHex.length sanitizedHex
          if hexMatch.length = 3 then .ok (hexMatch.map parseInt16)
          else .ok black
      else .ok black
  | .arr xs => if xs.length = 3 then .ok xs else .ok black
  | .other => .ok black

/-! ## The style builder -/

/-- A style object made by `createStyleObject(prefix)`: it is its accumulated prefix. -/
structure Builder where
  /-- The accumulated escape codes. -/
  pfx : JSString
  deriving DecidableEq, Repr

/-- The source's `createStyleObject`. -/
def createStyleObject (pfx : JSString := []) : Builder := ⟨pfx⟩

/-- The source's `color`. -/
def color : Builder := createStyleObject

/-- The value of `styleCodes.reset`. -/
def resetCode : JSString :=
  match styleCodes.lookup (js "reset") with
  | some v => v
  | none => js "undefined"

/-- The proxy's target: applying a builder to a text. -/
def Builder.apply (b : Builder) (text : JSString) : JSString := b.pfx ++ text ++ resetCode

/-- What an attribute access on a builder gives. -/
inductive Access where
  /-- A function of three numbers (`rgb`, `bgRgb`). -/
  | fn3 (f : JSNum → JSNum → JSNum → Builder)
  /-- A function of a hex string (`hex`, `bgHex`). -/
  | fnHex (f : JSString → Except JSError Builder)
  /-- A function of a palette index (`color256`, `bg256`). -/
  | fn256 (f : JSNum → Except JSError Builder)
  /-- A new builder. -/
  | builder (b : Builder)
  /-- A builder whose prefix is `pfx` followed by the host's text of the property `prop`
  that `styleCodes` inherits from `Object.prototype`. -/
  | inheritedBuilder (pfx prop : JSString)
  /-- The property `prop` of the target function itself (`target[prop]`). -/
  | target (prop : JSString)

/-- The pattern `[0-9A-Fa-f]{6}` of the test `/^[0-9A-Fa-f]{6}$/`. -/
def sixHexDigits : Regex := .rep (.cls [rg '0' '9', rg 'A' 'F', rg 'a' 'f']) 6 6

/-- The array destructuring `const [r, g, b] = xs`; the source only destructures
three-element arrays. -/
def destructure3 (xs : List JSNum) : JSNum × JSNum × JSNum :=
  (xs.getD 0 .nan, xs.getD 1 .nan, xs.getD 2 .nan)

/-- The escape code `ESC [ layer ; 2 ; r ; g ; b m` as the source's template literals
write it, `layer` being `38` or `48`. -/
def trueColorCode (layer : JSString) (r g b : JSNum) : JSString :=
  [ESC] ++ js "[" ++ layer ++ js ";2;" ++ numberToString r ++ js ";" ++ numberToString g ++
    js ";" ++ numberToString b ++ js "m"

/-- The escape code `ESC [ layer ; 5 ; code m` of the 256-colour palette. -/
def paletteCode (layer : JSString) (code : JSNum) : JSString :=
  [ESC] ++ js "[" ++ layer ++ js ";5;" ++ numberToString code ++ js "m"

/-- The body shared by the functions `hex` and `bgHex` return. -/
def hexFunction (pfx layer hex : JSString) : Except JSError Builder :=
  let sanitizedHex := if hex.head? = some (cu '#') then hex.tail else hex
  if ¬ sixHexDigits.testAnchored sanitizedHex then
    .error (.error (js "Invalid hex code. Must be 6 digits."))
  else
    let (r, g, b) :=
      destructure3 ((matchAll wordPair sanitizedHex.length sanitizedHex).map parseInt16)
    .ok (createStyleObject (pfx ++ trueColorCode layer r g b))

/-- The test `code < 0 || code > 255`; every comparison with `NaN` is false. -/
def outOfPalette : JSNum → Bool
  | .nan => false
  | .int i => i < 0 || i > 255
  | .inf _ => true

/-- The body shared by the functions `color256` and `bg256` return. -/
def paletteFunction (pfx layer : JSString) (code : JSNum) : Except JSError Builder :=
  if outOfPalette code then .error (.error (js "256-color code must be between 0 and 255."))
  else .ok (createStyleObject (pfx ++ paletteCode layer code))

/-- The `get` trap of the proxy `createStyleObject` returns. -/
def Builder.get (self : Builder) (prop : JSString) : Except JSError Access :=
  if prop = js "rgb" then
    .ok (.fn3 (fun r g b => createStyleObject (self.pfx ++ trueColorCode (js "38") r g b)))
  else if prop = js "bgRgb" then
    .ok (.fn3 (fun r g b => createStyleObject (self.pfx ++ trueColorCode (js "48") r g b)))
  else if prop = js "hex" then .ok (.fnHex (hexFunction self.pfx (js "38")))
  else if prop = js "bgHex" then .ok (.fnHex (hexFunction self.pfx (js "48")))
  else if prop = js "color256" then .ok (.fn256 (paletteFunction self.pfx (js "38")))
  else if prop = js "bg256" then .ok (.fn256 (paletteFunction self.pfx (js "48")))
  else
    match getProperty styleCodes prop with
    | .inherited => .ok (.inheritedBuilder self.pfx prop)
    | style =>
      match truthyString style with
      | some code => .ok (.builder (createStyleObject (self.pfx ++ code)))
      | none =>
        match truthyString (getProperty extendedColors prop) with
        | some hex =>
          (toRgb (.str hex)).map (fun rgb =>
            let (r, g, b) := destructure3 rgb
            .builder (createStyleObject (self.pfx ++ trueColorCode (js "38") r g b)))
        | none => .ok (.target prop)

/-! ## Chains on a builder -/

/-- One link of a chain written after a builder. -/
inductive Step where
  /-- The attribute access `.prop`. -/
  | name (prop : JSString)
  /-- The call `.rgb(r, g, b)`. -/
  | rgb (r g b : JSNum)
  /-- The call `.bgRgb(r, g, b)`. -/
  | bgRgb (r g b : JSNum)
  /-- The call `.hex(h)`. -/
  | hex (h : JSString)
  /-- The call `.bgHex(h)`. -/
  | bgHex (h : JSString)
  /-- The call `.color256(code)`. -/
  | color256 (code : JSNum)
  /-- The call `.bg256(code)`. -/
  | bg256 (code : JSNum)
  deriving DecidableEq, Repr

/-- Where a chain ends. -/
inductive ChainResult where
  /-- On a builder. -/
  | builder (b : Builder)
  /-- On a thrown error. -/
  | threw (e : JSError)
  /-- On a value that is not a builder of this model (a property of the target function,
  or a prefix holding the host's text of an inherited property). -/
  | left
  deriving DecidableEq, Repr

/-- A builder or an error as the end of a chain. -/
def ChainResult.ofExcept : Except JSError Builder → ChainResult
  | .ok b => .builder b
  | .error e => .threw e

/-- One link applied to a builder: the attribute is read through `get`, and what it
gives is called with the link's arguments. -/
def Builder.step (self : Builder) : Step → ChainResult
  | .name prop =>
    match self.get prop with
    | .ok (.builder b) => .builder b
    | .ok _ => .left
    | .error e => .threw e
  | .rgb r g b =>
    match self.get (js "rgb") with
    | .ok (.fn3 f) => .builder (f r g b)
    | .ok _ => .left
    | .error e => .threw e
  | .bgRgb r g b =>
    match self.get (js "bgRgb") with
    | .ok (.fn3 f) => .builder (f r g b)
    | .ok _ => .left
    | .error e => .threw e
  | .hex h =>
    match self.get (js "hex") with
    | .ok (.fnHex f) => .ofExcept (f h)
    | .ok _ => .left
    | .error e => .threw e
  | .bgHex h =>
    match self.get (js "bgHex") with
    | .ok (.fnHex f) => .ofExcept (f h)
    | .ok _ => .left
    | .error e => .threw e
  | .color256 code =>
    match self.get (js "color256") with
    | .ok (.fn256 f) => .ofExcept (f code)
    | .ok _ => .left
    | .error e => .threw e
  | .bg256 code =>
    match self.get (js "bg256") with
    | .ok (.fn256 f) => .ofExcept (f code)
    | .ok _ => .left
    | .error e => .threw e

/-- A chain of links applied from the left. -/
def Builder.chain (self : Builder) : List Step → ChainResult
  | [] => .builder self
  | s :: rest =>
    match self.step s with
    | .builder b => b.chain rest
    | r => r

/-- The keys of a table. -/
def keys (table : Table) : List JSString := table.map Prod.fst

/-! ## Blending, gradients and the nearest name -/

/-- The call `color.rgb(r, g, b)(text)`. -/
def colorRgb (r g b : JSNum) (text : JSString) : JSString :=
  match color.get (js "rgb") with
  | .ok (.fn3 f) => (f r g b).apply text
  | _ => []

/-- One channel of the source's `blend`, by the `switch` on the mode. -/
def blendChannel (mode : JSString) (ratio c1 c2 : F64) : F64 :=
  if mode = js "multiply" then
    (((c1.div (.ofNat 255)).mul (c2.div (.ofNat 255))).mul (.ofNat 255)).round
  else if mode = js "screen" then
    (F64.ofNat 255).sub
      (((((F64.ofNat 255).sub c1).mul ((F64.ofNat 255).sub c2)).div (.ofNat 255)).round)
  else
    ((c1.mul ((F64.ofNat 1).sub ratio)).add (c2.mul ratio)).round

/-- The source's `blend`. -/
def blend (text : JSString) (color1 color2 : ColorArg) (ratio : F64 := .fin (1 / 2))
    (mode : JSString := js "normal") : Except JSError JSString :=
  match toRgb color1 with
  | .error e => .error e
  | .ok rgb1 =>
    match toRgb color2 with
    | .error e => .error e
    | .ok rgb2 =>
      let (r1, g1, b1) := destructure3 rgb1
      let (r2, g2, b2) := destructure3 rgb2
      let r := blendChannel mode ratio r1.toF64 r2.toF64
      let g := blendChannel mode ratio g1.toF64 g2.toF64
      let b := blendChannel mode ratio b1.toF64 b2.toF64
      .ok (colorRgb r.toJSNum g.toJSNum b.toJSNum text)

/-- One channel of the source's `gradient` for the character at index `i`:
`Math.round(start + (end - start) * i / length)`. -/
def gradientChannel (start stop : F64) (i length : Nat) : F64 :=
  (start.add (((stop.sub start).mul (.ofNat i)).div (.ofNat length))).round

/-- The source's `gradient`. -/
def gradient (text : JSString) (startHex endHex : ColorArg) : Except JSError JSString :=
  match toRgb startHex with
  | .error e => .error e
  | .ok rgb1 =>
    match toRgb endHex with
    | .error e => .error e
    | .ok rgb2 =>
      let (startR, startG, startB) := destructure3 rgb1
      let (endR, endG, endB) := destructure3 rgb2
      let length := text.length
      .ok (text.enum.flatMap (fun ic =>
        let r := gradientChannel startR.toF64 endR.toF64 ic.1 length
        let g := gradientChannel startG.toF64 endG.toF64 ic.1 length
        let b := gradientChannel startB.toF64 endB.toF64 ic.1 length
        colorRgb r.toJSNum g.toJSNum b.toJSNum [ic.2]))

/-- The element `c[i]` of an array, read for arithmetic (`undefined` counts as `NaN`). -/
def channelAt (c : List JSNum) (i : Nat) : F64 := (c.getD i .nan).toF64

/-- The source's `colorDistance`. -/
def colorDistance (c1 c2 : List JSNum) : F64 :=
  ((((channelAt c1 0).sub (channelAt c2 0)).square.add
    ((channelAt c1 1).sub (channelAt c2 1)).square).add
    ((channelAt c1 2).sub (channelAt c2 2)).square).sqrt

/-- A table value as an argument of `toRgb`. -/
def Lookup.toColorArg : Lookup → ColorArg
  | .own v => .str v
  | _ => .other

/-- The loop of the source's `findNearestColor` over the names still to visit, from the
nearest name and least distance found so far. -/
def findNearestLoop (targetRgb : List JSNum) :
    List JSString → JSString × F64 → Except JSError (JSString × F64)
  | [], state => .ok state
  | name :: rest, (nearestColorName, minDistance) =>
    match toRgb (getProperty allNamedColors name).toColorArg with
    | .error e => .error e
    | .ok currentRgb =>
      let distance := colorDistance targetRgb currentRgb
      if distance.lt minDistance then findNearestLoop targetRgb rest (name, distance)
      else findNearestLoop targetRgb rest (nearestColorName, minDistance)

/-- The source's `findNearestColor`; `for (const name in allNamedColors)` visits the keys
in insertion order. -/
def findNearestColor (inputColor : ColorArg) : Except JSError JSString :=
  match toRgb inputColor with
  | .error e => .error e
  | .ok targetRgb =>
    (findNearestLoop targetRgb (keys allNamedColors) ([], .inf false)).map Prod.fst

/-! ## Layout: padding, wrapping, boxes, tables and rules -/

/-- The call `s.repeat(count)` for an integer `count`: a negative count raises a
`RangeError`. -/
def jsRepeat (s : JSString) (count : Int) : Except JSError JSString :=
  if count < 0 then .error .rangeError else .ok (List.replicate count.toNat s).flatten

/-- The call `text.split(sep)` for a separator of one code unit. -/
def split (sep : Nat) : JSString → List JSString
  | [] => [[]]
  | c :: t =>
    if c = sep then [] :: split sep t
    else
      match split sep t with
      | [] => [[c]]
      | w :: ws => (c :: w) :: ws

/-- The call `parts.join(sep)`. -/
def join (sep : JSString) (parts : List JSString) : JSString := sep.intercalate parts

/-- The call `xs.map(f)` for a callback that may throw. -/
def mapThrowing {α β : Type} (f : α → Except JSError β) : List α → Except JSError (List β)
  | [] => .ok []
  | x :: xs =>
    match f x with
    | .error e => .error e
    | .ok y =>
      match mapThrowing f xs with
      | .error e => .error e
      | .ok ys => .ok (y :: ys)

/-- The expression `Math.floor(x / 2)` on an integer. -/
def floorHalf (x : Int) : Int := ⌊(x : ℚ) / 2⌋

/-- The call `color[name](text)` for a style name of `styleCodes`. -/
def colorStyle (name : JSString) (text : JSString) : JSString :=
  match color.get name with
  | .ok (.builder b) => b.apply text
  | _ => []

/-- The source's `boxStyles`. -/
def boxStyles : List (JSString × List JSString) :=
  [(js "single", [js "╭", js "─", js "╮", js "│", js "╰", js "╯"]),
   (js "double", [js "╔", js "═", js "╗", js "║", js "╚", js "╝"]),
   (js "triple", [js "╓", js "─", js "╖", js "║", js "╙", js "╜"])]

/-- The options object of `box`; `none` is an absent property. -/
structure BoxOptions where
  /-- The property `borderColor`. -/
  borderColor : Option ColorArg := none
  /-- The property `style`. -/
  style : Option JSString := none
  /-- The property `padding`. -/
  padding : Option Int := none

/-- The value `boxStyles[style] || boxStyles.single` as the array the destructuring reads;
a name inherited from `Object.prototype` holds a value that is not iterable. -/
def boxStyleOf (style : JSString) : Except JSError (List JSString) :=
  match boxStyles.lookup style with
  | some glyphs => .ok glyphs
  | none =>
    if style ∈ objectPrototypeKeys then .error .typeError
    else .ok ((boxStyles.lookup (js "single")).getD [])

/-- One line of the `paddedLines` of `box`. -/
def boxLine (borderCls : JSString → JSString) (vertical : JSString) (maxLen padding : Int)
    (line : JSString) : Except JSError JSString :=
  let strippedLen : Int := (strip line).length
  match jsRepeat (js " ") (maxLen - strippedLen + padding) with
  | .error e => .error e
  | .ok paddingStr =>
    match jsRepeat (js " ") padding with
    | .error e => .error e
    | .ok sidePadding =>
      .ok (borderCls (vertical ++ sidePadding) ++ line ++ paddingStr ++
        borderCls (sidePadding ++ vertical))

/-- The source's `box`. -/
def box (text : JSString) (options : BoxOptions := {}) : Except JSError JSString :=
  let borderColor := options.borderColor.getD (.str (js "white"))
  let style := options.style.getD (js "single")
  let padding := options.padding.getD 1
  match boxStyleOf style with
  | .error e => .error e
  | .ok boxStyle =>
    let topLeft := boxStyle.getD 0 (js "undefined")
    let horizontal := boxStyle.getD 1 (js "undefined")
    let topRight := boxStyle.getD 2 (js "undefined")
    let vertical := boxStyle.getD 3 (js "undefined")
    let bottomLeft := boxStyle.getD 4 (js "undefined")
    let bottomRight := boxStyle.getD 5 (js "undefined")
    match toRgb borderColor with
    | .error e => .error e
    | .ok rgb =>
      let borderCls := colorRgb (destructure3 rgb).1 (destructure3 rgb).2.1 (destructure3 rgb).2.2
      let lines := split 10 text
      let maxLen : Nat := lines.foldl (fun mx line => max mx (strip line).length) 0
      match jsRepeat horizontal ((maxLen : Int) + 2 + padding * 2) with
      | .error e => .error e
      | .ok horizontalBar =>
        let borderTop := borderCls (topLeft ++ horizontalBar ++ topRight)
        let borderBottom := borderCls (bottomLeft ++ horizontalBar ++ bottomRight)
        match mapThrowing (boxLine borderCls vertical maxLen padding) lines with
        | .error e => .error e
        | .ok paddedLines => .ok (join (js "\n") ([borderTop] ++ paddedLines ++ [borderBottom]))

/-- The source's `center`. -/
def center (text : JSString) (width : Int) : Except JSError JSString :=
  let padding := max 0 (floorHalf (width - ((strip text).length : Int)))
  match jsRepeat (js " ") padding with
  | .error e => .error e
  | .ok spaces => .ok (spaces ++ text)

/-- One step of the `forEach` of `wrap`, on the variables `line` and `result`. -/
def wrapStep (width : Int) (state : JSString × JSString) (word : JSString) :
    JSString × JSString :=
  if ((strip (state.1 ++ js " " ++ word)).length : Int) ≤ width then
    (state.1 ++ ((if state.1.length > 0 then js " " else js "") ++ word), state.2)
  else (word, state.2 ++ (state.1 ++ js "\n"))

/-- The source's `wrap`. -/
def wrap (text : JSString) (width : Int) : JSString :=
  let state := (split 32 text).foldl (wrapStep width) (js "", js "")
  state.2 ++ state.1

/-- The source's `pad`. -/
def pad (text : JSString) (width : Int) (side : JSString := js "right")
    (char : JSString := js " ") : Except JSError JSString :=
  let strippedLen : Int := (strip text).length
  match jsRepeat char (max 0 (width - strippedLen)) with
  | .error e => .error e
  | .ok padding => .ok (if side = js "left" then padding ++ text else text ++ padding)

/-- The options object of `table`; an absent `align` is the empty array. -/
structure TableOptions where
  /-- The property `align`. -/
  align : List JSString := []

/-- The `reduce` that gives the width of column `colIndex`, from the maximum so far; a row
without that cell hands `undefined` to `strip`, which raises a `TypeError`. -/
def columnWidth (colIndex : Nat) : List (List JSString) → Nat → Except JSError Nat
  | [], maxWidth => .ok maxWidth
  | row :: rest, maxWidth =>
    match row[colIndex]? with
    | none => .error .typeError
    | some cell => columnWidth colIndex rest (max maxWidth (strip cell).length)

/-- One cell as `formatLine` writes it; beyond the header's columns the width is
`undefined`, the padding `NaN`, and `repeat` gives the empty string. -/
def formatCell (align : List JSString) (widths : List Nat) (i : Nat) (cell : JSString) :
    Except JSError JSString :=
  let alignment : JSString :=
    match align[i]? with
    | some a => if a = js "" then js "left" else a
    | none => js "left"
  let strippedLen : Int := (strip cell).length
  match widths[i]? with
  | none => .ok cell
  | some w =>
    let padding : Int := (w : Int) - strippedLen
    if alignment = js "right" then
      match jsRepeat (js " ") padding with
      | .error e => .error e
      | .ok spaces => .ok (spaces ++ cell)
    else if alignment = js "center" then
      let leftPad := floorHalf padding
      let rightPad := padding - leftPad
      match jsRepeat (js " ") leftPad with
      | .error e => .error e
      | .ok left =>
        match jsRepeat (js " ") rightPad with
        | .error e => .error e
        | .ok right => .ok (left ++ cell ++ right)
    else
      match jsRepeat (js " ") padding with
      | .error e => .error e
      | .ok spaces => .ok (cell ++ spaces)

/-- The inner function `formatLine` of `table`. -/
def formatLine (align : List JSString) (widths : List Nat) (row : List JSString)
    (separator : JSString) : Except JSError JSString :=
  match mapThrowing (fun ic => formatCell align widths ic.1 ic.2) row.enum with
  | .error e => .error e
  | .ok formattedCells => .ok (join (js " " ++ separator ++ js " ") formattedCells)

/-- The `forEach` over the body rows of `table`, from the result so far. -/
def tableBody (align : List JSString) (widths : List Nat) :
    List (List JSString) → JSString → Except JSError JSString
  | [], result => .ok result
  | row :: rest, result =>
    match formatLine align widths row (js "│") with
    | .error e => .error e
    | .ok formatted => tableBody align widths rest (result ++ (js "\n" ++ formatted))

/-- The source's `table`. -/
def table (rows : List (List JSString)) (options : TableOptions := {}) :
    Except JSError JSString :=
  match rows with
  | [] => .ok (js "")
  | header :: body =>
    match mapThrowing (fun colIndex => columnWidth colIndex rows 0)
        (List.range header.length) with
    | .error e => .error e
    | .ok widths =>
      let horizontalLine :=
        join (js "─┼─") (widths.map (fun w => (List.replicate w (js "─")).flatten))
      match formatLine options.align widths header (js "│") with
      | .error e => .error e
      | .ok formatted =>
        tableBody options.align widths body
          (colorStyle (js "bold") formatted ++ (js "\n" ++ colorStyle (js "dim") horizontalLine))

/-- The source's `line`. -/
def line (width : Int) (text : JSString := js "") : Except JSError JSString :=
  let char := js "─"
  let textLen := (strip text).length
  if textLen = 0 then jsRepeat char width
  else
    let sideWidth := max 0 (floorHalf (width - (textLen : Int) - 2))
    match jsRepeat char sideWidth with
    | .error e => .error e
    | .ok sideChars =>
      let fullLine := sideChars ++ (js " " ++ text ++ js " ") ++ sideChars
      if ((strip fullLine).length : Int) < width then .ok (fullLine ++ char) else .ok fullLine

/-! ## Rainbow and shades -/

/-- The call `color.rgb(r, g, b)`: the style object it returns. -/
def rgbStyle (r g b : JSNum) : Builder :=
  match color.get (js "rgb") with
  | .ok (.fn3 f) => f r g b
  | _ => createStyleObject

/-- The names read on `color` for the array `colors` of the source's `rainbow`. -/
def rainbowColors : List JSString :=
  [js "red", js "yellow", js "green", js "cyan", js "blue", js "magenta"]

/-- The source's `rainbow`. -/
def rainbow (text : JSString) : JSString :=
  text.enum.flatMap (fun ic =>
    colorStyle (rainbowColors.getD (ic.1 % rainbowColors.length) (js "")) [ic.2])

/-- One channel of a shade of the source's `generateShades`:
`Math.round(c * (1 - ratio) + (direction === 'lighten' ? 255 : 0) * ratio)`. -/
def shadeChannel (direction : JSString) (ratio c : F64) : F64 :=
  ((c.mul ((F64.ofNat 1).sub ratio)).add
    ((if direction = js "lighten" then F64.ofNat 255 else F64.ofNat 0).mul ratio)).round

/-- The source's `generateShades`, for a count that is a natural number (the counter `i`
is exact below `2 ^ 53`). -/
def generateShades (baseColor : ColorArg) (count : Nat := 5)
    (direction : JSString := js "darken") : Except JSError (List Builder) :=
  match toRgb baseColor with
  | .error e => .error e
  | .ok rgb =>
    let (r, g, b) := destructure3 rgb
    .ok ((List.range count).map (fun i =>
      let ratio := (F64.ofNat i).div ((F64.ofNat count).sub (F64.ofNat 1))
      rgbStyle (shadeChannel direction ratio r.toF64).toJSNum
        (shadeChannel direction ratio g.toF64).toJSNum
        (shadeChannel direction ratio b.toF64).toJSNum))

/-! ## Vocabulary of the specification -/

/-- A text without escape sequences: it holds neither U+001B nor U+009B. -/
def escapeFree (text : JSString) : Prop := ∀ c ∈ text, c ≠ ESC ∧ c ≠ CSI

instance (text : JSString) : Decidable (escapeFree text) := by
  unfold escapeFree; infer_instance

/-- An integer channel or palette index in `0..255`. -/
def inByteRange : JSNum → Bool
  | .nan => false
  | .int i => 0 ≤ i && i ≤ 255
  | .inf _ => false

/-- A character of `[0-9A-Fa-f]`. -/
def isHexDigit (c : Nat) : Bool :=
  (48 ≤ c && c ≤ 57) || (65 ≤ c && c ≤ 70) || (97 ≤ c && c ≤ 102)

/-- A string of hexadecimal digits only. -/
def allHexDigits (s : JSString) : Bool := s.all isHexDigit

/-- Removal of one optional leading `#`. -/
def dropHash (s : JSString) : JSString :=
  match s with
  | 35 :: t => t
  | _ => s

/-- Exactly six characters of `[0-9A-Fa-f]`, after one optional leading `#`. -/
def validHex6 (s : JSString) : Bool := (dropHash s).length = 6 && allHexDigits (dropHash s)

/-- Value of a hexadecimal digit (zero for any other character). -/
def hexValue (c : Nat) : Nat :=
  if 48 ≤ c ∧ c ≤ 57 then c - 48
  else if 65 ≤ c ∧ c ≤ 70 then c - 55
  else if 97 ≤ c ∧ c ≤ 102 then c - 87
  else 0

/-- The value of the `i`-th digit pair of a hex string. -/
def pairNat (s : JSString) (i : Nat) : Nat :=
  16 * hexValue (s.getD (2 * i) 0) + hexValue (s.getD (2 * i + 1) 0)

/-- The values of the three digit pairs of a six-digit hex string. -/
def pairValues (s : JSString) : JSNum × JSNum × JSNum :=
  (.int (pairNat s 0), .int (pairNat s 1), .int (pairNat s 2))

/-- A hexadecimal digit as a character, in upper or lower case. -/
def hexDigitChar (upper : Bool) (d : Nat) : Nat :=
  if d < 10 then 48 + d else if upper then 55 + d else 87 + d

/-- The two-digit hex writing of a channel. -/
def hexPairOf (upper : Bool) (n : Nat) : JSString :=
  [hexDigitChar upper (n / 16), hexDigitChar upper (n % 16)]

/-- The six-digit hex writing `#RRGGBB` of a colour, in upper or lower case. -/
def hexWriting (upper : Bool) (r g b : Nat) : JSString :=
  35 :: (hexPairOf upper r ++ hexPairOf upper g ++ hexPairOf upper b)

/-- The true-colour escape `ESC [ layer ; 2 ; r ; g ; b m` in decimal writing. -/
def trueColorEscape (layer r g b : Nat) : JSString :=
  [27, 91] ++ natToString layer ++ [59, 50, 59] ++ natToString r ++ [59] ++ natToString g ++
    [59] ++ natToString b ++ [109]

/-- The palette escape `ESC [ layer ; 5 ; n m` in decimal writing. -/
def paletteEscape (layer n : Nat) : JSString :=
  [27, 91] ++ natToString layer ++ [59, 53, 59] ++ natToString n ++ [109]

/-- The links the round-trip property speaks of: names of the style and basic-colour
registry, extended colour names, `rgb`/`bgRgb` with channels in `0..255`, `hex`/`bgHex`
with a valid six-digit hex string, `color256`/`bg256` with an index in `0..255`. -/
def Step.wellFormed : Step → Bool
  | .name prop => decide (prop ∈ keys styleCodes) || decide (prop ∈ keys extendedColors)
  | .rgb r g b => inByteRange r && inByteRange g && inByteRange b
  | .bgRgb r g b => inByteRange r && inByteRange g && inByteRange b
  | .hex h => validHex6 h
  | .bgHex h => validHex6 h
  | .color256 code => inByteRange code
  | .bg256 code => inByteRange code

/-- The registry's escape fragment of a name. -/
def code (name : JSString) : JSString := (styleCodes.lookup name).getD []

/-- The three groups of tests of the `get` trap: the six colour functions, the registry
`styleCodes`, and the table `extendedColors`. -/
inductive DispatchClass where
  /-- The tests `prop === "rgb"` to `prop === "bg256"`. -/
  | functions
  /-- The test `styleCodes[prop]`. -/
  | styles
  /-- The test `extendedColors[prop]`. -/
  | extended
  deriving DecidableEq, Repr

/-- What one group of tests of the `get` trap returns when it is tried on `prop`, `none`
when its tests fail. A value that `extendedColors` inherits from `Object.prototype` is
no string and no array, and `toRgb` gives `[0, 0, 0]` for it. -/
def Builder.tryClass (self : Builder) (prop : JSString) :
    DispatchClass → Option (Except JSError Access)
  | .functions =>
    if prop = js "rgb" then
      some (.ok (.fn3 (fun r g b =>
        createStyleObject (self.pfx ++ trueColorCode (js "38") r g b))))
    else if prop = js "bgRgb" then
      some (.ok (.fn3 (fun r g b =>
        createStyleObject (self.pfx ++ trueColorCode (js "48") r g b))))
    else if prop = js "hex" then some (.ok (.fnHex (hexFunction self.pfx (js "38"))))
    else if prop = js "bgHex" then some (.ok (.fnHex (hexFunction self.pfx (js "48"))))
    else if prop = js "color256" then some (.ok (.fn256 (paletteFunction self.pfx (js "38"))))
    else if prop = js "bg256" then some (.ok (.fn256 (paletteFunction self.pfx (js "48"))))
    else none
  | .styles =>
    match getProperty styleCodes prop with
    | .inherited => some (.ok (.inheritedBuilder self.pfx prop))
    | style =>
      match truthyString style with
      | some code => some (.ok (.builder (createStyleObject (self.pfx ++ code))))
      | none => none
  | .extended =>
    match getProperty extendedColors prop with
    | .inherited =>
      some (.ok (.builder (createStyleObject
        (self.pfx ++ trueColorCode (js "38") (.int 0) (.int 0) (.int 0)))))
    | named =>
      match truthyString named with
      | some hex =>
        some ((toRgb (.str hex)).map (fun rgb =>
          let (r, g, b) := destructure3 rgb
          .builder (createStyleObject (self.pfx ++ trueColorCode (js "38") r g b))))
      | none => none

/-- The `get` trap with its three groups of tests tried in the order given; when every
group fails the trap returns `target[prop]`. -/
def Builder.getInOrder (self : Builder) (prop : JSString) :
    List DispatchClass → Except JSError Access
  | [] => .ok (.target prop)
  | c :: rest =>
    match self.tryClass prop c with
    | some r => r
    | none => self.getInOrder prop rest

/-- The order in which the source tries the three groups. -/
def sourceOrder : List DispatchClass := [.functions, .styles, .extended]

/-! ## Vocabulary of the proofs -/

/-- A code unit that starts no escape sequence. -/
def plain (c : Nat) : Prop := c ≠ ESC ∧ c ≠ CSI

/-- A decimal digit. -/
def isDigit (c : Nat) : Prop := 48 ≤ c ∧ c ≤ 57

instance (c : Nat) : Decidable (isDigit c) := by unfold isDigit; infer_instance

/-- The parameter part `;p` repeated. -/
def semiParams (ps : List JSString) : JSString := ps.flatMap (fun q => 59 :: q)

/-- The group `;[0-9]{0,4}`. -/
def semiGroup : Regex := .seq (.cls [ch ';']) (.rep digitClass 0 4)

/-- A select-graphic-rendition code: `ESC [ p ; p1 ; ... ; pn m`. -/
def sgr (p : JSString) (ps : List JSString) : JSString :=
  27 :: 91 :: (p ++ (semiParams ps ++ [109]))

/-- A prefix that `strip` removes in front of anything. -/
def Strippable (P : JSString) : Prop := ∀ rest, strip (P ++ rest) = strip rest

/-- A parameter of a code: one to four decimal digits. -/
def digitsOK (p : JSString) : Prop := (∀ d ∈ p, isDigit d) ∧ 1 ≤ p.length ∧ p.length ≤ 4

instance (p : JSString) : Decidable (digitsOK p) := by unfold digitsOK; infer_instance

/-- A character of `\w`. -/
def isWord (c : Nat) : Bool := inClass [rg 'A' 'Z', rg 'a' 'z', rg '0' '9', ch '_'] c

/-- The six names that give a colour function. -/
def functionNames : List JSString :=
  [js "rgb", js "bgRgb", js "hex", js "bgHex", js "color256", js "bg256"]

/-- What the registry gives for each of its own entries. -/
def styleFact (kv : JSString × JSString) : Prop :=
  kv.1 ∉ functionNames ∧ getProperty styleCodes kv.1 = .own kv.2 ∧ kv.2 ≠ [] ∧
    ∃ n, n < 108 ∧ kv.2 = sgr (natToString n) []

instance (kv : JSString × JSString) : Decidable (styleFact kv) := by
  unfold styleFact; infer_instance

/-- What the extended table gives for each of its own entries. -/
def extendedFact (kv : JSString × JSString) : Prop :=
  kv.1 ∉ functionNames ∧ getProperty styleCodes kv.1 = .undefined ∧
    getProperty extendedColors kv.1 = .own kv.2 ∧ validHex6 kv.2 = true ∧
    kv.2.head? = some 35 ∧ toRgb (.str kv.1) = toRgb (.str kv.2)

instance (kv : JSString × JSString) : Decidable (extendedFact kv) := by
  unfold extendedFact; infer_instance

/-- The triple of digit-pair values of a hex colour `#RRGGBB`. -/
def hexTriple (hex : JSString) : List JSNum :=
  [(pairValues (dropHash hex)).1, (pairValues (dropHash hex)).2.1,
    (pairValues (dropHash hex)).2.2]

/-- What `toRgb` gives for an entry of the combined table. -/
def namedFact (kv : JSString × JSString) : Prop :=
  validHex6 kv.2 = true ∧ kv.2.head? = some 35 ∧
    getProperty allNamedColors kv.1 = .own kv.2 ∧
    toRgb (.str kv.1) = .ok (hexTriple kv.2) ∧ toRgb (.str kv.2) = .ok (hexTriple kv.2) ∧
    toRgb (.arr (hexTriple kv.2)) = .ok (hexTriple kv.2)

instance (kv : JSString × JSString) : Decidable (namedFact kv) := by
  unfold namedFact; infer_instance

/-- Rounding to the nearest integer, a tie going up (what `Math.round` does). -/
def roundHalfUp (x : ℚ) : Int := ⌊x + 1 / 2⌋

/-- The channel of mode `multiply` in exact arithmetic: `round(a * b / 255)`. -/
def multiplyFormula (a b : Nat) : Int := roundHalfUp ((a : ℚ) * b / 255)

/-- The channel of mode `screen` in exact arithmetic:
`255 - round((255 - a) * (255 - b) / 255)`. -/
def screenFormula (a b : Nat) : Int := 255 - roundHalfUp ((255 - (a : ℚ)) * (255 - b) / 255)

/-- The channel of mode `normal`, and of any unrecognized mode: `Math.round` of
`a * (1 - t) + b * t` evaluated in doubles. -/
def normalFormula (t : F64) (a b : Nat) : F64 :=
  (((F64.fin a).mul ((F64.fin 1).sub t)).add ((F64.fin b).mul t)).round

/-- The channel the amended specification allows for each mode, in exact arithmetic:
`round(a * b / 255)` in mode `multiply`, `255 - round((255 - a) * (255 - b) / 255)` in mode
`screen`, and in mode `normal` and any other mode an integer within `1/2 + 2^-42` of
`x = a * (1 - t) + b * t` that is `round(x)` unless `x` is within `2^-42` of a tie
`k + 1/2`. -/
def blendSpec (mode : JSString) (t : ℚ) (a b : Nat) (n : Int) : Prop :=
  if mode = js "multiply" then n = multiplyFormula a b
  else if mode = js "screen" then n = screenFormula a b
  else
    |(n : ℚ) - ((a : ℚ) * (1 - t) + b * t)| ≤ 1 / 2 + 1 / 2 ^ 42 ∧
      ((∀ k : Int, 1 / 2 ^ 42 < |(a : ℚ) * (1 - t) + b * t - (k + 1 / 2)|) →
        n = roundHalfUp ((a : ℚ) * (1 - t) + b * t))

/-- One span: the true-colour foreground code, the text, and the reset code. -/
def span (r g b : JSNum) (text : JSString) : JSString :=
  [ESC] ++ js "[38;2;" ++ numberToString r ++ js ";" ++ numberToString g ++ js ";" ++
    numberToString b ++ js "m" ++ text ++ [ESC] ++ js "[0m"

/-- The channel of the character at index `i` of a gradient over `N` characters, in exact
arithmetic: `round(s + (e - s) * i / N)`. -/
def gradientFormula (s e i N : Nat) : Int :=
  roundHalfUp ((s : ℚ) + ((e : ℚ) - s) * i / N)

/-- A channel of a triple as an integer (zero where the entry is no integer). -/
def channelInt (c : List JSNum) (i : Nat) : Int :=
  match c.getD i .nan with
  | .int v => v
  | _ => 0

/-- The squared Euclidean distance of two triples of integer channels, in exact
arithmetic. -/
def squaredDistance (c d : List JSNum) : Int :=
  (channelInt c 0 - channelInt d 0) ^ 2 + (channelInt c 1 - channelInt d 1) ^ 2 +
    (channelInt c 2 - channelInt d 2) ^ 2

/-- The squared distance from a triple to the colour of a name or hex writing. -/
def squaredDistanceTo (c : List JSNum) (name : JSString) : Except JSError Int :=
  (toRgb (.str name)).map (squaredDistance c)

/-- The squared distance from an integer triple to a table value, as a natural number. -/
def sqDistance (a1 a2 a3 : Int) (hex : JSString) : Nat :=
  (a1 - (pairNat (dropHash hex) 0 : Int)).natAbs ^ 2 +
    (a2 - (pairNat (dropHash hex) 1 : Int)).natAbs ^ 2 +
    (a3 - (pairNat (dropHash hex) 2 : Int)).natAbs ^ 2

/-- Whether a squared distance is below the least one so far (`none` before any entry). -/
def belowLeast (d : Nat) : Option Nat → Bool
  | none => true
  | some m => decide (d < m)

/-- The loop of `findNearestColor` on squared distances: the nearest name and the least
squared distance after the entries of `l`. -/
def scanNearest (a1 a2 a3 : Int) :
    List (JSString × JSString) → JSString × Option Nat → JSString × Option Nat
  | [], state => state
  | kv :: rest, (name, least) =>
    if belowLeast (sqDistance a1 a2 a3 kv.2) least then
      scanNearest a1 a2 a3 rest (kv.1, some (sqDistance a1 a2 a3 kv.2))
    else scanNearest a1 a2 a3 rest (name, least)

/-- The least distance so far as the loop holds it: `Infinity`, or a rounded root. -/
def leastSoFar : Option Nat → F64
  | none => .inf false
  | some k => F64.sqrt (.fin k)

/-- The array `[r, g, b]` as a colour argument. -/
def rgbArg (r g b : Nat) : ColorArg := .arr [.int r, .int g, .int b]

/-- The visible length of a text: the length of what `strip` leaves. -/
def visibleLength (text : JSString) : Nat := (strip text).length

/-- The rule glyph U+2500 repeated: `k` times `─`. -/
def dashes (k : Nat) : JSString := List.replicate k 0x2500

/-- The space repeated `k` times. -/
def spaces (k : Nat) : JSString := List.replicate k 32

/-- The width of column `i` as the specification gives it: the greatest visible length of
the cell `i` over the rows. -/
def columnMax (rows : List (List JSString)) (i : Nat) : Nat :=
  rows.foldr (fun row m => max (visibleLength (row.getD i [])) m) 0

/-- The array `[r, g, b]` of channels, as `toRgb` returns it. -/
def triple (r g b : Nat) : List JSNum := [.int r, .int g, .int b]

/-- All the ranges of the classes of a regular expression. -/
def Regex.classes : Regex → List (Nat × Nat)
  | .cls ranges => ranges
  | .seq a b => a.classes ++ b.classes
  | .rep a _ _ => a.classes
  | .star a => a.classes
  | .opt a => a.classes

/-- What follows the first character in `ansiRegex`. -/
def ansiTail : Regex :=
  .seq (.star (.cls [ch '[', ch '(', ch ')', ch '#', ch ';', ch '?']))
    (.seq
      (.opt (.seq (.rep digitClass 1 4)
        (.star (.seq (.cls [ch ';']) (.rep digitClass 0 4)))))
      (.cls [rg '0' '9', rg 'A' 'O', ch 'R', ch 'Z', ch 'c', rg 'f' 'n', ch 'q', ch 'r',
        ch 'y', ch '=', ch '>', ch '<']))

/-- A code unit that no escape sequence holds after its first character. -/
def inert (c : Nat) : Bool := !inClass ansiTail.classes c

/-- A text that cannot continue an escape sequence begun before it: the empty text, or a
text whose first code unit is inert. -/
def stops (t : JSString) : Prop := ∀ c ∈ t.head?, inert c = true

instance (t : JSString) : Decidable (stops t) := by unfold stops; infer_instance

/-- Holds of a text when each of its escape characters (U+001B, U+009B) either starts a
sequence the pattern recognizes, or is an orphan whose continuation (the code units after it
that a sequence could hold) ends at the end of the text or in front of a code unit that
starts no recognized sequence. -/
def escapesSettled : JSString → Bool
  | [] => true
  | c :: t =>
    ((c != ESC && c != CSI) || (ansiRegex.matchAt (c :: t)).isSome ||
      (ansiRegex.matchAt (t.dropWhile (fun d => !inert d))).isNone) && escapesSettled t

/-- The lines of `wrap`, as a list: the loop over the words still to place, from the
current line and the lines already closed. -/
def wrapLines (width : Int) : List JSString → JSString → List JSString → List JSString
  | [], line, closed => closed ++ [line]
  | word :: rest, line, closed =>
    if ((strip (line ++ js " " ++ word)).length : Int) ≤ width then
      wrapLines width rest (line ++ ((if line.length > 0 then js " " else js "") ++ word)) closed
    else wrapLines width rest word (closed ++ [line])

/-- The non-empty words of a list of lines, in order. -/
def wordsOf (lines : List JSString) : List JSString :=
  (lines.flatMap (split 32)).filter (fun w => !w.isEmpty)

/-- The greatest visible length of the lines of a text. -/
def maxVisible (lines : List JSString) : Nat :=
  lines.foldl (fun mx line => max mx (strip line).length) 0

/-- The border function of `box` for the default colour `white`. -/
def whiteBorder (x : JSString) : JSString := colorRgb (.int 229) (.int 229) (.int 229) x

/-- A content line of a box with the default style and colour: the bordered left side, the
line, its padding, and the bordered right side. -/
def boxContent (p maxLen : Nat) (line : JSString) : JSString :=
  whiteBorder (js "│" ++ spaces p) ++ line ++ spaces (maxLen - visibleLength line + p) ++
    whiteBorder (spaces p ++ js "│")

/-- A cell padded to the width `w`: spaces, the cell, spaces, of visible length `w` in
all. -/
def Padded (w : Nat) (c : JSString) : Prop :=
  ∃ (a b : Nat) (cell : JSString), c = spaces a ++ (cell ++ spaces b) ∧
    a + visibleLength cell + b = w

/-! ## Lemmas -/

theorem head?_flatMap_of_head? {α β : Type} {l : List α} {f : α → List β} {a : α} {y : β}
    (h1 : l.head? = some a) (h2 : (f a).head? = some y) : (l.flatMap f).head? = some y := by
  cases l with
  | nil => simp at h1
  | cons x xs =>
    simp only [List.head?_cons, Option.some.injEq] at h1
    subst h1
    cases hfa : f x with
    | nil => simp [hfa] at h2
    | cons z zs =>
      rw [hfa] at h2
      simp only [List.head?_cons, Option.some.injEq] at h2
      subst h2
      simp [List.flatMap_cons, hfa]

theorem head?_append_of_head? {α : Type} {l l2 : List α} {y : α}
    (h : l.head? = some y) : (l ++ l2).head? = some y := by
  cases l with
  | nil => simp at h
  | cons x xs => simpa using h

theorem ansiRegex_run_plain (c : Nat) (t : JSString) (h : plain c) :
    ansiRegex.run (c :: t) = [] := by
  obtain ⟨h1, h2⟩ := h
  simp [ansiRegex, Regex.run, inClass, h1, h2]
  intro h; omega

theorem replaceAllEmpty_fuel (r : Regex) :
    ∀ (n m : Nat) (s : JSString), s.length ≤ n → s.length ≤ m →
      replaceAllEmpty r n s = replaceAllEmpty r m s := by
  intro n
  induction n with
  | zero =>
    intro m s hn hm
    have : s = [] := List.length_eq_zero.mp (Nat.le_zero.mp hn)
    subst this
    cases m <;> simp [replaceAllEmpty]
  | succ n ih =>
    intro m s hn hm
    cases s with
    | nil => cases m <;> simp [replaceAllEmpty]
    | cons c t =>
      cases m with
      | zero => simp at hm
      | succ m =>
        simp only [List.length_cons, Nat.add_le_add_iff_right] at hn hm
        simp only [replaceAllEmpty]
        cases hr : r.matchAt (c :: t) with
        | none => simp only; rw [ih m t hn hm]
        | some rest =>
          simp only
          by_cases hl : rest.length < (c :: t).length
          · simp only [hl, if_true]
            simp only [List.length_cons] at hl
            exact ih m rest (by omega) (by omega)
          · simp only [hl, if_false]
            rw [ih m t hn hm]

theorem strip_nil : strip [] = [] := by simp [strip, replaceAllEmpty]

theorem strip_cons_none (c : Nat) (t : JSString) (h : ansiRegex.matchAt (c :: t) = none) :
    strip (c :: t) = c :: strip t := by
  simp only [strip, List.length_cons, replaceAllEmpty, h]

theorem strip_cons_some (c : Nat) (t rest : JSString)
    (h : ansiRegex.matchAt (c :: t) = some rest) (hl : rest.length < (c :: t).length) :
    strip (c :: t) = strip rest := by
  simp only [strip, List.length_cons, replaceAllEmpty, h]
  simp only [List.length_cons] at hl
  simp only [hl, if_true]
  exact replaceAllEmpty_fuel _ _ _ _ (by omega) (le_refl _)

theorem strip_plain_cons (c : Nat) (t : JSString) (h : plain c) :
    strip (c :: t) = c :: strip t :=
  strip_cons_none c t (by simp [Regex.matchAt, ansiRegex_run_plain c t h])

theorem strip_plain_append (t rest : JSString) (h : ∀ c ∈ t, plain c) :
    strip (t ++ rest) = t ++ strip rest := by
  induction t with
  | nil => rfl
  | cons c t ih =>
    have hc : plain c := h c (List.mem_cons_self _ _)
    have ht : ∀ d ∈ t, plain d := fun d hd => h d (List.mem_cons_of_mem _ hd)
    rw [List.cons_append, strip_plain_cons _ _ hc, ih ht, List.cons_append]

theorem run_cls_cons (ranges : List (Nat × Nat)) (c : Nat) (t : JSString) :
    (Regex.cls ranges).run (c :: t) = if inClass ranges c then [t] else [] := rfl

theorem run_cls_nil (ranges : List (Nat × Nat)) : (Regex.cls ranges).run [] = [] := rfl

theorem run_seq (a b : Regex) (s : JSString) :
    (Regex.seq a b).run s = (a.run s).flatMap b.run := rfl

theorem run_rep (a : Regex) (min max : Nat) (s : JSString) :
    (Regex.rep a min max).run s = repeatMatcher a.run min max s := rfl

theorem run_star (a : Regex) (s : JSString) :
    (Regex.star a).run s = repeatMatcher a.run 0 s.length s := rfl

theorem run_opt (a : Regex) (s : JSString) :
    (Regex.opt a).run s = repeatMatcher a.run 0 1 s := rfl

theorem repeatMatcher_zero (m : JSString → List JSString) (min : Nat) (x : JSString) :
    repeatMatcher m min 0 x = [x] := by
  cases min <;> rfl

theorem repeatMatcher_succ (m : JSString → List JSString) (min max : Nat) (x : JSString) :
    repeatMatcher m min (max + 1) x =
      if min ≠ 0 then
        (m x).flatMap (fun y =>
          if min = 0 ∧ y.length = x.length then [] else repeatMatcher m (min - 1) max y)
      else
        (m x).flatMap (fun y =>
          if min = 0 ∧ y.length = x.length then [] else repeatMatcher m (min - 1) max y)
          ++ [x] := by
  cases min <;> rfl

theorem run_digitClass_digit (d : Nat) (t : JSString) (h : isDigit d) :
    digitClass.run (d :: t) = [t] := by
  obtain ⟨h1, h2⟩ := h
  have : rg '0' '9' = (48, 57) := rfl
  simp [digitClass, run_cls_cons, inClass, this, h1, h2]

theorem run_digitClass_other (c : Nat) (t : JSString) (h : ¬ isDigit c) :
    digitClass.run (c :: t) = [] := by
  have : rg '0' '9' = (48, 57) := rfl
  simp only [isDigit] at h
  simp [digitClass, run_cls_cons, inClass, this]
  intro h1; by_contra h2; exact h ⟨h1, by omega⟩

/-- Greedy digits: a run of digits of a length the quantifier allows, followed by a code
unit that is no digit, is taken whole by the first way of matching. -/
theorem repeat_digits_head (p : JSString) :
    ∀ (min max : Nat) (c : Nat) (rest : JSString), (∀ d ∈ p, isDigit d) → ¬ isDigit c →
      min ≤ p.length → p.length ≤ max →
      (repeatMatcher digitClass.run min max (p ++ c :: rest)).head? = some (c :: rest) := by
  induction p with
  | nil =>
    intro min max c rest _ hc hmin _
    have hmin0 : min = 0 := by simpa using hmin
    subst hmin0
    cases max with
    | zero => simp [repeatMatcher_zero]
    | succ max => simp [repeatMatcher_succ, run_digitClass_other c rest hc]
  | cons d p ih =>
    intro min max c rest hp hc hmin hmax
    cases max with
    | zero => simp at hmax
    | succ max =>
      have hd : isDigit d := hp d (List.mem_cons_self _ _)
      have hp2 : ∀ e ∈ p, isDigit e := fun e he => hp e (List.mem_cons_of_mem _ he)
      simp only [List.length_cons] at hmin hmax
      have ih2 := ih (min - 1) max c rest hp2 hc (by omega) (by omega)
      simp only [repeatMatcher_succ, List.cons_append, run_digitClass_digit d _ hd,
        List.flatMap_cons, List.flatMap_nil, List.append_nil, List.length_cons]
      have hne : ¬ (min = 0 ∧ (p ++ c :: rest).length = (p ++ c :: rest).length + 1) := by
        intro h; omega
      simp only [hne, if_false]
      by_cases hm : min ≠ 0
      · simp only [hm, if_true, ne_eq, not_false_eq_true]; exact ih2
      · simp only [hm, if_false]; exact head?_append_of_head? ih2

theorem run_semi (t : JSString) : (Regex.cls [ch ';']).run (59 :: t) = [t] := by
  have : ch ';' = (59, 59) := rfl
  simp [run_cls_cons, inClass, this]

theorem run_semi_other (c : Nat) (t : JSString) (h : c ≠ 59) :
    (Regex.cls [ch ';']).run (c :: t) = [] := by
  have : ch ';' = (59, 59) := rfl
  simp [run_cls_cons, inClass, this]
  intro h1; by_contra h2; exact h (by omega)

theorem repeat_semi_head (ps : List JSString) :
    ∀ (max : Nat) (c : Nat) (rest : JSString),
      (∀ q ∈ ps, (∀ d ∈ q, isDigit d) ∧ q.length ≤ 4) → ¬ isDigit c → c ≠ 59 →
      ps.length ≤ max →
      (repeatMatcher semiGroup.run 0 max (semiParams ps ++ c :: rest)).head? =
        some (c :: rest) := by
  induction ps with
  | nil =>
    intro max c rest _ hc hs _
    cases max with
    | zero => simp [repeatMatcher_zero, semiParams]
    | succ max =>
      simp [repeatMatcher_succ, semiParams, semiGroup, run_seq, run_semi_other c rest hs]
  | cons q ps ih =>
    intro max c rest hps hc hs hmax
    cases max with
    | zero => simp at hmax
    | succ max =>
      obtain ⟨hq, hql⟩ := hps q (List.mem_cons_self _ _)
      have hps2 : ∀ r ∈ ps, (∀ d ∈ r, isDigit d) ∧ r.length ≤ 4 :=
        fun r hr => hps r (List.mem_cons_of_mem _ hr)
      simp only [List.length_cons] at hmax
      have ih2 := ih max c rest hps2 hc hs (by omega)
      -- the remainder after this parameter starts with `;` or with `c`
      have hnext : ∃ c2 rest2, semiParams ps ++ c :: rest = c2 :: rest2 ∧ ¬ isDigit c2 := by
        cases ps with
        | nil => exact ⟨c, rest, by simp [semiParams], hc⟩
        | cons r rs =>
          refine ⟨59, r ++ (semiParams rs ++ c :: rest), ?_, by decide⟩
          simp [semiParams, List.flatMap_cons]
      obtain ⟨c2, rest2, heq, hc2⟩ := hnext
      have hone : (semiGroup.run (semiParams (q :: ps) ++ c :: rest)).head? =
          some (semiParams ps ++ c :: rest) := by
        have : semiParams (q :: ps) ++ c :: rest =
            59 :: (q ++ (semiParams ps ++ c :: rest)) := by
          simp [semiParams, List.flatMap_cons]
        rw [this]
        simp only [semiGroup, run_seq, run_semi, List.flatMap_cons, List.flatMap_nil,
          List.append_nil, run_rep]
        rw [heq]
        exact repeat_digits_head q 0 4 c2 rest2 hq hc2 (Nat.zero_le _) hql
      rw [repeatMatcher_succ]
      have hlen : (semiParams ps ++ c :: rest).length ≠
          (semiParams (q :: ps) ++ c :: rest).length := by
        simp only [semiParams, List.flatMap_cons, List.length_append, List.length_cons]
        omega
      simp only [ne_eq, not_true_eq_false, if_false]
      apply head?_append_of_head?
      apply head?_flatMap_of_head? hone
      simp only [hlen, and_false, if_false, Nat.zero_sub]
      exact ih2

theorem repeat_stop (m : JSString → List JSString) (max : Nat) (x : JSString) (h : m x = []) :
    repeatMatcher m 0 max x = [x] := by
  cases max with
  | zero => rfl
  | succ max => simp [repeatMatcher_succ, h]

theorem semiParams_next (ps : List JSString) (c : Nat) (rest : JSString) (hc : ¬ isDigit c) :
    ∃ c2 rest2, semiParams ps ++ c :: rest = c2 :: rest2 ∧ ¬ isDigit c2 := by
  cases ps with
  | nil => exact ⟨c, rest, by simp [semiParams], hc⟩
  | cons r rs =>
    refine ⟨59, r ++ (semiParams rs ++ c :: rest), ?_, by decide⟩
    simp [semiParams, List.flatMap_cons]

theorem length_le_semiParams (ps : List JSString) : ps.length ≤ (semiParams ps).length := by
  induction ps with
  | nil => simp [semiParams]
  | cons q ps ih =>
    simp only [semiParams, List.flatMap_cons, List.length_append, List.length_cons] at ih ⊢
    omega

/-- The pattern matches a code `ESC [ p ; ... m` whole, whatever follows it. -/
theorem matchAt_sgr (p : JSString) (ps : List JSString) (rest : JSString)
    (hp : ∀ d ∈ p, isDigit d) (hp1 : 1 ≤ p.length) (hp4 : p.length ≤ 4)
    (hps : ∀ q ∈ ps, (∀ d ∈ q, isDigit d) ∧ q.length ≤ 4) :
    ansiRegex.matchAt (sgr p ps ++ rest) = some rest := by
  have hm : ¬ isDigit 109 := by decide
  have hm2 : (109 : Nat) ≠ 59 := by decide
  obtain ⟨c2, rest2, heq, hc2⟩ := semiParams_next ps 109 rest hm
  -- the input after `ESC [`
  have hX : sgr p ps ++ rest = 27 :: 91 :: (p ++ (semiParams ps ++ 109 :: rest)) := by
    simp [sgr]
  cases p with
  | nil => simp at hp1
  | cons d p =>
    have hd : isDigit d := hp d (List.mem_cons_self _ _)
    rw [hX]
    generalize hXdef : (d :: p) ++ (semiParams ps ++ 109 :: rest) = X
    have hXc : X = d :: (p ++ (semiParams ps ++ 109 :: rest)) := by rw [← hXdef]; rfl
    -- the digits, then the parameters
    have hdig : ((Regex.rep digitClass 1 4).run X).head? =
        some (semiParams ps ++ 109 :: rest) := by
      rw [run_rep, ← hXdef, heq]
      exact repeat_digits_head (d :: p) 1 4 c2 rest2 hp hc2 hp1 hp4
    have hpar : ((Regex.star semiGroup).run (semiParams ps ++ 109 :: rest)).head? =
        some (109 :: rest) := by
      rw [run_star]
      apply repeat_semi_head ps _ 109 rest hps hm hm2
      have := length_le_semiParams ps
      simp only [List.length_append]; omega
    have hgrp : ((Regex.seq (.rep digitClass 1 4) (.star semiGroup)).run X).head? =
        some (109 :: rest) := by
      rw [run_seq]
      exact head?_flatMap_of_head? hdig hpar
    have hlen : (109 :: rest).length ≠ X.length := by
      rw [hXc]; simp only [List.length_cons, List.length_append]; omega
    have hopt : ((Regex.opt (.seq (.rep digitClass 1 4) (.star semiGroup))).run X).head? =
        some (109 :: rest) := by
      rw [run_opt, repeatMatcher_succ]
      simp only [ne_eq, not_true_eq_false, if_false]
      apply head?_append_of_head?
      apply head?_flatMap_of_head? hgrp
      simp only [true_and, hlen, if_false, repeatMatcher_zero, List.head?_cons]
    have hfin : ((Regex.cls [rg '0' '9', rg 'A' 'O', ch 'R', ch 'Z', ch 'c', rg 'f' 'n',
        ch 'q', ch 'r', ch 'y', ch '=', ch '>', ch '<']).run (109 :: rest)).head? =
        some rest := by
      rw [run_cls_cons]
      have : inClass [rg '0' '9', rg 'A' 'O', ch 'R', ch 'Z', ch 'c', rg 'f' 'n',
        ch 'q', ch 'r', ch 'y', ch '=', ch '>', ch '<'] 109 = true := by decide
      simp [this]
    have hI : (Regex.cls [ch '[', ch '(', ch ')', ch '#', ch ';', ch '?']).run X = [] := by
      rw [hXc, run_cls_cons]
      obtain ⟨h1, h2⟩ := hd
      have e1 : ch '[' = (91, 91) := rfl
      have e2 : ch '(' = (40, 40) := rfl
      have e3 : ch ')' = (41, 41) := rfl
      have e4 : ch '#' = (35, 35) := rfl
      have e5 : ch ';' = (59, 59) := rfl
      have e6 : ch '?' = (63, 63) := rfl
      simp only [inClass, e1, e2, e3, e4, e5, e6, List.any_cons, List.any_nil]
      have : ¬ (91 ≤ d) := by omega
      simp [this]
      omega
    have hstar : ((Regex.star (.cls [ch '[', ch '(', ch ')', ch '#', ch ';', ch '?'])).run
        (91 :: X)).head? = some X := by
      rw [run_star, List.length_cons, repeatMatcher_succ]
      simp only [ne_eq, not_true_eq_false, if_false]
      apply head?_append_of_head?
      have : (Regex.cls [ch '[', ch '(', ch ')', ch '#', ch ';', ch '?']).run (91 :: X) =
          [X] := by
        rw [run_cls_cons]
        have : inClass [ch '[', ch '(', ch ')', ch '#', ch ';', ch '?'] 91 = true := by
          decide
        simp [this]
      rw [this]
      simp [repeat_stop _ _ _ hI]
    unfold Regex.matchAt ansiRegex
    rw [run_seq]
    have hfirst : (Regex.cls [(ESC, ESC), (CSI, CSI)]).run (27 :: 91 :: X) = [91 :: X] := by
      rw [run_cls_cons]
      have : inClass [(ESC, ESC), (CSI, CSI)] 27 = true := by decide
      simp [this]
    rw [hfirst, List.flatMap_cons, List.flatMap_nil, List.append_nil, run_seq]
    apply head?_flatMap_of_head? hstar
    rw [run_seq]
    exact head?_flatMap_of_head? hopt hfin

theorem clean_nil : Strippable [] := fun _ => rfl

theorem clean_append {P Q : JSString} (hP : Strippable P) (hQ : Strippable Q) : Strippable (P ++ Q) := by
  intro rest
  rw [List.append_assoc, hP, hQ]

theorem clean_sgr (p : JSString) (ps : List JSString) (hp : digitsOK p)
    (hps : ∀ q ∈ ps, digitsOK q) : Strippable (sgr p ps) := by
  intro rest
  have hm := matchAt_sgr p ps rest hp.1 hp.2.1 hp.2.2 (fun q hq => ⟨(hps q hq).1, (hps q hq).2.2⟩)
  have hcons : sgr p ps ++ rest = 27 :: (91 :: (p ++ (semiParams ps ++ [109])) ++ rest) := rfl
  rw [hcons] at hm ⊢
  apply strip_cons_some _ _ _ hm
  simp only [List.length_cons, List.length_append]
  omega

theorem natToString_digitsOK : ∀ n < 256, digitsOK (natToString n) := by decide!

theorem numberToString_digitsOK (x : JSNum) (h : inByteRange x = true) :
    digitsOK (numberToString x) := by
  cases x with
  | nan => simp [inByteRange] at h
  | inf s => simp [inByteRange] at h
  | int i =>
    simp only [inByteRange, Bool.and_eq_true, decide_eq_true_eq] at h
    have h0 : ¬ i < 0 := by omega
    have h53 : i.natAbs < 9007199254740992 := by omega
    simp only [numberToString, h0, h53, if_false, if_true]
    exact natToString_digitsOK _ (by omega)

theorem trueColorCode_eq_sgr (layer : JSString) (r g b : JSNum) :
    trueColorCode layer r g b =
      sgr layer [[50], numberToString r, numberToString g, numberToString b] := by
  have e1 : js "[" = [91] := rfl
  have e2 : js ";2;" = [59, 50, 59] := rfl
  have e3 : js ";" = [59] := rfl
  have e4 : js "m" = [109] := rfl
  have e5 : ESC = 27 := rfl
  simp [trueColorCode, sgr, semiParams, e1, e2, e3, e4, e5, List.flatMap_cons]

theorem paletteCode_eq_sgr (layer : JSString) (code : JSNum) :
    paletteCode layer code = sgr layer [[53], numberToString code] := by
  have e1 : js "[" = [91] := rfl
  have e2 : js ";5;" = [59, 53, 59] := rfl
  have e4 : js "m" = [109] := rfl
  have e5 : ESC = 27 := rfl
  simp [paletteCode, sgr, semiParams, e1, e2, e4, e5, List.flatMap_cons]

theorem clean_trueColorCode (layer : JSString) (r g b : JSNum) (hl : digitsOK layer)
    (hr : inByteRange r = true) (hg : inByteRange g = true) (hb : inByteRange b = true) :
    Strippable (trueColorCode layer r g b) := by
  rw [trueColorCode_eq_sgr]
  apply clean_sgr _ _ hl
  intro q hq
  simp only [List.mem_cons, List.mem_singleton, List.not_mem_nil, or_false] at hq
  rcases hq with rfl | rfl | rfl | rfl
  · decide
  · exact numberToString_digitsOK _ hr
  · exact numberToString_digitsOK _ hg
  · exact numberToString_digitsOK _ hb

theorem clean_paletteCode (layer : JSString) (code : JSNum) (hl : digitsOK layer)
    (hc : inByteRange code = true) : Strippable (paletteCode layer code) := by
  rw [paletteCode_eq_sgr]
  apply clean_sgr _ _ hl
  intro q hq
  simp only [List.mem_cons, List.mem_singleton, List.not_mem_nil, or_false] at hq
  rcases hq with rfl | rfl
  · decide
  · exact numberToString_digitsOK _ hc

theorem digitsOK_38 : digitsOK (js "38") := by decide

theorem digitsOK_48 : digitsOK (js "48") := by decide

theorem run_rep_cls_exact (R : List (Nat × Nat)) :
    ∀ (n : Nat) (s : JSString),
      (Regex.rep (.cls R) n n).run s =
        if n ≤ s.length ∧ (s.take n).all (inClass R) = true then [s.drop n] else [] := by
  intro n
  induction n with
  | zero => intro s; simp [run_rep, repeatMatcher_zero]
  | succ n ih =>
    intro s
    rw [run_rep, repeatMatcher_succ]
    simp only [ne_eq, Nat.add_one_ne_zero, not_false_eq_true, if_true, false_and, if_false,
      Nat.add_sub_cancel]
    cases s with
    | nil => simp [run_cls_nil]
    | cons c t =>
      rw [run_cls_cons]
      by_cases hc : inClass R c = true
      · simp only [hc, if_true, List.flatMap_cons, List.flatMap_nil, List.append_nil]
        have := ih t
        rw [run_rep] at this
        rw [this]
        simp [hc]
      · simp [hc]

theorem inClass_hex (c : Nat) :
    inClass [rg '0' '9', rg 'A' 'F', rg 'a' 'f'] c = isHexDigit c := by
  have e1 : rg '0' '9' = (48, 57) := rfl
  have e2 : rg 'A' 'F' = (65, 70) := rfl
  have e3 : rg 'a' 'f' = (97, 102) := rfl
  simp [inClass, isHexDigit, e1, e2, e3, Bool.or_assoc]

theorem testAnchored_sixHexDigits (s : JSString) :
    sixHexDigits.testAnchored s = (decide (s.length = 6) && allHexDigits s) := by
  unfold Regex.testAnchored sixHexDigits
  rw [run_rep_cls_exact]
  have hfun : inClass [rg '0' '9', rg 'A' 'F', rg 'a' 'f'] = isHexDigit := funext inClass_hex
  rw [hfun]
  by_cases h6 : s.length = 6
  · have : List.take 6 s = s := List.take_of_length_le (by omega)
    have hd : List.drop 6 s = [] := List.drop_of_length_le (by omega)
    simp only [this, hd, h6, le_refl, true_and, decide_True, Bool.true_and, allHexDigits]
    by_cases ha : s.all isHexDigit = true
    · simp [ha]
    · simp [ha]
  · simp only [h6, decide_False, Bool.false_and]
    by_cases hle : 6 ≤ s.length ∧ (List.take 6 s).all isHexDigit = true
    · rw [if_pos hle]
      simp only [List.any_cons, List.any_nil, Bool.or_false]
      cases hdrop : List.drop 6 s with
      | nil =>
        have := List.drop_eq_nil_iff.mp hdrop
        omega
      | cons x xs => rfl
    · rw [if_neg hle]
      rfl

theorem sanitized_eq_dropHash (h : JSString) :
    (if h.head? = some (cu '#') then h.tail else h) = dropHash h := by
  have e : cu '#' = 35 := rfl
  rw [e]
  cases h with
  | nil => simp [dropHash]
  | cons c t =>
    by_cases hc : c = 35
    · subst hc; simp [dropHash]
    · simp only [List.head?_cons, Option.some.injEq, hc, if_false]
      unfold dropHash
      split
      · next heq => simp at heq; exact absurd heq.1 hc
      · rfl

theorem run_wordPair (a b : Nat) (t : JSString) (ha : isWord a = true) (hb : isWord b = true) :
    wordPair.run (a :: b :: t) = [t] := by
  unfold wordPair wordClass
  rw [run_rep_cls_exact]
  simp only [isWord] at ha hb
  simp [ha, hb]

theorem matchAt_wordPair (a b : Nat) (t : JSString) (ha : isWord a = true)
    (hb : isWord b = true) : wordPair.matchAt (a :: b :: t) = some t := by
  simp [Regex.matchAt, run_wordPair a b t ha hb]

theorem matchAll_six (a b c d e f : Nat) (ha : isWord a = true) (hb : isWord b = true)
    (hc : isWord c = true) (hd : isWord d = true) (he : isWord e = true)
    (hf : isWord f = true) :
    matchAll wordPair 6 [a, b, c, d, e, f] = [[a, b], [c, d], [e, f]] := by
  simp [matchAll, matchAt_wordPair _ _ _ ha hb, matchAt_wordPair _ _ _ hc hd,
    matchAt_wordPair _ _ _ he hf]

theorem hexDigit_lt (c : Nat) (h : isHexDigit c = true) : c < 103 := by
  simp only [isHexDigit, Bool.or_eq_true, Bool.and_eq_true, decide_eq_true_eq] at h
  omega

theorem hexDigit_mem : ∀ a < 103, isHexDigit a = true →
    a ∈ [48, 49, 50, 51, 52, 53, 54, 55, 56, 57, 65, 66, 67, 68, 69, 70, 97, 98, 99, 100, 101,
      102] := by
  decide!

theorem hexPair_list :
    ∀ a ∈ [48, 49, 50, 51, 52, 53, 54, 55, 56, 57, 65, 66, 67, 68, 69, 70, 97, 98, 99, 100, 101,
      102],
    ∀ b ∈ [48, 49, 50, 51, 52, 53, 54, 55, 56, 57, 65, 66, 67, 68, 69, 70, 97, 98, 99, 100, 101,
      102],
      parseInt16 [a, b] = .int (16 * hexValue a + hexValue b : Nat) ∧ isWord a = true ∧
        16 * hexValue a + hexValue b < 256 := by
  decide!

theorem hexPair_facts : ∀ a < 103, ∀ b < 103, isHexDigit a = true → isHexDigit b = true →
    parseInt16 [a, b] = .int (16 * hexValue a + hexValue b : Nat) ∧ isWord a = true ∧
      16 * hexValue a + hexValue b < 256 :=
  fun a ha b hb h1 h2 => hexPair_list a (hexDigit_mem a ha h1) b (hexDigit_mem b hb h2)

theorem hexPair_parse (a b : Nat) (ha : isHexDigit a = true) (hb : isHexDigit b = true) :
    parseInt16 [a, b] = .int (16 * hexValue a + hexValue b : Nat) :=
  (hexPair_facts a (hexDigit_lt a ha) b (hexDigit_lt b hb) ha hb).1

theorem hexDigit_isWord (a : Nat) (ha : isHexDigit a = true) : isWord a = true :=
  (hexPair_facts a (hexDigit_lt a ha) a (hexDigit_lt a ha) ha ha).2.1

theorem hexPair_lt (a b : Nat) (ha : isHexDigit a = true) (hb : isHexDigit b = true) :
    16 * hexValue a + hexValue b < 256 :=
  (hexPair_facts a (hexDigit_lt a ha) b (hexDigit_lt b hb) ha hb).2.2

theorem six_of_length {s : JSString} (h : s.length = 6) :
    ∃ a b c d e f, s = [a, b, c, d, e, f] := by
  rcases s with _ | ⟨a, _ | ⟨b, _ | ⟨c, _ | ⟨d, _ | ⟨e, _ | ⟨f, _ | ⟨g, t⟩⟩⟩⟩⟩⟩⟩ <;>
    simp at h
  exact ⟨a, b, c, d, e, f, rfl⟩

theorem hexFunction_valid (pfx layer h : JSString) (hv : validHex6 h = true) :
    hexFunction pfx layer h =
      .ok (createStyleObject (pfx ++ trueColorCode layer (pairValues (dropHash h)).1
        (pairValues (dropHash h)).2.1 (pairValues (dropHash h)).2.2)) := by
  unfold hexFunction
  simp only [sanitized_eq_dropHash, testAnchored_sixHexDigits]
  simp only [validHex6, Bool.and_eq_true, decide_eq_true_eq] at hv
  obtain ⟨h6, hall⟩ := hv
  obtain ⟨a, b, c, d, e, f, hs⟩ := six_of_length h6
  rw [hs] at hall ⊢
  simp only [allHexDigits, List.all_cons, List.all_nil, Bool.and_true, Bool.and_eq_true] at hall
  obtain ⟨ha, hb, hc, hd, he, hf⟩ := hall
  have hall2 : allHexDigits [a, b, c, d, e, f] = true := by
    simp [allHexDigits, ha, hb, hc, hd, he, hf]
  simp only [List.length_cons, List.length_nil, hall2, decide_True, Bool.and_self,
    not_true_eq_false, if_false]
  rw [show (0 + 1 + 1 + 1 + 1 + 1 + 1) = 6 from rfl]
  rw [matchAll_six a b c d e f (hexDigit_isWord a ha) (hexDigit_isWord b hb)
    (hexDigit_isWord c hc) (hexDigit_isWord d hd) (hexDigit_isWord e he)
    (hexDigit_isWord f hf)]
  simp [destructure3, pairValues, pairNat, hexPair_parse, ha, hb, hc, hd, he, hf]

theorem hexFunction_invalid (pfx layer h : JSString) (hv : validHex6 h = false) :
    hexFunction pfx layer h = .error (.error (js "Invalid hex code. Must be 6 digits.")) := by
  unfold hexFunction
  simp only [sanitized_eq_dropHash, testAnchored_sixHexDigits]
  simp only [validHex6] at hv
  simp [hv]

theorem pairValues_inByteRange (s : JSString) (h : allHexDigits s = true) (h6 : s.length = 6) :
    inByteRange (pairValues s).1 = true ∧ inByteRange (pairValues s).2.1 = true ∧
      inByteRange (pairValues s).2.2 = true := by
  obtain ⟨a, b, c, d, e, f, hs⟩ := six_of_length h6
  subst hs
  simp only [allHexDigits, List.all_cons, List.all_nil, Bool.and_true, Bool.and_eq_true] at h
  obtain ⟨ha, hb, hc, hd, he, hf⟩ := h
  have h1 := hexPair_lt a b ha hb
  have h2 := hexPair_lt c d hc hd
  have h3 := hexPair_lt e f he hf
  have e0 : pairNat [a, b, c, d, e, f] 0 = 16 * hexValue a + hexValue b := rfl
  have e1 : pairNat [a, b, c, d, e, f] 1 = 16 * hexValue c + hexValue d := rfl
  have e2 : pairNat [a, b, c, d, e, f] 2 = 16 * hexValue e + hexValue f := rfl
  simp only [pairValues, e0, e1, e2, inByteRange,
    Bool.and_eq_true, decide_eq_true_eq]
  omega

theorem getProperty_undefined (table : Table) (s : JSString) (h1 : ∀ kv ∈ table, kv.1 ≠ s)
    (h2 : s ∉ objectPrototypeKeys) : getProperty table s = .undefined := by
  have : table.lookup s = none := by
    rw [List.lookup_eq_none_iff]
    intro p hp
    simp only [bne_iff_ne, ne_eq]
    exact fun h => h1 p hp h.symm
  simp [getProperty, this, h2]

/-- The two tables share no key, so the spread lists the extended names, then the ANSI-hex
names. -/
theorem allNamedColors_eq : allNamedColors = extendedColors ++ ansiHexMapping := by decide!

theorem hash_keys : (∀ kv ∈ allNamedColors, kv.1.head? ≠ some 35) ∧
    (∀ k ∈ objectPrototypeKeys, k.head? ≠ some 35) := by
  rw [allNamedColors_eq]
  decide!

theorem hex_keys : (∀ kv ∈ allNamedColors, allHexDigits kv.1 = false) ∧
    (∀ k ∈ objectPrototypeKeys, allHexDigits k = false) := by
  rw [allNamedColors_eq]
  decide!

theorem getProperty_hash (h : JSString) : getProperty allNamedColors (35 :: h) = .undefined := by
  apply getProperty_undefined
  · intro kv hkv heq
    exact hash_keys.1 kv hkv (by rw [heq]; rfl)
  · intro hmem
    exact hash_keys.2 _ hmem rfl

theorem getProperty_allHex (h : JSString) (hh : allHexDigits h = true) :
    getProperty allNamedColors h = .undefined := by
  apply getProperty_undefined
  · intro kv hkv heq
    have := hex_keys.1 kv hkv
    rw [heq, hh] at this
    exact absurd this (by simp)
  · intro hmem
    have := hex_keys.2 _ hmem
    rw [hh] at this
    exact absurd this (by simp)

/-- The string case of `toRgb` from what the read of the table gives. -/
theorem toRgb_str_lookup (s : JSString) (l : Lookup)
    (h : getProperty allNamedColors s = l) (hl : l ≠ .inherited) :
    toRgb (.str s) =
      if ((truthyString l).getD s).head? = some (cu '#') then
        if ((truthyString l).getD s).tail.length = 3 then
          .ok (((truthyString l).getD s).tail.map (fun h => parseInt16 [h, h]))
        else if (matchAll wordPair ((truthyString l).getD s).tail.length
            ((truthyString l).getD s).tail).length = 3 then
          .ok ((matchAll wordPair ((truthyString l).getD s).tail.length
            ((truthyString l).getD s).tail).map parseInt16)
        else .ok black
      else .ok black := by
  unfold toRgb
  simp only
  rw [h]
  cases l with
  | inherited => exact absurd rfl hl
  | own v => rfl
  | undefined => rfl

theorem toRgb_str_undefined (s : JSString) (h : getProperty allNamedColors s = .undefined) :
    toRgb (.str s) =
      if s.head? = some (cu '#') then
        if s.tail.length = 3 then .ok (s.tail.map (fun h => parseInt16 [h, h]))
        else if (matchAll wordPair s.tail.length s.tail).length = 3 then
          .ok ((matchAll wordPair s.tail.length s.tail).map parseInt16)
        else .ok black
      else .ok black := by
  rw [toRgb_str_lookup s _ h (by simp)]
  simp only [truthyString, Option.getD_none]

/-- A name of the table resolves as its hex value does. -/
theorem toRgb_named (s t : JSString) (h : getProperty allNamedColors s = .own (35 :: t)) :
    toRgb (.str s) = toRgb (.str (35 :: t)) := by
  rw [toRgb_str_lookup s _ h (by simp), toRgb_str_undefined _ (getProperty_hash t)]
  simp [truthyString]

theorem getProperty_append_own (a b : Table) (k v : JSString) (h : getProperty a k = .own v) :
    getProperty (a ++ b) k = .own v := by
  unfold getProperty at h ⊢
  cases hl : a.lookup k with
  | some w =>
    rw [hl] at h
    rw [List.lookup_append, hl]
    exact h
  | none =>
    rw [hl] at h
    simp only at h
    split_ifs at h

theorem getProperty_append_undefined (a b : Table) (k : JSString)
    (h : getProperty a k = .undefined) : getProperty (a ++ b) k = getProperty b k := by
  unfold getProperty at h ⊢
  cases hl : a.lookup k with
  | some w => rw [hl] at h; simp at h
  | none => rw [List.lookup_append, hl]; rfl

theorem toRgb_hash6 (h : JSString) (h6 : h.length = 6) (hh : allHexDigits h = true) :
    toRgb (.str (35 :: h)) =
      .ok [(pairValues h).1, (pairValues h).2.1, (pairValues h).2.2] := by
  rw [toRgb_str_undefined _ (getProperty_hash h)]
  have hcu : cu '#' = 35 := rfl
  obtain ⟨a, b, c, d, e, f, hs⟩ := six_of_length h6
  subst hs
  simp only [allHexDigits, List.all_cons, List.all_nil, Bool.and_true, Bool.and_eq_true] at hh
  obtain ⟨ha, hb, hc, hd, he, hf⟩ := hh
  simp only [List.head?_cons, hcu, if_true, List.tail_cons, List.length_cons, List.length_nil]
  rw [show (0 + 1 + 1 + 1 + 1 + 1 + 1) = 6 from rfl]
  rw [matchAll_six a b c d e f (hexDigit_isWord a ha) (hexDigit_isWord b hb)
    (hexDigit_isWord c hc) (hexDigit_isWord d hd) (hexDigit_isWord e he)
    (hexDigit_isWord f hf)]
  simp [pairValues, pairNat, hexPair_parse, ha, hb, hc, hd, he, hf]

theorem toRgb_hash3 (x y z : Nat) (hx : isHexDigit x = true) (hy : isHexDigit y = true)
    (hz : isHexDigit z = true) :
    toRgb (.str [35, x, y, z]) =
      .ok [.int (17 * hexValue x : Nat), .int (17 * hexValue y : Nat),
        .int (17 * hexValue z : Nat)] := by
  rw [toRgb_str_undefined _ (getProperty_hash _)]
  have hcu : cu '#' = 35 := rfl
  have h17 : ∀ v : Nat, 16 * v + v = 17 * v := fun v => by omega
  simp [hcu, hexPair_parse, hx, hy, hz, h17]

theorem toRgb_noHash (h : JSString) (hh : allHexDigits h = true) :
    toRgb (.str h) = .ok black := by
  rw [toRgb_str_undefined _ (getProperty_allHex h hh)]
  have hcu : cu '#' = 35 := rfl
  cases h with
  | nil => simp
  | cons c t =>
    have hc : isHexDigit c = true := by
      simp only [allHexDigits, List.all_cons, Bool.and_eq_true] at hh
      exact hh.1
    have : c ≠ 35 := by
      intro h35; subst h35; simp [isHexDigit] at hc
    simp [hcu, this]

theorem get_rgb (b : Builder) :
    b.get (js "rgb") =
      .ok (.fn3 (fun r g c => createStyleObject (b.pfx ++ trueColorCode (js "38") r g c))) :=
  rfl

theorem get_bgRgb (b : Builder) :
    b.get (js "bgRgb") =
      .ok (.fn3 (fun r g c => createStyleObject (b.pfx ++ trueColorCode (js "48") r g c))) :=
  rfl

theorem get_hex (b : Builder) :
    b.get (js "hex") = .ok (.fnHex (hexFunction b.pfx (js "38"))) := rfl

theorem get_bgHex (b : Builder) :
    b.get (js "bgHex") = .ok (.fnHex (hexFunction b.pfx (js "48"))) := rfl

theorem get_color256 (b : Builder) :
    b.get (js "color256") = .ok (.fn256 (paletteFunction b.pfx (js "38"))) := rfl

theorem get_bg256 (b : Builder) :
    b.get (js "bg256") = .ok (.fn256 (paletteFunction b.pfx (js "48"))) := rfl

theorem get_style (b : Builder) (prop v : JSString) (hf : prop ∉ functionNames)
    (hs : getProperty styleCodes prop = .own v) (hv : v ≠ []) :
    b.get prop = .ok (.builder (createStyleObject (b.pfx ++ v))) := by
  simp only [functionNames, List.mem_cons, List.mem_singleton, List.not_mem_nil, or_false,
    not_or] at hf
  obtain ⟨h1, h2, h3, h4, h5, h6⟩ := hf
  unfold Builder.get
  simp only [h1, h2, h3, h4, h5, h6, if_false]
  rw [hs]
  simp [truthyString, hv]

theorem get_extended (b : Builder) (prop hex : JSString) (hf : prop ∉ functionNames)
    (hs : getProperty styleCodes prop = .undefined)
    (he : getProperty extendedColors prop = .own hex) (hv : hex ≠ []) :
    b.get prop =
      (toRgb (.str hex)).map (fun rgb =>
        .builder (createStyleObject (b.pfx ++ trueColorCode (js "38") (destructure3 rgb).1
          (destructure3 rgb).2.1 (destructure3 rgb).2.2))) := by
  simp only [functionNames, List.mem_cons, List.mem_singleton, List.not_mem_nil, or_false,
    not_or] at hf
  obtain ⟨h1, h2, h3, h4, h5, h6⟩ := hf
  unfold Builder.get
  simp only [h1, h2, h3, h4, h5, h6, if_false]
  rw [hs, he]
  simp [truthyString, hv]

theorem styleCodes_facts : ∀ kv ∈ styleCodes, styleFact kv := by decide!

theorem extendedColors_own : ∀ kv ∈ extendedColors,
    kv.1 ∉ functionNames ∧ getProperty styleCodes kv.1 = .undefined ∧
      getProperty extendedColors kv.1 = .own kv.2 ∧ validHex6 kv.2 = true ∧
      kv.2.head? = some 35 := by
  decide!

theorem extendedColors_facts : ∀ kv ∈ extendedColors, extendedFact kv := by
  intro kv hkv
  obtain ⟨h1, h2, h3, h4, h5⟩ := extendedColors_own kv hkv
  refine ⟨h1, h2, h3, h4, h5, ?_⟩
  have hown : getProperty allNamedColors kv.1 = .own kv.2 := by
    rw [allNamedColors_eq]
    exact getProperty_append_own _ _ _ _ h3
  cases hv : kv.2 with
  | nil => rw [hv] at h5; simp at h5
  | cons c t =>
    rw [hv] at h5 hown
    simp only [List.head?_cons, Option.some.injEq] at h5
    subst h5
    exact toRgb_named kv.1 t hown

/-! ## The bound of the star -/

theorem repeatMatcher_length_le (m : JSString → List JSString)
    (hm : ∀ x y, y ∈ m x → y.length ≤ x.length) :
    ∀ (max min : Nat) (x y : JSString), y ∈ repeatMatcher m min max x → y.length ≤ x.length := by
  intro max
  induction max with
  | zero =>
    intro min x y hy
    rw [repeatMatcher_zero] at hy
    simp only [List.mem_singleton] at hy
    rw [hy]
  | succ max ih =>
    intro min x y hy
    rw [repeatMatcher_succ] at hy
    have hmore : ∀ y, y ∈ (m x).flatMap (fun z =>
        if min = 0 ∧ z.length = x.length then [] else repeatMatcher m (min - 1) max z) →
        y.length ≤ x.length := by
      intro y hy
      simp only [List.mem_flatMap] at hy
      obtain ⟨z, hz, hyz⟩ := hy
      split at hyz
      · simp at hyz
      · exact Nat.le_trans (ih _ _ _ hyz) (hm x z hz)
    split at hy
    · exact hmore y hy
    · simp only [List.mem_append, List.mem_singleton] at hy
      rcases hy with hy | hy
      · exact hmore y hy
      · rw [hy]

/-- A match never gives back more than it was given. -/
theorem run_length_le (r : Regex) :
    ∀ (s y : JSString), y ∈ r.run s → y.length ≤ s.length := by
  induction r with
  | cls ranges =>
    intro s y hy
    cases s with
    | nil => simp [run_cls_nil] at hy
    | cons c t =>
      rw [run_cls_cons] at hy
      split at hy
      · simp only [List.mem_singleton] at hy
        rw [hy]; simp
      · simp at hy
  | seq a b iha ihb =>
    intro s y hy
    rw [run_seq] at hy
    simp only [List.mem_flatMap] at hy
    obtain ⟨z, hz, hyz⟩ := hy
    exact Nat.le_trans (ihb z y hyz) (iha s z hz)
  | rep a min max ih =>
    intro s y hy
    rw [run_rep] at hy
    exact repeatMatcher_length_le _ ih max min s y hy
  | star a ih =>
    intro s y hy
    rw [run_star] at hy
    exact repeatMatcher_length_le _ ih _ 0 s y hy
  | opt a ih =>
    intro s y hy
    rw [run_opt] at hy
    exact repeatMatcher_length_le _ ih _ 0 s y hy

theorem repeatMatcher_star_succ (m : JSString → List JSString) (max : Nat) (x : JSString) :
    repeatMatcher m 0 (max + 1) x =
      (m x).flatMap (fun y => if y.length = x.length then [] else repeatMatcher m 0 max y)
        ++ [x] := by
  rw [repeatMatcher_succ]
  simp

/-- The bound of `*` is never reached: any number of iterations at least the length of the
input gives the same ways of matching, so `*` is modelled without loss. -/
theorem star_bound_irrelevant (m : JSString → List JSString)
    (hm : ∀ x y, y ∈ m x → y.length ≤ x.length) :
    ∀ (n k : Nat) (x : JSString), x.length ≤ n → x.length ≤ k →
      repeatMatcher m 0 n x = repeatMatcher m 0 k x := by
  have nil_case : ∀ k, repeatMatcher m 0 k [] = [[]] := by
    intro k
    cases k with
    | zero => rfl
    | succ k =>
      rw [repeatMatcher_star_succ]
      have : (m []).flatMap (fun y =>
          if y.length = ([] : JSString).length then [] else repeatMatcher m 0 k y) = [] := by
        rw [List.flatMap_eq_nil_iff]
        intro y hy
        have := hm [] y hy
        simp only [List.length_nil, Nat.le_zero] at this
        simp [this]
      rw [this]; rfl
  intro n
  induction n with
  | zero =>
    intro k x hn _
    have : x = [] := List.length_eq_zero.mp (Nat.le_zero.mp hn)
    subst this
    rw [nil_case, nil_case]
  | succ n ih =>
    intro k x hn hk
    cases k with
    | zero =>
      have : x = [] := List.length_eq_zero.mp (Nat.le_zero.mp hk)
      subst this
      rw [nil_case, nil_case]
    | succ k =>
      rw [repeatMatcher_star_succ, repeatMatcher_star_succ]
      congr 1
      apply List.flatMap_congr
      intro z hz
      by_cases hl : z.length = x.length
      · simp [hl]
      · have := hm x z hz
        simp only [hl, if_false]
        exact ih k z (by omega) (by omega)

/-- The way `*` is run does not depend on the bound chosen for it. -/
theorem run_star_bound (a : Regex) (s : JSString) (n : Nat) (h : s.length ≤ n) :
    (Regex.star a).run s = repeatMatcher a.run 0 n s := by
  rw [run_star]
  exact star_bound_irrelevant _ (run_length_le a) _ _ _ (le_refl _) h

/-! ## Double arithmetic -/

theorem log2Fuel_spec : ∀ (fuel n : Nat), n ≤ fuel → n ≠ 0 →
    2 ^ log2Fuel fuel n ≤ n ∧ n < 2 ^ (log2Fuel fuel n + 1) := by
  intro fuel
  induction fuel with
  | zero => intro n h h0; omega
  | succ fuel ih =>
    intro n h h0
    unfold log2Fuel
    by_cases h2 : 2 ≤ n
    · simp only [h2, if_true]
      have hdiv : n / 2 ≤ fuel := by omega
      have hne : n / 2 ≠ 0 := by omega
      obtain ⟨h1, h3⟩ := ih (n / 2) hdiv hne
      constructor
      · rw [pow_succ]; omega
      · rw [pow_succ]; omega
    · simp only [h2, if_false]
      constructor <;> simp <;> omega

theorem log2_spec (n : Nat) (h : n ≠ 0) : 2 ^ log2 n ≤ n ∧ n < 2 ^ (log2 n + 1) :=
  log2Fuel_spec n n (le_refl _) h

theorem pow2_eq_zpow (e : Int) : pow2 e = (2 : ℚ) ^ e := by
  unfold pow2
  by_cases h : 0 ≤ e
  · simp only [h, if_true]
    obtain ⟨n, rfl⟩ := Int.eq_ofNat_of_zero_le h
    simp
  · simp only [h, if_false]
    have hneg : 0 ≤ -e := by omega
    obtain ⟨n, hn⟩ := Int.eq_ofNat_of_zero_le hneg
    have he : e = -(n : Int) := by omega
    subst he
    simp [zpow_neg]

theorem pow2_pos (e : Int) : 0 < pow2 e := by
  rw [pow2_eq_zpow]; exact zpow_pos (by norm_num) e

theorem pow2_add (a b : Int) : pow2 (a + b) = pow2 a * pow2 b := by
  simp only [pow2_eq_zpow]; exact zpow_add₀ (by norm_num) a b

theorem pow2_le_iff (a b : Int) : pow2 a ≤ pow2 b ↔ a ≤ b := by
  simp only [pow2_eq_zpow]; exact zpow_le_zpow_iff_right₀ (by norm_num)

theorem pow2_lt_iff (a b : Int) : pow2 a < pow2 b ↔ a < b := by
  simp only [pow2_eq_zpow]; exact zpow_lt_zpow_iff_right₀ (by norm_num)

theorem pow2_natCast (n : Nat) : pow2 (n : Int) = ((2 ^ n : Nat) : ℚ) := by
  simp [pow2]

theorem pow2_zero : pow2 0 = 1 := by simp [pow2]

theorem pow2_succ (a : Int) : pow2 (a + 1) = 2 * pow2 a := by
  have h1 : pow2 1 = 2 := by simp [pow2]
  rw [pow2_add, h1, mul_comm]

theorem pow2_pred (a : Int) : pow2 (a - 1) = pow2 a / 2 := by
  have := pow2_succ (a - 1)
  rw [sub_add_cancel] at this
  rw [this]; field_simp

/-- The binary exponent brackets the absolute value. -/
theorem exponent_spec (q : ℚ) (hq : q ≠ 0) :
    pow2 (exponent q) ≤ |q| ∧ |q| < pow2 (exponent q + 1) := by
  have hn : q.num.natAbs ≠ 0 := by
    simpa using Rat.num_ne_zero.mpr hq
  have hd : q.den ≠ 0 := q.den_nz
  obtain ⟨n1, n2⟩ := log2_spec _ hn
  obtain ⟨d1, d2⟩ := log2_spec _ hd
  have habs : |q| = (q.num.natAbs : ℚ) / (q.den : ℚ) := by
    rw [Rat.abs_def, Rat.divInt_eq_div]
    congr 1
  have hdpos : (0 : ℚ) < q.den := by exact_mod_cast Nat.pos_of_ne_zero hd
  set ln := log2 q.num.natAbs with hln
  set ld := log2 q.den with hld
  have n1' : pow2 ln ≤ (q.num.natAbs : ℚ) := by rw [pow2_natCast]; exact_mod_cast n1
  have n2' : (q.num.natAbs : ℚ) < pow2 (ln + 1) := by
    have : pow2 ((ln : Int) + 1) = ((2 ^ (ln + 1) : Nat) : ℚ) := by
      rw [← pow2_natCast]; push_cast; rfl
    rw [this]; exact_mod_cast n2
  have d1' : pow2 ld ≤ (q.den : ℚ) := by rw [pow2_natCast]; exact_mod_cast d1
  have d2' : (q.den : ℚ) < pow2 (ld + 1) := by
    have : pow2 ((ld : Int) + 1) = ((2 ^ (ld + 1) : Nat) : ℚ) := by
      rw [← pow2_natCast]; push_cast; rfl
    rw [this]; exact_mod_cast d2
  have hk : pow2 ((ln : Int) - ld) * pow2 ld = pow2 ln := by
    rw [← pow2_add]; congr 1; ring
  unfold exponent
  simp only [← hln, ← hld]
  by_cases hc : pow2 ((ln : Int) - ld) ≤ |q|
  · simp only [hc, if_true, true_and]
    rw [habs, div_lt_iff₀ hdpos]
    calc (q.num.natAbs : ℚ) < pow2 (ln + 1) := n2'
      _ = pow2 ((ln : Int) - ld + 1) * pow2 ld := by rw [← pow2_add]; congr 1; ring
      _ ≤ pow2 ((ln : Int) - ld + 1) * q.den :=
          mul_le_mul_of_nonneg_left d1' (le_of_lt (pow2_pos _))
  · simp only [hc, if_false]
    constructor
    · rw [habs, le_div_iff₀ hdpos]
      calc pow2 ((ln : Int) - ld - 1) * (q.den : ℚ)
          ≤ pow2 ((ln : Int) - ld - 1) * pow2 (ld + 1) :=
            mul_le_mul_of_nonneg_left (le_of_lt d2') (le_of_lt (pow2_pos _))
        _ = pow2 ln := by rw [← pow2_add]; congr 1; ring
        _ ≤ q.num.natAbs := n1'
    · rw [sub_add_cancel]; exact lt_of_not_le hc

theorem roundHalfEven_err (x : ℚ) : |((roundHalfEven x : Int) : ℚ) - x| ≤ 1 / 2 := by
  have h1 := Int.floor_le x
  have h2 := Int.lt_floor_add_one x
  unfold roundHalfEven
  rw [abs_le]
  split_ifs with c1 c2 c3
  · constructor <;> linarith
  · push_cast; constructor <;> linarith
  · constructor <;> linarith
  · push_cast; constructor <;> linarith

theorem roundHalfEven_intCast (n : Int) : roundHalfEven (n : ℚ) = n := by
  unfold roundHalfEven
  simp

/-- Rounding to a double does not move an exact result that has at most 53 significant
bits and an exponent in range. -/
theorem RN_exact (m x : Int) (hm : |m| < 2 ^ 53) (hx1 : -1074 ≤ x) (hx2 : x ≤ 971) :
    RN ((m : ℚ) * pow2 x) = .fin ((m : ℚ) * pow2 x) := by
  by_cases hm0 : m = 0
  · subst hm0; simp [RN]
  have hq : (m : ℚ) * pow2 x ≠ 0 :=
    mul_ne_zero (by exact_mod_cast hm0) (ne_of_gt (pow2_pos x))
  obtain ⟨e1, _⟩ := exponent_spec _ hq
  have habs : |(m : ℚ) * pow2 x| = |(m : ℚ)| * pow2 x := by
    rw [abs_mul, abs_of_pos (pow2_pos x)]
  have hmq : |(m : ℚ)| < pow2 53 := by
    have : pow2 53 = ((2 ^ 53 : Int) : ℚ) := by simp [pow2]
    rw [this, ← Int.cast_abs]
    exact_mod_cast hm
  have hlt : |(m : ℚ) * pow2 x| < pow2 (53 + x) := by
    rw [habs, pow2_add]
    exact mul_lt_mul_of_pos_right hmq (pow2_pos x)
  have he : exponent ((m : ℚ) * pow2 x) < 53 + x :=
    (pow2_lt_iff _ _).mp (lt_of_le_of_lt e1 hlt)
  set u := max (exponent ((m : ℚ) * pow2 x)) (-1022) - 52 with hu
  have hux : u ≤ x := by
    rw [hu]
    have := max_le (a := exponent ((m : ℚ) * pow2 x)) (b := -1022) (c := x + 52)
      (by omega) (by omega)
    omega
  obtain ⟨j, hj⟩ := Int.eq_ofNat_of_zero_le (show 0 ≤ x - u by omega)
  have hsplit : pow2 x = ((2 ^ j : Nat) : ℚ) * pow2 u := by
    rw [← pow2_natCast, ← hj, ← pow2_add]; congr 1; ring
  have hdiv : (m : ℚ) * pow2 x / pow2 u = ((m * (2 ^ j : Nat) : Int) : ℚ) := by
    rw [hsplit]
    have := pow2_pos u
    field_simp
    ring
  unfold RN
  simp only [hq, if_false, ← hu, hdiv, roundHalfEven_intCast]
  have hback : ((m * (2 ^ j : Nat) : Int) : ℚ) * pow2 u = (m : ℚ) * pow2 x := by
    rw [hsplit]; push_cast; ring
  rw [hback]
  have hno : ¬ pow2 1024 ≤ |(m : ℚ) * pow2 x| := by
    rw [not_le]
    exact lt_of_lt_of_le hlt ((pow2_le_iff _ _).mpr (by omega))
  simp only [hno, if_false]

theorem RN_intCast (n : Int) (hn : |n| < 2 ^ 53) : RN (n : ℚ) = .fin n := by
  have := RN_exact n 0 hn (by norm_num) (by norm_num)
  simpa [pow2_zero] using this

theorem RN_natCast (n : Nat) (hn : n < 2 ^ 53) : RN (n : ℚ) = .fin n := by
  have := RN_intCast (n : Int) (by rw [abs_of_nonneg (by positivity)]; exact_mod_cast hn)
  simpa using this

/-- Rounding to a double moves an exact result of size at most `2 ^ k` by at most
`2 ^ (k - 53)`, and the result is finite. -/
theorem RN_near (q : ℚ) (k : Int) (hq : |q| ≤ pow2 k) (hk1 : -1022 ≤ k) (hk2 : k ≤ 1000) :
    ∃ y, RN q = .fin y ∧ |y - q| ≤ pow2 (k - 53) := by
  by_cases hq0 : q = 0
  · subst hq0
    exact ⟨0, by simp [RN], by simpa using le_of_lt (pow2_pos _)⟩
  obtain ⟨e1, _⟩ := exponent_spec q hq0
  have he : exponent q ≤ k := (pow2_le_iff _ _).mp (le_trans e1 hq)
  set u := max (exponent q) (-1022) - 52 with hu
  have huk : u ≤ k - 52 := by
    rw [hu]
    have := max_le (a := exponent q) (b := -1022) (c := k) he hk1
    omega
  have hpos := pow2_pos u
  set y := ((roundHalfEven (q / pow2 u) : Int) : ℚ) * pow2 u with hy
  have herr : |y - q| ≤ pow2 (k - 53) := by
    have h1 := roundHalfEven_err (q / pow2 u)
    have h2 : y - q = (((roundHalfEven (q / pow2 u) : Int) : ℚ) - q / pow2 u) * pow2 u := by
      rw [hy]; field_simp
    rw [h2, abs_mul, abs_of_pos hpos]
    calc |((roundHalfEven (q / pow2 u) : Int) : ℚ) - q / pow2 u| * pow2 u
        ≤ 1 / 2 * pow2 u := mul_le_mul_of_nonneg_right h1 (le_of_lt hpos)
      _ = pow2 (u - 1) := by rw [pow2_pred]; ring
      _ ≤ pow2 (k - 53) := (pow2_le_iff _ _).mpr (by omega)
  refine ⟨y, ?_, herr⟩
  unfold RN
  simp only [hq0, if_false, ← hu, ← hy]
  have hno : ¬ pow2 1024 ≤ |y| := by
    rw [not_le]
    have h3 : |y| ≤ |y - q| + |q| := by
      have := abs_add (y - q) q
      simpa using this
    have h4 : pow2 (k - 53) ≤ pow2 k := (pow2_le_iff _ _).mpr (by omega)
    have h5 : pow2 k + pow2 k = pow2 (k + 1) := by rw [pow2_succ]; ring
    have h6 : pow2 (k + 1) < pow2 1024 := (pow2_lt_iff _ _).mpr (by omega)
    linarith
  simp only [hno, if_false]

theorem F64.sub_fin (a b : ℚ) : (F64.fin a).sub (.fin b) = RN (a - b) := by
  simp [F64.sub, F64.neg, F64.add, sub_eq_add_neg]

theorem F64.add_fin (a b : ℚ) : (F64.fin a).add (.fin b) = RN (a + b) := rfl

theorem F64.mul_fin (a b : ℚ) : (F64.fin a).mul (.fin b) = RN (a * b) := rfl

theorem F64.div_fin (a b : ℚ) (hb : b ≠ 0) : (F64.fin a).div (.fin b) = RN (a / b) := by
  simp [F64.div, hb]

theorem F64.round_fin (q : ℚ) : (F64.fin q).round = .fin ⌊q + 1 / 2⌋ := rfl

theorem pow2_vals : pow2 (-53) = 1 / 2 ^ 53 ∧ pow2 (-52) = 1 / 2 ^ 52 ∧
    pow2 (-45) = 1 / 2 ^ 45 ∧ pow2 (-44) = 1 / 2 ^ 44 ∧ pow2 0 = 1 ∧ pow2 1 = 2 ∧
    pow2 8 = 256 ∧ pow2 9 = 512 := by
  decide!

/-- Bounds of a product from bounds of its factors, the first factor being non-negative. -/
theorem mul_bounds (a u lo hi A : ℚ) (ha0 : 0 ≤ a) (haA : a ≤ A) (hlo : lo ≤ u) (hhi : u ≤ hi)
    (hlo0 : lo ≤ 0) (hhi0 : 0 ≤ hi) : A * lo ≤ a * u ∧ a * u ≤ A * hi := by
  constructor
  · calc A * lo ≤ a * lo := mul_le_mul_of_nonpos_right haA hlo0
      _ ≤ a * u := mul_le_mul_of_nonneg_left hlo ha0
  · calc a * u ≤ a * hi := mul_le_mul_of_nonneg_left hhi ha0
      _ ≤ A * hi := mul_le_mul_of_nonneg_right haA hhi0

/-- The interpolation `a * (1 - t) + b * t` in doubles, for channels in `0..255` and a ratio
in `[0, 1]`: finite and within `2 ^ -42` of the exact value. -/
theorem interpolate_near (a b : Nat) (ha : a ≤ 255) (hb : b ≤ 255) (t : ℚ) (ht0 : 0 ≤ t)
    (ht1 : t ≤ 1) :
    ∃ s, ((F64.fin a).mul ((F64.ofNat 1).sub (.fin t))).add ((F64.fin b).mul (.fin t)) = .fin s ∧
      |s - ((a : ℚ) * (1 - t) + b * t)| ≤ 1 / 2 ^ 42 := by
  obtain ⟨p53, p52, p45, p44, p0, p1, p8, p9⟩ := pow2_vals
  have haq : (a : ℚ) ≤ 255 := by exact_mod_cast ha
  have hbq : (b : ℚ) ≤ 255 := by exact_mod_cast hb
  have ha0 : (0 : ℚ) ≤ a := by positivity
  have hb0 : (0 : ℚ) ≤ b := by positivity
  -- 1 - t
  obtain ⟨u, hu, eu⟩ := RN_near (1 - t) 0 (by rw [p0, abs_le]; constructor <;> linarith)
    (by norm_num) (by norm_num)
  rw [show (0 : Int) - 53 = -53 from rfl, p53, abs_le] at eu
  -- a * u
  have bau := mul_bounds a u (-(1 / 2 ^ 53)) (1 + 1 / 2 ^ 53) 255 ha0 haq
    (by linarith [eu.1]) (by linarith [eu.2]) (by norm_num) (by norm_num)
  have hau : |(a : ℚ) * u| ≤ pow2 8 := by
    rw [p8, abs_le]
    constructor <;> linarith [bau.1, bau.2]
  obtain ⟨x1, hx1, e1⟩ := RN_near ((a : ℚ) * u) 8 hau (by norm_num) (by norm_num)
  rw [show (8 : Int) - 53 = -45 from rfl, p45, abs_le] at e1
  -- b * t
  have bbt := mul_bounds b t 0 1 255 hb0 hbq ht0 ht1 (le_refl _) (by norm_num)
  have hbt : |(b : ℚ) * t| ≤ pow2 8 := by
    rw [p8, abs_le]
    constructor <;> linarith [bbt.1, bbt.2]
  obtain ⟨x2, hx2, e2⟩ := RN_near ((b : ℚ) * t) 8 hbt (by norm_num) (by norm_num)
  rw [show (8 : Int) - 53 = -45 from rfl, p45, abs_le] at e2
  -- sum
  have hsum : |x1 + x2| ≤ pow2 9 := by
    rw [p9, abs_le]
    constructor <;> linarith [e1.1, e1.2, e2.1, e2.2, bau.1, bau.2, bbt.1, bbt.2]
  obtain ⟨s, hs, es⟩ := RN_near (x1 + x2) 9 hsum (by norm_num) (by norm_num)
  rw [show (9 : Int) - 53 = -44 from rfl, p44, abs_le] at es
  refine ⟨s, ?_, ?_⟩
  · simp only [F64.ofNat, Nat.cast_one, F64.sub_fin, hu, F64.mul_fin, hx1, hx2, F64.add_fin, hs]
  · have bd := mul_bounds a (u - (1 - t)) (-(1 / 2 ^ 53)) (1 / 2 ^ 53) 255 ha0 haq
      eu.1 eu.2 (by norm_num) (by norm_num)
    have hexp : (a : ℚ) * (u - (1 - t)) = a * u - a * (1 - t) := by ring
    rw [hexp] at bd
    rw [abs_le]
    constructor
    · linarith [e1.1, e2.1, es.1, bd.1]
    · linarith [e1.2, e2.2, es.2, bd.2]

theorem abs_mul_le (x y X Y : ℚ) (hx : |x| ≤ X) (hy : |y| ≤ Y) : |x * y| ≤ X * Y := by
  rw [abs_mul]
  exact mul_le_mul hx hy (abs_nonneg _) (le_trans (abs_nonneg _) hx)

/-- A value close to a fraction that is not an integer has the floor of the fraction. -/
theorem floor_eq_of_near (P : Int) (D : Nat) (hD : 0 < D) (hne : P % (D : Int) ≠ 0) (s : ℚ)
    (h : |s - (P : ℚ) / D| < 1 / D) : ⌊s⌋ = P / (D : Int) := by
  have hDq : (0 : ℚ) < D := by exact_mod_cast hD
  have hDi : (0 : Int) < D := by exact_mod_cast hD
  have h1 : 0 ≤ P % (D : Int) := Int.emod_nonneg _ (ne_of_gt hDi)
  have h2 : P % (D : Int) < D := Int.emod_lt_of_pos _ hDi
  have h3 : (D : Int) * (P / (D : Int)) + P % (D : Int) = P := Int.ediv_add_emod P D
  have h1' : (1 : ℚ) ≤ ((P % (D : Int) : Int) : ℚ) := by
    exact_mod_cast (show (1 : Int) ≤ P % (D : Int) by omega)
  have h2' : ((P % (D : Int) : Int) : ℚ) + 1 ≤ D := by
    exact_mod_cast (show P % (D : Int) + 1 ≤ D by omega)
  have h3' : (P : ℚ) / D = ((P / (D : Int) : Int) : ℚ) + ((P % (D : Int) : Int) : ℚ) / D := by
    have : (P : ℚ) = (D : ℚ) * ((P / (D : Int) : Int) : ℚ) + ((P % (D : Int) : Int) : ℚ) := by
      exact_mod_cast h3.symm
    rw [this]
    field_simp
    ring
  rw [abs_lt] at h
  rw [Int.floor_eq_iff]
  have e1 : (1 : ℚ) / D ≤ ((P % (D : Int) : Int) : ℚ) / D :=
    div_le_div_of_nonneg_right h1' (le_of_lt hDq)
  have e2 : ((P % (D : Int) : Int) : ℚ) / D + 1 / D ≤ 1 := by
    rw [← add_div, div_le_one hDq]; exact h2'
  constructor
  · linarith [h.1]
  · linarith [h.2]

/-- Rounding to the nearest integer, a tie going up (`Math.round` on exact values). -/
theorem roundHalfUp_div255 (c : Nat) (s : ℚ) (h : |s - (c : ℚ) / 255| ≤ 1 / 2 ^ 42) :
    ⌊s + 1 / 2⌋ = ((2 * c + 255) / 510 : Nat) ∧
      ⌊(c : ℚ) / 255 + 1 / 2⌋ = ((2 * c + 255) / 510 : Nat) := by
  have hP : ((2 * c + 255 : Nat) : Int) % ((510 : Nat) : Int) ≠ 0 := by
    push_cast; omega
  have hx : (c : ℚ) / 255 + 1 / 2 = (((2 * c + 255 : Nat) : Int) : ℚ) / (510 : Nat) := by
    push_cast; field_simp; ring
  have hdiv : ((2 * c + 255 : Nat) : Int) / ((510 : Nat) : Int) = ((2 * c + 255) / 510 : Nat) := by
    push_cast; rfl
  constructor
  · rw [← hdiv]
    apply floor_eq_of_near _ _ (by norm_num) hP
    rw [← hx]
    have : s + 1 / 2 - ((c : ℚ) / 255 + 1 / 2) = s - (c : ℚ) / 255 := by ring
    rw [this]
    refine lt_of_le_of_lt h ?_
    norm_num
  · rw [← hdiv]
    apply floor_eq_of_near _ _ (by norm_num) hP
    rw [← hx]
    simp

/-- The product `(a / 255) * (b / 255) * 255` in doubles, for channels in `0..255`: finite and
within `2 ^ -42` of `a * b / 255`. -/
theorem multiply_near (a b : Nat) (ha : a ≤ 255) (hb : b ≤ 255) :
    ∃ s, (((F64.fin a).div (.ofNat 255)).mul ((F64.fin b).div (.ofNat 255))).mul (.ofNat 255)
        = .fin s ∧ |s - ((a * b : Nat) : ℚ) / 255| ≤ 1 / 2 ^ 42 := by
  obtain ⟨p53, p52, p45, p44, p0, p1, p8, p9⟩ := pow2_vals
  have haq : (a : ℚ) ≤ 255 := by exact_mod_cast ha
  have hbq : (b : ℚ) ≤ 255 := by exact_mod_cast hb
  have ha0 : (0 : ℚ) ≤ a := by positivity
  have hb0 : (0 : ℚ) ≤ b := by positivity
  have hα : |(a : ℚ) / 255| ≤ 1 := by
    rw [abs_of_nonneg (by positivity), div_le_one (by norm_num)]; exact haq
  have hβ : |(b : ℚ) / 255| ≤ 1 := by
    rw [abs_of_nonneg (by positivity), div_le_one (by norm_num)]; exact hbq
  obtain ⟨d1, hd1, e1⟩ := RN_near ((a : ℚ) / 255) 0 (by rw [p0]; exact hα) (by norm_num)
    (by norm_num)
  obtain ⟨d2, hd2, e2⟩ := RN_near ((b : ℚ) / 255) 0 (by rw [p0]; exact hβ) (by norm_num)
    (by norm_num)
  rw [show (0 : Int) - 53 = -53 from rfl, p53] at e1 e2
  have hd1a : |d1| ≤ 2 := by
    have := abs_add (d1 - (a : ℚ) / 255) ((a : ℚ) / 255)
    rw [sub_add_cancel] at this
    have h53 : (1 : ℚ) / 2 ^ 53 ≤ 1 := by norm_num
    linarith
  have hd2a : |d2| ≤ 2 := by
    have := abs_add (d2 - (b : ℚ) / 255) ((b : ℚ) / 255)
    rw [sub_add_cancel] at this
    have h53 : (1 : ℚ) / 2 ^ 53 ≤ 1 := by norm_num
    linarith
  -- the product of the two quotients is within 3 / 2 ^ 53 of the exact product
  have hprod : |d1 * d2 - (a : ℚ) / 255 * ((b : ℚ) / 255)| ≤ 3 / 2 ^ 53 := by
    have hsplit : d1 * d2 - (a : ℚ) / 255 * ((b : ℚ) / 255) =
        (d1 - (a : ℚ) / 255) * d2 + (a : ℚ) / 255 * (d2 - (b : ℚ) / 255) := by ring
    rw [hsplit]
    have t1 := abs_mul_le _ _ _ _ e1 hd2a
    have t2 := abs_mul_le _ _ _ _ hα e2
    have := abs_add ((d1 - (a : ℚ) / 255) * d2) ((a : ℚ) / 255 * (d2 - (b : ℚ) / 255))
    have hnum : (1 : ℚ) / 2 ^ 53 * 2 + 1 * (1 / 2 ^ 53) = 3 / 2 ^ 53 := by norm_num
    linarith
  have hexact : |(a : ℚ) / 255 * ((b : ℚ) / 255)| ≤ 1 := by
    have := abs_mul_le _ _ _ _ hα hβ
    linarith
  have hd12 : |d1 * d2| ≤ pow2 1 := by
    rw [p1]
    have := abs_add (d1 * d2 - (a : ℚ) / 255 * ((b : ℚ) / 255)) ((a : ℚ) / 255 * ((b : ℚ) / 255))
    rw [sub_add_cancel] at this
    have h53 : (3 : ℚ) / 2 ^ 53 ≤ 1 := by norm_num
    linarith
  obtain ⟨m, hm, em⟩ := RN_near (d1 * d2) 1 hd12 (by norm_num) (by norm_num)
  rw [show (1 : Int) - 53 = -52 from rfl, p52] at em
  have hmabs : |m - (a : ℚ) / 255 * ((b : ℚ) / 255)| ≤ 5 / 2 ^ 53 := by
    have hsplit : m - (a : ℚ) / 255 * ((b : ℚ) / 255) =
        (m - d1 * d2) + (d1 * d2 - (a : ℚ) / 255 * ((b : ℚ) / 255)) := by ring
    rw [hsplit]
    have := abs_add (m - d1 * d2) (d1 * d2 - (a : ℚ) / 255 * ((b : ℚ) / 255))
    have hnum : (1 : ℚ) / 2 ^ 52 + 3 / 2 ^ 53 = 5 / 2 ^ 53 := by norm_num
    linarith
  have hm2 : |m| ≤ 2 := by
    have := abs_add (m - (a : ℚ) / 255 * ((b : ℚ) / 255)) ((a : ℚ) / 255 * ((b : ℚ) / 255))
    rw [sub_add_cancel] at this
    have h53 : (5 : ℚ) / 2 ^ 53 ≤ 1 := by norm_num
    linarith
  have hm255 : |m * 255| ≤ pow2 9 := by
    rw [p9]
    have := abs_mul_le m 255 2 255 hm2 (by norm_num)
    linarith
  obtain ⟨s, hs, es⟩ := RN_near (m * 255) 9 hm255 (by norm_num) (by norm_num)
  rw [show (9 : Int) - 53 = -44 from rfl, p44] at es
  refine ⟨s, ?_, ?_⟩
  · have h255 : ((255 : Nat) : ℚ) ≠ 0 := by norm_num
    simp only [F64.ofNat, F64.div_fin _ _ h255]
    have c255 : ((255 : Nat) : ℚ) = 255 := by norm_num
    rw [c255, hd1, hd2, F64.mul_fin, hm, F64.mul_fin, hs]
  · have hsplit : s - ((a * b : Nat) : ℚ) / 255 =
        (s - m * 255) + (m - (a : ℚ) / 255 * ((b : ℚ) / 255)) * 255 := by
      push_cast; field_simp; ring
    rw [hsplit]
    have t1 := abs_mul_le _ 255 _ 255 hmabs (by norm_num)
    have := abs_add (s - m * 255) ((m - (a : ℚ) / 255 * ((b : ℚ) / 255)) * 255)
    have hnum : (1 : ℚ) / 2 ^ 44 + 5 / 2 ^ 53 * 255 ≤ 1 / 2 ^ 42 := by norm_num
    linarith

theorem colorRgb_eq_span (r g b : JSNum) (text : JSString) :
    colorRgb r g b text = span r g b text := by
  have e : resetCode = [ESC] ++ js "[0m" := by decide
  have e1 : js "[" = [91] := rfl
  have e2 : js "38" = [51, 56] := rfl
  have e3 : js ";2;" = [59, 50, 59] := rfl
  have e4 : js "[38;2;" = [91, 51, 56, 59, 50, 59] := rfl
  simp only [colorRgb, get_rgb, Builder.apply, createStyleObject, color, trueColorCode, span, e,
    e1, e2, e3, e4]
  simp

theorem toF64_nat (n : Nat) : (JSNum.int (n : Int)).toF64 = .fin n := by
  simp [JSNum.toF64]

theorem toJSNum_nat (n : Nat) : (F64.fin (n : ℚ)).toJSNum = .int n := by
  simp [F64.toJSNum]

theorem toJSNum_int (n : Int) : (F64.fin (n : ℚ)).toJSNum = .int n := by
  simp [F64.toJSNum]

theorem blendChannel_other (mode : JSString) (hm : mode ≠ js "multiply")
    (hs : mode ≠ js "screen") (t : F64) (a b : Nat) :
    blendChannel mode t (.fin a) (.fin b) = normalFormula t a b := by
  simp [blendChannel, hm, hs, normalFormula, F64.ofNat]

/-- In mode `normal` a channel mixed with itself at a ratio in `[0, 1]` is unchanged. -/
theorem normalFormula_self (a : Nat) (ha : a ≤ 255) (t : ℚ) (ht0 : 0 ≤ t) (ht1 : t ≤ 1) :
    normalFormula (.fin t) a a = .fin a := by
  obtain ⟨s, hs, es⟩ := interpolate_near a a ha ha t ht0 ht1
  simp only [F64.ofNat, Nat.cast_one] at hs
  unfold normalFormula
  rw [hs, F64.round_fin]
  have hx : (a : ℚ) * (1 - t) + a * t = a := by ring
  rw [hx, abs_le] at es
  have : ⌊s + 1 / 2⌋ = (a : Int) := by
    rw [Int.floor_eq_iff]
    have h42 : (1 : ℚ) / 2 ^ 42 < 1 / 2 := by norm_num
    push_cast
    constructor <;> linarith [es.1, es.2]
  rw [this]
  simp

/-- In mode `normal` a mixed channel at a ratio in `[0, 1]` is an integer in `0..255`. -/
theorem normalFormula_range (a b : Nat) (ha : a ≤ 255) (hb : b ≤ 255) (t : ℚ) (ht0 : 0 ≤ t)
    (ht1 : t ≤ 1) :
    ∃ n : Nat, n ≤ 255 ∧ normalFormula (.fin t) a b = .fin n ∧
      |(n : ℚ) - ((a : ℚ) * (1 - t) + b * t)| ≤ 1 / 2 + 1 / 2 ^ 42 := by
  obtain ⟨s, hs, es⟩ := interpolate_near a b ha hb t ht0 ht1
  simp only [F64.ofNat, Nat.cast_one] at hs
  have haq : (a : ℚ) ≤ 255 := by exact_mod_cast ha
  have hbq : (b : ℚ) ≤ 255 := by exact_mod_cast hb
  have ha0 : (0 : ℚ) ≤ a := by positivity
  have hb0 : (0 : ℚ) ≤ b := by positivity
  have b1 := mul_bounds a (1 - t) 0 1 255 ha0 haq (by linarith) (by linarith) (le_refl _)
    (by norm_num)
  have b2 := mul_bounds b t 0 1 255 hb0 hbq ht0 ht1 (le_refl _) (by norm_num)
  have hx0 : 0 ≤ (a : ℚ) * (1 - t) + b * t := by linarith [b1.1, b2.1]
  have hx1 : (a : ℚ) * (1 - t) + b * t ≤ 255 := by
    have e1 : (a : ℚ) * (1 - t) ≤ 255 * (1 - t) :=
      mul_le_mul_of_nonneg_right haq (by linarith)
    have e2 : (b : ℚ) * t ≤ 255 * t := mul_le_mul_of_nonneg_right hbq ht0
    linarith
  rw [abs_le] at es
  have h42 : (1 : ℚ) / 2 ^ 42 < 1 / 2 := by norm_num
  have hf0 : 0 ≤ ⌊s + 1 / 2⌋ := by
    apply Int.floor_nonneg.mpr
    linarith [es.1]
  have hf1 : ⌊s + 1 / 2⌋ ≤ 255 := by
    have : ⌊s + 1 / 2⌋ < 256 := by
      rw [Int.floor_lt]
      push_cast
      linarith [es.2]
    omega
  obtain ⟨n, hn⟩ := Int.eq_ofNat_of_zero_le hf0
  refine ⟨n, by omega, ?_, ?_⟩
  · unfold normalFormula
    rw [hs, F64.round_fin, hn]
    simp
  · have f1 := Int.floor_le (s + 1 / 2)
    have f2 := Int.lt_floor_add_one (s + 1 / 2)
    rw [hn] at f1 f2
    push_cast at f1 f2
    rw [abs_le]
    constructor <;> linarith [es.1, es.2]

theorem blendChannel_multiply (t : F64) (a b : Nat) (ha : a ≤ 255) (hb : b ≤ 255) :
    blendChannel (js "multiply") t (.fin a) (.fin b) = .fin (multiplyFormula a b) ∧
      multiplyFormula a b = ((2 * (a * b) + 255) / 510 : Nat) := by
  obtain ⟨s, hs, es⟩ := multiply_near a b ha hb
  obtain ⟨r1, r2⟩ := roundHalfUp_div255 (a * b) s es
  have hf : multiplyFormula a b = ((2 * (a * b) + 255) / 510 : Nat) := by
    unfold multiplyFormula roundHalfUp
    rw [← r2]; push_cast; rfl
  refine ⟨?_, hf⟩
  simp only [blendChannel, if_true]
  rw [hs, F64.round_fin, r1, hf]

theorem RN_sub_nat (a : Nat) (ha : a ≤ 255) : RN ((255 : ℚ) - a) = .fin ((255 - a : Nat) : ℚ) := by
  have h := RN_natCast (255 - a) (by omega)
  have : ((255 - a : Nat) : ℚ) = 255 - (a : ℚ) := by
    rw [Nat.cast_sub ha]; norm_num
  rw [this] at h ⊢
  exact h

theorem blendChannel_screen (t : F64) (a b : Nat) (ha : a ≤ 255) (hb : b ≤ 255) :
    blendChannel (js "screen") t (.fin a) (.fin b) = .fin (screenFormula a b) ∧
      screenFormula a b = ((255 - (2 * ((255 - a) * (255 - b)) + 255) / 510 : Nat) : Int) := by
  obtain ⟨p53, p52, p45, p44, p0, p1, p8, p9⟩ := pow2_vals
  have hne : js "screen" ≠ js "multiply" := by decide
  have hprodle : (255 - a) * (255 - b) ≤ 65025 := by
    have h1 : 255 - a ≤ 255 := by omega
    have h2 : 255 - b ≤ 255 := by omega
    calc (255 - a) * (255 - b) ≤ 255 * 255 := Nat.mul_le_mul h1 h2
      _ = 65025 := by norm_num
  set c := (255 - a) * (255 - b) with hc
  have hcq : (c : ℚ) ≤ 65025 := by exact_mod_cast hprodle
  have hq : |(c : ℚ) / 255| ≤ pow2 8 := by
    rw [p8, abs_of_nonneg (by positivity), div_le_iff₀ (by norm_num)]
    linarith
  obtain ⟨s, hs, es⟩ := RN_near ((c : ℚ) / 255) 8 hq (by norm_num) (by norm_num)
  rw [show (8 : Int) - 53 = -45 from rfl, p45] at es
  have es' : |s - (c : ℚ) / 255| ≤ 1 / 2 ^ 42 := le_trans es (by norm_num)
  obtain ⟨r1, r2⟩ := roundHalfUp_div255 c s es'
  have hk : (2 * c + 255) / 510 ≤ 255 := by omega
  have hf : screenFormula a b = ((255 - (2 * c + 255) / 510 : Nat) : Int) := by
    unfold screenFormula roundHalfUp
    have : (255 - (a : ℚ)) * (255 - b) / 255 = (c : ℚ) / 255 := by
      rw [hc]; push_cast [Nat.cast_sub ha, Nat.cast_sub hb]; ring
    rw [this, r2]
    omega
  refine ⟨?_, hf⟩
  have h255 : ((255 : Nat) : ℚ) ≠ 0 := by norm_num
  have c255 : ((255 : Nat) : ℚ) = 255 := by norm_num
  have hmul : RN (((255 - a : Nat) : ℚ) * ((255 - b : Nat) : ℚ)) = .fin (c : ℚ) := by
    have := RN_natCast c (by omega)
    rw [hc] at this ⊢
    push_cast at this ⊢
    exact this
  simp only [blendChannel, hne, if_false, if_true, F64.ofNat, F64.sub_fin, c255,
    RN_sub_nat a ha, RN_sub_nat b hb, F64.mul_fin, hmul]
  rw [F64.div_fin _ _ (by norm_num), hs, F64.round_fin, r1]
  have hfin : ((((2 * c + 255) / 510 : Nat) : Int) : ℚ) = (((2 * c + 255) / 510 : Nat) : ℚ) := by
    push_cast; rfl
  rw [hfin, F64.sub_fin, RN_sub_nat _ hk, hf]
  simp

theorem pow2_neg1 : pow2 (-1) = 1 / 2 := by decide!

theorem RN_half (h : Int) (hh : |h| < 2 ^ 53) : RN ((h : ℚ) / 2) = .fin ((h : ℚ) / 2) := by
  have := RN_exact h (-1) hh (by norm_num) (by norm_num)
  rw [pow2_neg1] at this
  have e : (h : ℚ) * (1 / 2) = (h : ℚ) / 2 := by ring
  rw [e] at this
  exact this

/-- The quotient `(e - s) * i / N` lies between `-255` and `255`. -/
theorem gradient_quotient_bound (s e i N : Nat) (hs : s ≤ 255) (he : e ≤ 255) (hi : i < N) :
    |(((e : Int) - s) * i : Int)| ≤ 255 * (N : Int) ∧
      |((((e : Int) - s) * i : Int) : ℚ) / N| ≤ 255 := by
  have hN : (0 : ℚ) < N := by exact_mod_cast (show 0 < N by omega)
  have h1 : |(((e : Int) - s) * i : Int)| ≤ 255 * (N : Int) := by
    rw [abs_mul]
    have a1 : |(e : Int) - s| ≤ 255 := by rw [abs_le]; constructor <;> omega
    have a2 : |(i : Int)| ≤ N := by rw [abs_of_nonneg (by positivity)]; exact_mod_cast le_of_lt hi
    exact mul_le_mul a1 a2 (abs_nonneg _) (by norm_num)
  refine ⟨h1, ?_⟩
  rw [abs_div, abs_of_pos hN, div_le_iff₀ hN]
  have : ((|(((e : Int) - s) * i : Int)| : Int) : ℚ) ≤ ((255 * (N : Int) : Int) : ℚ) := by
    exact_mod_cast h1
  push_cast at this ⊢
  exact this

/-- The channel of a gradient computed in doubles is the exact formula, for channels in
`0..255` and a text shorter than `2 ^ 32`. -/
theorem gradientChannel_exact (s e i N : Nat) (hs : s ≤ 255) (he : e ≤ 255) (hi : i < N)
    (hN : N < 2 ^ 32) :
    gradientChannel (.fin s) (.fin e) i N = .fin (gradientFormula s e i N) := by
  obtain ⟨p53, p52, p45, p44, p0, p1, p8, p9⟩ := pow2_vals
  have hNpos : 0 < N := by omega
  have hNq : (0 : ℚ) < N := by exact_mod_cast hNpos
  have hNne : (N : ℚ) ≠ 0 := ne_of_gt hNq
  obtain ⟨hQ1, hQ2⟩ := gradient_quotient_bound s e i N hs he hi
  set Q : Int := ((e : Int) - s) * i with hQ
  -- the difference and the product are exact
  have hsub : RN ((e : ℚ) - s) = .fin (((e : Int) - s : Int) : ℚ) := by
    have := RN_intCast ((e : Int) - s) (by rw [abs_lt]; constructor <;> omega)
    push_cast at this ⊢
    exact this
  have hmul : RN ((((e : Int) - s : Int) : ℚ) * (i : ℚ)) = .fin (Q : ℚ) := by
    have := RN_intCast Q (by
      have : (255 : Int) * N < 2 ^ 53 := by
        have : (N : Int) < 2 ^ 32 := by exact_mod_cast hN
        omega
      omega)
    rw [hQ] at this ⊢
    push_cast at this ⊢
    exact this
  have hexact : (s : ℚ) + ((e : ℚ) - s) * i / N = s + (Q : ℚ) / N := by
    rw [hQ]; push_cast; ring
  have hstart : gradientChannel (.fin s) (.fin e) i N =
      (((F64.fin s).add (RN ((Q : ℚ) / N)))).round := by
    simp only [gradientChannel, F64.ofNat, F64.sub_fin, hsub, F64.mul_fin, hmul,
      F64.div_fin _ _ hNne]
  rw [hstart]
  unfold gradientFormula roundHalfUp
  rw [hexact]
  by_cases hdvd : (N : Int) ∣ 2 * Q
  · -- the quotient is a half integer: every step is exact
    obtain ⟨h, hh⟩ := hdvd
    have hq : (Q : ℚ) / N = (h : ℚ) / 2 := by
      have : ((2 * Q : Int) : ℚ) = ((N * h : Int) : ℚ) := by rw [hh]
      push_cast at this
      field_simp
      linarith
    have hhabs : |h| ≤ 510 := by
      have : |(h : ℚ) / 2| ≤ 255 := by rw [← hq]; exact hQ2
      rw [abs_div, abs_of_pos (by norm_num : (0 : ℚ) < 2), div_le_iff₀ (by norm_num)] at this
      have : ((|h| : Int) : ℚ) ≤ ((510 : Int) : ℚ) := by push_cast; linarith
      exact_mod_cast this
    rw [hq, RN_half h (by omega), F64.add_fin]
    have hsum : (s : ℚ) + (h : ℚ) / 2 = ((2 * (s : Int) + h : Int) : ℚ) / 2 := by
      push_cast; ring
    rw [hsum, RN_half _ (by rw [abs_lt] at *; rw [abs_le] at hhabs; constructor <;> omega),
      F64.round_fin]
  · -- otherwise the exact value is at least `1 / (2 N)` away from a rounding boundary
    obtain ⟨q, hq, eq⟩ := RN_near ((Q : ℚ) / N) 8 (by rw [p8]; linarith) (by norm_num)
      (by norm_num)
    rw [show (8 : Int) - 53 = -45 from rfl, p45, abs_le] at eq
    rw [abs_le] at hQ2
    have hsq : |(s : ℚ) + q| ≤ pow2 9 := by
      have : (s : ℚ) ≤ 255 := by exact_mod_cast hs
      have : (0 : ℚ) ≤ s := by positivity
      rw [p9, abs_le]
      constructor <;> linarith [eq.1, eq.2, hQ2.1, hQ2.2]
    obtain ⟨x, hx, ex⟩ := RN_near ((s : ℚ) + q) 9 hsq (by norm_num) (by norm_num)
    rw [show (9 : Int) - 53 = -44 from rfl, p44, abs_le] at ex
    rw [hq, F64.add_fin, hx, F64.round_fin]
    set P : Int := 2 * (s : Int) * N + 2 * Q + N with hP
    have hPne : P % ((2 * N : Nat) : Int) ≠ 0 := by
      intro h0
      apply hdvd
      have h2 : ((2 * N : Nat) : Int) ∣ P := Int.dvd_of_emod_eq_zero h0
      obtain ⟨k, hk⟩ := h2
      refine ⟨2 * k - 2 * s - 1, ?_⟩
      push_cast at hk
      have : 2 * Q = 2 * (N : Int) * k - 2 * s * N - N := by rw [hP] at hk; linarith
      rw [this]; ring
    have hfrac : (s : ℚ) + (Q : ℚ) / N + 1 / 2 = (P : ℚ) / ((2 * N : Nat) : ℚ) := by
      rw [hP]; push_cast; field_simp; ring
    have hsmall : (1 : ℚ) / 2 ^ 43 < 1 / ((2 * N : Nat) : ℚ) := by
      have h2N : ((2 * N : Nat) : ℚ) < 2 ^ 43 := by
        have : 2 * N < 2 ^ 43 := by omega
        exact_mod_cast this
      have h2Npos : (0 : ℚ) < ((2 * N : Nat) : ℚ) := by
        exact_mod_cast (show 0 < 2 * N by omega)
      exact one_div_lt_one_div_of_lt h2Npos h2N
    have f1 : ⌊x + 1 / 2⌋ = P / ((2 * N : Nat) : Int) := by
      apply floor_eq_of_near P (2 * N) (by omega) hPne
      rw [← hfrac, abs_lt]
      have h43 : (1 : ℚ) / 2 ^ 44 + 1 / 2 ^ 45 < 1 / 2 ^ 43 := by norm_num
      constructor <;> linarith [eq.1, eq.2, ex.1, ex.2]
    have f2 : ⌊(s : ℚ) + (Q : ℚ) / N + 1 / 2⌋ = P / ((2 * N : Nat) : Int) := by
      apply floor_eq_of_near P (2 * N) (by omega) hPne
      rw [← hfrac, sub_self, abs_zero]
      exact lt_trans (by norm_num) hsmall
    rw [f1, f2]

theorem isqrtBits_spec : ∀ (b n acc : Nat), acc ^ 2 ≤ n → n < (acc + 2 ^ b) ^ 2 →
    isqrtBits b n acc ^ 2 ≤ n ∧ n < (isqrtBits b n acc + 1) ^ 2 := by
  intro b
  induction b with
  | zero => intro n acc h1 h2; simpa [isqrtBits] using ⟨h1, h2⟩
  | succ b ih =>
    intro n acc h1 h2
    unfold isqrtBits
    by_cases hc : (acc + 2 ^ b) ^ 2 ≤ n
    · simp only [hc, if_true]
      apply ih _ _ hc
      have : acc + 2 ^ b + 2 ^ b = acc + 2 ^ (b + 1) := by rw [pow_succ]; omega
      rw [this]; exact h2
    · simp only [hc, if_false]
      exact ih _ _ h1 (by omega)

theorem isqrt_spec (n : Nat) : isqrt n ^ 2 ≤ n ∧ n < (isqrt n + 1) ^ 2 := by
  unfold isqrt
  apply isqrtBits_spec _ _ _ (by simp)
  by_cases h0 : n = 0
  · subst h0; simp
  · obtain ⟨_, h2⟩ := log2_spec n h0
    have : 2 ^ (log2 n + 1) ≤ (0 + 2 ^ (log2 n / 2 + 1)) ^ 2 := by
      rw [Nat.zero_add, ← pow_mul]
      apply Nat.pow_le_pow_right (by norm_num)
      omega
    omega

/-- The choice between the integer square root and its successor brackets the argument
within half a unit. -/
theorem sqrt_choice (z : ℚ) (m : Nat) (hm1 : 1 ≤ m) (h1 : (m : ℚ) ^ 2 ≤ z)
    (h2 : z < ((m : ℚ) + 1) ^ 2) (r : Nat)
    (hr : r = (if z < ((m : ℚ) + 1 / 2) * ((m : ℚ) + 1 / 2) then m
        else if ((m : ℚ) + 1 / 2) * ((m : ℚ) + 1 / 2) < z then m + 1
        else if m % 2 = 0 then m else m + 1)) :
    1 ≤ r ∧ ((r : ℚ) - 1 / 2) ^ 2 ≤ z ∧ z ≤ ((r : ℚ) + 1 / 2) ^ 2 := by
  have hmq : (1 : ℚ) ≤ m := by exact_mod_cast hm1
  split_ifs at hr with c1 c2 c3
  · rw [hr]
    exact ⟨hm1, by nlinarith, by nlinarith⟩
  · rw [hr]
    refine ⟨by omega, ?_, ?_⟩
    · push_cast; nlinarith
    · push_cast; nlinarith
  · rw [hr]
    have : z = ((m : ℚ) + 1 / 2) * ((m : ℚ) + 1 / 2) :=
      le_antisymm (not_lt.mp c2) (not_lt.mp c1)
    exact ⟨hm1, by nlinarith, by rw [this]; nlinarith⟩
  · rw [hr]
    have : z = ((m : ℚ) + 1 / 2) * ((m : ℚ) + 1 / 2) :=
      le_antisymm (not_lt.mp c2) (not_lt.mp c1)
    refine ⟨by omega, ?_, ?_⟩
    · rw [this]; push_cast; nlinarith
    · push_cast; nlinarith

/-- The rounded square root is a multiple `r * u` of its unit in the last place, and the
argument lies between the squares of `(r - 1/2) * u` and `(r + 1/2) * u`. -/
theorem sqrtRN_spec (q : ℚ) (hq : 0 < q) :
    ∃ (r : Nat) (u : ℚ), u = pow2 ((exponent q - exponent q % 2) / 2 - 52) ∧ 1 ≤ r ∧
      sqrtRN q = (r : ℚ) * u ∧
      ((r : ℚ) - 1 / 2) ^ 2 ≤ q / (u * u) ∧ q / (u * u) ≤ ((r : ℚ) + 1 / 2) ^ 2 := by
  obtain ⟨e1, _⟩ := exponent_spec q (ne_of_gt hq)
  rw [abs_of_pos hq] at e1
  unfold sqrtRN
  simp only []
  generalize exponent q = e at *
  generalize hu : pow2 ((e - e % 2) / 2 - 52) = u
  have hupos : 0 < u := by rw [← hu]; exact pow2_pos _
  have huu : u * u ≤ pow2 (e - 104) := by
    rw [← hu, ← pow2_add, pow2_le_iff]
    omega
  generalize hz : q / (u * u) = z
  have hz1 : 1 ≤ z := by
    rw [← hz, le_div_iff₀ (mul_pos hupos hupos), one_mul]
    calc u * u ≤ pow2 (e - 104) := huu
      _ ≤ pow2 e := (pow2_le_iff _ _).mpr (by omega)
      _ ≤ q := e1
  have hz0 : 0 ≤ z := le_trans (by norm_num) hz1
  have hfl0 : 0 ≤ ⌊z⌋ := Int.floor_nonneg.mpr hz0
  obtain ⟨k, hk⟩ := Int.eq_ofNat_of_zero_le hfl0
  have hkz : (k : ℚ) ≤ z := by
    have := Int.floor_le z
    rw [hk] at this
    exact_mod_cast this
  have hzk : z < (k : ℚ) + 1 := by
    have := Int.lt_floor_add_one z
    rw [hk] at this
    exact_mod_cast this
  have hk1 : 1 ≤ k := by
    have : (1 : Int) ≤ ⌊z⌋ := Int.le_floor.mpr (by exact_mod_cast hz1)
    omega
  rw [hk, Int.toNat_ofNat]
  obtain ⟨m1, m2⟩ := isqrt_spec k
  generalize isqrt k = m at *
  have hm1 : 1 ≤ m := by
    by_contra hlt
    have : m = 0 := by omega
    rw [this] at m2
    omega
  have hmq1 : ((m : ℚ)) ^ 2 ≤ z := by
    have : ((m ^ 2 : Nat) : ℚ) ≤ (k : ℚ) := by exact_mod_cast m1
    push_cast at this
    linarith
  have hmq2 : z < ((m : ℚ) + 1) ^ 2 := by
    have : ((k + 1 : Nat) : ℚ) ≤ (((m + 1) ^ 2 : Nat) : ℚ) := by exact_mod_cast m2
    push_cast at this
    linarith
  obtain ⟨r1, r2, r3⟩ := sqrt_choice z m hm1 hmq1 hmq2 _ rfl
  refine ⟨_, u, rfl, r1, rfl, ?_, ?_⟩
  · rw [hz]; exact r2
  · rw [hz]; exact r3

/-- On a natural number from 1 up to `2 ^ 44`, the rounded root `y` brackets the
argument between `(y - h) ^ 2` and `(y + h) ^ 2` for a half unit `h` of at most `2 ^ -32`. -/
theorem sqrtRN_bounds (n : Nat) (h1 : 1 ≤ n) (h2 : n < 2 ^ 44) :
    ∃ h : ℚ, 0 < h ∧ h ≤ 1 / 2 ^ 32 ∧ h < sqrtRN n ∧ sqrtRN n ≤ 2 ^ 22 + 1 ∧
      (sqrtRN n - h) ^ 2 ≤ n ∧ (n : ℚ) ≤ (sqrtRN n + h) ^ 2 := by
  have hq : (0 : ℚ) < n := by exact_mod_cast h1
  obtain ⟨r, u, hu, r1, r2, r3, r4⟩ := sqrtRN_spec n hq
  obtain ⟨_, e2⟩ := exponent_spec (n : ℚ) (ne_of_gt hq)
  rw [abs_of_pos hq] at e2
  have he : exponent (n : ℚ) ≤ 43 := by
    by_contra hlt
    have h44 : pow2 44 ≤ pow2 (exponent (n : ℚ)) := (pow2_le_iff _ _).mpr (by omega)
    have : (n : ℚ) < 2 ^ 44 := by exact_mod_cast h2
    have e44 : pow2 44 = 2 ^ 44 := by rw [pow2_eq_zpow]; norm_num
    have : pow2 (exponent (n : ℚ)) ≤ (n : ℚ) := (exponent_spec (n : ℚ) (ne_of_gt hq)).1.trans
      (le_of_eq (abs_of_pos hq))
    linarith
  have hupos : 0 < u := by rw [hu]; exact pow2_pos _
  have hu31 : u ≤ 1 / 2 ^ 31 := by
    have : u ≤ pow2 (-31) := by rw [hu, pow2_le_iff]; omega
    have e31 : pow2 (-31) = 1 / 2 ^ 31 := by rw [pow2_eq_zpow]; norm_num [zpow_neg]
    linarith
  have hrq : (1 : ℚ) ≤ r := by exact_mod_cast r1
  have huu : 0 < u * u := mul_pos hupos hupos
  rw [le_div_iff₀ huu] at r3
  rw [div_le_iff₀ huu] at r4
  have hlow : (sqrtRN n - u / 2) ^ 2 ≤ n := by rw [r2]; nlinarith
  have hhigh : (n : ℚ) ≤ (sqrtRN n + u / 2) ^ 2 := by rw [r2]; nlinarith
  have hlt : u / 2 < sqrtRN n := by rw [r2]; nlinarith
  refine ⟨u / 2, by linarith, by linarith, hlt, ?_, hlow, hhigh⟩
  by_contra hbig
  have hn : (n : ℚ) < 2 ^ 44 := by exact_mod_cast h2
  have : (2 : ℚ) ^ 22 ≤ sqrtRN n - u / 2 := by linarith
  nlinarith

/-- The square root of a natural number as the code computes it. -/
theorem F64.sqrt_nat (n : Nat) :
    F64.sqrt (.fin n) = .fin (if n = 0 then 0 else sqrtRN n) := by
  unfold F64.sqrt
  by_cases h : n = 0
  · subst h; simp
  · have : (0 : ℚ) < n := by exact_mod_cast Nat.pos_of_ne_zero h
    simp [h, not_lt.mpr (le_of_lt this), ne_of_gt this]

/-- The rounded square root is strictly increasing on the natural numbers below `2 ^ 44`. -/
theorem sqrtRN_strict (n k : Nat) (hnk : n < k) (hk : k < 2 ^ 44) :
    (if n = 0 then (0 : ℚ) else sqrtRN n) < (if k = 0 then (0 : ℚ) else sqrtRN k) := by
  have hk0 : k ≠ 0 := by omega
  obtain ⟨h', a1, a2, a3, a4, a5, a6⟩ := sqrtRN_bounds k (by omega) hk
  rw [if_neg hk0]
  by_cases hn0 : n = 0
  · rw [if_pos hn0]; linarith
  · rw [if_neg hn0]
    obtain ⟨h, b1, b2, b3, b4, b5, b6⟩ := sqrtRN_bounds n (by omega) (by omega)
    by_contra hle
    have hle : sqrtRN k ≤ sqrtRN n := not_lt.mp hle
    have hnk1 : (n : ℚ) + 1 ≤ k := by exact_mod_cast hnk
    generalize sqrtRN (k : ℚ) = y' at *
    generalize sqrtRN (n : ℚ) = y at *
    have c1 : (y' + h') ^ 2 ≤ (y + h') ^ 2 := by nlinarith
    have c2 : (y + h') ^ 2 - (y - h) ^ 2 = (h + h') * (2 * y + h' - h) := by ring
    have c3 : (h + h') * (2 * y + h' - h) ≤ (2 / 2 ^ 32) * (2 * (2 ^ 22 + 1) + 1) := by
      apply mul_le_mul (by linarith) (by linarith) (by linarith) (by norm_num)
    have c4 : (2 / 2 ^ 32 : ℚ) * (2 * (2 ^ 22 + 1) + 1) < 1 := by norm_num
    linarith

/-- Comparing two rounded roots is comparing their arguments. -/
theorem sqrt_lt_iff (n k : Nat) (hn : n < 2 ^ 44) (hk : k < 2 ^ 44) :
    F64.lt (F64.sqrt (.fin n)) (F64.sqrt (.fin k)) = decide (n < k) := by
  rw [F64.sqrt_nat, F64.sqrt_nat]
  show decide (_ < _) = _
  by_cases h : n < k
  · rw [decide_eq_true h, decide_eq_true (sqrtRN_strict n k h hk)]
  · rw [decide_eq_false h]
    rcases Nat.lt_or_ge k n with h2 | h2
    · exact decide_eq_false (not_lt.mpr (le_of_lt (sqrtRN_strict k n h2 hn)))
    · have : n = k := by omega
      subst this
      exact decide_eq_false (lt_irrefl _)

/-- The square of a difference of a bounded integer and a byte is exact in doubles. -/
theorem sub_square_exact (a : Int) (b : Nat) (ha : |a| ≤ 2 ^ 20) (hb : b ≤ 255) :
    ((F64.fin (a : ℚ)).sub (.fin (b : ℚ))).square = .fin (((a - (b : Int)).natAbs ^ 2 : Nat)) ∧
      (a - (b : Int)).natAbs ^ 2 ≤ 2 ^ 42 := by
  have habs := abs_le.mp ha
  have hd : (a - (b : Int)).natAbs ≤ 2 ^ 21 := by omega
  have hsq : (a - (b : Int)).natAbs ^ 2 ≤ 2 ^ 42 := by
    calc (a - (b : Int)).natAbs ^ 2 ≤ (2 ^ 21) ^ 2 := Nat.pow_le_pow_left hd 2
      _ = 2 ^ 42 := by norm_num
  refine ⟨?_, hsq⟩
  have h1 : (F64.fin (a : ℚ)).sub (.fin (b : ℚ)) = .fin ((a - (b : Int) : Int) : ℚ) := by
    rw [F64.sub_fin]
    have : (a : ℚ) - (b : ℚ) = ((a - (b : Int) : Int) : ℚ) := by push_cast; ring
    rw [this]
    apply RN_intCast
    rw [abs_lt]
    constructor <;> omega
  rw [h1, F64.square, F64.mul_fin]
  have h2 : ((a - (b : Int) : Int) : ℚ) * ((a - (b : Int) : Int) : ℚ) =
      (((a - (b : Int)).natAbs ^ 2 : Nat) : ℚ) := by
    have : ((a - (b : Int)).natAbs ^ 2 : Int) = (a - (b : Int)) * (a - (b : Int)) := by
      rw [Int.natAbs_sq]; ring
    have h3 : ((((a - (b : Int)).natAbs ^ 2 : Nat) : Int) : ℚ) =
        (((a - (b : Int)) * (a - (b : Int)) : Int) : ℚ) := by
      congr 1
    rw [Int.cast_natCast] at h3
    rw [h3]; push_cast; ring
  rw [h2]
  apply RN_natCast
  have : (2 : Nat) ^ 42 < 2 ^ 53 := by norm_num
  omega

/-- The distance the code computes from a bounded integer triple to a table value. -/
theorem colorDistance_exact (a1 a2 a3 : Int) (hex : JSString)
    (h1 : |a1| ≤ 2 ^ 20) (h2 : |a2| ≤ 2 ^ 20) (h3 : |a3| ≤ 2 ^ 20)
    (hb1 : pairNat (dropHash hex) 0 ≤ 255) (hb2 : pairNat (dropHash hex) 1 ≤ 255)
    (hb3 : pairNat (dropHash hex) 2 ≤ 255) :
    colorDistance [.int a1, .int a2, .int a3] (hexTriple hex) =
      F64.sqrt (.fin (sqDistance a1 a2 a3 hex : Nat)) ∧ sqDistance a1 a2 a3 hex < 2 ^ 44 := by
  obtain ⟨e1, b1⟩ := sub_square_exact a1 _ h1 hb1
  obtain ⟨e2, b2⟩ := sub_square_exact a2 _ h2 hb2
  obtain ⟨e3, b3⟩ := sub_square_exact a3 _ h3 hb3
  have hlt : sqDistance a1 a2 a3 hex < 2 ^ 44 := by
    unfold sqDistance
    have : (2 : Nat) ^ 44 = 4 * 2 ^ 42 := by norm_num
    omega
  refine ⟨?_, hlt⟩
  have hc : colorDistance [.int a1, .int a2, .int a3] (hexTriple hex) =
      (((((F64.fin (a1 : ℚ)).sub (.fin ((pairNat (dropHash hex) 0 : Nat) : ℚ))).square.add
        ((F64.fin (a2 : ℚ)).sub (.fin ((pairNat (dropHash hex) 1 : Nat) : ℚ))).square).add
        ((F64.fin (a3 : ℚ)).sub (.fin ((pairNat (dropHash hex) 2 : Nat) : ℚ))).square).sqrt) := by
    simp [colorDistance, channelAt, hexTriple, pairValues, JSNum.toF64]
  rw [hc, e1, e2, e3, F64.add_fin]
  have s1 : (((a1 - (pairNat (dropHash hex) 0 : Int)).natAbs ^ 2 : Nat) : ℚ) +
      (((a2 - (pairNat (dropHash hex) 1 : Int)).natAbs ^ 2 : Nat) : ℚ) =
      (((a1 - (pairNat (dropHash hex) 0 : Int)).natAbs ^ 2 +
        (a2 - (pairNat (dropHash hex) 1 : Int)).natAbs ^ 2 : Nat) : ℚ) := by push_cast; ring
  rw [s1, RN_natCast _ (by
    have : (2 : Nat) ^ 42 + 2 ^ 42 < 2 ^ 53 := by norm_num
    omega), F64.add_fin]
  have s2 : (((a1 - (pairNat (dropHash hex) 0 : Int)).natAbs ^ 2 +
        (a2 - (pairNat (dropHash hex) 1 : Int)).natAbs ^ 2 : Nat) : ℚ) +
      (((a3 - (pairNat (dropHash hex) 2 : Int)).natAbs ^ 2 : Nat) : ℚ) =
      ((sqDistance a1 a2 a3 hex : Nat) : ℚ) := by unfold sqDistance; push_cast; ring
  rw [s2, RN_natCast _ (by
    have : (2 : Nat) ^ 44 < 2 ^ 53 := by norm_num
    omega)]

/-- The exact squared distance to a table value is `sqDistance`. -/
theorem squaredDistance_hexTriple (a1 a2 a3 : Int) (hex : JSString) :
    squaredDistance [.int a1, .int a2, .int a3] (hexTriple hex) =
      (sqDistance a1 a2 a3 hex : Int) := by
  simp [squaredDistance, channelInt, hexTriple, pairValues, sqDistance, Int.natAbs_sq]

/-- The loop compares rounded roots as `scanNearest` compares squared distances. -/
theorem lt_leastSoFar (d : Nat) (m : Option Nat) (hd : d < 2 ^ 44)
    (hm : ∀ k, m = some k → k < 2 ^ 44) :
    F64.lt (F64.sqrt (.fin d)) (leastSoFar m) = belowLeast d m := by
  cases m with
  | none => rw [F64.sqrt_nat]; rfl
  | some k => exact sqrt_lt_iff d k hd (hm k rfl)

/-- The binary exponent is the only integer that brackets the absolute value. -/
theorem exponent_eq (q : ℚ) (e : Int) (h1 : pow2 e ≤ |q|) (h2 : |q| < pow2 (e + 1)) :
    exponent q = e := by
  have hq : q ≠ 0 := by
    intro h0
    rw [h0, abs_zero] at h1
    exact absurd (pow2_pos e) (not_lt.mpr h1)
  obtain ⟨s1, s2⟩ := exponent_spec q hq
  have a1 : exponent q < e + 1 := (pow2_lt_iff _ _).mp (lt_of_le_of_lt s1 h2)
  have a2 : e < exponent q + 1 := (pow2_lt_iff _ _).mp (lt_of_le_of_lt h1 s2)
  omega

/-- Rounding a rational less than one half away from an integer gives that integer. -/
theorem roundHalfEven_near (x : ℚ) (n : Int) (h : |x - n| < 1 / 2) : roundHalfEven x = n := by
  rw [abs_lt] at h
  obtain ⟨h1, h2⟩ := h
  unfold roundHalfEven
  by_cases hx : (n : ℚ) ≤ x
  · have hf : ⌊x⌋ = n := Int.floor_eq_iff.mpr ⟨hx, by linarith⟩
    rw [hf, if_pos (by linarith)]
  · have hx : x < n := not_le.mp hx
    have hf : ⌊x⌋ = n - 1 := Int.floor_eq_iff.mpr ⟨by push_cast; linarith, by push_cast; linarith⟩
    rw [hf]
    push_cast
    rw [if_neg (by linarith), if_pos (by linarith)]
    ring

theorem pow2_sub_nat (k : Int) (n : Nat) : pow2 (k - n) = pow2 k / 2 ^ n := by
  rw [show k - (n : Int) = k + (-(n : Int)) by ring, pow2_add, pow2_eq_zpow (-(n : Int)),
    zpow_neg, zpow_natCast]
  rfl

/-- A rational within a quarter of a unit in the last place of `2 ^ k` rounds to `2 ^ k`. -/
theorem RN_absorb (k : Int) (ε : ℚ) (hk1 : -1021 ≤ k) (hk2 : k ≤ 1000)
    (hε : |ε| < pow2 (k - 54)) : RN (pow2 k + ε) = .fin (pow2 k) := by
  rw [abs_lt] at hε
  have a54 : pow2 (k - 54) = pow2 k / 2 ^ 54 := pow2_sub_nat k 54
  have a52 : pow2 (k - 52) = pow2 k / 2 ^ 52 := pow2_sub_nat k 52
  have a53 : pow2 (k - 1 - 52) = pow2 k / 2 ^ 53 := by
    rw [show k - 1 - 52 = k - 53 by ring]; exact pow2_sub_nat k 53
  have apred : pow2 (k - 1) = pow2 k / 2 := pow2_pred k
  have asucc : pow2 (k + 1) = 2 * pow2 k := pow2_succ k
  have hfin : ¬ pow2 1024 ≤ |pow2 k| := by
    rw [abs_of_pos (pow2_pos k), not_le, pow2_lt_iff]; omega
  have hkpos := pow2_pos k
  rw [a54] at hε
  obtain ⟨e1, e2⟩ := hε
  generalize hPk : pow2 k = P at *
  have hP0 : P ≠ 0 := ne_of_gt hkpos
  have hqpos : 0 < P + ε := by linarith [div_le_self (le_of_lt hkpos) (show (1 : ℚ) ≤ 2 ^ 54 by norm_num)]
  have hP54 : P / 2 ^ 54 ≤ P / 4 := by
    apply div_le_div_of_nonneg_left (le_of_lt hkpos) (by norm_num) (by norm_num)
  have hq0 : P + ε ≠ 0 := ne_of_gt hqpos
  by_cases hε0 : 0 ≤ ε
  · have hexp : exponent (P + ε) = k := by
      apply exponent_eq
      · rw [abs_of_pos hqpos, hPk]; linarith
      · rw [abs_of_pos hqpos, asucc]; linarith
    have hr : roundHalfEven ((P + ε) / (P / 2 ^ 52)) = 2 ^ 52 := by
      apply roundHalfEven_near
      have : (P + ε) / (P / 2 ^ 52) - ((2 ^ 52 : Int) : ℚ) = ε * 2 ^ 52 / P := by
        push_cast; field_simp; ring
      rw [this, abs_lt]
      constructor
      · rw [lt_div_iff₀ hkpos]; linarith
      · rw [div_lt_iff₀ hkpos]
        have h4 : P / 2 ^ 54 * 2 ^ 52 = P / 4 := by field_simp; ring
        have : ε * 2 ^ 52 < P / 2 ^ 54 * 2 ^ 52 := by linarith
        linarith
    unfold RN
    rw [if_neg hq0]
    simp only [hexp, max_eq_left (show (-1022 : Int) ≤ k by omega), a52, hr]
    have hy : (((2 ^ 52 : Int) : ℚ)) * (P / 2 ^ 52) = P := by push_cast; ring
    rw [hy, if_neg hfin]
  · have hε0 : ε < 0 := not_le.mp hε0
    have hexp : exponent (P + ε) = k - 1 := by
      apply exponent_eq
      · rw [abs_of_pos hqpos, apred]; linarith
      · rw [abs_of_pos hqpos, sub_add_cancel, hPk]; linarith
    have hr : roundHalfEven ((P + ε) / (P / 2 ^ 53)) = 2 ^ 53 := by
      apply roundHalfEven_near
      have : (P + ε) / (P / 2 ^ 53) - ((2 ^ 53 : Int) : ℚ) = ε * 2 ^ 53 / P := by
        push_cast; field_simp; ring
      rw [this, abs_lt]
      constructor
      · rw [lt_div_iff₀ hkpos]
        have h4 : P / 2 ^ 54 * 2 ^ 53 = P / 2 := by field_simp; ring
        have : -(P / 2 ^ 54) * 2 ^ 53 < ε * 2 ^ 53 := by linarith
        linarith
      · rw [div_lt_iff₀ hkpos]; linarith
    unfold RN
    rw [if_neg hq0]
    simp only [hexp, max_eq_left (show (-1022 : Int) ≤ k - 1 by omega), a53, hr]
    have hy : (((2 ^ 53 : Int) : ℚ)) * (P / 2 ^ 53) = P := by push_cast; ring
    rw [hy, if_neg hfin]

/-! ## Escape sequences in context, splitting and joining -/

theorem inClass_append (r1 r2 : List (Nat × Nat)) (c : Nat) :
    inClass (r1 ++ r2) c = (inClass r1 c || inClass r2 c) := by
  simp [inClass, List.any_append]

/-- A quantifier sees the text that follows its input only through its body. -/
theorem repeatMatcher_append (m : JSString → List JSString) (T : JSString)
    (hm : ∀ x, m (x ++ T) = (m x).map (· ++ T)) :
    ∀ (max min : Nat) (x : JSString),
      repeatMatcher m min max (x ++ T) = (repeatMatcher m min max x).map (· ++ T) := by
  intro max
  induction max with
  | zero => intro min x; simp [repeatMatcher_zero]
  | succ max ih =>
    intro min x
    have hbody : (m (x ++ T)).flatMap (fun y =>
          if min = 0 ∧ y.length = (x ++ T).length then [] else repeatMatcher m (min - 1) max y) =
        ((m x).flatMap (fun y =>
          if min = 0 ∧ y.length = x.length then [] else repeatMatcher m (min - 1) max y)).map
          (· ++ T) := by
      rw [hm, List.flatMap_map, List.map_flatMap]
      apply List.flatMap_congr
      intro y _
      by_cases hc : min = 0 ∧ y.length = x.length
      · simp [hc]
      · have hc' : ¬ (min = 0 ∧ (y ++ T).length = (x ++ T).length) := by
          simp only [List.length_append, add_left_inj]; exact hc
        simp only [hc, hc', if_false]
        exact ih _ _
    rw [repeatMatcher_succ, repeatMatcher_succ]
    by_cases h0 : min ≠ 0
    · rw [if_pos h0, if_pos h0, hbody]
    · rw [if_neg h0, if_neg h0, hbody, List.map_append, List.map_cons, List.map_nil]

/-- A code unit that is in no class of a regular expression ends every match before it:
the ways of matching in front of it are those on the text before it. -/
theorem run_append (r : Regex) (c : Nat) (t : JSString) :
    inClass r.classes c = false → ∀ s, r.run (s ++ c :: t) = (r.run s).map (· ++ c :: t) := by
  induction r with
  | cls ranges =>
    intro h s
    cases s with
    | nil =>
      simp only [Regex.classes] at h
      simp [run_cls_cons, run_cls_nil, h]
    | cons d s =>
      rw [List.cons_append, run_cls_cons, run_cls_cons]
      by_cases hd : inClass ranges d = true <;> simp [hd]
  | seq a b iha ihb =>
    intro h s
    simp only [Regex.classes, inClass_append, Bool.or_eq_false_iff] at h
    rw [run_seq, run_seq, iha h.1, List.flatMap_map, List.map_flatMap]
    apply List.flatMap_congr
    intro y _
    exact ihb h.2 y
  | rep a min max ih =>
    intro h s
    simp only [Regex.classes] at h
    rw [run_rep, run_rep]
    exact repeatMatcher_append _ _ (ih h) _ _ _
  | star a ih =>
    intro h s
    simp only [Regex.classes] at h
    rw [run_star_bound a s (s ++ c :: t).length (by simp), run_star]
    exact repeatMatcher_append _ _ (ih h) _ _ _
  | opt a ih =>
    intro h s
    simp only [Regex.classes] at h
    rw [run_opt, run_opt]
    exact repeatMatcher_append _ _ (ih h) _ _ _

theorem ansiRegex_eq : ansiRegex = .seq (.cls [(ESC, ESC), (CSI, CSI)]) ansiTail := rfl

/-- The match at the start of a non-empty text is the same in front of a text that
stops. -/
theorem matchAt_append (d : Nat) (s T : JSString) (hT : stops T) :
    ansiRegex.matchAt (d :: s ++ T) = (ansiRegex.matchAt (d :: s)).map (· ++ T) := by
  cases T with
  | nil => simp
  | cons c t =>
    have hc : inClass ansiTail.classes c = false := by
      have := hT c (by simp)
      simpa [inert] using this
    simp only [Regex.matchAt, ansiRegex_eq, run_seq, List.cons_append, run_cls_cons]
    by_cases hd : inClass [(ESC, ESC), (CSI, CSI)] d = true
    · simp only [hd, if_true, List.flatMap_cons, List.flatMap_nil, List.append_nil]
      rw [run_append ansiTail c t hc s, List.head?_map]
    · simp [hd]

theorem strip_cons_some_ge (c : Nat) (t rest : JSString)
    (h : ansiRegex.matchAt (c :: t) = some rest) (hl : ¬ rest.length < (c :: t).length) :
    strip (c :: t) = c :: strip t := by
  simp only [strip, List.length_cons, replaceAllEmpty, h]
  simp only [List.length_cons] at hl
  simp only [hl, if_false]

/-- Stripping in context: in front of a text that stops, a text is stripped as it is on its
own. -/
theorem strip_append (T : JSString) (hT : stops T) :
    ∀ (n : Nat) (s : JSString), s.length ≤ n → strip (s ++ T) = strip s ++ strip T := by
  intro n
  induction n with
  | zero =>
    intro s hs
    have : s = [] := List.length_eq_zero.mp (Nat.le_zero.mp hs)
    subst this
    simp [strip_nil]
  | succ n ih =>
    intro s hs
    cases s with
    | nil => simp [strip_nil]
    | cons d s =>
      have hm := matchAt_append d s T hT
      cases hmatch : ansiRegex.matchAt (d :: s) with
      | none =>
        rw [hmatch] at hm
        rw [strip_cons_none d s hmatch, List.cons_append, strip_cons_none d (s ++ T) hm,
          ih s (by simpa using hs), List.cons_append]
      | some rest =>
        rw [hmatch] at hm
        simp only [Option.map_some'] at hm
        have hle : rest.length ≤ (d :: s).length :=
          run_length_le ansiRegex _ _ (List.mem_of_mem_head? hmatch)
        by_cases hl : rest.length < (d :: s).length
        · rw [strip_cons_some d s rest hmatch hl, List.cons_append,
            strip_cons_some d (s ++ T) (rest ++ T) hm (by
              simp only [List.length_cons, List.length_append] at hl ⊢; omega)]
          exact ih rest (by simp only [List.length_cons] at hl hs; omega)
        · rw [strip_cons_some_ge d s rest hmatch hl, List.cons_append,
            strip_cons_some_ge d (s ++ T) (rest ++ T) hm (by
              simp only [List.length_cons, List.length_append] at hl ⊢; omega),
            ih s (by simpa using hs), List.cons_append]

theorem strip_append_stops (s T : JSString) (hT : stops T) :
    strip (s ++ T) = strip s ++ strip T := strip_append T hT s.length s (le_refl _)

theorem jsRepeat_nonneg (s : JSString) (n : Int) (h : 0 ≤ n) :
    jsRepeat s n = .ok (List.replicate n.toNat s).flatten := by
  unfold jsRepeat
  rw [if_neg (by omega)]

theorem jsRepeat_natCast (s : JSString) (k : Nat) :
    jsRepeat s (k : Int) = .ok (List.replicate k s).flatten := by
  rw [jsRepeat_nonneg s _ (by omega), Int.toNat_ofNat]

theorem replicate_flatten_single (c k : Nat) :
    (List.replicate k [c]).flatten = List.replicate k c := by
  induction k with
  | zero => rfl
  | succ k ih => simp [List.replicate_succ, ih]

theorem jsRepeat_space (k : Nat) : jsRepeat (js " ") (k : Int) = .ok (spaces k) := by
  rw [jsRepeat_natCast]
  exact congrArg _ (replicate_flatten_single 32 k)

theorem jsRepeat_dash (k : Nat) : jsRepeat (js "─") (k : Int) = .ok (dashes k) := by
  rw [jsRepeat_natCast]
  exact congrArg _ (replicate_flatten_single 0x2500 k)

theorem floorHalf_eq (x : Int) : floorHalf x = x / 2 := by
  unfold floorHalf
  exact_mod_cast Rat.floor_intCast_div_natCast x 2

theorem plain_space : plain 32 := by unfold plain ESC CSI; decide

theorem plain_dash : plain 0x2500 := by unfold plain ESC CSI; decide

theorem strip_replicate (c k : Nat) (hc : plain c) (T : JSString) :
    strip (List.replicate k c ++ T) = List.replicate k c ++ strip T :=
  strip_plain_append _ _ (fun d hd => by rw [List.eq_of_mem_replicate hd]; exact hc)

theorem strip_replicate_self (c k : Nat) (hc : plain c) :
    strip (List.replicate k c) = List.replicate k c := by
  have := strip_replicate c k hc []
  simpa [strip_nil] using this

theorem stops_nil : stops [] := by simp [stops]

theorem stops_cons (c : Nat) (t : JSString) (h : inert c = true) : stops (c :: t) := by
  intro d hd
  simp only [List.head?_cons, Option.mem_def, Option.some.injEq] at hd
  rw [← hd]; exact h

theorem inert_space : inert 32 = true := by decide

theorem inert_ESC : inert ESC = true := by decide

/-- A run of an inert code unit stops, whatever follows it, once what follows stops. -/
theorem stops_replicate (c k : Nat) (hc : inert c = true) (T : JSString) (hT : stops T) :
    stops (List.replicate k c ++ T) := by
  cases k with
  | zero => simpa using hT
  | succ k => exact stops_cons c _ hc

/-- In front of a run of spaces a text is stripped as it is on its own. -/
theorem strip_append_spaces (s : JSString) (k : Nat) (T : JSString) (hT : stops T) :
    strip (s ++ (spaces k ++ T)) = strip s ++ (spaces k ++ strip T) := by
  unfold spaces
  rw [strip_append_stops s _ (stops_replicate 32 k inert_space T hT),
    strip_replicate 32 k plain_space]

theorem mapThrowing_ok {α β : Type} (f : α → Except JSError β) (g : α → β) :
    ∀ l : List α, (∀ x ∈ l, f x = .ok (g x)) → mapThrowing f l = .ok (l.map g) := by
  intro l
  induction l with
  | nil => intro _; rfl
  | cons x xs ih =>
    intro h
    unfold mapThrowing
    rw [h x (List.mem_cons_self _ _), ih (fun y hy => h y (List.mem_cons_of_mem _ hy))]
    rfl

theorem foldl_max_init (f : JSString → Nat) :
    ∀ (l : List JSString) (m : Nat), m ≤ l.foldl (fun mx x => max mx (f x)) m := by
  intro l
  induction l with
  | nil => intro m; exact le_refl _
  | cons x xs ih =>
    intro m
    rw [List.foldl_cons]
    exact le_trans (le_max_left _ _) (ih _)

/-- Every element is at most the maximum that the `reduce` computes. -/
theorem le_foldl_max (f : JSString → Nat) :
    ∀ (l : List JSString) (m : Nat), ∀ x ∈ l, f x ≤ l.foldl (fun mx x => max mx (f x)) m := by
  intro l
  induction l with
  | nil => intro m x hx; simp at hx
  | cons y ys ih =>
    intro m x hx
    rw [List.foldl_cons]
    rcases List.mem_cons.mp hx with rfl | hx
    · exact le_trans (le_max_right _ _) (foldl_max_init f ys _)
    · exact ih _ x hx

theorem split_ne_nil (sep : Nat) (s : JSString) : split sep s ≠ [] := by
  cases s with
  | nil => simp [split]
  | cons c t =>
    unfold split
    by_cases h : c = sep
    · simp [h]
    · simp only [h, if_false]
      cases split sep t <;> simp

theorem split_of_not_mem (sep : Nat) : ∀ s : JSString, sep ∉ s → split sep s = [s] := by
  intro s
  induction s with
  | nil => intro _; rfl
  | cons c t ih =>
    intro h
    simp only [List.mem_cons, not_or] at h
    unfold split
    rw [if_neg (fun e => h.1 e.symm), ih h.2]

theorem split_sep_cons (sep : Nat) (s : JSString) : split sep (sep :: s) = [] :: split sep s := by
  rw [split, if_pos rfl]

theorem split_append_sep (sep : Nat) (b : JSString) :
    ∀ a : JSString, split sep (a ++ sep :: b) = split sep a ++ split sep b := by
  intro a
  induction a with
  | nil => rw [List.nil_append, split_sep_cons]; rfl
  | cons c a ih =>
    by_cases h : c = sep
    · subst h
      rw [List.cons_append, split_sep_cons, split_sep_cons, ih]; rfl
    · rw [List.cons_append]
      have e1 : split sep (c :: (a ++ sep :: b)) =
          (match split sep (a ++ sep :: b) with
            | [] => [[c]]
            | w :: ws => (c :: w) :: ws) := by
        conv_lhs => unfold split
        simp only [h, if_false]
      have e2 : split sep (c :: a) =
          (match split sep a with
            | [] => [[c]]
            | w :: ws => (c :: w) :: ws) := by
        conv_lhs => unfold split
        simp only [h, if_false]
      rw [e1, e2, ih]
      cases hs : split sep a with
      | nil => exact absurd hs (split_ne_nil sep a)
      | cons w ws => rfl

theorem not_mem_of_mem_split (sep : Nat) :
    ∀ (s w : JSString), w ∈ split sep s → sep ∉ w := by
  intro s
  induction s with
  | nil => intro w hw; simp [split] at hw; subst hw; simp
  | cons c t ih =>
    intro w hw
    unfold split at hw
    by_cases h : c = sep
    · simp only [h, if_true, List.mem_cons] at hw
      rcases hw with rfl | hw
      · simp
      · exact ih w hw
    · simp only [h, if_false] at hw
      cases hs : split sep t with
      | nil => exact absurd hs (split_ne_nil sep t)
      | cons v vs =>
        rw [hs] at hw
        simp only [List.mem_cons] at hw
        rcases hw with rfl | hw
        · have := ih v (by rw [hs]; exact List.mem_cons_self _ _)
          simp only [List.mem_cons, not_or]
          exact ⟨fun e => h e.symm, this⟩
        · exact ih w (by rw [hs]; exact List.mem_cons_of_mem _ hw)

/-- A code unit that is not in the text is in none of its pieces. -/
theorem not_mem_of_mem_split_of_not_mem (sep d : Nat) :
    ∀ (s w : JSString), d ∉ s → w ∈ split sep s → d ∉ w := by
  intro s
  induction s with
  | nil => intro w _ hw; simp [split] at hw; subst hw; simp
  | cons c t ih =>
    intro w hd hw
    simp only [List.mem_cons, not_or] at hd
    unfold split at hw
    by_cases h : c = sep
    · simp only [h, if_true, List.mem_cons] at hw
      rcases hw with rfl | hw
      · simp
      · exact ih w hd.2 hw
    · simp only [h, if_false] at hw
      cases hs : split sep t with
      | nil => exact absurd hs (split_ne_nil sep t)
      | cons v vs =>
        rw [hs] at hw
        simp only [List.mem_cons] at hw
        rcases hw with rfl | hw
        · have := ih v hd.2 (by rw [hs]; exact List.mem_cons_self _ _)
          simp only [List.mem_cons, not_or]
          exact ⟨hd.1, this⟩
        · exact ih w hd.2 (by rw [hs]; exact List.mem_cons_of_mem _ hw)

theorem join_append_singleton (sep : JSString) (l : JSString) :
    ∀ closed : List JSString,
      join sep (closed ++ [l]) = closed.flatMap (· ++ sep) ++ l := by
  intro closed
  induction closed with
  | nil => simp [join, List.intercalate]
  | cons x xs ih =>
    unfold join at ih ⊢
    cases hxs : xs ++ [l] with
    | nil => simp at hxs
    | cons y ys =>
      rw [List.cons_append, hxs]
      simp only [List.intercalate, List.intersperse, List.flatten_cons, List.flatMap_cons,
        List.append_assoc]
      rw [hxs] at ih
      simp only [List.intercalate] at ih
      rw [ih]

/-- Splitting a joined list gives the list back when no piece holds the separator. -/
theorem split_join (sep : Nat) :
    ∀ (ls : List JSString), ls ≠ [] → (∀ l ∈ ls, sep ∉ l) → split sep (join [sep] ls) = ls := by
  intro ls
  induction ls with
  | nil => intro h; exact absurd rfl h
  | cons x xs ih =>
    intro _ hall
    cases xs with
    | nil =>
      simp only [join, List.intercalate, List.intersperse, List.flatten_cons, List.flatten_nil,
        List.append_nil]
      exact split_of_not_mem sep x (hall x (List.mem_cons_self _ _))
    | cons y ys =>
      have hj : join [sep] (x :: y :: ys) = x ++ sep :: join [sep] (y :: ys) := by
        simp [join, List.intercalate, List.intersperse]
      rw [hj, split_append_sep, split_of_not_mem sep x (hall x (List.mem_cons_self _ _)),
        ih (by simp) (fun l hl => hall l (List.mem_cons_of_mem _ hl))]
      rfl

/-- The loop of `wrap` on strings builds the joined lines of `wrapLines`. -/
theorem wrap_fold (width : Int) :
    ∀ (words : List JSString) (line : JSString) (closed : List JSString),
      ((words.foldl (wrapStep width) (line, closed.flatMap (· ++ js "\n"))).2 ++
        (words.foldl (wrapStep width) (line, closed.flatMap (· ++ js "\n"))).1) =
      join (js "\n") (wrapLines width words line closed) := by
  intro words
  induction words with
  | nil =>
    intro line closed
    simp only [List.foldl_nil, wrapLines]
    rw [join_append_singleton]
  | cons word rest ih =>
    intro line closed
    rw [List.foldl_cons]
    unfold wrapLines
    by_cases hc : ((strip (line ++ js " " ++ word)).length : Int) ≤ width
    · have hs : wrapStep width (line, closed.flatMap (· ++ js "\n")) word =
          (line ++ ((if line.length > 0 then js " " else js "") ++ word),
            closed.flatMap (· ++ js "\n")) := by
        simp only [wrapStep, hc, if_true]
      rw [hs, if_pos hc]
      exact ih _ _
    · have hs : wrapStep width (line, closed.flatMap (· ++ js "\n")) word =
          (word, (closed ++ [line]).flatMap (· ++ js "\n")) := by
        simp only [wrapStep, hc, if_false, List.flatMap_append, List.flatMap_cons,
          List.flatMap_nil, List.append_nil]
      rw [hs, if_neg hc]
      exact ih _ _

theorem wrap_eq (text : JSString) (width : Int) :
    wrap text width = join (js "\n") (wrapLines width (split 32 text) [] []) := by
  have := wrap_fold width (split 32 text) [] []
  simpa [wrap] using this

theorem wrapLines_ne_nil (width : Int) :
    ∀ (words : List JSString) (line : JSString) (closed : List JSString),
      wrapLines width words line closed ≠ [] := by
  intro words
  induction words with
  | nil => intro line closed; simp [wrapLines]
  | cons word rest ih =>
    intro line closed
    unfold wrapLines
    by_cases hcond : ((strip (line ++ js " " ++ word)).length : Int) ≤ width
    · rw [if_pos hcond]; exact ih _ _
    · rw [if_neg hcond]; exact ih _ _

/-- Every line of `wrapLines` has a property that the starting lines have, that every word
has, and that a line extended by a word within the width keeps. -/
theorem wrapLines_forall (width : Int) (P : JSString → Prop) :
    ∀ (words : List JSString), (∀ w ∈ words, P w) →
      (∀ (line : JSString) (w : JSString), w ∈ words → P line →
        ((strip (line ++ js " " ++ w)).length : Int) ≤ width →
        P (line ++ ((if line.length > 0 then js " " else js "") ++ w))) →
      ∀ (line : JSString) (closed : List JSString), P line → (∀ l ∈ closed, P l) →
        ∀ l ∈ wrapLines width words line closed, P l := by
  intro words
  induction words with
  | nil =>
    intro _ _ line closed hl hc l hmem
    simp only [wrapLines, List.mem_append, List.mem_singleton] at hmem
    rcases hmem with h | rfl
    · exact hc l h
    · exact hl
  | cons word rest ih =>
    intro hw hstep line closed hl hc l hmem
    have hw' : ∀ w ∈ rest, P w := fun w h => hw w (List.mem_cons_of_mem _ h)
    have hstep' : ∀ (line : JSString) (w : JSString), w ∈ rest → P line →
        ((strip (line ++ js " " ++ w)).length : Int) ≤ width →
        P (line ++ ((if line.length > 0 then js " " else js "") ++ w)) :=
      fun line w h => hstep line w (List.mem_cons_of_mem _ h)
    unfold wrapLines at hmem
    by_cases hcond : ((strip (line ++ js " " ++ word)).length : Int) ≤ width
    · rw [if_pos hcond] at hmem
      exact ih hw' hstep' _ _ (hstep line word (List.mem_cons_self _ _) hl hcond) hc l hmem
    · rw [if_neg hcond] at hmem
      refine ih hw' hstep' _ _ (hw word (List.mem_cons_self _ _)) ?_ l hmem
      intro x hx
      simp only [List.mem_append, List.mem_singleton] at hx
      rcases hx with h | rfl
      · exact hc x h
      · exact hl

theorem wordsOf_append (A B : List JSString) : wordsOf (A ++ B) = wordsOf A ++ wordsOf B := by
  simp [wordsOf, List.flatMap_append]

theorem wordsOf_word (w : JSString) (h : 32 ∉ w) :
    wordsOf [w] = [w].filter (fun w => !w.isEmpty) := by
  simp [wordsOf, split_of_not_mem 32 w h]

theorem wordsOf_extend (line w : JSString) (h : 32 ∉ w) :
    wordsOf [line ++ ((if line.length > 0 then js " " else js "") ++ w)] =
      wordsOf [line] ++ [w].filter (fun w => !w.isEmpty) := by
  cases line with
  | nil =>
    have e : ([] : JSString) ++ ((if ([] : JSString).length > 0 then js " " else js "") ++ w) = w := by
      simp [show js "" = [] from rfl]
    rw [e, wordsOf_word w h]
    simp [wordsOf, split]
  | cons c t =>
    have e : (c :: t) ++ ((if (c :: t).length > 0 then js " " else js "") ++ w) =
        (c :: t) ++ 32 :: w := by
      simp [show js " " = [32] from rfl]
    rw [e]
    simp only [wordsOf, List.flatMap_cons, List.flatMap_nil, List.append_nil]
    rw [split_append_sep, split_of_not_mem 32 w h, List.filter_append]

/-- The loop of `wrap` keeps the non-empty words, in order. -/
theorem wordsOf_wrapLines (width : Int) :
    ∀ (words : List JSString), (∀ w ∈ words, 32 ∉ w) →
      ∀ (line : JSString) (closed : List JSString),
        wordsOf (wrapLines width words line closed) =
          wordsOf (closed ++ [line]) ++ words.filter (fun w => !w.isEmpty) := by
  intro words
  induction words with
  | nil => intro _ line closed; simp [wrapLines]
  | cons word rest ih =>
    intro hw line closed
    have hw' : ∀ w ∈ rest, 32 ∉ w := fun w h => hw w (List.mem_cons_of_mem _ h)
    have hword := hw word (List.mem_cons_self _ _)
    have hf : (word :: rest).filter (fun w => !w.isEmpty) =
        [word].filter (fun w => !w.isEmpty) ++ rest.filter (fun w => !w.isEmpty) := by
      rw [← List.filter_append]; rfl
    unfold wrapLines
    by_cases hcond : ((strip (line ++ js " " ++ word)).length : Int) ≤ width
    · rw [if_pos hcond, ih hw', wordsOf_append, wordsOf_extend line word hword, wordsOf_append,
        hf]
      simp only [List.append_assoc]
    · rw [if_neg hcond, ih hw']
      simp only [wordsOf_append, wordsOf_word word hword, hf, List.append_assoc]

theorem columnWidth_eq (i : Nat) :
    ∀ (rows : List (List JSString)) (m : Nat), (∀ row ∈ rows, i < row.length) →
      columnWidth i rows m = .ok (max m (columnMax rows i)) := by
  intro rows
  induction rows with
  | nil => intro m _; simp [columnWidth, columnMax]
  | cons row rest ih =>
    intro m h
    have hi := h row (List.mem_cons_self _ _)
    have hget : row[i]? = some (row.getD i []) := by
      rw [List.getD_eq_getElem?_getD, List.getElem?_eq_getElem hi]; rfl
    unfold columnWidth
    rw [hget]
    dsimp only
    rw [ih _ (fun r hr => h r (List.mem_cons_of_mem _ hr))]
    have : columnMax (row :: rest) i = max (visibleLength (row.getD i [])) (columnMax rest i) := rfl
    rw [this, max_assoc]
    rfl

theorem widths_eq (rows : List (List JSString)) (n : Nat) (h : ∀ row ∈ rows, row.length = n) :
    mapThrowing (fun colIndex => columnWidth colIndex rows 0) (List.range n) =
      .ok ((List.range n).map (columnMax rows)) := by
  apply mapThrowing_ok
  intro i hi
  rw [columnWidth_eq i rows 0 (fun row hr => by rw [h row hr]; exact List.mem_range.mp hi)]
  simp

/-- A cell of a row as `formatLine` writes it: padded to the width of its column. -/
theorem formatCell_padded (align : List JSString) (widths : List Nat) (i w : Nat)
    (cell : JSString) (hw : widths[i]? = some w) (hle : visibleLength cell ≤ w) :
    ∃ c, formatCell align widths i cell = .ok c ∧ Padded w c := by
  have hpad : ((w : Int) - ((strip cell).length : Int)) = ((w - visibleLength cell : Nat) : Int) := by
    unfold visibleLength at *; omega
  unfold formatCell
  dsimp only
  rw [hw]
  dsimp only
  rw [hpad]
  split_ifs with h1 h2
  · rw [jsRepeat_space]
    exact ⟨_, rfl, w - visibleLength cell, 0, cell, by simp [spaces], by omega⟩
  · rw [floorHalf_eq]
    have e1 : ((w - visibleLength cell : Nat) : Int) / 2 = (((w - visibleLength cell) / 2 : Nat) : Int) := by
      omega
    have e2 : ((w - visibleLength cell : Nat) : Int) - (((w - visibleLength cell) / 2 : Nat) : Int) =
        ((w - visibleLength cell - (w - visibleLength cell) / 2 : Nat) : Int) := by
      omega
    rw [e1, e2, jsRepeat_space, jsRepeat_space]
    exact ⟨_, rfl, (w - visibleLength cell) / 2,
      w - visibleLength cell - (w - visibleLength cell) / 2, cell,
      by simp only [List.append_assoc], by omega⟩
  · rw [jsRepeat_space]
    exact ⟨_, rfl, 0, w - visibleLength cell, cell, by simp [spaces], by omega⟩

/-- The cells of a row, formatted from the column `k` on. -/
theorem formatCells_padded (align : List JSString) (widths : List Nat) :
    ∀ (row : List JSString) (k : Nat) (ws : List Nat),
      ws.length = row.length →
      (∀ (j : Nat) (cell : JSString), row[j]? = some cell →
        ∃ w, ws[j]? = some w ∧ widths[k + j]? = some w ∧ visibleLength cell ≤ w) →
      ∃ cs, mapThrowing (fun ic => formatCell align widths ic.1 ic.2) (row.enumFrom k) = .ok cs ∧
        List.Forall₂ Padded ws cs := by
  intro row
  induction row with
  | nil =>
    intro k ws hlen _
    have : ws = [] := List.length_eq_zero.mp hlen
    subst this
    exact ⟨[], rfl, List.Forall₂.nil⟩
  | cons cell rest ih =>
    intro k ws hlen h
    cases ws with
    | nil => simp at hlen
    | cons w ws =>
      obtain ⟨w0, hw0, hwk, hle⟩ := h 0 cell (by simp)
      simp only [List.getElem?_cons_zero, Option.some.injEq] at hw0
      subst hw0
      obtain ⟨c, hc, hp⟩ := formatCell_padded align widths k w cell (by simpa using hwk) hle
      obtain ⟨cs, hcs, hf⟩ := ih (k + 1) ws (by simpa using hlen) (by
        intro j x hx
        obtain ⟨w', h1, h2, h3⟩ := h (j + 1) x (by simpa using hx)
        exact ⟨w', by simpa using h1, by rw [← h2]; congr 1; omega, h3⟩)
      refine ⟨c :: cs, ?_, List.Forall₂.cons hp hf⟩
      rw [List.enumFrom_cons]
      unfold mapThrowing
      dsimp only
      rw [hc, hcs]

theorem join_cons_cons (sep x y : JSString) (ys : List JSString) :
    join sep (x :: y :: ys) = x ++ (sep ++ join sep (y :: ys)) := by
  simp [join, List.intercalate, List.intersperse]

theorem join_nil (sep : JSString) : join sep [] = [] := rfl

theorem join_singleton (sep x : JSString) : join sep [x] = x := by
  simp [join, List.intercalate, List.intersperse]

theorem join_cons_flatMap (sep x : JSString) :
    ∀ rest : List JSString, join sep (x :: rest) = x ++ rest.flatMap (sep ++ ·) := by
  intro rest
  induction rest generalizing x with
  | nil => simp [join_singleton]
  | cons y ys ih => rw [join_cons_cons, ih y]; simp

/-- What `strip` leaves of a padded cell in front of a text that stops. -/
theorem strip_padded (w : Nat) (c T : JSString) (hc : Padded w c) (hT : stops T) :
    (strip (c ++ T)).length = w + (strip T).length := by
  obtain ⟨a, b, cell, rfl, hsum⟩ := hc
  have h1 : strip (spaces a ++ (cell ++ spaces b) ++ T) =
      spaces a ++ (strip cell ++ (spaces b ++ strip T)) := by
    rw [List.append_assoc, List.append_assoc]
    unfold spaces
    rw [strip_replicate 32 a plain_space]
    have := strip_append_spaces cell b T hT
    unfold spaces at this
    rw [this]
  rw [h1]
  simp only [List.length_append, spaces, List.length_replicate]
  unfold visibleLength at hsum
  omega

theorem stops_separator (T : JSString) : stops (js " " ++ js "│" ++ js " " ++ T) :=
  stops_cons 32 _ inert_space

theorem strip_separator (T : JSString) :
    strip (js " " ++ js "│" ++ js " " ++ T) = js " " ++ js "│" ++ js " " ++ strip T := by
  apply strip_plain_append
  intro c hc
  have : c = 32 ∨ c = 0x2502 := by
    simp only [show js " " ++ js "│" ++ js " " = [32, 0x2502, 32] from rfl, List.mem_cons,
      List.mem_singleton, List.not_mem_nil, or_false] at hc
    omega
  rcases this with rfl | rfl <;> (unfold plain ESC CSI; decide)

/-- The visible length of a formatted row, in front of a text that stops: the widths of
its cells and three columns for each separator. -/
theorem strip_join_padded (T : JSString) (hT : stops T) :
    ∀ (ws : List Nat) (cs : List JSString), List.Forall₂ Padded ws cs →
      (strip (join (js " " ++ js "│" ++ js " ") cs ++ T)).length =
        ws.sum + 3 * (ws.length - 1) + (strip T).length := by
  intro ws cs h
  induction h with
  | nil => rw [join_nil]; simp
  | @cons w c ws cs hp hrest ih =>
    cases hrest with
    | nil =>
      rw [join_singleton, strip_padded w c T hp hT]
      simp
    | @cons w2 c2 ws2 cs2 hp2 hrest2 =>
      rw [join_cons_cons, List.append_assoc, List.append_assoc,
        strip_padded w c _ hp (stops_separator _), strip_separator, List.length_append]
      have hih := ih
      simp only [List.length_cons, List.sum_cons] at hih ⊢
      rw [hih]
      simp only [show (js " " ++ js "│" ++ js " ").length = 3 from rfl]
      omega

theorem length_join_dashes :
    ∀ ws : List Nat,
      (join (js "─┼─") (ws.map (fun w => (List.replicate w (js "─")).flatten))).length =
        ws.sum + 3 * (ws.length - 1) := by
  intro ws
  induction ws with
  | nil => rfl
  | cons w ws ih =>
    cases ws with
    | nil => simp [join_singleton, replicate_flatten_single, show js "─" = [0x2500] from rfl]
    | cons w2 ws2 =>
      rw [List.map_cons, List.map_cons, join_cons_cons, List.length_append, List.length_append]
      rw [List.map_cons] at ih
      rw [ih]
      simp only [List.length_cons, List.sum_cons,
        show (js "─┼─").length = 3 from rfl, show js "─" = [0x2500] from rfl,
        replicate_flatten_single, List.length_replicate]
      omega

theorem plain_join_dashes :
    ∀ ws : List Nat,
      ∀ c ∈ join (js "─┼─") (ws.map (fun w => (List.replicate w (js "─")).flatten)), plain c := by
  intro ws
  induction ws with
  | nil => intro c hc; rw [List.map_nil, join_nil] at hc; simp at hc
  | cons w ws ih =>
    have hw : ∀ c ∈ (List.replicate w (js "─")).flatten, plain c := by
      intro c hc
      rw [show js "─" = [0x2500] from rfl, replicate_flatten_single] at hc
      rw [List.eq_of_mem_replicate hc]; exact plain_dash
    cases ws with
    | nil =>
      intro c hc
      rw [List.map_cons, List.map_nil, join_singleton] at hc
      exact hw c hc
    | cons w2 ws2 =>
      intro c hc
      rw [List.map_cons, List.map_cons, join_cons_cons] at hc
      rw [List.map_cons] at ih
      rcases List.mem_append.mp hc with h | h
      · exact hw c h
      · rcases List.mem_append.mp h with h | h
        · have : c = 0x2500 ∨ c = 0x253C := by
            simp only [show js "─┼─" = [0x2500, 0x253C, 0x2500] from rfl, List.mem_cons,
              List.mem_singleton, List.not_mem_nil, or_false] at h
            omega
          rcases this with rfl | rfl <;> (unfold plain ESC CSI; decide)
        · exact ih c h

/-! ## The claims -/

theorem mem_keys {table : Table} {k : JSString} (h : k ∈ keys table) :
    ∃ kv ∈ table, kv.1 = k := by
  simpa [keys] using h

theorem clean_styleCode (kv : JSString × JSString) (h : kv ∈ styleCodes) : Strippable kv.2 := by
  obtain ⟨_, _, _, n, hn, hsgr⟩ := styleCodes_facts kv h
  rw [hsgr]
  exact clean_sgr _ _ (natToString_digitsOK n (by omega)) (by simp)

theorem validHex6_hash {s : JSString} (hv : validHex6 s = true) (hh : s.head? = some 35) :
    ∃ h, s = 35 :: h ∧ h.length = 6 ∧ allHexDigits h = true := by
  cases s with
  | nil => simp at hh
  | cons c t =>
    simp only [List.head?_cons, Option.some.injEq] at hh
    subst hh
    simp only [validHex6, dropHash, Bool.and_eq_true, decide_eq_true_eq] at hv
    exact ⟨t, rfl, hv.1, hv.2⟩

theorem validHex6_dropHash {s : JSString} (hv : validHex6 s = true) :
    (dropHash s).length = 6 ∧ allHexDigits (dropHash s) = true := by
  simpa [validHex6] using hv

theorem get_extendedKey (b : Builder) (kv : JSString × JSString) (h : kv ∈ extendedColors) :
    b.get kv.1 =
      .ok (.builder (createStyleObject (b.pfx ++ trueColorCode (js "38")
        (pairValues (dropHash kv.2)).1 (pairValues (dropHash kv.2)).2.1
        (pairValues (dropHash kv.2)).2.2))) := by
  obtain ⟨hf, hs, he, hv, hh, _⟩ := extendedColors_facts kv h
  obtain ⟨t, hkv, h6, hall⟩ := validHex6_hash hv hh
  have hne : kv.2 ≠ [] := by rw [hkv]; simp
  rw [get_extended b kv.1 kv.2 hf hs he hne, hkv, toRgb_hash6 t h6 hall]
  simp [Except.map, destructure3, dropHash]

theorem step_clean (b : Builder) (s : Step) (hb : Strippable b.pfx) (hs : s.wellFormed = true) :
    ∃ b2, b.step s = .builder b2 ∧ Strippable b2.pfx := by
  cases s with
  | name prop =>
    simp only [Step.wellFormed, Bool.or_eq_true, decide_eq_true_eq] at hs
    rcases hs with hs | hs
    · obtain ⟨kv, hkv, rfl⟩ := mem_keys hs
      obtain ⟨hf, hg, hne, _⟩ := styleCodes_facts kv hkv
      refine ⟨createStyleObject (b.pfx ++ kv.2), ?_, clean_append hb (clean_styleCode kv hkv)⟩
      simp only [Builder.step, get_style b kv.1 kv.2 hf hg hne]
    · obtain ⟨kv, hkv, rfl⟩ := mem_keys hs
      obtain ⟨_, _, _, hv, _, _⟩ := extendedColors_facts kv hkv
      obtain ⟨h6, hall⟩ := validHex6_dropHash hv
      obtain ⟨h1, h2, h3⟩ := pairValues_inByteRange _ hall h6
      refine ⟨_, ?_, clean_append hb (clean_trueColorCode _ _ _ _ digitsOK_38 h1 h2 h3)⟩
      simp only [Builder.step, get_extendedKey b kv hkv]
      rfl
  | rgb r g c =>
    simp only [Step.wellFormed, Bool.and_eq_true] at hs
    refine ⟨_, ?_, clean_append hb
      (clean_trueColorCode _ r g c digitsOK_38 hs.1.1 hs.1.2 hs.2)⟩
    simp only [Builder.step, get_rgb]
    rfl
  | bgRgb r g c =>
    simp only [Step.wellFormed, Bool.and_eq_true] at hs
    refine ⟨_, ?_, clean_append hb
      (clean_trueColorCode _ r g c digitsOK_48 hs.1.1 hs.1.2 hs.2)⟩
    simp only [Builder.step, get_bgRgb]
    rfl
  | hex h =>
    simp only [Step.wellFormed] at hs
    obtain ⟨h6, hall⟩ := validHex6_dropHash hs
    obtain ⟨h1, h2, h3⟩ := pairValues_inByteRange _ hall h6
    refine ⟨_, ?_, clean_append hb (clean_trueColorCode _ _ _ _ digitsOK_38 h1 h2 h3)⟩
    simp only [Builder.step, get_hex, hexFunction_valid _ _ h hs, ChainResult.ofExcept]
    rfl
  | bgHex h =>
    simp only [Step.wellFormed] at hs
    obtain ⟨h6, hall⟩ := validHex6_dropHash hs
    obtain ⟨h1, h2, h3⟩ := pairValues_inByteRange _ hall h6
    refine ⟨_, ?_, clean_append hb (clean_trueColorCode _ _ _ _ digitsOK_48 h1 h2 h3)⟩
    simp only [Builder.step, get_bgHex, hexFunction_valid _ _ h hs, ChainResult.ofExcept]
    rfl
  | color256 n =>
    simp only [Step.wellFormed] at hs
    have hout : outOfPalette n = false := by
      cases n with
      | nan => rfl
      | inf s => simp [inByteRange] at hs
      | int i =>
        simp only [inByteRange, Bool.and_eq_true, decide_eq_true_eq] at hs
        simp only [outOfPalette, Bool.or_eq_false_iff, decide_eq_false_iff_not]
        omega
    refine ⟨_, ?_, clean_append hb (clean_paletteCode _ n digitsOK_38 hs)⟩
    simp only [Builder.step, get_color256, paletteFunction, hout, ChainResult.ofExcept]
    rfl
  | bg256 n =>
    simp only [Step.wellFormed] at hs
    have hout : outOfPalette n = false := by
      cases n with
      | nan => rfl
      | inf s => simp [inByteRange] at hs
      | int i =>
        simp only [inByteRange, Bool.and_eq_true, decide_eq_true_eq] at hs
        simp only [outOfPalette, Bool.or_eq_false_iff, decide_eq_false_iff_not]
        omega
    refine ⟨_, ?_, clean_append hb (clean_paletteCode _ n digitsOK_48 hs)⟩
    simp only [Builder.step, get_bg256, paletteFunction, hout, ChainResult.ofExcept]
    rfl

theorem chain_clean (steps : List Step) :
    ∀ (b : Builder), Strippable b.pfx → (∀ s ∈ steps, s.wellFormed = true) →
      ∃ b2, b.chain steps = .builder b2 ∧ Strippable b2.pfx := by
  induction steps with
  | nil => intro b hb _; exact ⟨b, rfl, hb⟩
  | cons s rest ih =>
    intro b hb hs
    obtain ⟨b1, hstep, hb1⟩ := step_clean b s hb (hs s (List.mem_cons_self _ _))
    obtain ⟨b2, hchain, hb2⟩ := ih b1 hb1 (fun t ht => hs t (List.mem_cons_of_mem _ ht))
    refine ⟨b2, ?_, hb2⟩
    simp only [Builder.chain, hstep, hchain]

theorem resetCode_eq : resetCode = sgr [48] [] := by decide

theorem clean_resetCode : Strippable resetCode := by
  rw [resetCode_eq]
  exact clean_sgr _ _ (by decide) (by simp)

theorem strip_apply (b : Builder) (text : JSString) (hb : Strippable b.pfx)
    (ht : escapeFree text) : strip (b.apply text) = text := by
  unfold Builder.apply
  rw [List.append_assoc, hb, strip_plain_append text resetCode ht]
  have := clean_resetCode []
  rw [List.append_nil, strip_nil] at this
  rw [this, List.append_nil]

/-- C1. Round trip: for every text without U+001B and U+009B and every builder reached
from the root `color` by a chain of registry names, extended colour names, `rgb`/`bgRgb`
calls with channels in `0..255`, `hex`/`bgHex` calls with a valid six-digit hex string
and `color256`/`bg256` calls with an index in `0..255`, the chain ends on a builder `b`
and `strip(b(text)) = text`. -/
theorem strip_styled_roundtrip (steps : List Step) (text : JSString)
    (hs : ∀ s ∈ steps, s.wellFormed = true) (ht : escapeFree text) :
    ∃ b, color.chain steps = .builder b ∧ strip (b.apply text) = text := by
  obtain ⟨b, hchain, hb⟩ := chain_clean steps color clean_nil hs
  exact ⟨b, hchain, strip_apply b text hb ht⟩

theorem strip_eq_self (text : JSString) (h : escapeFree text) : strip text = text := by
  have := strip_plain_append text [] h
  rwa [List.append_nil, strip_nil, List.append_nil] at this

/-- C2. `strip` removes nothing visible: for every text that holds neither U+001B nor
U+009B, `strip(text) = text`. -/
theorem strip_escapeFree (text : JSString) (h : escapeFree text) : strip text = text :=
  strip_eq_self text h

theorem chain_names (names : List JSString) :
    ∀ (b : Builder), (∀ n ∈ names, n ∈ keys styleCodes) →
      b.chain (names.map Step.name) = .builder (createStyleObject (b.pfx ++ names.flatMap code)) := by
  induction names with
  | nil => intro b _; simp [Builder.chain, createStyleObject]
  | cons n rest ih =>
    intro b h
    obtain ⟨kv, hkv, hn⟩ := mem_keys (h n (List.mem_cons_self _ _))
    subst hn
    obtain ⟨hf, hg, hne, _⟩ := styleCodes_facts kv hkv
    have hcode : code kv.1 = kv.2 := by
      have : styleCodes.lookup kv.1 = some kv.2 := by
        unfold getProperty at hg
        cases hl : styleCodes.lookup kv.1 with
        | none => rw [hl] at hg; simp only at hg; split at hg <;> simp at hg
        | some v => rw [hl] at hg; simp only [Lookup.own.injEq] at hg; rw [hg]
      simp [code, this]
    have hstep : b.step (.name kv.1) = .builder (createStyleObject (b.pfx ++ kv.2)) := by
      simp only [Builder.step, get_style b kv.1 kv.2 hf hg hne]
    simp only [List.map_cons, Builder.chain, hstep]
    rw [ih _ (fun m hm => h m (List.mem_cons_of_mem _ hm))]
    simp [createStyleObject, List.flatMap_cons, hcode]

/-- C4. Applying a builder: for every chain of names `n1 .. nk` that are keys of the style
and basic-colour registry and every text, `color.n1. ... .nk` is a builder and
`color.n1. ... .nk(text) = code(n1) ++ ... ++ code(nk) ++ text ++ ESC[0m`: the fragments
stand in access order and one reset fragment follows the text. -/
theorem apply_chain_of_names (names : List JSString) (text : JSString)
    (h : ∀ n ∈ names, n ∈ keys styleCodes) :
    ∃ b, color.chain (names.map Step.name) = .builder b ∧
      b.apply text = names.flatMap code ++ text ++ js "\x1b[0m" := by
  refine ⟨_, chain_names names color h, ?_⟩
  have : resetCode = js "\x1b[0m" := by decide
  simp [Builder.apply, createStyleObject, color, this]

set_option maxRecDepth 100000 in
/-- Witness of C4 at `color.bold.red.bgWhite("Hi")`. -/
theorem apply_chain_of_names_witness :
    (∀ n ∈ [js "bold", js "red", js "bgWhite"], n ∈ keys styleCodes) ∧
    ∃ b, color.chain ([js "bold", js "red", js "bgWhite"].map Step.name) = .builder b ∧
      b.apply (js "Hi") =
        [js "bold", js "red", js "bgWhite"].flatMap code ++ js "Hi" ++ js "\x1b[0m" :=
  ⟨by decide, apply_chain_of_names _ _ (by decide)⟩

set_option maxRecDepth 100000 in
/-- Witness of C1 at a chain of five links and the text `"Hi"`. -/
theorem strip_styled_roundtrip_witness :
    (∀ s ∈ [Step.name (js "bold"), .hex (js "#00CDCD"), .name (js "maroon"),
        .bgRgb (.int 1) (.int 20) (.int 255), .color256 (.int 7)], s.wellFormed = true) ∧
    escapeFree (js "Hi") ∧
    ∃ b, color.chain [Step.name (js "bold"), .hex (js "#00CDCD"), .name (js "maroon"),
        .bgRgb (.int 1) (.int 20) (.int 255), .color256 (.int 7)] = .builder b ∧
      strip (b.apply (js "Hi")) = js "Hi" :=
  ⟨by decide, by decide, strip_styled_roundtrip _ _ (by decide) (by decide)⟩

/-- Witness of C2 at the text `"Hi there"`. -/
theorem strip_escapeFree_witness :
    escapeFree (js "Hi there") ∧ strip (js "Hi there") = js "Hi there" :=
  ⟨by decide, strip_escapeFree _ (by decide)⟩

/-- C3, the claim fails: the text `ESC ESC [ 0 m [ 0 m` is stripped to `ESC [ 0 m`, which
the pattern recognizes whole, and stripping again gives the empty string. -/
theorem strip_not_idempotent :
    strip (js "\x1b\x1b[0m[0m") = js "\x1b[0m" ∧
    ansiRegex.matchAt (strip (js "\x1b\x1b[0m[0m")) = some [] ∧
    strip (strip (js "\x1b\x1b[0m[0m")) ≠ strip (js "\x1b\x1b[0m[0m") := by
  decide

theorem matchAt_escapeFree (s : JSString) (h : escapeFree s) : ansiRegex.matchAt s = none := by
  cases s with
  | nil => rfl
  | cons c t =>
    simp [Regex.matchAt, ansiRegex_run_plain c t (h c (List.mem_cons_self _ _))]

theorem repeatMatcher_suffix (m : JSString → List JSString)
    (hm : ∀ x y, y ∈ m x → y <:+ x) :
    ∀ (max min : Nat) (x y : JSString), y ∈ repeatMatcher m min max x → y <:+ x := by
  intro max
  induction max with
  | zero =>
    intro min x y hy
    rw [repeatMatcher_zero] at hy
    simp only [List.mem_singleton] at hy
    rw [hy]
  | succ max ih =>
    intro min x y hy
    rw [repeatMatcher_succ] at hy
    have hmore : ∀ y, y ∈ (m x).flatMap (fun z =>
        if min = 0 ∧ z.length = x.length then [] else repeatMatcher m (min - 1) max z) →
        y <:+ x := by
      intro y hy
      simp only [List.mem_flatMap] at hy
      obtain ⟨z, hz, hyz⟩ := hy
      split at hyz
      · simp at hyz
      · exact List.IsSuffix.trans (ih _ _ _ hyz) (hm x z hz)
    split at hy
    · exact hmore y hy
    · simp only [List.mem_append, List.mem_singleton] at hy
      rcases hy with hy | hy
      · exact hmore y hy
      · rw [hy]

/-- What a match leaves is an end of what it was given. -/
theorem run_suffix (r : Regex) :
    ∀ (s y : JSString), y ∈ r.run s → y <:+ s := by
  induction r with
  | cls ranges =>
    intro s y hy
    cases s with
    | nil => simp [run_cls_nil] at hy
    | cons c t =>
      rw [run_cls_cons] at hy
      split at hy
      · simp only [List.mem_singleton] at hy
        rw [hy]; exact List.suffix_cons c t
      · simp at hy
  | seq a b iha ihb =>
    intro s y hy
    rw [run_seq] at hy
    simp only [List.mem_flatMap] at hy
    obtain ⟨z, hz, hyz⟩ := hy
    exact List.IsSuffix.trans (ihb z y hyz) (iha s z hz)
  | rep a min max ih =>
    intro s y hy
    rw [run_rep] at hy
    exact repeatMatcher_suffix _ ih max min s y hy
  | star a ih =>
    intro s y hy
    rw [run_star] at hy
    exact repeatMatcher_suffix _ ih _ 0 s y hy
  | opt a ih =>
    intro s y hy
    rw [run_opt] at hy
    exact repeatMatcher_suffix _ ih _ 0 s y hy

/-- A recognized sequence holds at least its escape character: what the match leaves is an
end of the text after that character. -/
theorem matchAt_suffix (c : Nat) (t rest : JSString)
    (h : ansiRegex.matchAt (c :: t) = some rest) : rest <:+ t := by
  have hmem : rest ∈ ansiRegex.run (c :: t) := by
    unfold Regex.matchAt at h
    exact List.mem_of_mem_head? h
  rw [ansiRegex_eq, run_seq, run_cls_cons] at hmem
  split at hmem
  · simp only [List.flatMap_cons, List.flatMap_nil, List.append_nil] at hmem
    exact run_suffix _ _ _ hmem
  · simp at hmem

theorem strip_length_le : ∀ (n : Nat) (s : JSString), s.length ≤ n →
    (strip s).length ≤ s.length := by
  intro n
  induction n with
  | zero =>
    intro s hs
    have : s = [] := List.length_eq_zero.mp (Nat.le_zero.mp hs)
    subst this
    simp [strip_nil]
  | succ n ih =>
    intro s hs
    cases s with
    | nil => simp [strip_nil]
    | cons c t =>
      simp only [List.length_cons, Nat.add_le_add_iff_right] at hs
      cases hr : ansiRegex.matchAt (c :: t) with
      | none =>
        rw [strip_cons_none c t hr]
        simp only [List.length_cons, Nat.add_le_add_iff_right]
        exact ih t hs
      | some rest =>
        have hsuf := (matchAt_suffix c t rest hr).length_le
        rw [strip_cons_some c t rest hr (by simp only [List.length_cons]; omega)]
        have := ih rest (by omega)
        simp only [List.length_cons]
        omega

/-- A text is left as it is by `strip` exactly when the pattern recognizes nothing in it. -/
theorem strip_fixed_iff (s : JSString) :
    strip s = s ↔ ∀ pre suf, s = pre ++ suf → ansiRegex.matchAt suf = none := by
  induction s with
  | nil =>
    constructor
    · intro _ pre suf h
      have : suf = [] := (List.append_eq_nil.mp h.symm).2
      subst this
      rfl
    · intro _; exact strip_nil
  | cons c t ih =>
    constructor
    · intro h pre suf hs
      cases hr : ansiRegex.matchAt (c :: t) with
      | none =>
        rw [strip_cons_none c t hr] at h
        have ht : strip t = t := List.tail_eq_of_cons_eq h
        cases pre with
        | nil => simp only [List.nil_append] at hs; rw [← hs]; exact hr
        | cons d pre =>
          simp only [List.cons_append, List.cons.injEq] at hs
          exact ih.mp ht pre suf hs.2
      | some rest =>
        exfalso
        have hsuf := (matchAt_suffix c t rest hr).length_le
        rw [strip_cons_some c t rest hr (by simp only [List.length_cons]; omega)] at h
        have h1 := strip_length_le rest.length rest (le_refl _)
        have h2 := congrArg List.length h
        simp only [List.length_cons] at h2
        omega
    · intro h
      rw [strip_cons_none c t (h [] (c :: t) rfl)]
      rw [ih.mpr (fun pre suf hs => h (c :: pre) suf (by rw [hs]; rfl))]

theorem escapesSettled_suffix (p s : JSString) (h : escapesSettled (p ++ s) = true) :
    escapesSettled s = true := by
  induction p with
  | nil => exact h
  | cons c p ih =>
    simp only [List.cons_append, escapesSettled, Bool.and_eq_true] at h
    exact ih h.2

theorem inert_CSI : inert CSI = true := by decide

theorem plain_of_not_inert (d : Nat) (h : (!inert d) = true) : plain d := by
  constructor
  · intro hd; rw [hd, inert_ESC] at h; simp at h
  · intro hd; rw [hd, inert_CSI] at h; simp at h

theorem stops_dropWhile (t : JSString) : stops (t.dropWhile (fun d => !inert d)) := by
  intro c hc
  have := List.head?_dropWhile_not (fun d => !inert d) t
  simp only [Option.mem_def] at hc
  rw [hc] at this
  simpa using this

/-- An orphan escape character stays an orphan in the output of `strip`, when its
continuation ends in front of a text that starts no recognized sequence. -/
theorem matchAt_cons_strip (c : Nat) (t : JSString)
    (hnone : ansiRegex.matchAt (c :: t) = none)
    (hT : ansiRegex.matchAt (t.dropWhile (fun d => !inert d)) = none) :
    ansiRegex.matchAt (c :: strip t) = none := by
  have hsplit : t.takeWhile (fun d => !inert d) ++ t.dropWhile (fun d => !inert d) = t :=
    List.takeWhile_append_dropWhile _ _
  have hu : ∀ d ∈ t.takeWhile (fun d => !inert d), plain d :=
    fun d hd => plain_of_not_inert d (List.mem_takeWhile_imp (p := fun d => !inert d) hd)
  have hstops := stops_dropWhile t
  generalize t.takeWhile (fun d => !inert d) = u at hsplit hu
  generalize t.dropWhile (fun d => !inert d) = T at hsplit hT hstops
  subst hsplit
  rw [← List.cons_append, matchAt_append c u T hstops] at hnone
  have hcu : ansiRegex.matchAt (c :: u) = none := by
    cases h : ansiRegex.matchAt (c :: u) with
    | none => rfl
    | some r => rw [h] at hnone; simp at hnone
  have hsT : stops (strip T) := by
    cases T with
    | nil => rw [strip_nil]; exact stops_nil
    | cons x r =>
      rw [strip_cons_none x r hT]
      exact stops_cons x _ (hstops x rfl)
  rw [strip_plain_append u T hu, ← List.cons_append, matchAt_append c u (strip T) hsT, hcu]
  rfl

theorem strip_idempotent_settled : ∀ (n : Nat) (text : JSString), text.length ≤ n →
    escapesSettled text = true → strip (strip text) = strip text := by
  intro n
  induction n with
  | zero =>
    intro text hl _
    have : text = [] := List.length_eq_zero.mp (Nat.le_zero.mp hl)
    subst this
    rw [strip_nil, strip_nil]
  | succ n ih =>
    intro text hl hs
    cases text with
    | nil => rw [strip_nil, strip_nil]
    | cons c t =>
      simp only [List.length_cons, Nat.add_le_add_iff_right] at hl
      have hst : escapesSettled t = true := escapesSettled_suffix [c] t hs
      cases hr : ansiRegex.matchAt (c :: t) with
      | some rest =>
        have hsuf := matchAt_suffix c t rest hr
        have hlen := hsuf.length_le
        rw [strip_cons_some c t rest hr (by simp only [List.length_cons]; omega)]
        obtain ⟨p, hp⟩ := hsuf
        exact ih rest (by omega) (escapesSettled_suffix p rest (by rw [hp]; exact hst))
      | none =>
        rw [strip_cons_none c t hr]
        have hkeep : ansiRegex.matchAt (c :: strip t) = none := by
          by_cases hc : plain c
          · simp [Regex.matchAt, ansiRegex_run_plain c (strip t) hc]
          · apply matchAt_cons_strip c t hr
            simp only [escapesSettled, Bool.and_eq_true, Bool.or_eq_true, hr,
              Option.isSome_none, Option.isNone_iff_eq_none] at hs
            rcases hs.1 with (h | h) | h
            · exfalso; apply hc
              simp only [Bool.and_eq_true, bne_iff_ne, ne_eq] at h
              exact h
            · simp at h
            · exact h
        rw [strip_cons_none c (strip t) hkeep, ih t hl hst]

set_option maxRecDepth 100000 in
/-- C3, amended. For every text the two forms of the claim say the same: the pattern
recognizes nothing in `strip(text)` exactly when `strip(strip(text)) = strip(text)`. Both
hold for every text whose escape characters are settled: each U+001B or U+009B either starts
a sequence the pattern recognizes, or is an orphan whose continuation ends at the end of the
text or in front of a code unit that starts no recognized sequence. -/
theorem strip_idempotent_of_settled (text : JSString) :
    ((∀ pre suf, strip text = pre ++ suf → ansiRegex.matchAt suf = none) ↔
      strip (strip text) = strip text) ∧
    (escapesSettled text = true →
      (∀ pre suf, strip text = pre ++ suf → ansiRegex.matchAt suf = none) ∧
      strip (strip text) = strip text) := by
  refine ⟨(strip_fixed_iff (strip text)).symm, fun h => ?_⟩
  have := strip_idempotent_settled text.length text (le_refl _) h
  exact ⟨(strip_fixed_iff (strip text)).mp this, this⟩

set_option maxRecDepth 100000 in
theorem strip_idempotent_of_settled_witness :
    escapesSettled (js "a\x1b b\x1b[1m\x1b[31mHi\x1b[0m\x1b") = true ∧
    strip (js "a\x1b b\x1b[1m\x1b[31mHi\x1b[0m\x1b") = js "a\x1b bHi\x1b" ∧
    (∀ pre suf, strip (js "a\x1b b\x1b[1m\x1b[31mHi\x1b[0m\x1b") = pre ++ suf →
      ansiRegex.matchAt suf = none) ∧
    strip (strip (js "a\x1b b\x1b[1m\x1b[31mHi\x1b[0m\x1b")) =
      strip (js "a\x1b b\x1b[1m\x1b[31mHi\x1b[0m\x1b") :=
  ⟨by decide, by decide,
    (strip_idempotent_of_settled (js "a\x1b b\x1b[1m\x1b[31mHi\x1b[0m\x1b")).2 (by decide)⟩

theorem escapesSettled_examples :
    escapesSettled (js "\x1b\x1b[0m[0m") = false ∧ escapesSettled (js "a\x1b b") = true := by
  decide

theorem ansiHexMapping_own : ∀ kv ∈ ansiHexMapping,
    getProperty extendedColors kv.1 = .undefined ∧ getProperty ansiHexMapping kv.1 = .own kv.2 ∧
      validHex6 kv.2 = true ∧ kv.2.head? = some 35 := by
  decide!

theorem allNamedColors_facts : ∀ kv ∈ allNamedColors, namedFact kv := by
  intro kv hkv
  rw [allNamedColors_eq] at hkv
  have key : validHex6 kv.2 = true ∧ kv.2.head? = some 35 ∧
      getProperty allNamedColors kv.1 = .own kv.2 := by
    rw [allNamedColors_eq]
    rcases List.mem_append.mp hkv with h | h
    · obtain ⟨_, _, h3, h4, h5⟩ := extendedColors_own kv h
      exact ⟨h4, h5, getProperty_append_own _ _ _ _ h3⟩
    · obtain ⟨h1, h2, h3, h4⟩ := ansiHexMapping_own kv h
      exact ⟨h3, h4, by rw [getProperty_append_undefined _ _ _ h1]; exact h2⟩
  obtain ⟨hv, hh, hown⟩ := key
  obtain ⟨t, e, h6, hall⟩ := validHex6_hash hv hh
  have htr : toRgb (.str kv.2) = .ok (hexTriple kv.2) := by
    rw [e, toRgb_hash6 t h6 hall]
    rfl
  refine ⟨hv, hh, hown, ?_, htr, ?_⟩
  · rw [← htr]
    rw [e] at hown ⊢
    exact toRgb_named kv.1 t hown
  · rfl

theorem hexPairOf_facts : ∀ n < 256, ∀ upper : Bool,
    allHexDigits (hexPairOf upper n) = true ∧ (hexPairOf upper n).length = 2 ∧
      16 * hexValue ((hexPairOf upper n).getD 0 0) + hexValue ((hexPairOf upper n).getD 1 0) = n := by
  decide!

theorem hexWriting_facts (upper : Bool) (r g b : Nat) (hr : r ≤ 255) (hg : g ≤ 255)
    (hb : b ≤ 255) :
    ∃ h, hexWriting upper r g b = 35 :: h ∧ h.length = 6 ∧ allHexDigits h = true ∧
      pairValues h = (.int r, .int g, .int b) := by
  obtain ⟨r1, r2, r3⟩ := hexPairOf_facts r (by omega) upper
  obtain ⟨g1, g2, g3⟩ := hexPairOf_facts g (by omega) upper
  obtain ⟨b1, b2, b3⟩ := hexPairOf_facts b (by omega) upper
  refine ⟨hexPairOf upper r ++ hexPairOf upper g ++ hexPairOf upper b, rfl, ?_, ?_, ?_⟩
  · simp [r2, g2, b2]
  · simp only [allHexDigits, List.all_append, Bool.and_eq_true] at r1 g1 b1 ⊢
    exact ⟨⟨r1, g1⟩, b1⟩
  · simp only [hexPairOf] at r3 g3 b3 ⊢
    simp only [List.getD_cons_zero, List.getD_cons_succ] at r3 g3 b3
    simp only [pairValues, pairNat, List.cons_append, List.nil_append, List.getD_cons_zero,
      List.getD_cons_succ, Nat.mul_zero, Nat.mul_one, Nat.zero_add, Nat.reduceAdd,
      Nat.reduceMul, r3, g3, b3]

/-- C5. `toRgb` gives the same triple for every representation of one colour: for every
entry `n ↦ #RRGGBB` of the combined named-colour table, `toRgb(n)`, `toRgb("#RRGGBB")` and
`toRgb([R, G, B])` are the triple of the digit-pair values; and for all `r`, `g`, `b` in
`0..255`, `toRgb` of the six-digit `#` writing of `(r, g, b)`, in upper or in lower case,
is `[r, g, b]`. -/
theorem toRgb_same_triple (kv : JSString × JSString) (hkv : kv ∈ allNamedColors)
    (upper : Bool) (r g b : Nat) (hr : r ≤ 255) (hg : g ≤ 255) (hb : b ≤ 255) :
    (validHex6 kv.2 = true ∧ kv.2.head? = some 35 ∧
      getProperty allNamedColors kv.1 = .own kv.2 ∧
      toRgb (.str kv.1) = .ok (hexTriple kv.2) ∧ toRgb (.str kv.2) = .ok (hexTriple kv.2) ∧
      toRgb (.arr (hexTriple kv.2)) = .ok (hexTriple kv.2)) ∧
    toRgb (.str (hexWriting upper r g b)) = .ok [.int r, .int g, .int b] := by
  refine ⟨allNamedColors_facts kv hkv, ?_⟩
  obtain ⟨h, hw, hl, hall, hpv⟩ := hexWriting_facts upper r g b hr hg hb
  rw [hw, toRgb_hash6 h hl hall, hpv]

set_option maxRecDepth 100000 in
/-- Witness of C5 at the entry `tomato` and at `"#ff6347"`. -/
theorem toRgb_same_triple_witness :
    (js "tomato", js "#FF6347") ∈ allNamedColors ∧
    (toRgb (.str (js "tomato")) = .ok [.int 255, .int 99, .int 71] ∧
      toRgb (.str (js "#FF6347")) = .ok [.int 255, .int 99, .int 71] ∧
      toRgb (.arr [.int 255, .int 99, .int 71]) = .ok [.int 255, .int 99, .int 71]) ∧
    toRgb (.str (js "#ff6347")) = .ok [.int 255, .int 99, .int 71] :=
  ⟨by decide,
   ⟨(toRgb_same_triple (js "tomato", js "#FF6347") (by decide) false 255 99 71
      (by decide) (by decide) (by decide)).1.2.2.2.1,
    (toRgb_same_triple (js "tomato", js "#FF6347") (by decide) false 255 99 71
      (by decide) (by decide) (by decide)).1.2.2.2.2.1,
    (toRgb_same_triple (js "tomato", js "#FF6347") (by decide) false 255 99 71
      (by decide) (by decide) (by decide)).1.2.2.2.2.2⟩,
   (toRgb_same_triple (js "tomato", js "#FF6347") (by decide) false 255 99 71
      (by decide) (by decide) (by decide)).2⟩

/-- C6, the code at inputs that are no colour name, no hex string of three or six digits
and no array: `"#ghijkl"` resolves to `[NaN, NaN, NaN]`, `"#1234567"` to `[18, 52, 86]`,
and `"constructor"` raises a `TypeError`; none gives `[0, 0, 0]`. -/
theorem toRgb_fallback_missed :
    (getProperty allNamedColors (js "#ghijkl") = .undefined ∧
      allHexDigits (js "ghijkl") = false ∧
      toRgb (.str (js "#ghijkl")) = .ok [.nan, .nan, .nan]) ∧
    (getProperty allNamedColors (js "#1234567") = .undefined ∧
      (js "1234567").length = 7 ∧
      toRgb (.str (js "#1234567")) = .ok [.int 18, .int 52, .int 86]) ∧
    (keys allNamedColors).contains (js "constructor") = false ∧
      toRgb (.str (js "constructor")) = .error .typeError := by
  decide!

/-- C7, the claim fails: `"ff0000"` is six hex digits and no colour name, and `toRgb`
gives black for it but red for `"#ff0000"`. -/
theorem toRgb_hash_not_optional :
    allHexDigits (js "ff0000") = true ∧ (js "ff0000").length = 6 ∧
    getProperty allNamedColors (js "ff0000") = .undefined ∧
    toRgb (.str (js "ff0000")) = .ok [.int 0, .int 0, .int 0] ∧
    toRgb (.str (js "#" ++ js "ff0000")) = .ok [.int 255, .int 0, .int 0] ∧
    toRgb (.str (js "ff0000")) ≠ toRgb (.str (js "#" ++ js "ff0000")) := by
  decide!

/-- C7, amended. The leading `#` is what marks a hex colour: for every string `h` of exactly
three or exactly six hex digits (none is a colour name), `toRgb("#" ++ h)` is the triple of
its digit values, each digit doubled when there are three, and `toRgb(h)`, without the
`#`, is the fallback `[0, 0, 0]`. -/
theorem toRgb_hash_required (h : JSString) (hh : allHexDigits h = true)
    (hl : h.length = 3 ∨ h.length = 6) :
    getProperty allNamedColors h = .undefined ∧
    toRgb (.str h) = .ok [.int 0, .int 0, .int 0] ∧
    toRgb (.str (js "#" ++ h)) =
      .ok (if h.length = 3 then h.map (fun c => .int (17 * hexValue c : Nat))
        else [.int (pairNat h 0), .int (pairNat h 1), .int (pairNat h 2)]) := by
  refine ⟨getProperty_allHex h hh, toRgb_noHash h hh, ?_⟩
  have e : js "#" = [35] := rfl
  rw [e]
  rcases hl with hl | hl
  · rcases h with _ | ⟨x, _ | ⟨y, _ | ⟨z, _ | ⟨w, t⟩⟩⟩⟩ <;> simp at hl
    simp only [allHexDigits, List.all_cons, List.all_nil, Bool.and_true, Bool.and_eq_true] at hh
    simp [toRgb_hash3 x y z hh.1 hh.2.1 hh.2.2]
  · have := toRgb_hash6 h hl hh
    simp only [List.singleton_append, hl]
    rw [this]
    simp [pairValues]

/-- Witness of C7, amended, at `"f80"`. -/
theorem toRgb_hash_required_witness :
    allHexDigits (js "f80") = true ∧ ((js "f80").length = 3 ∨ (js "f80").length = 6) ∧
    toRgb (.str (js "f80")) = .ok [.int 0, .int 0, .int 0] ∧
    toRgb (.str (js "#" ++ js "f80")) =
      .ok (if (js "f80").length = 3 then (js "f80").map (fun c => .int (17 * hexValue c : Nat))
        else [.int (pairNat (js "f80") 0), .int (pairNat (js "f80") 1),
          .int (pairNat (js "f80") 2)]) :=
  ⟨by decide, by decide,
    (toRgb_hash_required (js "f80") (by decide) (by decide)).2.1,
    (toRgb_hash_required (js "f80") (by decide) (by decide)).2.2⟩

/-- An integer below `2 ^ 53` is written with all its digits. -/
theorem numberToString_nat (n : Nat) (h : n < 9007199254740992) :
    numberToString (.int n) = natToString n := by
  have h0 : ¬ ((n : Int) < 0) := by omega
  simp only [numberToString, h0, if_false, Int.natAbs_ofNat, if_pos h]

/-- An integer from `2 ^ 53` on is written as the double it stands for: the shortest digits
that read back as the same double, with zeros up to 21 digits and in exponent form from
`10 ^ 21` on. -/
theorem numberToString_large :
    numberToString (.int (2 * 10 ^ 20)) = js "200000000000000000000" ∧
    numberToString (.int (10 ^ 21)) = js "1e+21" ∧
    numberToString (.int (255 * 10 ^ 30)) = js "2.55e+32" := by
  decide!

theorem hexValue_le (c : Nat) : hexValue c ≤ 15 := by
  unfold hexValue
  split_ifs <;> omega

/-- A digit pair is a byte, whatever the string. -/
theorem pairNat_byte (s : JSString) (i : Nat) : pairNat s i ≤ 255 := by
  unfold pairNat
  have h1 := hexValue_le (s.getD (2 * i) 0)
  have h2 := hexValue_le (s.getD (2 * i + 1) 0)
  omega

theorem trueColorCode_38 (r g b : Nat) (hr : r ≤ 255) (hg : g ≤ 255) (hb : b ≤ 255) :
    trueColorCode (js "38") (.int r) (.int g) (.int b) = trueColorEscape 38 r g b := by
  have e1 : js "[" = [91] := rfl
  have e2 : js ";2;" = [59, 50, 59] := rfl
  have e3 : js ";" = [59] := rfl
  have e4 : js "m" = [109] := rfl
  have e5 : ESC = 27 := rfl
  have e6 : js "38" = natToString 38 := rfl
  simp [trueColorCode, trueColorEscape, numberToString_nat r (by omega),
    numberToString_nat g (by omega), numberToString_nat b (by omega), e1, e2, e3, e4, e5, e6]

theorem trueColorCode_48 (r g b : Nat) (hr : r ≤ 255) (hg : g ≤ 255) (hb : b ≤ 255) :
    trueColorCode (js "48") (.int r) (.int g) (.int b) = trueColorEscape 48 r g b := by
  have e1 : js "[" = [91] := rfl
  have e2 : js ";2;" = [59, 50, 59] := rfl
  have e3 : js ";" = [59] := rfl
  have e4 : js "m" = [109] := rfl
  have e5 : ESC = 27 := rfl
  have e6 : js "48" = natToString 48 := rfl
  simp [trueColorCode, trueColorEscape, numberToString_nat r (by omega),
    numberToString_nat g (by omega), numberToString_nat b (by omega), e1, e2, e3, e4, e5, e6]

theorem paletteCode_38 (n : Nat) (h : n ≤ 255) :
    paletteCode (js "38") (.int n) = paletteEscape 38 n := by
  have e1 : js "[" = [91] := rfl
  have e2 : js ";5;" = [59, 53, 59] := rfl
  have e4 : js "m" = [109] := rfl
  have e5 : ESC = 27 := rfl
  have e6 : js "38" = natToString 38 := rfl
  simp [paletteCode, paletteEscape, numberToString_nat n (by omega), e1, e2, e4, e5, e6]

theorem paletteCode_48 (n : Nat) (h : n ≤ 255) :
    paletteCode (js "48") (.int n) = paletteEscape 48 n := by
  have e1 : js "[" = [91] := rfl
  have e2 : js ";5;" = [59, 53, 59] := rfl
  have e4 : js "m" = [109] := rfl
  have e5 : ESC = 27 := rfl
  have e6 : js "48" = natToString 48 := rfl
  simp [paletteCode, paletteEscape, numberToString_nat n (by omega), e1, e2, e4, e5, e6]

theorem step_hex (b : Builder) (s : JSString) :
    b.step (.hex s) = .ofExcept (hexFunction b.pfx (js "38") s) := by
  simp only [Builder.step, get_hex]

theorem step_bgHex (b : Builder) (s : JSString) :
    b.step (.bgHex s) = .ofExcept (hexFunction b.pfx (js "48") s) := by
  simp only [Builder.step, get_bgHex]

theorem step_rgb (b : Builder) (r g c : JSNum) :
    b.step (.rgb r g c) =
      .builder (createStyleObject (b.pfx ++ trueColorCode (js "38") r g c)) := by
  simp only [Builder.step, get_rgb]

theorem step_bgRgb (b : Builder) (r g c : JSNum) :
    b.step (.bgRgb r g c) =
      .builder (createStyleObject (b.pfx ++ trueColorCode (js "48") r g c)) := by
  simp only [Builder.step, get_bgRgb]

theorem step_color256 (b : Builder) (n : JSNum) :
    b.step (.color256 n) = .ofExcept (paletteFunction b.pfx (js "38") n) := by
  simp only [Builder.step, get_color256]

theorem step_bg256 (b : Builder) (n : JSNum) :
    b.step (.bg256 n) = .ofExcept (paletteFunction b.pfx (js "48") n) := by
  simp only [Builder.step, get_bg256]

/-- C8. `hex`/`bgHex` validation: for every string `s`, `builder.hex(s)` and
`builder.bgHex(s)` throw exactly when `s`, after removal of one optional leading `#`, is
not six characters of `[0-9A-Fa-f]`; otherwise the new builder is the one `rgb(r, g, b)`
(`bgRgb(r, g, b)`) gives for the values `r`, `g`, `b` of the three digit pairs, and its
prefix is `P ++ ESC[38;2;r;g;bm` (`48` for `bgHex`). -/
theorem hex_validation (b : Builder) (s : JSString) :
    ((∃ e, b.step (.hex s) = .threw e) ↔ validHex6 s = false) ∧
    ((∃ e, b.step (.bgHex s) = .threw e) ↔ validHex6 s = false) ∧
    (validHex6 s = true →
      b.step (.hex s) = b.step (.rgb (.int (pairNat (dropHash s) 0))
        (.int (pairNat (dropHash s) 1)) (.int (pairNat (dropHash s) 2))) ∧
      b.step (.bgHex s) = b.step (.bgRgb (.int (pairNat (dropHash s) 0))
        (.int (pairNat (dropHash s) 1)) (.int (pairNat (dropHash s) 2))) ∧
      b.step (.hex s) = .builder ⟨b.pfx ++ trueColorEscape 38 (pairNat (dropHash s) 0)
        (pairNat (dropHash s) 1) (pairNat (dropHash s) 2)⟩ ∧
      b.step (.bgHex s) = .builder ⟨b.pfx ++ trueColorEscape 48 (pairNat (dropHash s) 0)
        (pairNat (dropHash s) 1) (pairNat (dropHash s) 2)⟩) := by
  rw [step_hex, step_bgHex, step_rgb, step_bgRgb]
  cases hv : validHex6 s with
  | false =>
    rw [hexFunction_invalid _ _ _ hv, hexFunction_invalid _ _ _ hv]
    simp [ChainResult.ofExcept]
  | true =>
    rw [hexFunction_valid _ _ _ hv, hexFunction_valid _ _ _ hv]
    simp [ChainResult.ofExcept, pairValues, createStyleObject,
      trueColorCode_38 _ _ _ (pairNat_byte _ 0) (pairNat_byte _ 1) (pairNat_byte _ 2),
      trueColorCode_48 _ _ _ (pairNat_byte _ 0) (pairNat_byte _ 1) (pairNat_byte _ 2)]

/-- C9. Palette index validation: for every integer `n`, `builder.color256(n)` and
`builder.bg256(n)` throw exactly when `n < 0` or `n > 255`; otherwise the new prefix is
`P ++ ESC[38;5;nm` for `color256` and `P ++ ESC[48;5;nm` for `bg256`. -/
theorem palette_validation (b : Builder) (n : Int) :
    ((∃ e, b.step (.color256 (.int n)) = .threw e) ↔ (n < 0 ∨ n > 255)) ∧
    ((∃ e, b.step (.bg256 (.int n)) = .threw e) ↔ (n < 0 ∨ n > 255)) ∧
    (¬ (n < 0 ∨ n > 255) →
      b.step (.color256 (.int n)) = .builder ⟨b.pfx ++ paletteEscape 38 n.toNat⟩ ∧
      b.step (.bg256 (.int n)) = .builder ⟨b.pfx ++ paletteEscape 48 n.toNat⟩) := by
  rw [step_color256, step_bg256]
  by_cases hn : n < 0 ∨ n > 255
  · have hout : outOfPalette (.int n) = true := by
      simp only [outOfPalette, Bool.or_eq_true, decide_eq_true_eq]; exact hn
    simp [paletteFunction, hout, ChainResult.ofExcept, hn]
  · have hout : outOfPalette (.int n) = false := by
      simp only [outOfPalette, Bool.or_eq_false_iff, decide_eq_false_iff_not]
      omega
    have hnat : (n : Int) = (n.toNat : Int) := by omega
    refine ⟨?_, ?_, ?_⟩
    · simp [paletteFunction, hout, ChainResult.ofExcept, hn]
    · simp [paletteFunction, hout, ChainResult.ofExcept, hn]
    · intro _
      simp only [paletteFunction, hout, ChainResult.ofExcept, Bool.false_eq_true, if_false]
      obtain ⟨m, rfl⟩ : ∃ m : Nat, n = m := ⟨n.toNat, hnat⟩
      have hm : m ≤ 255 := by omega
      simp only [paletteCode_38 m hm, paletteCode_48 m hm, Int.toNat_ofNat, createStyleObject,
        and_self]

/-- C10. Extended colour names: for every entry `n ↦ hex` of the extended table, every
builder `b` and every text, `b.n`, `b.hex(hex)` and `b.rgb(r, g, c)` with
`[r, g, c] = toRgb(n)` are builders, and applied to the text they give the same string. -/
theorem extended_name_equiv (kv : JSString × JSString) (hkv : kv ∈ extendedColors)
    (b : Builder) (text : JSString) :
    getProperty extendedColors kv.1 = .own kv.2 ∧
    ∃ b1 b2 b3 r g c,
      b.step (.name kv.1) = .builder b1 ∧ b.step (.hex kv.2) = .builder b2 ∧
      toRgb (.str kv.1) = .ok [r, g, c] ∧ b.step (.rgb r g c) = .builder b3 ∧
      b1.apply text = b2.apply text ∧ b2.apply text = b3.apply text := by
  obtain ⟨_, _, he, hv, hh, hname⟩ := extendedColors_facts kv hkv
  obtain ⟨t, hkv2, h6, hall⟩ := validHex6_hash hv hh
  refine ⟨he, _, _, _, (pairValues (dropHash kv.2)).1, (pairValues (dropHash kv.2)).2.1,
    (pairValues (dropHash kv.2)).2.2, ?_, ?_, ?_, step_rgb _ _ _ _, rfl, rfl⟩
  · simp only [Builder.step, get_extendedKey b kv hkv]
  · rw [step_hex, hexFunction_valid _ _ _ hv]; rfl
  · rw [hname, hkv2, toRgb_hash6 t h6 hall]; rfl

set_option maxRecDepth 100000 in
/-- Witness of C10 at `maroon`, the root builder and the text `"Hi"`. -/
theorem extended_name_equiv_witness :
    (js "maroon", js "#800000") ∈ extendedColors ∧
    ∃ b1 b2 b3 r g c,
      color.step (.name (js "maroon")) = .builder b1 ∧
      color.step (.hex (js "#800000")) = .builder b2 ∧
      toRgb (.str (js "maroon")) = .ok [r, g, c] ∧ color.step (.rgb r g c) = .builder b3 ∧
      b1.apply (js "Hi") = b2.apply (js "Hi") ∧ b2.apply (js "Hi") = b3.apply (js "Hi") :=
  ⟨by decide, (extended_name_equiv (js "maroon", js "#800000") (by decide) color (js "Hi")).2⟩

/-- Witness of C8 at the root builder and `"#00CDCD"`. -/
theorem hex_validation_witness :
    validHex6 (js "#00CDCD") = true ∧
    color.step (.hex (js "#00CDCD")) = .builder ⟨color.pfx ++ trueColorEscape 38
      (pairNat (dropHash (js "#00CDCD")) 0) (pairNat (dropHash (js "#00CDCD")) 1)
      (pairNat (dropHash (js "#00CDCD")) 2)⟩ :=
  ⟨by decide, ((hex_validation color (js "#00CDCD")).2.2 (by decide)).2.2.1⟩

/-- Witness of C9 at the root builder and the index `7`. -/
theorem palette_validation_witness :
    ¬ ((7 : Int) < 0 ∨ (7 : Int) > 255) ∧
    color.step (.color256 (.int 7)) = .builder ⟨color.pfx ++ paletteEscape 38 (7 : Int).toNat⟩ :=
  ⟨by decide, ((palette_validation color 7).2.2 (by decide)).1⟩

theorem blend_eq (text : JSString) (A B : ColorArg) (a1 a2 a3 b1 b2 b3 : Nat)
    (hA : toRgb A = .ok [.int a1, .int a2, .int a3])
    (hB : toRgb B = .ok [.int b1, .int b2, .int b3]) (t : F64) (mode : JSString) :
    blend text A B t mode =
      .ok (span (blendChannel mode t (.fin a1) (.fin b1)).toJSNum
        (blendChannel mode t (.fin a2) (.fin b2)).toJSNum
        (blendChannel mode t (.fin a3) (.fin b3)).toJSNum text) := by
  simp only [blend, hA, hB, destructure3, List.getD_cons_zero, List.getD_cons_succ, toF64_nat,
    colorRgb_eq_span]

/-- The channel of a blend in range, whatever the mode, for a ratio in `[0, 1]`. -/
theorem blendChannel_range (mode : JSString) (t : ℚ) (ht0 : 0 ≤ t) (ht1 : t ≤ 1) (a b : Nat)
    (ha : a ≤ 255) (hb : b ≤ 255) :
    ∃ n : Nat, n ≤ 255 ∧ blendChannel mode (.fin t) (.fin a) (.fin b) = .fin n := by
  by_cases hm : mode = js "multiply"
  · subst hm
    obtain ⟨h1, h2⟩ := blendChannel_multiply (.fin t) a b ha hb
    have hab : a * b ≤ 65025 := by
      calc a * b ≤ 255 * 255 := Nat.mul_le_mul ha hb
        _ = 65025 := by norm_num
    refine ⟨(2 * (a * b) + 255) / 510, by omega, ?_⟩
    rw [h1, h2, Int.cast_natCast]
  · by_cases hs : mode = js "screen"
    · subst hs
      obtain ⟨h1, h2⟩ := blendChannel_screen (.fin t) a b ha hb
      refine ⟨255 - (2 * ((255 - a) * (255 - b)) + 255) / 510, by omega, ?_⟩
      rw [h1, h2, Int.cast_natCast]
    · obtain ⟨n, hn, h1, _⟩ := normalFormula_range a b ha hb t ht0 ht1
      exact ⟨n, hn, by rw [blendChannel_other mode hm hs, h1]⟩

theorem self_formula_fixed : ∀ c < 256,
    (((2 * (c * c) + 255) / 510 = c) ↔ (c = 0 ∨ c = 255)) ∧
    ((255 - (2 * ((255 - c) * (255 - c)) + 255) / 510 = c) ↔ (c = 0 ∨ c = 255)) := by
  decide!

/-- C11, the claim fails: with the colour `[255, 255, 255]` (`brightWhite`) and the ratio
`1e20` (a double), `1 - ratio` is rounded to `-1e20`, both products cancel, and `blend`
colours the text black, `ESC[38;2;0;0;0m`, not white. -/
theorem blend_self_large_ratio :
    toRgb (rgbArg 255 255 255) = .ok [.int 255, .int 255, .int 255] ∧
    RN (10 ^ 20) = .fin (10 ^ 20) ∧
    (F64.fin 1).sub (.fin (10 ^ 20)) = .fin (-10 ^ 20) ∧
    blend (js "x") (rgbArg 255 255 255) (rgbArg 255 255 255) (.fin (10 ^ 20)) =
      .ok (js "\x1b[38;2;0;0;0mx\x1b[0m") ∧
    colorRgb (.int 255) (.int 255) (.int 255) (js "x") = js "\x1b[38;2;255;255;255mx\x1b[0m" := by
  decide!

/-- C11, amended. Blending a colour with itself in normal mode is a no-op for a ratio in the
documented range: for every text, every colour `X` that resolves to channels `[r, g, b]` in
`0..255` and every ratio in `[0, 1]`, `blend(text, X, X, ratio) = color.rgb(r, g, b)(text)`. -/
theorem blend_self_normal (text : JSString) (X : ColorArg) (r g b : Nat)
    (hX : toRgb X = .ok [.int r, .int g, .int b]) (hr : r ≤ 255) (hg : g ≤ 255) (hb : b ≤ 255)
    (t : ℚ) (ht0 : 0 ≤ t) (ht1 : t ≤ 1) :
    blend text X X (.fin t) = .ok (colorRgb (.int r) (.int g) (.int b) text) := by
  have hm : js "normal" ≠ js "multiply" := by decide
  have hs : js "normal" ≠ js "screen" := by decide
  rw [blend_eq text X X r g b r g b hX hX, colorRgb_eq_span]
  simp only [blendChannel_other _ hm hs, normalFormula_self _ hr t ht0 ht1,
    normalFormula_self _ hg t ht0 ht1, normalFormula_self _ hb t ht0 ht1, toJSNum_nat]

/-- Witness of C11, amended, at `blend("Hi", [255, 99, 71], [255, 99, 71], 0.25)`. -/
theorem blend_self_normal_witness :
    toRgb (rgbArg 255 99 71) = .ok [.int (255 : Nat), .int (99 : Nat), .int (71 : Nat)] ∧
    blend (js "Hi") (rgbArg 255 99 71) (rgbArg 255 99 71) (.fin (1 / 4)) =
      .ok (colorRgb (.int (255 : Nat)) (.int (99 : Nat)) (.int (71 : Nat)) (js "Hi")) :=
  ⟨by decide, blend_self_normal (js "Hi") (rgbArg 255 99 71) 255 99 71 (by decide)
    (by decide) (by decide) (by decide) (1 / 4) (by norm_num) (by norm_num)⟩

/-- C12, the claim fails: the colour `[128, 128, 128]` (`gray`) blended with itself gives
`[64, 64, 64]` in mode `multiply` and `[192, 192, 192]` in mode `screen`. -/
theorem blend_self_mode_changes :
    toRgb (rgbArg 128 128 128) = .ok [.int 128, .int 128, .int 128] ∧
    blend (js "x") (rgbArg 128 128 128) (rgbArg 128 128 128) (.fin (1 / 2)) (js "multiply") =
      .ok (js "\x1b[38;2;64;64;64mx\x1b[0m") ∧
    blend (js "x") (rgbArg 128 128 128) (rgbArg 128 128 128) (.fin (1 / 2)) (js "screen") =
      .ok (js "\x1b[38;2;192;192;192mx\x1b[0m") ∧
    colorRgb (.int 128) (.int 128) (.int 128) (js "x") = js "\x1b[38;2;128;128;128mx\x1b[0m" := by
  decide!

/-- C12, amended. In the modes `multiply` and `screen` the ratio is not used, and blending a
colour `X = [r, g, b]` (channels in `0..255`) with itself gives, channel by channel,
`round(c * c / 255)` in mode `multiply` and `255 - round((255 - c) * (255 - c) / 255)` in
mode `screen`; a channel is kept exactly when it is `0` or `255`. -/
theorem blend_self_multiply_screen (text : JSString) (X : ColorArg) (r g b : Nat)
    (hX : toRgb X = .ok [.int r, .int g, .int b]) (hr : r ≤ 255) (hg : g ≤ 255) (hb : b ≤ 255)
    (t : F64) :
    blend text X X t (js "multiply") =
      .ok (colorRgb (.int (multiplyFormula r r)) (.int (multiplyFormula g g))
        (.int (multiplyFormula b b)) text) ∧
    blend text X X t (js "screen") =
      .ok (colorRgb (.int (screenFormula r r)) (.int (screenFormula g g))
        (.int (screenFormula b b)) text) ∧
    ∀ c : Nat, c ≤ 255 →
      ((multiplyFormula c c = c ↔ (c = 0 ∨ c = 255)) ∧
        (screenFormula c c = c ↔ (c = 0 ∨ c = 255))) := by
  refine ⟨?_, ?_, ?_⟩
  · rw [blend_eq text X X r g b r g b hX hX, colorRgb_eq_span]
    simp only [(blendChannel_multiply t r r hr hr).1, (blendChannel_multiply t g g hg hg).1,
      (blendChannel_multiply t b b hb hb).1, toJSNum_int]
  · rw [blend_eq text X X r g b r g b hX hX, colorRgb_eq_span]
    simp only [(blendChannel_screen t r r hr hr).1, (blendChannel_screen t g g hg hg).1,
      (blendChannel_screen t b b hb hb).1, toJSNum_int]
  · intro c hc
    obtain ⟨f1, f2⟩ := self_formula_fixed c (by omega)
    rw [(blendChannel_multiply t c c hc hc).2, (blendChannel_screen t c c hc hc).2]
    constructor
    · rw [← f1]; exact Int.natCast_inj
    · rw [← f2]; exact Int.natCast_inj

/-- Witness of C12, amended, at `[128, 128, 128]`. -/
theorem blend_self_multiply_screen_witness :
    toRgb (rgbArg 128 128 128) = .ok [.int (128 : Nat), .int (128 : Nat), .int (128 : Nat)] ∧
    blend (js "x") (rgbArg 128 128 128) (rgbArg 128 128 128) (.fin (1 / 2)) (js "multiply") =
      .ok (colorRgb (.int (multiplyFormula 128 128)) (.int (multiplyFormula 128 128))
        (.int (multiplyFormula 128 128)) (js "x")) :=
  ⟨by decide, (blend_self_multiply_screen (js "x") (rgbArg 128 128 128) 128 128 128 (by decide)
    (by decide) (by decide) (by decide) (.fin (1 / 2))).1⟩

/-- Away from the ties, rounding a value close to `x` rounds `x`. -/
theorem roundHalfUp_near (s x ε : ℚ) (h : |s - x| ≤ ε)
    (hx : ∀ k : Int, ε < |x - (k + 1 / 2)|) : ⌊s + 1 / 2⌋ = roundHalfUp x := by
  unfold roundHalfUp
  rw [abs_le] at h
  symm
  rw [Int.floor_eq_iff]
  have f1 := Int.floor_le (s + 1 / 2)
  have f2 := Int.lt_floor_add_one (s + 1 / 2)
  constructor
  · by_contra hlt
    push_neg at hlt
    have := hx (⌊s + 1 / 2⌋ - 1)
    push_cast at this
    rcases lt_abs.mp this with h1 | h1 <;> linarith [h.1, h.2]
  · by_contra hge
    push_neg at hge
    have := hx ⌊s + 1 / 2⌋
    rcases lt_abs.mp this with h1 | h1 <;> linarith [h.1, h.2]

/-- The channel of mode `normal` for a ratio in `[0, 1]`: an integer in `0..255` close to
the exact interpolation, and its rounding away from the ties. -/
theorem normalFormula_spec (a b : Nat) (ha : a ≤ 255) (hb : b ≤ 255) (t : ℚ) (ht0 : 0 ≤ t)
    (ht1 : t ≤ 1) :
    ∃ n : Nat, n ≤ 255 ∧ normalFormula (.fin t) a b = .fin n ∧
      |((n : Int) : ℚ) - ((a : ℚ) * (1 - t) + b * t)| ≤ 1 / 2 + 1 / 2 ^ 42 ∧
      ((∀ k : Int, 1 / 2 ^ 42 < |(a : ℚ) * (1 - t) + b * t - (k + 1 / 2)|) →
        (n : Int) = roundHalfUp ((a : ℚ) * (1 - t) + b * t)) := by
  obtain ⟨n, hn, e, hnear⟩ := normalFormula_range a b ha hb t ht0 ht1
  refine ⟨n, hn, e, by simpa using hnear, ?_⟩
  intro hx
  obtain ⟨s, hs, es⟩ := interpolate_near a b ha hb t ht0 ht1
  simp only [F64.ofNat, Nat.cast_one] at hs
  have e2 : normalFormula (.fin t) a b = .fin ⌊s + 1 / 2⌋ := by
    unfold normalFormula
    rw [hs, F64.round_fin]
  rw [e] at e2
  have e3 : ((n : Nat) : ℚ) = ((⌊s + 1 / 2⌋ : Int) : ℚ) := F64.fin.inj e2
  have e4 : (n : Int) = ⌊s + 1 / 2⌋ := by exact_mod_cast e3
  rw [e4]
  exact roundHalfUp_near s _ _ es hx

/-- The channel of a blend for a ratio in `[0, 1]`, against the amended specification. -/
theorem blendChannel_spec (mode : JSString) (t : ℚ) (ht0 : 0 ≤ t) (ht1 : t ≤ 1) (a b : Nat)
    (ha : a ≤ 255) (hb : b ≤ 255) :
    ∃ n : Nat, n ≤ 255 ∧ blendChannel mode (.fin t) (.fin a) (.fin b) = .fin n ∧
      blendSpec mode t a b n := by
  obtain ⟨n, hn, e⟩ := blendChannel_range mode t ht0 ht1 a b ha hb
  by_cases hm : mode = js "multiply"
  · subst hm
    refine ⟨n, hn, e, ?_⟩
    rw [(blendChannel_multiply (.fin t) a b ha hb).1] at e
    have e3 : ((multiplyFormula a b : Int) : ℚ) = ((n : Nat) : ℚ) := F64.fin.inj e
    simp only [blendSpec, if_true]
    exact_mod_cast e3.symm
  · by_cases hs : mode = js "screen"
    · subst hs
      refine ⟨n, hn, e, ?_⟩
      rw [(blendChannel_screen (.fin t) a b ha hb).1] at e
      have e3 : ((screenFormula a b : Int) : ℚ) = ((n : Nat) : ℚ) := F64.fin.inj e
      simp only [blendSpec, hm, if_false, if_true]
      exact_mod_cast e3.symm
    · obtain ⟨k, hk, ek, h1, h2⟩ := normalFormula_spec a b ha hb t ht0 ht1
      refine ⟨k, hk, by rw [blendChannel_other mode hm hs, ek], ?_⟩
      simp only [blendSpec, hm, hs, if_false]
      exact ⟨h1, h2⟩

/-- C13, the claim fails in mode `normal`. At the ratio `0.1` (the double nearest to
`1/10`), from `[5, 15, 250]` to `[0, 0, 0]` the code prints the channels `5;14;225`, because
`1 - 0.1` is rounded to the double `0.9` and `5 * 0.9`, `15 * 0.9` to the ties `4.5` and
`13.5`, while `a * (1 - t) + b * t` in exact arithmetic is just below the ties and rounds
to `4` and `13`. At the ratio `-1e20`, outside `[0, 1]`, from `[255, 0, 0]` the code prints
the channel `2.55e+22`, the double nearest to `255 * 1e20`, while the exact value rounds to
`25500000000000000000255`. -/
theorem blend_normal_inexact :
    RN (1 / 10) = .fin (3602879701896397 / 36028797018963968) ∧
    toRgb (rgbArg 5 15 250) = .ok [.int 5, .int 15, .int 250] ∧
    toRgb (rgbArg 0 0 0) = .ok [.int 0, .int 0, .int 0] ∧
    blend (js "x") (rgbArg 5 15 250) (rgbArg 0 0 0)
      (.fin (3602879701896397 / 36028797018963968)) (js "normal") =
        .ok (js "\x1b[38;2;5;14;225mx\x1b[0m") ∧
    roundHalfUp (5 * (1 - 3602879701896397 / 36028797018963968) +
      0 * (3602879701896397 / 36028797018963968)) = 4 ∧
    roundHalfUp (15 * (1 - 3602879701896397 / 36028797018963968) +
      0 * (3602879701896397 / 36028797018963968)) = 13 ∧
    roundHalfUp (250 * (1 - 3602879701896397 / 36028797018963968) +
      0 * (3602879701896397 / 36028797018963968)) = 225 ∧
    RN (-10 ^ 20) = .fin (-10 ^ 20) ∧
    toRgb (rgbArg 255 0 0) = .ok [.int 255, .int 0, .int 0] ∧
    blend (js "x") (rgbArg 255 0 0) (rgbArg 0 0 0) (.fin (-10 ^ 20)) (js "normal") =
      .ok (js "\x1b[38;2;2.55e+22;0;0mx\x1b[0m") ∧
    roundHalfUp (255 * (1 - -10 ^ 20) + 0 * -10 ^ 20) = 25500000000000000000255 := by
  decide!

/-- C13, amended. The result of `blend`: for every text, colours `A` and `B` with channels
in `0..255`, ratio `t` in `[0, 1]` and mode, `blend` returns the single span
`ESC[38;2;r;g;bm ++ text ++ ESC[0m` with `r`, `g`, `b` integers in `0..255`, each channel
from `a` of `A` and `b` of `B` being `round(a * b / 255)` in mode `multiply`,
`255 - round((255 - a) * (255 - b) / 255)` in mode `screen`, and in mode `normal` and any
other mode an integer within `1/2 + 2^-42` of `x = a * (1 - t) + b * t`, equal to
`round(x)` unless `x` is within `2^-42` of a tie `k + 1/2`; `round` and `x` are in exact
arithmetic. In the modes `multiply` and `screen` the result is the same for every ratio. -/
theorem blend_channels (text : JSString) (A B : ColorArg) (a1 a2 a3 b1 b2 b3 : Nat)
    (hA : toRgb A = .ok [.int a1, .int a2, .int a3])
    (hB : toRgb B = .ok [.int b1, .int b2, .int b3])
    (h1 : a1 ≤ 255 ∧ a2 ≤ 255 ∧ a3 ≤ 255) (h2 : b1 ≤ 255 ∧ b2 ≤ 255 ∧ b3 ≤ 255)
    (t : ℚ) (ht0 : 0 ≤ t) (ht1 : t ≤ 1) (mode : JSString) :
    (∃ r g b : Nat, r ≤ 255 ∧ g ≤ 255 ∧ b ≤ 255 ∧
      blend text A B (.fin t) mode =
        .ok ([ESC] ++ js "[38;2;" ++ natToString r ++ js ";" ++ natToString g ++ js ";" ++
          natToString b ++ js "m" ++ text ++ [ESC] ++ js "[0m") ∧
      blendSpec mode t a1 b1 r ∧ blendSpec mode t a2 b2 g ∧ blendSpec mode t a3 b3 b) ∧
    (mode = js "multiply" ∨ mode = js "screen" →
      ∀ u : F64, blend text A B u mode = blend text A B (.fin t) mode) := by
  constructor
  · obtain ⟨r, hr, er, sr⟩ := blendChannel_spec mode t ht0 ht1 a1 b1 h1.1 h2.1
    obtain ⟨g, hg, eg, sg⟩ := blendChannel_spec mode t ht0 ht1 a2 b2 h1.2.1 h2.2.1
    obtain ⟨b, hb, eb, sb⟩ := blendChannel_spec mode t ht0 ht1 a3 b3 h1.2.2 h2.2.2
    refine ⟨r, g, b, hr, hg, hb, ?_, sr, sg, sb⟩
    rw [blend_eq text A B a1 a2 a3 b1 b2 b3 hA hB, er, eg, eb]
    simp only [toJSNum_nat, span, numberToString_nat r (by omega), numberToString_nat g (by omega),
      numberToString_nat b (by omega)]
  · intro hmode u
    rw [blend_eq text A B a1 a2 a3 b1 b2 b3 hA hB, blend_eq text A B a1 a2 a3 b1 b2 b3 hA hB]
    rcases hmode with hm | hm
    · subst hm
      simp only [(blendChannel_multiply _ _ _ _ _).1, h1.1, h1.2.1, h1.2.2, h2.1, h2.2.1, h2.2.2]
    · subst hm
      simp only [(blendChannel_screen _ _ _ _ _).1, h1.1, h1.2.1, h1.2.2, h2.1, h2.2.1, h2.2.2]

/-- Witness of C13, amended, at `blend("Hi", [205, 205, 0], [0, 0, 205], 0.5)`. -/
theorem blend_channels_witness :
    toRgb (rgbArg 205 205 0) = .ok [.int (205 : Nat), .int (205 : Nat), .int (0 : Nat)] ∧
    toRgb (rgbArg 0 0 205) = .ok [.int (0 : Nat), .int (0 : Nat), .int (205 : Nat)] ∧
    ∃ r g b : Nat, r ≤ 255 ∧ g ≤ 255 ∧ b ≤ 255 ∧
      blend (js "Hi") (rgbArg 205 205 0) (rgbArg 0 0 205) (.fin (1 / 2)) (js "normal") =
        .ok ([ESC] ++ js "[38;2;" ++ natToString r ++ js ";" ++ natToString g ++ js ";" ++
          natToString b ++ js "m" ++ js "Hi" ++ [ESC] ++ js "[0m") ∧
      blendSpec (js "normal") (1 / 2) 205 0 r ∧ blendSpec (js "normal") (1 / 2) 205 0 g ∧
      blendSpec (js "normal") (1 / 2) 0 205 b :=
  ⟨by decide, by decide, (blend_channels (js "Hi") (rgbArg 205 205 0) (rgbArg 0 0 205)
    205 205 0 0 0 205 (by decide) (by decide) (by decide) (by decide) (1 / 2) (by norm_num)
    (by norm_num) (js "normal")).1⟩

/-- C14. `blend` needs no clamp: for all colours `A` and `B` whose channels are integers in
`0..255`, every ratio in `[0, 1]` and every mode, each channel of the blended colour is an
integer in `0..255`. -/
theorem blend_in_range (text : JSString) (A B : ColorArg) (a1 a2 a3 b1 b2 b3 : Nat)
    (hA : toRgb A = .ok [.int a1, .int a2, .int a3])
    (hB : toRgb B = .ok [.int b1, .int b2, .int b3])
    (h1 : a1 ≤ 255 ∧ a2 ≤ 255 ∧ a3 ≤ 255) (h2 : b1 ≤ 255 ∧ b2 ≤ 255 ∧ b3 ≤ 255)
    (t : ℚ) (ht0 : 0 ≤ t) (ht1 : t ≤ 1) (mode : JSString) :
    ∃ r g b : Nat, r ≤ 255 ∧ g ≤ 255 ∧ b ≤ 255 ∧
      blendChannel mode (.fin t) (.fin a1) (.fin b1) = .fin r ∧
      blendChannel mode (.fin t) (.fin a2) (.fin b2) = .fin g ∧
      blendChannel mode (.fin t) (.fin a3) (.fin b3) = .fin b ∧
      blend text A B (.fin t) mode = .ok (colorRgb (.int r) (.int g) (.int b) text) := by
  obtain ⟨r, hr, er⟩ := blendChannel_range mode t ht0 ht1 a1 b1 h1.1 h2.1
  obtain ⟨g, hg, eg⟩ := blendChannel_range mode t ht0 ht1 a2 b2 h1.2.1 h2.2.1
  obtain ⟨b, hb, eb⟩ := blendChannel_range mode t ht0 ht1 a3 b3 h1.2.2 h2.2.2
  refine ⟨r, g, b, hr, hg, hb, er, eg, eb, ?_⟩
  rw [blend_eq text A B a1 a2 a3 b1 b2 b3 hA hB, er, eg, eb, colorRgb_eq_span]
  simp only [toJSNum_nat]

/-- Witness of C14 at `blend("Hi", [205, 205, 0], [0, 0, 205], 0.5, "screen")`. -/
theorem blend_in_range_witness :
    toRgb (rgbArg 205 205 0) = .ok [.int (205 : Nat), .int (205 : Nat), .int (0 : Nat)] ∧
    toRgb (rgbArg 0 0 205) = .ok [.int (0 : Nat), .int (0 : Nat), .int (205 : Nat)] ∧
    ∃ r g b : Nat, r ≤ 255 ∧ g ≤ 255 ∧ b ≤ 255 ∧
      blendChannel (js "screen") (.fin (1 / 2)) (.fin (205 : Nat)) (.fin (0 : Nat)) = .fin r ∧
      blendChannel (js "screen") (.fin (1 / 2)) (.fin (205 : Nat)) (.fin (0 : Nat)) = .fin g ∧
      blendChannel (js "screen") (.fin (1 / 2)) (.fin (0 : Nat)) (.fin (205 : Nat)) = .fin b ∧
      blend (js "Hi") (rgbArg 205 205 0) (rgbArg 0 0 205) (.fin (1 / 2)) (js "screen") =
        .ok (colorRgb (.int r) (.int g) (.int b) (js "Hi")) :=
  ⟨by decide, by decide, blend_in_range (js "Hi") (rgbArg 205 205 0) (rgbArg 0 0 205)
    205 205 0 0 0 205 (by decide) (by decide) (by decide) (by decide) (1 / 2) (by norm_num)
    (by norm_num) (js "screen")⟩

theorem gradient_eq (text : JSString) (S E : ColorArg) (s1 s2 s3 e1 e2 e3 : Nat)
    (hS : toRgb S = .ok [.int s1, .int s2, .int s3])
    (hE : toRgb E = .ok [.int e1, .int e2, .int e3]) :
    gradient text S E =
      .ok (text.enum.flatMap (fun ic =>
        span (gradientChannel (.fin s1) (.fin e1) ic.1 text.length).toJSNum
          (gradientChannel (.fin s2) (.fin e2) ic.1 text.length).toJSNum
          (gradientChannel (.fin s3) (.fin e3) ic.1 text.length).toJSNum [ic.2])) := by
  simp only [gradient, hS, hE, destructure3, List.getD_cons_zero, List.getD_cons_succ, toF64_nat,
    colorRgb_eq_span]

theorem gradientFormula_zero (s e N : Nat) : gradientFormula s e 0 N = s := by
  unfold gradientFormula roundHalfUp
  simp only [Nat.cast_zero, mul_zero, zero_div, add_zero]
  rw [Int.floor_eq_iff]
  push_cast
  constructor <;> linarith

/-- With equal endpoints every step of the channel is exact. -/
theorem gradientChannel_equal (h i N : Nat) (hh : h ≤ 255) (hi : i < N) :
    gradientChannel (.fin h) (.fin h) i N = .fin h := by
  have hNne : (N : ℚ) ≠ 0 := by
    have : 0 < N := by omega
    exact_mod_cast (ne_of_gt this)
  have h0 : RN 0 = .fin 0 := by simp [RN]
  simp only [gradientChannel, F64.ofNat, F64.sub_fin, sub_self, h0, F64.mul_fin, zero_mul,
    F64.div_fin _ _ hNne, zero_div, F64.add_fin, add_zero, RN_natCast h (by omega), F64.round_fin]
  congr 1
  have : ⌊(h : ℚ) + 1 / 2⌋ = (h : Int) := by
    rw [Int.floor_eq_iff]
    push_cast
    constructor <;> linarith
  rw [this]; simp

theorem flatMap_enumFrom_snd {α β : Type} (g : α → List β) (l : List α) :
    ∀ n, (l.enumFrom n).flatMap (fun ic => g ic.2) = l.flatMap g := by
  induction l with
  | nil => intro n; rfl
  | cons a l ih => intro n; simp [List.enumFrom_cons, List.flatMap_cons, ih]

/-- C15. The result of `gradient`: for every text of `N` characters (fewer than `2^32`) and
endpoints `S` and `E` with channels in `0..255`, `gradient(text, S, E)` is the concatenation
over `i` of `ESC[38;2;r_i;g_i;b_im ++ c_i ++ ESC[0m`, each character its own span, with
`r_i = round(S.r + (E.r - S.r) * i / N)` in exact arithmetic and likewise for `g` and `b`;
the channel at index `0` is the start channel, and the gradient of the empty text is the
empty string. -/
theorem gradient_result (text : JSString) (S E : ColorArg) (s1 s2 s3 e1 e2 e3 : Nat)
    (hS : toRgb S = .ok [.int s1, .int s2, .int s3])
    (hE : toRgb E = .ok [.int e1, .int e2, .int e3])
    (h1 : s1 ≤ 255 ∧ s2 ≤ 255 ∧ s3 ≤ 255) (h2 : e1 ≤ 255 ∧ e2 ≤ 255 ∧ e3 ≤ 255)
    (hlen : text.length < 2 ^ 32) :
    gradient text S E =
      .ok (text.enum.flatMap (fun ic =>
        span (.int (gradientFormula s1 e1 ic.1 text.length))
          (.int (gradientFormula s2 e2 ic.1 text.length))
          (.int (gradientFormula s3 e3 ic.1 text.length)) [ic.2])) ∧
    (gradientFormula s1 e1 0 text.length = s1 ∧ gradientFormula s2 e2 0 text.length = s2 ∧
      gradientFormula s3 e3 0 text.length = s3) ∧
    gradient [] S E = .ok [] := by
  refine ⟨?_, ⟨gradientFormula_zero _ _ _, gradientFormula_zero _ _ _,
    gradientFormula_zero _ _ _⟩, ?_⟩
  · rw [gradient_eq text S E s1 s2 s3 e1 e2 e3 hS hE]
    congr 1
    apply List.flatMap_congr
    intro ic hic
    have hi := List.fst_lt_of_mem_enum hic
    rw [gradientChannel_exact s1 e1 ic.1 _ h1.1 h2.1 hi hlen,
      gradientChannel_exact s2 e2 ic.1 _ h1.2.1 h2.2.1 hi hlen,
      gradientChannel_exact s3 e3 ic.1 _ h1.2.2 h2.2.2 hi hlen]
    simp only [toJSNum_int]
  · rw [gradient_eq [] S E s1 s2 s3 e1 e2 e3 hS hE]
    rfl

/-- Witness of C15 at `gradient("abc", [255, 215, 0], [65, 105, 225])`. -/
theorem gradient_result_witness :
    toRgb (rgbArg 255 215 0) = .ok [.int (255 : Nat), .int (215 : Nat), .int (0 : Nat)] ∧
    toRgb (rgbArg 65 105 225) = .ok [.int (65 : Nat), .int (105 : Nat), .int (225 : Nat)] ∧
    gradient (js "abc") (rgbArg 255 215 0) (rgbArg 65 105 225) =
      .ok ((js "abc").enum.flatMap (fun ic =>
        span (.int (gradientFormula 255 65 ic.1 (js "abc").length))
          (.int (gradientFormula 215 105 ic.1 (js "abc").length))
          (.int (gradientFormula 0 225 ic.1 (js "abc").length)) [ic.2])) :=
  ⟨by decide, by decide, (gradient_result (js "abc") (rgbArg 255 215 0)
    (rgbArg 65 105 225) 255 215 0 65 105 225 (by decide) (by decide) (by decide) (by decide)
    (by decide)).1⟩

/-- C16. Equal endpoints: for every text and every colour `H` with channels `[r, g, b]` in
`0..255`, every character of `gradient(text, H, H)` carries the colour `H`:
`gradient(text, H, H)` is the concatenation of `color.rgb(r, g, b)(c)` over the characters
`c` of the text. -/
theorem gradient_equal_endpoints (text : JSString) (H : ColorArg) (r g b : Nat)
    (hH : toRgb H = .ok [.int r, .int g, .int b]) (hr : r ≤ 255) (hg : g ≤ 255) (hb : b ≤ 255) :
    gradient text H H = .ok (text.flatMap (fun c => colorRgb (.int r) (.int g) (.int b) [c])) := by
  rw [gradient_eq text H H r g b r g b hH hH]
  congr 1
  rw [← flatMap_enumFrom_snd (fun c => colorRgb (.int r) (.int g) (.int b) [c]) text 0]
  apply List.flatMap_congr
  intro ic hic
  have hi := List.fst_lt_of_mem_enum hic
  rw [gradientChannel_equal r ic.1 _ hr hi, gradientChannel_equal g ic.1 _ hg hi,
    gradientChannel_equal b ic.1 _ hb hi, colorRgb_eq_span]
  simp only [toJSNum_nat]

/-- Witness of C16 at `gradient("abc", [255, 99, 71], [255, 99, 71])`. -/
theorem gradient_equal_endpoints_witness :
    toRgb (rgbArg 255 99 71) = .ok [.int (255 : Nat), .int (99 : Nat), .int (71 : Nat)] ∧
    gradient (js "abc") (rgbArg 255 99 71) (rgbArg 255 99 71) =
      .ok ((js "abc").flatMap (fun c =>
        colorRgb (.int (255 : Nat)) (.int (99 : Nat)) (.int (71 : Nat)) [c])) :=
  ⟨by decide, gradient_equal_endpoints (js "abc") (rgbArg 255 99 71) 255 99 71 (by decide)
    (by decide) (by decide) (by decide)⟩

/-- The channels of a valid table value are bytes. -/
theorem pairNat_le (hex : JSString) (h : validHex6 hex = true) :
    pairNat (dropHash hex) 0 ≤ 255 ∧ pairNat (dropHash hex) 1 ≤ 255 ∧
      pairNat (dropHash hex) 2 ≤ 255 := by
  simp only [validHex6, Bool.and_eq_true, decide_eq_true_eq] at h
  obtain ⟨p1, p2, p3⟩ := pairValues_inByteRange (dropHash hex) h.2 h.1
  simp only [pairValues, inByteRange, Bool.and_eq_true, decide_eq_true_eq] at p1 p2 p3
  omega

set_option maxRecDepth 100000 in
/-- The loop of `findNearestColor` over table entries, from a bounded integer triple, does
what `scanNearest` does on the squared distances. -/
theorem findNearestLoop_eq (a1 a2 a3 : Int)
    (h1 : |a1| ≤ 2 ^ 20) (h2 : |a2| ≤ 2 ^ 20) (h3 : |a3| ≤ 2 ^ 20) :
    ∀ (l : List (JSString × JSString)), (∀ kv ∈ l, namedFact kv) →
      ∀ (n : JSString) (m : Option Nat), (∀ k, m = some k → k < 2 ^ 44) →
        findNearestLoop [.int a1, .int a2, .int a3] (l.map Prod.fst) (n, leastSoFar m) =
          .ok ((scanNearest a1 a2 a3 l (n, m)).1,
            leastSoFar (scanNearest a1 a2 a3 l (n, m)).2) := by
  intro l
  induction l with
  | nil => intro _ n m _; rfl
  | cons kv rest ih =>
    intro hl n m hm
    obtain ⟨f1, _, f3, _, f5, _⟩ := hl kv (List.mem_cons_self _ _)
    obtain ⟨p1, p2, p3⟩ := pairNat_le kv.2 f1
    obtain ⟨hd, hlt⟩ := colorDistance_exact a1 a2 a3 kv.2 h1 h2 h3 p1 p2 p3
    have hrest : ∀ kv ∈ rest, namedFact kv := fun x hx => hl x (List.mem_cons_of_mem _ hx)
    rw [List.map_cons]
    unfold findNearestLoop
    rw [f3]
    simp only [Lookup.toColorArg]
    rw [f5]
    simp only [hd, lt_leastSoFar _ m hlt hm, scanNearest]
    by_cases hc : belowLeast (sqDistance a1 a2 a3 kv.2) m = true
    · simp only [hc, if_true]
      exact ih hrest kv.1 (some (sqDistance a1 a2 a3 kv.2)) (by
        intro k hk
        cases hk
        exact hlt)
    · simp only [hc]
      exact ih hrest n m hm

/-- What `scanNearest` returns: the state it started from, when no entry is below it, or
the first entry of least squared distance. -/
theorem scanNearest_spec (a1 a2 a3 : Int) :
    ∀ (l : List (JSString × JSString)) (n : JSString) (m : Option Nat),
      (scanNearest a1 a2 a3 l (n, m) = (n, m) ∧
        ∀ kv ∈ l, belowLeast (sqDistance a1 a2 a3 kv.2) m = false) ∨
      ∃ (i : Nat) (kv : JSString × JSString), l[i]? = some kv ∧
        scanNearest a1 a2 a3 l (n, m) = (kv.1, some (sqDistance a1 a2 a3 kv.2)) ∧
        belowLeast (sqDistance a1 a2 a3 kv.2) m = true ∧
        (∀ x ∈ l, sqDistance a1 a2 a3 kv.2 ≤ sqDistance a1 a2 a3 x.2) ∧
        ∀ (j : Nat) (x : JSString × JSString), j < i → l[j]? = some x →
          sqDistance a1 a2 a3 kv.2 < sqDistance a1 a2 a3 x.2 := by
  intro l
  induction l with
  | nil => intro n m; left; exact ⟨rfl, by simp⟩
  | cons y rest ih =>
    intro n m
    by_cases hc : belowLeast (sqDistance a1 a2 a3 y.2) m = true
    · have hs : scanNearest a1 a2 a3 (y :: rest) (n, m) =
          scanNearest a1 a2 a3 rest (y.1, some (sqDistance a1 a2 a3 y.2)) := by
        simp only [scanNearest, hc, if_true]
      right
      rcases ih y.1 (some (sqDistance a1 a2 a3 y.2)) with ⟨e, hall⟩ | ⟨i, kv, hi, e, hb, hall, hj⟩
      · refine ⟨0, y, by simp, by rw [hs, e], hc, ?_, ?_⟩
        · intro x hx
          rcases List.mem_cons.mp hx with rfl | hx
          · exact le_refl _
          · have := hall x hx
            simp only [belowLeast, decide_eq_false_iff_not, not_lt] at this
            exact this
        · intro j x hj0; omega
      · simp only [belowLeast, decide_eq_true_eq] at hb
        refine ⟨i + 1, kv, by simpa using hi, by rw [hs, e], ?_, ?_, ?_⟩
        · cases m with
          | none => rfl
          | some k =>
            simp only [belowLeast, decide_eq_true_eq] at hc ⊢
            omega
        · intro x hx
          rcases List.mem_cons.mp hx with rfl | hx
          · omega
          · exact hall x hx
        · intro j x hji hx
          cases j with
          | zero =>
            simp only [List.getElem?_cons_zero, Option.some.injEq] at hx
            subst hx; exact hb
          | succ j =>
            simp only [List.getElem?_cons_succ] at hx
            exact hj j x (by omega) hx
    · have hs : scanNearest a1 a2 a3 (y :: rest) (n, m) = scanNearest a1 a2 a3 rest (n, m) := by
        simp only [scanNearest, hc]
        rfl
      have hc : belowLeast (sqDistance a1 a2 a3 y.2) m = false := by simpa using hc
      rcases ih n m with ⟨e, hall⟩ | ⟨i, kv, hi, e, hb, hall, hj⟩
      · left
        refine ⟨by rw [hs, e], ?_⟩
        intro x hx
        rcases List.mem_cons.mp hx with rfl | hx
        · exact hc
        · exact hall x hx
      · right
        have hlt : sqDistance a1 a2 a3 kv.2 < sqDistance a1 a2 a3 y.2 := by
          cases m with
          | none => simp [belowLeast] at hc
          | some k =>
            simp only [belowLeast, decide_eq_true_eq, decide_eq_false_iff_not, not_lt] at hb hc
            omega
        refine ⟨i + 1, kv, by simpa using hi, by rw [hs, e], hb, ?_, ?_⟩
        · intro x hx
          rcases List.mem_cons.mp hx with rfl | hx
          · omega
          · exact hall x hx
        · intro j x hji hx
          cases j with
          | zero =>
            simp only [List.getElem?_cons_zero, Option.some.injEq] at hx
            subst hx; exact hlt
          | succ j =>
            simp only [List.getElem?_cons_succ] at hx
            exact hj j x (by omega) hx

set_option maxRecDepth 100000 in
/-- The call `findNearestColor` on a bounded integer triple, through `scanNearest`. -/
theorem findNearestColor_eq (a1 a2 a3 : Int)
    (h1 : |a1| ≤ 2 ^ 20) (h2 : |a2| ≤ 2 ^ 20) (h3 : |a3| ≤ 2 ^ 20) :
    findNearestColor (.arr [.int a1, .int a2, .int a3]) =
      .ok (scanNearest a1 a2 a3 allNamedColors ([], none)).1 := by
  have := findNearestLoop_eq a1 a2 a3 h1 h2 h3 allNamedColors allNamedColors_facts [] none
    (by intro k hk; cases hk)
  unfold findNearestColor
  have ht : toRgb (.arr [.int a1, .int a2, .int a3]) = .ok [.int a1, .int a2, .int a3] := rfl
  rw [ht]
  simp only [keys]
  rw [show (F64.inf false) = leastSoFar none from rfl, this]
  rfl

/-- From `[2 ^ 70, 0, 0]` the code computes the same distance, `2 ^ 70`, to every colour
with channels in `0..255`: the channels are absorbed by the rounding of each operation. -/
theorem colorDistance_far (hex : JSString)
    (hb1 : pairNat (dropHash hex) 0 ≤ 255) (hb2 : pairNat (dropHash hex) 1 ≤ 255)
    (hb3 : pairNat (dropHash hex) 2 ≤ 255) :
    colorDistance [.int (2 ^ 70), .int 0, .int 0] (hexTriple hex) = .fin (pow2 70) := by
  obtain ⟨e2, b2⟩ := sub_square_exact 0 _ (by norm_num) hb2
  obtain ⟨e3, b3⟩ := sub_square_exact 0 _ (by norm_num) hb3
  have hc : colorDistance [.int (2 ^ 70), .int 0, .int 0] (hexTriple hex) =
      (((((F64.fin (((2 ^ 70 : Int)) : ℚ)).sub
          (.fin ((pairNat (dropHash hex) 0 : Nat) : ℚ))).square.add
        ((F64.fin ((0 : Int) : ℚ)).sub (.fin ((pairNat (dropHash hex) 1 : Nat) : ℚ))).square).add
        ((F64.fin ((0 : Int) : ℚ)).sub (.fin ((pairNat (dropHash hex) 2 : Nat) : ℚ))).square).sqrt) := by
    simp [colorDistance, channelAt, hexTriple, pairValues, JSNum.toF64]
  have p16 : pow2 (70 - 54) = 65536 := by decide!
  have p86 : pow2 (140 - 54) = 2 ^ 86 := by decide!
  have p70 : (((2 ^ 70 : Int)) : ℚ) = pow2 70 := by decide!
  have p140 : pow2 70 * pow2 70 = pow2 140 + 0 := by rw [← pow2_add, add_zero]; rfl
  have hsq : F64.sqrt (.fin (pow2 140)) = .fin (pow2 70) := by decide!
  have h1 : (F64.fin (((2 ^ 70 : Int)) : ℚ)).sub (.fin ((pairNat (dropHash hex) 0 : Nat) : ℚ)) =
      .fin (pow2 70) := by
    rw [F64.sub_fin, p70, sub_eq_add_neg]
    have hle : ((pairNat (dropHash hex) 0 : Nat) : ℚ) ≤ 255 := by exact_mod_cast hb1
    have k1 : (-1021 : Int) ≤ 70 := by decide
    have k2 : (70 : Int) ≤ 1000 := by decide
    exact RN_absorb 70 (-((pairNat (dropHash hex) 0 : Nat) : ℚ)) k1 k2 (by
      rw [p16, abs_neg, abs_of_nonneg (Nat.cast_nonneg _)]
      linarith)
  have h2 : (F64.fin (pow2 70)).square = .fin (pow2 140) := by
    rw [F64.square, F64.mul_fin, p140]
    have k1 : (-1021 : Int) ≤ 140 := by decide
    have k2 : (140 : Int) ≤ 1000 := by decide
    exact RN_absorb 140 0 k1 k2 (by rw [abs_zero]; exact pow2_pos _)
  have habs : ∀ n : Nat, n ≤ 2 ^ 42 → RN (pow2 140 + (n : ℚ)) = .fin (pow2 140) := by
    intro n hn
    have k1 : (-1021 : Int) ≤ 140 := by decide
    have k2 : (140 : Int) ≤ 1000 := by decide
    have h42 : (n : ℚ) ≤ 2 ^ 42 := by exact_mod_cast hn
    have h86 : (2 : ℚ) ^ 42 < 2 ^ 86 := by norm_num
    exact RN_absorb 140 (n : ℚ) k1 k2 (by
      rw [p86, abs_of_nonneg (Nat.cast_nonneg _)]
      linarith)
  rw [hc, h1, h2, e2, e3, F64.add_fin, habs _ b2, F64.add_fin, habs _ b3, hsq]

/-- While every entry is at the distance already recorded, the loop of `findNearestColor`
keeps the name it holds. -/
theorem findNearestLoop_const (T : List JSNum) (D : ℚ) :
    ∀ (l : List (JSString × JSString)), (∀ kv ∈ l, namedFact kv) →
      (∀ kv ∈ l, colorDistance T (hexTriple kv.2) = .fin D) → ∀ (n : JSString),
        findNearestLoop T (l.map Prod.fst) (n, .fin D) = .ok (n, .fin D) := by
  intro l
  induction l with
  | nil => intro _ _ n; rfl
  | cons kv rest ih =>
    intro hl hD n
    obtain ⟨_, _, f3, _, f5, _⟩ := hl kv (List.mem_cons_self _ _)
    have hd := hD kv (List.mem_cons_self _ _)
    rw [List.map_cons]
    unfold findNearestLoop
    rw [f3]
    simp only [Lookup.toColorArg]
    rw [f5]
    simp only [hd, F64.lt, lt_irrefl, decide_False]
    exact ih (fun x hx => hl x (List.mem_cons_of_mem _ hx))
      (fun x hx => hD x (List.mem_cons_of_mem _ hx)) n

/-- The exact squared distance from an integer triple to the colour of a table name. -/
theorem squaredDistanceTo_entry (a1 a2 a3 : Int) (kv : JSString × JSString)
    (hkv : kv ∈ allNamedColors) :
    squaredDistanceTo [.int a1, .int a2, .int a3] kv.1 = .ok (sqDistance a1 a2 a3 kv.2 : Int) := by
  obtain ⟨_, _, _, f4, _, _⟩ := allNamedColors_facts kv hkv
  rw [squaredDistanceTo, f4]
  show Except.ok _ = _
  rw [squaredDistance_hexTriple]

/-- On a bounded integer triple `findNearestColor` returns the first entry of the combined
table of least squared distance. -/
theorem findNearestColor_first_least (a1 a2 a3 : Int)
    (h1 : |a1| ≤ 2 ^ 20) (h2 : |a2| ≤ 2 ^ 20) (h3 : |a3| ≤ 2 ^ 20) :
    ∃ (i : Nat) (kv : JSString × JSString), allNamedColors[i]? = some kv ∧
      findNearestColor (.arr [.int a1, .int a2, .int a3]) = .ok kv.1 ∧
      (∀ x ∈ allNamedColors, sqDistance a1 a2 a3 kv.2 ≤ sqDistance a1 a2 a3 x.2) ∧
      ∀ (j : Nat) (x : JSString × JSString), j < i → allNamedColors[j]? = some x →
        sqDistance a1 a2 a3 kv.2 < sqDistance a1 a2 a3 x.2 := by
  rw [findNearestColor_eq a1 a2 a3 h1 h2 h3]
  rcases scanNearest_spec a1 a2 a3 allNamedColors [] none with ⟨_, hall⟩ | ⟨i, kv, hi, e, _, hall, hj⟩
  · have hmem : (js "maroon", js "#800000") ∈ allNamedColors := by
      rw [allNamedColors_eq]; decide!
    have := hall _ hmem
    simp [belowLeast] at this
  · exact ⟨i, kv, hi, by rw [e], hall, hj⟩

/-- Once an entry at distance 0 is held, `scanNearest` keeps it. -/
theorem scanNearest_zero (a1 a2 a3 : Int) :
    ∀ (l : List (JSString × JSString)) (n : JSString),
      scanNearest a1 a2 a3 l (n, some 0) = (n, some 0) := by
  intro l
  induction l with
  | nil => intro n; rfl
  | cons y rest ih =>
    intro n
    simp only [scanNearest, belowLeast, Nat.not_lt_zero, decide_False]
    exact ih n

/-- When some entry is at distance 0, `scanNearest` returns the first such entry. -/
theorem scanNearest_find (a1 a2 a3 : Int) :
    ∀ (l : List (JSString × JSString)) (n : JSString) (m : Option Nat), m ≠ some 0 →
      (∃ x ∈ l, sqDistance a1 a2 a3 x.2 = 0) →
      some (scanNearest a1 a2 a3 l (n, m)).1 =
        (l.find? (fun x => decide (sqDistance a1 a2 a3 x.2 = 0))).map Prod.fst := by
  intro l
  induction l with
  | nil => intro n m _ h; obtain ⟨x, hx, _⟩ := h; simp at hx
  | cons y rest ih =>
    intro n m hm hex
    by_cases hy : sqDistance a1 a2 a3 y.2 = 0
    · have hb : belowLeast (sqDistance a1 a2 a3 y.2) m = true := by
        rw [hy]
        cases m with
        | none => rfl
        | some k =>
          simp only [belowLeast, decide_eq_true_eq]
          have : k ≠ 0 := fun h => hm (by rw [h])
          omega
      rw [hy] at hb
      simp only [scanNearest, List.find?_cons, hy, hb, if_true, decide_True, Option.map_some']
      rw [scanNearest_zero]
    · have hrest : ∃ x ∈ rest, sqDistance a1 a2 a3 x.2 = 0 := by
        obtain ⟨x, hx, h0⟩ := hex
        rcases List.mem_cons.mp hx with rfl | hx
        · exact absurd h0 hy
        · exact ⟨x, hx, h0⟩
      simp only [scanNearest, List.find?_cons, hy, decide_False]
      by_cases hb : belowLeast (sqDistance a1 a2 a3 y.2) m = true
      · simp only [hb, if_true]
        exact ih y.1 (some _) (by intro h; exact hy (Option.some.inj h)) hrest
      · simp only [hb]
        exact ih n m hm hrest

/-- In the combined table, the first entry with the colour of a given entry. -/
theorem first_of_colour : ∀ kv ∈ extendedColors ++ ansiHexMapping,
    ((extendedColors ++ ansiHexMapping).find? (fun x =>
        decide (sqDistance (pairNat (dropHash kv.2) 0) (pairNat (dropHash kv.2) 1)
          (pairNat (dropHash kv.2) 2) x.2 = 0))).map Prod.fst =
      some (if kv.1 = js "blue" then js "mediumblue"
        else if kv.1 = js "brightMagenta" then js "fuchsia" else kv.1) := by
  decide!

/-- A table value at squared distance 0 from the channels of another has the same
channels. -/
theorem hexTriple_of_sqDistance_zero (hex other : JSString)
    (h : sqDistance (pairNat (dropHash hex) 0) (pairNat (dropHash hex) 1)
      (pairNat (dropHash hex) 2) other = 0) : hexTriple other = hexTriple hex := by
  unfold sqDistance at h
  have h1 : (((pairNat (dropHash hex) 0 : Nat) : Int) - (pairNat (dropHash other) 0 : Nat)).natAbs = 0 := by
    by_contra hne
    have := Nat.pos_pow_of_pos 2 (Nat.pos_of_ne_zero hne)
    omega
  have h2 : (((pairNat (dropHash hex) 1 : Nat) : Int) - (pairNat (dropHash other) 1 : Nat)).natAbs = 0 := by
    by_contra hne
    have := Nat.pos_pow_of_pos 2 (Nat.pos_of_ne_zero hne)
    omega
  have h3 : (((pairNat (dropHash hex) 2 : Nat) : Int) - (pairNat (dropHash other) 2 : Nat)).natAbs = 0 := by
    by_contra hne
    have := Nat.pos_pow_of_pos 2 (Nat.pos_of_ne_zero hne)
    omega
  have e1 : pairNat (dropHash other) 0 = pairNat (dropHash hex) 0 := by omega
  have e2 : pairNat (dropHash other) 1 = pairNat (dropHash hex) 1 := by omega
  have e3 : pairNat (dropHash other) 2 = pairNat (dropHash hex) 2 := by omega
  simp only [hexTriple, pairValues, e1, e2, e3]

theorem sqDistance_self (hex : JSString) :
    sqDistance (pairNat (dropHash hex) 0) (pairNat (dropHash hex) 1)
      (pairNat (dropHash hex) 2) hex = 0 := by
  simp [sqDistance]

set_option maxRecDepth 100000 in
/-- The nearest name of the colour of a table name. -/
theorem nearest_of_entry (kv : JSString × JSString) (hkv : kv ∈ allNamedColors) :
    (toRgb (.str kv.1)).bind (fun c => findNearestColor (.arr c)) =
      .ok (if kv.1 = js "blue" then js "mediumblue"
        else if kv.1 = js "brightMagenta" then js "fuchsia" else kv.1) := by
  obtain ⟨f1, _, _, f4, _, _⟩ := allNamedColors_facts kv hkv
  obtain ⟨p1, p2, p3⟩ := pairNat_le kv.2 f1
  rw [f4]
  show findNearestColor (.arr [.int (pairNat (dropHash kv.2) 0 : Nat),
    .int (pairNat (dropHash kv.2) 1 : Nat), .int (pairNat (dropHash kv.2) 2 : Nat)]) = _
  rw [findNearestColor_eq _ _ _ (by rw [abs_le]; omega) (by rw [abs_le]; omega)
    (by rw [abs_le]; omega)]
  have hfind := scanNearest_find (pairNat (dropHash kv.2) 0) (pairNat (dropHash kv.2) 1)
    (pairNat (dropHash kv.2) 2) allNamedColors [] none (by simp)
    ⟨kv, hkv, sqDistance_self kv.2⟩
  have hfirst := first_of_colour kv (by rw [← allNamedColors_eq]; exact hkv)
  rw [← allNamedColors_eq, ← hfind] at hfirst
  rw [Option.some.inj hfirst]

set_option maxRecDepth 100000 in
/-- The nearest name of the colour of a table name has that colour. -/
theorem nearest_of_entry_colour (kv : JSString × JSString) (hkv : kv ∈ allNamedColors) :
    toRgb (.str (if kv.1 = js "blue" then js "mediumblue"
        else if kv.1 = js "brightMagenta" then js "fuchsia" else kv.1)) =
      toRgb (.str kv.1) := by
  have hres := nearest_of_entry kv hkv
  obtain ⟨f1, _, _, f4, _, _⟩ := allNamedColors_facts kv hkv
  obtain ⟨p1, p2, p3⟩ := pairNat_le kv.2 f1
  obtain ⟨i, kv', hi, e, hall, _⟩ := findNearestColor_first_least
    (pairNat (dropHash kv.2) 0) (pairNat (dropHash kv.2) 1) (pairNat (dropHash kv.2) 2)
    (by rw [abs_le]; omega) (by rw [abs_le]; omega) (by rw [abs_le]; omega)
  have hkv' : kv' ∈ allNamedColors := List.getElem?_mem hi
  rw [f4] at hres
  have hres' : findNearestColor (.arr (hexTriple kv.2)) = .ok (if kv.1 = js "blue" then
      js "mediumblue" else if kv.1 = js "brightMagenta" then js "fuchsia" else kv.1) := hres
  have e' : findNearestColor (.arr (hexTriple kv.2)) = .ok kv'.1 := e
  rw [e'] at hres'
  have hname := Except.ok.inj hres'
  have h0 : sqDistance (pairNat (dropHash kv.2) 0) (pairNat (dropHash kv.2) 1)
      (pairNat (dropHash kv.2) 2) kv'.2 = 0 := by
    have := hall kv hkv
    rw [sqDistance_self] at this
    omega
  rw [← hname, (allNamedColors_facts kv' hkv').2.2.2.1, f4,
    hexTriple_of_sqDistance_zero kv.2 kv'.2 h0]

/-- C17. `findNearestColor(resolveColor('red'))` is exactly `'red'`: the colour of `red` is
`[205, 0, 0]`, its distance to itself is 0, and the call on it returns `red`. -/
theorem nearest_of_red :
    toRgb (.str (js "red")) = .ok [.int 205, .int 0, .int 0] ∧
      colorDistance [.int 205, .int 0, .int 0] [.int 205, .int 0, .int 0] = .fin 0 ∧
      (toRgb (.str (js "red"))).bind (fun c => findNearestColor (.arr c)) = .ok (js "red") := by
  have hmem : (js "red", js "#CD0000") ∈ allNamedColors := by
    rw [allNamedColors_eq]; decide!
  refine ⟨?_, by decide!, ?_⟩
  · exact ((allNamedColors_facts _ hmem).2.2.2.1).trans (by decide!)
  · exact (nearest_of_entry (js "red", js "#CD0000") hmem).trans (by decide!)

/-- C18, the claim fails: `blue` and `mediumblue` are both `#0000CD` and `mediumblue` is
enumerated first, so the nearest name of the colour of `blue` is `mediumblue`. -/
theorem nearest_of_blue :
    js "blue" ∈ keys allNamedColors ∧
      (toRgb (.str (js "blue"))).bind (fun c => findNearestColor (.arr c)) =
        .ok (js "mediumblue") := by
  have hmem : (js "blue", js "#0000CD") ∈ allNamedColors := by
    rw [allNamedColors_eq]; decide!
  exact ⟨List.mem_map_of_mem Prod.fst hmem,
    (nearest_of_entry (js "blue", js "#0000CD") hmem).trans (by decide!)⟩

/-- C18, amended. For every name `n` of the combined table, `findNearestColor` of the
colour of `n` returns a name of the same colour: `n` itself, except that `blue` gives
`mediumblue` and `brightMagenta` gives `fuchsia`, the names of the same colour that are
enumerated before them. -/
theorem nearest_of_table_name (kv : JSString × JSString) (hkv : kv ∈ allNamedColors) :
    ∃ n, (toRgb (.str kv.1)).bind (fun c => findNearestColor (.arr c)) = .ok n ∧
      toRgb (.str n) = toRgb (.str kv.1) ∧
      n = (if kv.1 = js "blue" then js "mediumblue"
        else if kv.1 = js "brightMagenta" then js "fuchsia" else kv.1) :=
  ⟨_, nearest_of_entry kv hkv, nearest_of_entry_colour kv hkv, rfl⟩

/-- Witness of C18, amended, at `brightMagenta`. -/
theorem nearest_of_table_name_witness :
    (js "brightMagenta", js "#FF00FF") ∈ allNamedColors ∧
      ∃ n, (toRgb (.str (js "brightMagenta"))).bind (fun c => findNearestColor (.arr c)) =
          .ok n ∧
        toRgb (.str n) = toRgb (.str (js "brightMagenta")) ∧
        n = (if js "brightMagenta" = js "blue" then js "mediumblue"
          else if js "brightMagenta" = js "brightMagenta" then js "fuchsia"
          else js "brightMagenta") :=
  ⟨by rw [allNamedColors_eq]; decide!,
    nearest_of_table_name (js "brightMagenta", js "#FF00FF")
      (by rw [allNamedColors_eq]; decide!)⟩

set_option maxRecDepth 100000 in
/-- From `[2 ^ 70, 0, 0]` all the distances computed are equal, and the first name
enumerated is returned. -/
theorem findNearestColor_far :
    findNearestColor (.arr [.int (2 ^ 70), .int 0, .int 0]) = .ok (js "maroon") := by
  have hhead : extendedColors.head? = some (js "maroon", js "#800000") := by decide!
  obtain ⟨rest, hrest⟩ : ∃ rest, allNamedColors = (js "maroon", js "#800000") :: rest := by
    rw [allNamedColors_eq]
    rcases hl : extendedColors with _ | ⟨x, xs⟩
    · rw [hl] at hhead; simp at hhead
    · rw [hl] at hhead
      simp only [List.head?_cons, Option.some.injEq] at hhead
      exact ⟨xs ++ ansiHexMapping, by rw [hhead]; rfl⟩
  have hfar : ∀ kv ∈ allNamedColors,
      colorDistance [.int (2 ^ 70), .int 0, .int 0] (hexTriple kv.2) = .fin (pow2 70) := by
    intro kv hkv
    obtain ⟨p1, p2, p3⟩ := pairNat_le kv.2 (allNamedColors_facts kv hkv).1
    exact colorDistance_far kv.2 p1 p2 p3
  have hmem : (js "maroon", js "#800000") ∈ allNamedColors := by
    rw [hrest]; exact List.mem_cons_self _ _
  obtain ⟨_, _, f3, _, f5, _⟩ := allNamedColors_facts _ hmem
  have hloop := findNearestLoop_const [.int (2 ^ 70), .int 0, .int 0] (pow2 70) rest
    (fun x hx => allNamedColors_facts x (by rw [hrest]; exact List.mem_cons_of_mem _ hx))
    (fun x hx => hfar x (by rw [hrest]; exact List.mem_cons_of_mem _ hx)) (js "maroon")
  unfold findNearestColor
  have ht : toRgb (.arr [.int (2 ^ 70), .int 0, .int 0]) =
      .ok [.int (2 ^ 70), .int 0, .int 0] := rfl
  rw [ht]
  simp only [keys]
  rw [hrest, List.map_cons]
  unfold findNearestLoop
  rw [f3]
  simp only [Lookup.toColorArg]
  rw [f5]
  simp only [hfar _ hmem, F64.lt, Bool.not_false, if_true]
  rw [hloop]
  rfl

/-- C19, the claim fails at `[2 ^ 70, 0, 0]`: every difference `2 ^ 70 - r` is rounded to
`2 ^ 70`, whose square absorbs the other two squares, so all the distances computed are the
double `2 ^ 70` and `findNearestColor` returns `maroon`, the first name enumerated, while
`brightRed` is strictly nearer. -/
theorem nearest_far_input :
    findNearestColor (.arr [.int (2 ^ 70), .int 0, .int 0]) = .ok (js "maroon") ∧
      js "brightRed" ∈ keys allNamedColors ∧
      squaredDistanceTo [.int (2 ^ 70), .int 0, .int 0] (js "maroon") =
        .ok ((2 ^ 70 - 128) ^ 2) ∧
      squaredDistanceTo [.int (2 ^ 70), .int 0, .int 0] (js "brightRed") =
        .ok ((2 ^ 70 - 255) ^ 2) := by
  have h1 : (js "maroon", js "#800000") ∈ allNamedColors := by
    rw [allNamedColors_eq]; decide!
  have h2 : (js "brightRed", js "#FF0000") ∈ allNamedColors := by
    rw [allNamedColors_eq]; decide!
  refine ⟨findNearestColor_far, List.mem_map_of_mem Prod.fst h2, ?_, ?_⟩
  · exact (squaredDistanceTo_entry _ _ _ _ h1).trans (by decide!)
  · exact (squaredDistanceTo_entry _ _ _ _ h2).trans (by decide!)

/-- C19, amended. For every input colour whose channels are integers of absolute value at
most `2 ^ 20`, `findNearestColor` returns a name of the combined table, and the squared
distance from the input to the colour of that name is at most the squared distance to the
colour of any name of the table. -/
theorem nearest_is_minimum (a1 a2 a3 : Int)
    (h1 : |a1| ≤ 2 ^ 20) (h2 : |a2| ≤ 2 ^ 20) (h3 : |a3| ≤ 2 ^ 20) :
    ∃ n ∈ keys allNamedColors,
      findNearestColor (.arr [.int a1, .int a2, .int a3]) = .ok n ∧
      ∀ m ∈ keys allNamedColors, ∃ dn dm : Int,
        squaredDistanceTo [.int a1, .int a2, .int a3] n = .ok dn ∧
        squaredDistanceTo [.int a1, .int a2, .int a3] m = .ok dm ∧ dn ≤ dm := by
  obtain ⟨i, kv, hi, e, hall, _⟩ := findNearestColor_first_least a1 a2 a3 h1 h2 h3
  have hkv : kv ∈ allNamedColors := List.getElem?_mem hi
  refine ⟨kv.1, List.mem_map_of_mem _ hkv, e, ?_⟩
  intro m hm
  obtain ⟨x, hx, rfl⟩ := List.mem_map.mp hm
  exact ⟨_, _, squaredDistanceTo_entry a1 a2 a3 kv hkv, squaredDistanceTo_entry a1 a2 a3 x hx,
    by exact_mod_cast hall x hx⟩

/-- Witness of C19, amended, at `[100, 150, 200]`. -/
theorem nearest_is_minimum_witness :
    |(100 : Int)| ≤ 2 ^ 20 ∧ |(150 : Int)| ≤ 2 ^ 20 ∧ |(200 : Int)| ≤ 2 ^ 20 ∧
      ∃ n ∈ keys allNamedColors,
        findNearestColor (.arr [.int 100, .int 150, .int 200]) = .ok n ∧
        ∀ m ∈ keys allNamedColors, ∃ dn dm : Int,
          squaredDistanceTo [.int 100, .int 150, .int 200] n = .ok dn ∧
          squaredDistanceTo [.int 100, .int 150, .int 200] m = .ok dm ∧ dn ≤ dm :=
  ⟨by norm_num, by norm_num, by norm_num,
    nearest_is_minimum 100 150 200 (by norm_num) (by norm_num) (by norm_num)⟩

/-- C20, amended. On an input colour with integer channels of absolute value at most
`2 ^ 20`, the name `findNearestColor` returns is at the least squared distance, and any name of the
combined table at that same distance is enumerated at the same place or later; the
enumeration is the extended names in declaration order, then the ANSI-hex names in
declaration order. -/
theorem nearest_tie_first (a1 a2 a3 : Int)
    (h1 : |a1| ≤ 2 ^ 20) (h2 : |a2| ≤ 2 ^ 20) (h3 : |a3| ≤ 2 ^ 20) :
    keys allNamedColors = keys extendedColors ++ keys ansiHexMapping ∧
    ∃ (i : Nat) (n : JSString) (dn : Int), (keys allNamedColors)[i]? = some n ∧
      findNearestColor (.arr [.int a1, .int a2, .int a3]) = .ok n ∧
      squaredDistanceTo [.int a1, .int a2, .int a3] n = .ok dn ∧
      ∀ (j : Nat) (m : JSString), (keys allNamedColors)[j]? = some m →
        ∃ dm : Int, squaredDistanceTo [.int a1, .int a2, .int a3] m = .ok dm ∧ dn ≤ dm ∧
          (dm = dn → i ≤ j) := by
  refine ⟨by rw [allNamedColors_eq]; simp [keys], ?_⟩
  obtain ⟨i, kv, hi, e, hall, hfirst⟩ := findNearestColor_first_least a1 a2 a3 h1 h2 h3
  have hkv : kv ∈ allNamedColors := List.getElem?_mem hi
  refine ⟨i, kv.1, _, by simp [keys, hi], e, squaredDistanceTo_entry a1 a2 a3 kv hkv, ?_⟩
  intro j m hj
  simp only [keys, List.getElem?_map, Option.map_eq_some'] at hj
  obtain ⟨x, hx, rfl⟩ := hj
  have hxm : x ∈ allNamedColors := List.getElem?_mem hx
  refine ⟨_, squaredDistanceTo_entry a1 a2 a3 x hxm, by exact_mod_cast hall x hxm, ?_⟩
  intro heq
  by_contra hlt
  have := hfirst j x (by omega) hx
  have heq : sqDistance a1 a2 a3 x.2 = sqDistance a1 a2 a3 kv.2 := by exact_mod_cast heq
  omega

/-- Witness of C20, amended, at `[0, 0, 205]`, where `mediumblue` and `blue` tie. -/
theorem nearest_tie_first_witness :
    |(0 : Int)| ≤ 2 ^ 20 ∧ |(205 : Int)| ≤ 2 ^ 20 ∧
    keys allNamedColors = keys extendedColors ++ keys ansiHexMapping ∧
    ∃ (i : Nat) (n : JSString) (dn : Int), (keys allNamedColors)[i]? = some n ∧
      findNearestColor (.arr [.int 0, .int 0, .int 205]) = .ok n ∧
      squaredDistanceTo [.int 0, .int 0, .int 205] n = .ok dn ∧
      ∀ (j : Nat) (m : JSString), (keys allNamedColors)[j]? = some m →
        ∃ dm : Int, squaredDistanceTo [.int 0, .int 0, .int 205] m = .ok dm ∧ dn ≤ dm ∧
          (dm = dn → i ≤ j) :=
  ⟨by norm_num, by norm_num,
    nearest_tie_first 0 0 205 (by norm_num) (by norm_num) (by norm_num)⟩

/-- From `[2 ^ 70, 0, 2 ^ 70]` the code computes the same distance to every colour with
channels in `0..255`: the differences of the first and last channels are rounded to
`2 ^ 70`, and the square of the middle one is absorbed by their squares. -/
theorem colorDistance_far_diagonal (hex : JSString)
    (hb1 : pairNat (dropHash hex) 0 ≤ 255) (hb2 : pairNat (dropHash hex) 1 ≤ 255)
    (hb3 : pairNat (dropHash hex) 2 ≤ 255) :
    colorDistance [.int (2 ^ 70), .int 0, .int (2 ^ 70)] (hexTriple hex) =
      .fin (6369051672525773 * 2 ^ 18) := by
  obtain ⟨e2, b2⟩ := sub_square_exact 0 _ (by norm_num) hb2
  have hc : colorDistance [.int (2 ^ 70), .int 0, .int (2 ^ 70)] (hexTriple hex) =
      (((((F64.fin (((2 ^ 70 : Int)) : ℚ)).sub
          (.fin ((pairNat (dropHash hex) 0 : Nat) : ℚ))).square.add
        ((F64.fin ((0 : Int) : ℚ)).sub (.fin ((pairNat (dropHash hex) 1 : Nat) : ℚ))).square).add
        ((F64.fin (((2 ^ 70 : Int)) : ℚ)).sub
          (.fin ((pairNat (dropHash hex) 2 : Nat) : ℚ))).square).sqrt) := by
    simp [colorDistance, channelAt, hexTriple, pairValues, JSNum.toF64]
  have p16 : pow2 (70 - 54) = 65536 := by decide!
  have p86 : pow2 (140 - 54) = 2 ^ 86 := by decide!
  have p70 : (((2 ^ 70 : Int)) : ℚ) = pow2 70 := by decide!
  have p140 : pow2 70 * pow2 70 = pow2 140 + 0 := by rw [← pow2_add, add_zero]; rfl
  have p141 : pow2 140 + pow2 140 = pow2 141 + 0 := by
    rw [add_zero, show (141 : Int) = 140 + 1 from rfl, pow2_succ]; ring
  have hsq : F64.sqrt (.fin (pow2 141)) = .fin (6369051672525773 * 2 ^ 18) := by decide!
  have hsub : ∀ n : Nat, n ≤ 255 →
      (F64.fin (((2 ^ 70 : Int)) : ℚ)).sub (.fin ((n : Nat) : ℚ)) = .fin (pow2 70) := by
    intro n hn
    rw [F64.sub_fin, p70, sub_eq_add_neg]
    have hle : ((n : Nat) : ℚ) ≤ 255 := by exact_mod_cast hn
    have k1 : (-1021 : Int) ≤ 70 := by decide
    have k2 : (70 : Int) ≤ 1000 := by decide
    exact RN_absorb 70 (-((n : Nat) : ℚ)) k1 k2 (by
      rw [p16, abs_neg, abs_of_nonneg (Nat.cast_nonneg _)]
      linarith)
  have h2 : (F64.fin (pow2 70)).square = .fin (pow2 140) := by
    rw [F64.square, F64.mul_fin, p140]
    have k1 : (-1021 : Int) ≤ 140 := by decide
    have k2 : (140 : Int) ≤ 1000 := by decide
    exact RN_absorb 140 0 k1 k2 (by rw [abs_zero]; exact pow2_pos _)
  have habs : ∀ n : Nat, n ≤ 2 ^ 42 → RN (pow2 140 + (n : ℚ)) = .fin (pow2 140) := by
    intro n hn
    have k1 : (-1021 : Int) ≤ 140 := by decide
    have k2 : (140 : Int) ≤ 1000 := by decide
    have h42 : (n : ℚ) ≤ 2 ^ 42 := by exact_mod_cast hn
    have h86 : (2 : ℚ) ^ 42 < 2 ^ 86 := by norm_num
    exact RN_absorb 140 (n : ℚ) k1 k2 (by
      rw [p86, abs_of_nonneg (Nat.cast_nonneg _)]
      linarith)
  have hsum : RN (pow2 140 + pow2 140) = .fin (pow2 141) := by
    rw [p141]
    have k1 : (-1021 : Int) ≤ 141 := by decide
    have k2 : (141 : Int) ≤ 1000 := by decide
    exact RN_absorb 141 0 k1 k2 (by rw [abs_zero]; exact pow2_pos _)
  rw [hc, hsub _ hb1, hsub _ hb3, h2, e2, F64.add_fin, habs _ b2, F64.add_fin, hsum, hsq]

set_option maxRecDepth 100000 in
/-- From `[2 ^ 70, 0, 2 ^ 70]` all the distances computed are equal, and the first name
enumerated is returned. -/
theorem findNearestColor_far_diagonal :
    findNearestColor (.arr [.int (2 ^ 70), .int 0, .int (2 ^ 70)]) = .ok (js "maroon") := by
  have hhead : extendedColors.head? = some (js "maroon", js "#800000") := by decide!
  obtain ⟨rest, hrest⟩ : ∃ rest, allNamedColors = (js "maroon", js "#800000") :: rest := by
    rw [allNamedColors_eq]
    rcases hl : extendedColors with _ | ⟨x, xs⟩
    · rw [hl] at hhead; simp at hhead
    · rw [hl] at hhead
      simp only [List.head?_cons, Option.some.injEq] at hhead
      exact ⟨xs ++ ansiHexMapping, by rw [hhead]; rfl⟩
  have hfar : ∀ kv ∈ allNamedColors,
      colorDistance [.int (2 ^ 70), .int 0, .int (2 ^ 70)] (hexTriple kv.2) =
        .fin (6369051672525773 * 2 ^ 18) := by
    intro kv hkv
    obtain ⟨p1, p2, p3⟩ := pairNat_le kv.2 (allNamedColors_facts kv hkv).1
    exact colorDistance_far_diagonal kv.2 p1 p2 p3
  have hmem : (js "maroon", js "#800000") ∈ allNamedColors := by
    rw [hrest]; exact List.mem_cons_self _ _
  obtain ⟨_, _, f3, _, f5, _⟩ := allNamedColors_facts _ hmem
  have hloop := findNearestLoop_const [.int (2 ^ 70), .int 0, .int (2 ^ 70)]
    (6369051672525773 * 2 ^ 18) rest
    (fun x hx => allNamedColors_facts x (by rw [hrest]; exact List.mem_cons_of_mem _ hx))
    (fun x hx => hfar x (by rw [hrest]; exact List.mem_cons_of_mem _ hx)) (js "maroon")
  unfold findNearestColor
  have ht : toRgb (.arr [.int (2 ^ 70), .int 0, .int (2 ^ 70)]) =
      .ok [.int (2 ^ 70), .int 0, .int (2 ^ 70)] := rfl
  rw [ht]
  simp only [keys]
  rw [hrest, List.map_cons]
  unfold findNearestLoop
  rw [f3]
  simp only [Lookup.toColorArg]
  rw [f5]
  simp only [hfar _ hmem, F64.lt, Bool.not_false, if_true]
  rw [hloop]
  rfl

/-- No colour with channels in `0..255` is nearer to `[2 ^ 70, 0, 2 ^ 70]` than
`[255, 0, 255]`. -/
theorem sqDistance_far_diagonal (hex : JSString)
    (hb1 : pairNat (dropHash hex) 0 ≤ 255) (hb3 : pairNat (dropHash hex) 2 ≤ 255) :
    2 * (2 ^ 70 - 255) ^ 2 ≤ sqDistance (2 ^ 70) 0 (2 ^ 70) hex := by
  unfold sqDistance
  have h1 : 2 ^ 70 - 255 ≤ ((2 ^ 70 : Int) - (pairNat (dropHash hex) 0 : Nat)).natAbs := by
    omega
  have h3 : 2 ^ 70 - 255 ≤ ((2 ^ 70 : Int) - (pairNat (dropHash hex) 2 : Nat)).natAbs := by
    omega
  have s1 := Nat.pow_le_pow_left h1 2
  have s3 := Nat.pow_le_pow_left h3 2
  omega

set_option maxRecDepth 100000 in
/-- C20, the claim fails at `[2 ^ 70, 0, 2 ^ 70]`: `fuchsia` and `brightMagenta`, both
`#FF00FF`, are the names at the least distance, squared `2 * (2 ^ 70 - 255) ^ 2`, and
`fuchsia` is enumerated first of the two; the code computes the same double for the distance
to every name and returns `maroon`, the first name of the table, which is farther. -/
theorem nearest_tie_far_input :
    findNearestColor (.arr [.int (2 ^ 70), .int 0, .int (2 ^ 70)]) = .ok (js "maroon") ∧
    squaredDistanceTo [.int (2 ^ 70), .int 0, .int (2 ^ 70)] (js "fuchsia") =
      .ok (2 * (2 ^ 70 - 255) ^ 2) ∧
    squaredDistanceTo [.int (2 ^ 70), .int 0, .int (2 ^ 70)] (js "brightMagenta") =
      .ok (2 * (2 ^ 70 - 255) ^ 2) ∧
    (∀ m ∈ keys allNamedColors, ∃ dm : Int,
      squaredDistanceTo [.int (2 ^ 70), .int 0, .int (2 ^ 70)] m = .ok dm ∧
        2 * (2 ^ 70 - 255) ^ 2 ≤ dm) ∧
    squaredDistanceTo [.int (2 ^ 70), .int 0, .int (2 ^ 70)] (js "maroon") =
      .ok ((2 ^ 70 - 128) ^ 2 + (2 ^ 70) ^ 2) ∧
    (2 * (2 ^ 70 - 255) ^ 2 : Int) < (2 ^ 70 - 128) ^ 2 + (2 ^ 70) ^ 2 := by
  have h1 : (js "maroon", js "#800000") ∈ allNamedColors := by
    rw [allNamedColors_eq]; decide!
  have h2 : (js "fuchsia", js "#FF00FF") ∈ allNamedColors := by
    rw [allNamedColors_eq]; decide!
  have h3 : (js "brightMagenta", js "#FF00FF") ∈ allNamedColors := by
    rw [allNamedColors_eq]; decide!
  refine ⟨findNearestColor_far_diagonal, ?_, ?_, ?_, ?_, by decide⟩
  · exact (squaredDistanceTo_entry _ _ _ _ h2).trans (by decide!)
  · exact (squaredDistanceTo_entry _ _ _ _ h3).trans (by decide!)
  · intro m hm
    obtain ⟨x, hx, rfl⟩ := List.mem_map.mp hm
    obtain ⟨p1, _, p3⟩ := pairNat_le x.2 (allNamedColors_facts x hx).1
    refine ⟨_, squaredDistanceTo_entry _ _ _ x hx, ?_⟩
    have hle : ((2 * (2 ^ 70 - 255) ^ 2 : Nat) : Int) ≤
        (sqDistance (2 ^ 70) 0 (2 ^ 70) x.2 : Int) :=
      Int.ofNat_le.mpr (sqDistance_far_diagonal x.2 p1 p3)
    have he : ((2 * (2 ^ 70 - 255) ^ 2 : Nat) : Int) = 2 * (2 ^ 70 - 255) ^ 2 := by decide
    rw [he] at hle
    exact hle
  · exact (squaredDistanceTo_entry _ _ _ _ h1).trans (by decide!)

theorem pad_eq (text : JSString) (width : Int) (side char : JSString) :
    pad text width side char =
      .ok (if side = js "left"
        then (List.replicate (width - (visibleLength text : Int)).toNat char).flatten ++ text
        else text ++ (List.replicate (width - (visibleLength text : Int)).toNat char).flatten) := by
  unfold pad visibleLength
  dsimp only
  rw [jsRepeat_nonneg _ _ (le_max_left _ _)]
  have : (max 0 (width - ((strip text).length : Int))).toNat =
      (width - ((strip text).length : Int)).toNat := by omega
  simp only [this]

/-- C21. Padding to the right gives the requested visible width: for every text and every
integer width `W`, with the default pad character, `pad(text, W, 'right')` returns a string
whose visible length is `max(W, visibleLength(text))`. -/
theorem pad_right_visible (text : JSString) (W : Int) :
    ∃ r, pad text W (js "right") = .ok r ∧
      (visibleLength r : Int) = max W (visibleLength text : Int) := by
  refine ⟨_, pad_eq text W (js "right") (js " "), ?_⟩
  rw [if_neg (by decide)]
  have hrep : (List.replicate (W - (visibleLength text : Int)).toNat (js " ")).flatten =
      spaces (W - (visibleLength text : Int)).toNat := replicate_flatten_single 32 _
  rw [hrep]
  have h := strip_append_spaces text (W - (visibleLength text : Int)).toNat [] stops_nil
  rw [List.append_nil, strip_nil, List.append_nil] at h
  unfold visibleLength at *
  rw [h, List.length_append]
  simp only [spaces, List.length_replicate]
  omega

/-- C22. The result of `pad`: for every text, integer width `w` and pad string `c`,
with `k = max(0, w - visibleLength(text))`, `pad(text, w, 'right', c)` is the text followed
by `k` copies of `c` and `pad(text, w, 'left', c)` is `k` copies of `c` followed by the
text; when `visibleLength(text) ≥ w` both are the text itself. -/
theorem pad_result (text : JSString) (w : Int) (c : JSString) :
    pad text w (js "right") c =
      .ok (text ++ (List.replicate (w - (visibleLength text : Int)).toNat c).flatten) ∧
    pad text w (js "left") c =
      .ok ((List.replicate (w - (visibleLength text : Int)).toNat c).flatten ++ text) ∧
    (w ≤ (visibleLength text : Int) →
      pad text w (js "right") c = .ok text ∧ pad text w (js "left") c = .ok text) := by
  refine ⟨?_, ?_, ?_⟩
  · rw [pad_eq, if_neg (by decide)]
  · rw [pad_eq, if_pos rfl]
  · intro h
    have : (w - (visibleLength text : Int)).toNat = 0 := by omega
    rw [pad_eq, pad_eq, this]
    simp

/-- C23. The result of `center`: for every text and integer width `w`, `center(text, w)` is
`k` spaces followed by the text, nothing being added on the right, where
`k = max(0, floor((w - visibleLength(text)) / 2))`: half the difference, rounded down, when
`w` is at least the visible length, and `0` otherwise. -/
theorem center_result (text : JSString) (w : Int) :
    center text w = .ok (spaces ((w - (visibleLength text : Int)) / 2).toNat ++ text) ∧
    ((visibleLength text : Int) ≤ w →
      (((w - (visibleLength text : Int)) / 2).toNat : Int) =
        ⌊((w : ℚ) - (visibleLength text : ℚ)) / 2⌋) ∧
    (w ≤ (visibleLength text : Int) → center text w = .ok text) := by
  have hc : center text w =
      .ok (spaces ((w - (visibleLength text : Int)) / 2).toNat ++ text) := by
    unfold center visibleLength
    dsimp only
    rw [jsRepeat_nonneg _ _ (le_max_left _ _), floorHalf_eq]
    have : (max 0 ((w - ((strip text).length : Int)) / 2)).toNat =
        ((w - ((strip text).length : Int)) / 2).toNat := by omega
    rw [this]
    exact congrArg (fun s => Except.ok (s ++ text)) (replicate_flatten_single 32 _)
  refine ⟨hc, ?_, ?_⟩
  · intro h
    have h2 := floorHalf_eq (w - (visibleLength text : Int))
    unfold floorHalf at h2
    push_cast at h2
    rw [h2, Int.toNat_of_nonneg (by omega)]
  · intro h
    have : ((w - (visibleLength text : Int)) / 2).toNat = 0 := by omega
    rw [hc, this]
    rfl

/-- C29. A rule without text: for every width `w ≥ 0`, `line(w, "")`, and `line(w)` with
the text omitted, is `w` times the glyph `─`. -/
theorem line_rule (w : Nat) :
    line w (js "") = .ok (dashes w) ∧ line w = .ok (dashes w) ∧
      dashes w = (List.replicate w (js "─")).flatten := by
  have h : line w (js "") = .ok (dashes w) := by
    unfold line
    have : (strip (js "")).length = 0 := by rw [show js "" = [] from rfl, strip_nil]; rfl
    simp only [this, if_true]
    exact jsRepeat_dash w
  exact ⟨h, h, (replicate_flatten_single 0x2500 w).symm⟩

/-- The body of `line` when the text has a visible part. -/
theorem line_eq (w : Int) (text : JSString) (hL : 1 ≤ visibleLength text) :
    line w text =
      .ok (if 2 * ((w - (visibleLength text : Int) - 2) / 2).toNat + visibleLength text + 2 < w
        then dashes ((w - (visibleLength text : Int) - 2) / 2).toNat ++
          (js " " ++ text ++ js " ") ++
          dashes ((w - (visibleLength text : Int) - 2) / 2).toNat ++ js "─"
        else dashes ((w - (visibleLength text : Int) - 2) / 2).toNat ++
          (js " " ++ text ++ js " ") ++
          dashes ((w - (visibleLength text : Int) - 2) / 2).toNat) ∧
    visibleLength (dashes ((w - (visibleLength text : Int) - 2) / 2).toNat ++
        (js " " ++ text ++ js " ") ++
        dashes ((w - (visibleLength text : Int) - 2) / 2).toNat) =
      2 * ((w - (visibleLength text : Int) - 2) / 2).toNat + visibleLength text + 2 := by
  generalize hk : ((w - (visibleLength text : Int) - 2) / 2).toNat = k
  have hvis : visibleLength (dashes k ++ (js " " ++ text ++ js " ") ++ dashes k) =
      2 * k + visibleLength text + 2 := by
    unfold visibleLength dashes
    have e1 : js " " = spaces 1 := rfl
    rw [List.append_assoc, strip_replicate _ _ plain_dash, e1, List.append_assoc,
      List.append_assoc]
    unfold spaces
    rw [strip_replicate _ _ plain_space]
    have hst : stops (List.replicate k 9472) := by
      simpa using stops_replicate 9472 k (by decide) [] stops_nil
    have := strip_append_spaces text 1 (List.replicate k 9472) hst
    unfold spaces at this
    rw [this, strip_replicate_self _ _ plain_dash]
    simp only [List.length_append, List.length_replicate]
    omega
  refine ⟨?_, hvis⟩
  unfold line
  have h0 : ¬ (strip text).length = 0 := by unfold visibleLength at hL; omega
  simp only [h0, if_false]
  rw [jsRepeat_nonneg _ _ (le_max_left _ _), floorHalf_eq]
  have hk' : (max 0 ((w - ((strip text).length : Int) - 2) / 2)).toNat = k := by
    unfold visibleLength at hk; omega
  have hd : (List.replicate k (js "─")).flatten = dashes k := replicate_flatten_single 0x2500 k
  simp only [hk', hd]
  unfold visibleLength at hvis
  rw [hvis]
  by_cases hlt : ((2 * k + (strip text).length + 2 : Nat) : Int) < w
  · rw [if_pos hlt, if_pos (by unfold visibleLength; exact_mod_cast hlt)]
  · rw [if_neg hlt, if_neg (by unfold visibleLength; exact_mod_cast hlt)]

/-- C30. A rule with text: for every text of visible length `L ≥ 1` and every integer width
`w`, the visible length of `line(w, text)` is `max(w, L + 2)`. When `w ≥ L + 2` the result
is two runs of `floor((w - L - 2) / 2)` glyphs `─` around `" text "`, with one more `─` at
the right end when `w - L` is odd; otherwise it is `" text "`, not truncated. -/
theorem line_with_text (text : JSString) (w : Int) (hL : 1 ≤ visibleLength text) :
    ∃ r, line w text = .ok r ∧
      (visibleLength r : Int) = max w ((visibleLength text : Int) + 2) ∧
      ((visibleLength text : Int) + 2 ≤ w →
        r = dashes ((w - (visibleLength text : Int) - 2) / 2).toNat ++
          (js " " ++ text ++ js " ") ++
          dashes ((w - (visibleLength text : Int) - 2) / 2).toNat ++
          (if (w - (visibleLength text : Int)) % 2 = 1 then js "─" else js "")) ∧
      (w < (visibleLength text : Int) + 2 → r = js " " ++ text ++ js " ") := by
  obtain ⟨heq, hvis⟩ := line_eq w text hL
  refine ⟨_, heq, ?_, ?_, ?_⟩
  · by_cases hlt : 2 * (((w - (visibleLength text : Int) - 2) / 2).toNat : Int) +
        (visibleLength text : Int) + 2 < w
    · rw [if_pos hlt]
      have hx : visibleLength (dashes ((w - (visibleLength text : Int) - 2) / 2).toNat ++
          (js " " ++ text ++ js " ") ++
          dashes ((w - (visibleLength text : Int) - 2) / 2).toNat ++ js "─") =
          2 * ((w - (visibleLength text : Int) - 2) / 2).toNat + visibleLength text + 2 + 1 := by
        have hs : stops (js "─") := by decide
        have h1 : strip (js "─") = js "─" := strip_replicate_self 0x2500 1 plain_dash
        unfold visibleLength at hvis ⊢
        rw [strip_append_stops _ _ hs, List.length_append, hvis, h1]
        rfl
      rw [hx]
      push_cast at hlt ⊢
      omega
    · rw [if_neg hlt, hvis]
      push_cast at hlt ⊢
      omega
  · intro hw
    have hodd : (2 * (((w - (visibleLength text : Int) - 2) / 2).toNat : Int) +
        (visibleLength text : Int) + 2 < w) ↔ (w - (visibleLength text : Int)) % 2 = 1 := by
      omega
    by_cases hlt : 2 * (((w - (visibleLength text : Int) - 2) / 2).toNat : Int) +
        (visibleLength text : Int) + 2 < w
    · rw [if_pos hlt, if_pos (hodd.mp hlt)]
    · rw [if_neg hlt, if_neg (fun h => hlt (hodd.mpr h))]
      simp [show js "" = [] from rfl]
  · intro hw
    have hk : ((w - (visibleLength text : Int) - 2) / 2).toNat = 0 := by omega
    have hlt : ¬ 2 * (((w - (visibleLength text : Int) - 2) / 2).toNat : Int) +
        (visibleLength text : Int) + 2 < w := by
      omega
    rw [if_neg hlt, hk]
    simp [dashes]

/-- Witness of C30 at `line(11, "X")`. -/
theorem line_with_text_witness :
    1 ≤ visibleLength (js "X") ∧
    ∃ r, line 11 (js "X") = .ok r ∧
      (visibleLength r : Int) = max 11 ((visibleLength (js "X") : Int) + 2) ∧
      ((visibleLength (js "X") : Int) + 2 ≤ 11 →
        r = dashes ((11 - (visibleLength (js "X") : Int) - 2) / 2).toNat ++
          (js " " ++ js "X" ++ js " ") ++
          dashes ((11 - (visibleLength (js "X") : Int) - 2) / 2).toNat ++
          (if (11 - (visibleLength (js "X") : Int)) % 2 = 1 then js "─" else js "")) ∧
      (11 < (visibleLength (js "X") : Int) + 2 → r = js " " ++ js "X" ++ js " ") :=
  ⟨by decide!, line_with_text (js "X") 11 (by decide!)⟩

/-- The lines of `wrap`, split on the newline, for a text without newline. -/
theorem split_wrap (text : JSString) (width : Int) (hnl : 10 ∉ text) :
    split 10 (wrap text width) = wrapLines width (split 32 text) [] [] := by
  rw [wrap_eq]
  apply split_join 10 _ (wrapLines_ne_nil _ _ _ _)
  apply wrapLines_forall width (fun l => 10 ∉ l) (split 32 text)
  · intro w hw
    exact not_mem_of_mem_split_of_not_mem 32 10 text w hnl hw
  · intro line w hw hl _
    have hw10 := not_mem_of_mem_split_of_not_mem 32 10 text w hnl hw
    by_cases hlen : line.length > 0
    · simp only [hlen, if_true, List.mem_append, not_or]
      exact ⟨hl, by decide, hw10⟩
    · simp only [hlen, if_false, List.mem_append, not_or]
      exact ⟨hl, by decide, hw10⟩
  · simp
  · simp

/-- C24. The lines of `wrap`: for every text without newline and every width `≥ 0`, every
line of `wrap(text, width)` has a visible length of at most `width`, or is one word of the
text, a piece between two spaces, that is itself wider than `width`; and the non-empty words
of the lines are, in order, the non-empty words of the text, so no word is split. -/
theorem wrap_lines (text : JSString) (width : Int) (hnl : 10 ∉ text) (hw : 0 ≤ width) :
    (∀ l ∈ split 10 (wrap text width),
      (visibleLength l : Int) ≤ width ∨ (l ∈ split 32 text ∧ width < visibleLength l)) ∧
    wordsOf (split 10 (wrap text width)) = wordsOf [text] := by
  rw [split_wrap text width hnl]
  constructor
  · apply wrapLines_forall width
      (fun l => (visibleLength l : Int) ≤ width ∨ (l ∈ split 32 text ∧ width < visibleLength l))
      (split 32 text)
    · intro w hmem
      by_cases hle : (visibleLength w : Int) ≤ width
      · exact Or.inl hle
      · exact Or.inr ⟨hmem, by omega⟩
    · intro line w _ _ hcond
      left
      cases line with
      | nil =>
        have e : ([] : JSString) ++ ((if ([] : JSString).length > 0 then js " " else js "") ++ w)
            = w := by
          simp [show js "" = [] from rfl]
        have e2 : ([] : JSString) ++ js " " ++ w = 32 :: w := rfl
        rw [e]
        rw [e2, strip_plain_cons 32 w plain_space, List.length_cons] at hcond
        unfold visibleLength
        push_cast at hcond
        omega
      | cons c t =>
        have e : (c :: t) ++ ((if (c :: t).length > 0 then js " " else js "") ++ w) =
            (c :: t) ++ js " " ++ w := by
          simp
        rw [e]
        exact hcond
    · left
      unfold visibleLength
      rw [strip_nil]
      exact hw
    · simp
  · rw [wordsOf_wrapLines width (split 32 text) (fun w hmem => not_mem_of_mem_split 32 text w hmem)]
    simp [wordsOf, split]

/-- Witness of C24 at `wrap("aaa bb cccccccc d  e", 5)`. -/
theorem wrap_lines_witness :
    10 ∉ js "aaa bb cccccccc d  e" ∧ (0 : Int) ≤ 5 ∧
    (∀ l ∈ split 10 (wrap (js "aaa bb cccccccc d  e") 5),
      (visibleLength l : Int) ≤ 5 ∨
        (l ∈ split 32 (js "aaa bb cccccccc d  e") ∧ (5 : Int) < visibleLength l)) ∧
    wordsOf (split 10 (wrap (js "aaa bb cccccccc d  e") 5)) =
      wordsOf [js "aaa bb cccccccc d  e"] :=
  ⟨by decide, by decide, wrap_lines (js "aaa bb cccccccc d  e") 5 (by decide) (by decide)⟩

/-- The colour `white` of the table. -/
theorem toRgb_white : toRgb (.str (js "white")) = .ok [.int 229, .int 229, .int 229] := by
  have hmem : (js "white", js "#E5E5E5") ∈ allNamedColors := by
    rw [allNamedColors_eq]; decide!
  exact ((allNamedColors_facts _ hmem).2.2.2.1).trans (by decide!)

/-- The border function of `box` for the default colour: a code, the text, the reset. -/
theorem colorRgb_white (x : JSString) :
    colorRgb (.int 229) (.int 229) (.int 229) x =
      js "\x1b[38;2;229;229;229m" ++ (x ++ js "\x1b[0m") := by
  rw [colorRgb_eq_span]
  have e : numberToString (.int 229) = js "229" := by decide
  simp only [span, e]
  have e1 : [ESC] ++ js "[38;2;" ++ js "229" ++ js ";" ++ js "229" ++ js ";" ++ js "229" ++
      js "m" = js "\x1b[38;2;229;229;229m" := by decide
  have e2 : [ESC] ++ js "[0m" = js "\x1b[0m" := by decide
  rw [← e1, ← e2]
  simp only [List.append_assoc]

theorem clean_white : Strippable (js "\x1b[38;2;229;229;229m") := by
  have h := clean_trueColorCode (js "38") (.int 229) (.int 229) (.int 229) (by decide)
    (by decide) (by decide) (by decide)
  have e : trueColorCode (js "38") (.int 229) (.int 229) (.int 229) =
      js "\x1b[38;2;229;229;229m" := by decide
  rwa [e] at h

theorem clean_reset : Strippable (js "\x1b[0m") := by
  have h := clean_resetCode
  have e : resetCode = js "\x1b[0m" := by decide
  rwa [e] at h

theorem strip_reset : strip (js "\x1b[0m") = [] := by
  have := clean_reset []
  rwa [List.append_nil, strip_nil] at this

set_option maxRecDepth 100000 in
/-- The result of `box` with the default colour, the style `single` and a padding `p`. -/
theorem box_eq (text : JSString) (p : Nat) (style : Option JSString)
    (hs : style = none ∨ style = some (js "single")) :
    box text { style := style, padding := some (p : Int) } =
      .ok (join (js "\n")
        ([whiteBorder (js "╭" ++ dashes (maxVisible (split 10 text) + 2 + 2 * p) ++ js "╮")] ++
          (split 10 text).map (boxContent p (maxVisible (split 10 text))) ++
          [whiteBorder (js "╰" ++ dashes (maxVisible (split 10 text) + 2 + 2 * p) ++ js "╯")])) := by
  have hstyle : boxStyleOf (style.getD (js "single")) =
      .ok [js "╭", js "─", js "╮", js "│", js "╰", js "╯"] := by
    rcases hs with rfl | rfl <;> decide
  have hbar : jsRepeat (js "─") ((maxVisible (split 10 text) : Int) + 2 + (p : Int) * 2) =
      .ok (dashes (maxVisible (split 10 text) + 2 + 2 * p)) := by
    have : (maxVisible (split 10 text) : Int) + 2 + (p : Int) * 2 =
        ((maxVisible (split 10 text) + 2 + 2 * p : Nat) : Int) := by push_cast; ring
    rw [this, jsRepeat_dash]
  have hlines : mapThrowing (boxLine (colorRgb (.int 229) (.int 229) (.int 229)) (js "│")
      (maxVisible (split 10 text)) p) (split 10 text) =
      .ok ((split 10 text).map (boxContent p (maxVisible (split 10 text)))) := by
    apply mapThrowing_ok
    intro line hline
    have hle : (strip line).length ≤ maxVisible (split 10 text) :=
      le_foldl_max (fun l => (strip l).length) _ 0 line hline
    have e1 : (maxVisible (split 10 text) : Int) - ((strip line).length : Int) + (p : Int) =
        ((maxVisible (split 10 text) - visibleLength line + p : Nat) : Int) := by
      unfold visibleLength; omega
    unfold boxLine
    dsimp only
    rw [e1, jsRepeat_space, jsRepeat_space]
    rfl
  unfold box
  simp only [Option.getD_none, Option.getD_some, hstyle, toRgb_white, destructure3,
    List.getD_cons_zero, List.getD_cons_succ]
  have hm : List.foldl (fun mx line => max mx (strip line).length) 0 (split 10 text) =
      maxVisible (split 10 text) := rfl
  simp only [hm, hbar, hlines]
  rfl

theorem whiteBorder_eq (x : JSString) :
    whiteBorder x = js "\x1b[38;2;229;229;229m" ++ (x ++ js "\x1b[0m") := colorRgb_white x

/-- What `strip` leaves of a bordered piece without escape characters, in front of any
text. -/
theorem strip_whiteBorder (x T : JSString) (hx : ∀ c ∈ x, plain c) :
    strip (whiteBorder x ++ T) = x ++ strip T := by
  rw [whiteBorder_eq, List.append_assoc, clean_white, List.append_assoc,
    strip_plain_append x _ hx, clean_reset]

theorem stops_whiteBorder (x T : JSString) : stops (whiteBorder x ++ T) := by
  rw [whiteBorder_eq]
  exact stops_cons ESC _ inert_ESC

theorem plain_of_mem_spaces (p c : Nat) (h : c ∈ spaces p) : plain c := by
  rw [List.eq_of_mem_replicate h]; exact plain_space

/-- What `strip` leaves of a content line of a box. -/
theorem strip_boxContent (p maxLen : Nat) (line : JSString) :
    strip (boxContent p maxLen line) =
      js "│" ++ spaces p ++ (strip line ++
        (spaces (maxLen - visibleLength line + p) ++ (spaces p ++ js "│"))) := by
  have h1 : ∀ c ∈ js "│" ++ spaces p, plain c := by
    intro c hc
    rcases List.mem_append.mp hc with h | h
    · simp only [show js "│" = [0x2502] from rfl, List.mem_singleton] at h
      rw [h]; unfold plain ESC CSI; decide
    · exact plain_of_mem_spaces p c h
  have h2 : ∀ c ∈ spaces p ++ js "│", plain c := by
    intro c hc
    rcases List.mem_append.mp hc with h | h
    · exact plain_of_mem_spaces p c h
    · simp only [show js "│" = [0x2502] from rfl, List.mem_singleton] at h
      rw [h]; unfold plain ESC CSI; decide
  have hst : stops (whiteBorder (spaces p ++ js "│")) := by
    have := stops_whiteBorder (spaces p ++ js "│") []
    rwa [List.append_nil] at this
  have h3 := strip_whiteBorder (spaces p ++ js "│") [] h2
  rw [List.append_nil, strip_nil, List.append_nil] at h3
  unfold boxContent
  rw [List.append_assoc, List.append_assoc, strip_whiteBorder _ _ h1,
    strip_append_spaces line _ _ hst, h3]

theorem visibleLength_boxContent (p maxLen : Nat) (line : JSString)
    (h : visibleLength line ≤ maxLen) :
    visibleLength (boxContent p maxLen line) = maxLen + 3 * p + 2 := by
  unfold visibleLength at *
  rw [strip_boxContent]
  simp only [List.length_append, spaces, List.length_replicate, visibleLength,
    show (js "│").length = 1 from rfl]
  omega

theorem not_mem_whiteBorder (x : JSString) (hx : 10 ∉ x) : 10 ∉ whiteBorder x := by
  rw [whiteBorder_eq]
  simp only [List.mem_append, not_or]
  exact ⟨by decide, hx, by decide⟩

theorem not_mem_spaces (p : Nat) : 10 ∉ spaces p := by
  intro h
  have := List.eq_of_mem_replicate h
  omega

theorem not_mem_dashes (p : Nat) : 10 ∉ dashes p := by
  intro h
  have := List.eq_of_mem_replicate h
  omega

/-- C26. The content lines of a box are uniform: for every text of `m` lines and every
padding `p ≥ 0`, `box(text, {padding: p})` has `m + 2` lines, a top border, one content line
per line of the text, in order, and a bottom border; every content line has the visible
length `maxLen + 3 * p + 2`, where `maxLen` is the greatest visible length of the lines of
the text, whatever escape codes they carry, and holds its line of the text unchanged. -/
theorem box_content_uniform (text : JSString) (p : Nat) :
    ∃ (top bottom : JSString) (contents : List JSString),
      box text { padding := some (p : Int) } =
        .ok (join (js "\n") ([top] ++ contents ++ [bottom])) ∧
      (∀ r, box text { padding := some (p : Int) } = .ok r →
        split 10 r = [top] ++ contents ++ [bottom]) ∧
      contents.length = (split 10 text).length ∧
      ∀ (i : Nat) (line : JSString), (split 10 text)[i]? = some line →
        ∃ c, contents[i]? = some c ∧
          visibleLength c = maxVisible (split 10 text) + 3 * p + 2 ∧
          ∃ a b, c = a ++ line ++ b := by
  have heq := box_eq text p none (Or.inl rfl)
  have hnl : ∀ l ∈ [whiteBorder (js "╭" ++ dashes (maxVisible (split 10 text) + 2 + 2 * p) ++
        js "╮")] ++ (split 10 text).map (boxContent p (maxVisible (split 10 text))) ++
        [whiteBorder (js "╰" ++ dashes (maxVisible (split 10 text) + 2 + 2 * p) ++ js "╯")],
      10 ∉ l := by
    intro l hl
    simp only [List.mem_append, List.mem_singleton, List.mem_map] at hl
    rcases hl with (rfl | ⟨line, hline, rfl⟩) | rfl
    · apply not_mem_whiteBorder
      simp only [List.mem_append, not_or]
      exact ⟨⟨by decide, not_mem_dashes _⟩, by decide⟩
    · unfold boxContent
      simp only [List.mem_append, not_or]
      refine ⟨⟨⟨?_, not_mem_of_mem_split 10 text line hline⟩, not_mem_spaces _⟩, ?_⟩
      · apply not_mem_whiteBorder
        simp only [List.mem_append, not_or]
        exact ⟨by decide, not_mem_spaces _⟩
      · apply not_mem_whiteBorder
        simp only [List.mem_append, not_or]
        exact ⟨not_mem_spaces _, by decide⟩
    · apply not_mem_whiteBorder
      simp only [List.mem_append, not_or]
      exact ⟨⟨by decide, not_mem_dashes _⟩, by decide⟩
  refine ⟨_, _, _, heq, ?_, by simp, ?_⟩
  · intro r hr
    rw [heq] at hr
    rw [← Except.ok.inj hr]
    exact split_join 10 _ (by simp) hnl
  · intro i line hi
    refine ⟨boxContent p (maxVisible (split 10 text)) line, by simp [hi], ?_, ?_⟩
    · apply visibleLength_boxContent
      exact le_foldl_max (fun l => (strip l).length) _ 0 line (List.getElem?_mem hi)
    · exact ⟨whiteBorder (js "│" ++ spaces p),
        spaces (maxVisible (split 10 text) - visibleLength line + p) ++
          whiteBorder (spaces p ++ js "│"),
        by unfold boxContent; simp only [List.append_assoc]⟩

/-- C25, the code at `box("Hi", {style: 'single', padding: 0})`: three lines, whose visible
texts are `╭────╮`, `│Hi│` and `╰────╯`. The borders have `n + 2 = 4` horizontal glyphs and
are six columns wide; the content line has no space between the vertical glyphs and the
text, and is four columns wide. -/
theorem box_hi_content_narrow :
    box (js "Hi") { style := some (js "single"), padding := some 0 } =
      .ok (js "\x1b[38;2;229;229;229m╭────╮\x1b[0m\n\x1b[38;2;229;229;229m│\x1b[0mHi\x1b[38;2;229;229;229m│\x1b[0m\n\x1b[38;2;229;229;229m╰────╯\x1b[0m") ∧
    (split 10 (js "\x1b[38;2;229;229;229m╭────╮\x1b[0m\n\x1b[38;2;229;229;229m│\x1b[0mHi\x1b[38;2;229;229;229m│\x1b[0m\n\x1b[38;2;229;229;229m╰────╯\x1b[0m")).map
        strip = [js "╭────╮", js "│Hi│", js "╰────╯"] ∧
    js "│Hi│" ≠ js "│ Hi │" := by
  refine ⟨?_, by decide!, by decide⟩
  have h := box_eq (js "Hi") 0 (some (js "single")) (Or.inr rfl)
  rw [show ((0 : Nat) : Int) = 0 from rfl] at h
  rw [h]
  decide!

theorem colorStyle_bold (x : JSString) :
    colorStyle (js "bold") x = js "\x1b[1m" ++ (x ++ js "\x1b[0m") := by
  have hmem : (js "bold", js "\x1b[1m") ∈ styleCodes := by decide
  obtain ⟨f1, f2, f3, _⟩ := styleCodes_facts _ hmem
  have e : resetCode = js "\x1b[0m" := by decide
  unfold colorStyle
  rw [get_style color (js "bold") (js "\x1b[1m") f1 f2 f3]
  simp only [Builder.apply, createStyleObject, color, e, List.nil_append, List.append_assoc]

theorem colorStyle_dim (x : JSString) :
    colorStyle (js "dim") x = js "\x1b[2m" ++ (x ++ js "\x1b[0m") := by
  have hmem : (js "dim", js "\x1b[2m") ∈ styleCodes := by decide
  obtain ⟨f1, f2, f3, _⟩ := styleCodes_facts _ hmem
  have e : resetCode = js "\x1b[0m" := by decide
  unfold colorStyle
  rw [get_style color (js "dim") (js "\x1b[2m") f1 f2 f3]
  simp only [Builder.apply, createStyleObject, color, e, List.nil_append, List.append_assoc]

theorem clean_bold : Strippable (js "\x1b[1m") :=
  clean_styleCode (js "bold", js "\x1b[1m") (by decide)

theorem clean_dim : Strippable (js "\x1b[2m") :=
  clean_styleCode (js "dim", js "\x1b[2m") (by decide)

theorem stops_reset : stops (js "\x1b[0m") := stops_cons ESC _ inert_ESC

theorem le_columnMax (j : Nat) (cell : JSString) :
    ∀ (rows : List (List JSString)) (row : List JSString), row ∈ rows → row[j]? = some cell →
      visibleLength cell ≤ columnMax rows j := by
  intro rows
  induction rows with
  | nil => intro row h; simp at h
  | cons r rest ih =>
    intro row hrow hcell
    have hc : columnMax (r :: rest) j = max (visibleLength (r.getD j [])) (columnMax rest j) := rfl
    rw [hc]
    rcases List.mem_cons.mp hrow with rfl | hrow
    · have : row.getD j [] = cell := by
        rw [List.getD_eq_getElem?_getD, hcell]; rfl
      rw [this]
      exact le_max_left _ _
    · exact le_trans (ih row hrow hcell) (le_max_right _ _)

/-- A row of the table as `formatLine` writes it: its visible length, in front of a text
that stops, is the sum of the column widths and three columns for each separator. -/
theorem formatLine_visible (align : List JSString) (rows : List (List JSString)) (n : Nat)
    (row : List JSString) (hrow : row ∈ rows) (hlen : row.length = n) :
    ∃ l, formatLine align ((List.range n).map (columnMax rows)) row (js "│") = .ok l ∧
      ∀ T, stops T → (strip (l ++ T)).length =
        ((List.range n).map (columnMax rows)).sum + 3 * (n - 1) + (strip T).length := by
  obtain ⟨cs, hcs, hf⟩ := formatCells_padded align ((List.range n).map (columnMax rows)) row 0
    ((List.range n).map (columnMax rows)) (by simp [hlen]) (by
      intro j cell hcell
      have hj : j < n := by
        rw [← hlen]
        exact (List.getElem?_eq_some_iff.mp hcell).1
      have hw : ((List.range n).map (columnMax rows))[j]? = some (columnMax rows j) := by
        simp [List.getElem?_map, List.getElem?_range hj]
      exact ⟨_, hw, by rw [Nat.zero_add]; exact hw, le_columnMax j cell rows row hrow hcell⟩)
  refine ⟨join (js " " ++ js "│" ++ js " ") cs, ?_, ?_⟩
  · unfold formatLine
    rw [List.enum, hcs]
  · intro T hT
    have := strip_join_padded T hT _ _ hf
    simpa using this

/-- The `forEach` of `table` adds one line for each body row. -/
theorem tableBody_lines (align : List JSString) (rows : List (List JSString)) (n : Nat) :
    ∀ (body : List (List JSString)) (acc : JSString),
      (∀ row ∈ body, row ∈ rows ∧ row.length = n) →
      ∃ ls : List JSString,
        tableBody align ((List.range n).map (columnMax rows)) body acc =
          .ok (acc ++ ls.flatMap (js "\n" ++ ·)) ∧
        ls.length = body.length ∧
        ∀ l ∈ ls, visibleLength l =
          ((List.range n).map (columnMax rows)).sum + 3 * (n - 1) := by
  intro body
  induction body with
  | nil => intro acc _; exact ⟨[], by simp [tableBody], rfl, by simp⟩
  | cons row rest ih =>
    intro acc h
    obtain ⟨hrow, hlen⟩ := h row (List.mem_cons_self _ _)
    obtain ⟨l, hl, hvis⟩ := formatLine_visible align rows n row hrow hlen
    obtain ⟨ls, hls, hlen2, hall⟩ := ih (acc ++ (js "\n" ++ l))
      (fun r hr => h r (List.mem_cons_of_mem _ hr))
    refine ⟨l :: ls, ?_, by simp [hlen2], ?_⟩
    · unfold tableBody
      rw [hl]
      dsimp only
      rw [hls]
      simp
    · intro x hx
      rcases List.mem_cons.mp hx with rfl | hx
      · have := hvis [] stops_nil
        rw [List.append_nil, strip_nil] at this
        unfold visibleLength
        rw [this]; rfl
      · exact hall x hx

/-- C27. The column widths of a table: for every non-empty list of rows that all have as
many cells as the header, whatever the alignments, `table(rows)` is made of the header
line, the separator rule and one line for each body row, joined by newlines, and each of
them has the visible length `(sum of the w_i) + 3 * (n - 1)`, where `n` is the number of
columns and `w_i` the greatest visible length of the cells of column `i`; for
`[["A", "BB"], ["1", "22"]]` the widths are `[1, 2]`. -/
theorem table_line_widths (header : List JSString) (body : List (List JSString))
    (align : List JSString) (hcells : ∀ row ∈ header :: body, row.length = header.length) :
    (∃ lines : List JSString,
      table (header :: body) { align := align } = .ok (join (js "\n") lines) ∧
      lines.length = (header :: body).length + 1 ∧
      ∀ l ∈ lines, visibleLength l =
        ((List.range header.length).map (columnMax (header :: body))).sum +
          3 * (header.length - 1)) ∧
    (List.range 2).map (columnMax [[js "A", js "BB"], [js "1", js "22"]]) = [1, 2] := by
  refine ⟨?_, by decide!⟩
  obtain ⟨h, hh, hvis⟩ := formatLine_visible align (header :: body) header.length header
    (List.mem_cons_self _ _) rfl
  obtain ⟨ls, hls, hlen, hall⟩ := tableBody_lines align (header :: body) header.length body
    (colorStyle (js "bold") h ++ (js "\n" ++ colorStyle (js "dim")
      (join (js "─┼─") (((List.range header.length).map (columnMax (header :: body))).map
        (fun w => (List.replicate w (js "─")).flatten)))))
    (fun row hr => ⟨List.mem_cons_of_mem _ hr, hcells row (List.mem_cons_of_mem _ hr)⟩)
  refine ⟨colorStyle (js "bold") h :: colorStyle (js "dim")
      (join (js "─┼─") (((List.range header.length).map (columnMax (header :: body))).map
        (fun w => (List.replicate w (js "─")).flatten))) :: ls, ?_, by simp [hlen], ?_⟩
  · unfold table
    dsimp only
    rw [widths_eq (header :: body) header.length hcells]
    dsimp only
    rw [hh]
    dsimp only
    rw [hls, join_cons_flatMap]
    simp
  · intro l hl
    simp only [List.mem_cons] at hl
    rcases hl with rfl | rfl | hl
    · unfold visibleLength
      rw [colorStyle_bold, clean_bold, hvis _ stops_reset, strip_reset]
      rfl
    · unfold visibleLength
      rw [colorStyle_dim, clean_dim, strip_plain_append _ _ (plain_join_dashes _), strip_reset,
        List.append_nil, length_join_dashes]
      simp
    · exact hall l hl

/-- Witness of C27 at `table([["A", "BB"], ["1", "22"]], {align: ['right', 'center']})`. -/
theorem table_line_widths_witness :
    (∀ row ∈ [js "A", js "BB"] :: [[js "1", js "22"]], row.length = [js "A", js "BB"].length) ∧
    (∃ lines : List JSString,
      table ([js "A", js "BB"] :: [[js "1", js "22"]])
        { align := [js "right", js "center"] } = .ok (join (js "\n") lines) ∧
      lines.length = ([js "A", js "BB"] :: [[js "1", js "22"]]).length + 1 ∧
      ∀ l ∈ lines, visibleLength l =
        ((List.range [js "A", js "BB"].length).map
          (columnMax ([js "A", js "BB"] :: [[js "1", js "22"]]))).sum +
          3 * ([js "A", js "BB"].length - 1)) ∧
    (List.range 2).map (columnMax [[js "A", js "BB"], [js "1", js "22"]]) = [1, 2] :=
  ⟨by decide, table_line_widths [js "A", js "BB"] [[js "1", js "22"]]
    [js "right", js "center"] (by decide)⟩

/-- C28, the claim fails: the separator rule of `table([["A", "BB"], ["1", "22"]])` is
`──┼───`, with five glyphs `─` and one `┼`, not four: the joiner `─┼─` brings two. -/
theorem table_rule_five_dashes :
    (table [[js "A", js "BB"], [js "1", js "22"]]).map (fun r => (split 10 r).map strip) =
      .ok [js "A │ BB", js "──┼───", js "1 │ 22"] ∧
    (js "──┼───").count 0x2500 = 5 ∧ (js "──┼───").count 0x253C = 1 := by
  decide!

/-- C28, amended. `table([["A", "BB"], ["1", "22"]])` has three lines: the header `A │ BB`
wrapped in the bold code, the separator rule wrapped in the dim code, and the body row
`1 │ 22`. The visible text of the rule is `w_1` glyphs `─`, the joiner `─┼─`, and `w_2`
glyphs `─`, with the widths `[1, 2]`: five `─` and one `┼`, six columns like the other
lines. -/
theorem table_separator_rule :
    table [[js "A", js "BB"], [js "1", js "22"]] =
      .ok (colorStyle (js "bold") (js "A │ BB") ++ js "\n" ++
        colorStyle (js "dim") (dashes 1 ++ js "─┼─" ++ dashes 2) ++ js "\n" ++ js "1 │ 22") ∧
    colorStyle (js "bold") (js "A │ BB") = js "\x1b[1mA │ BB\x1b[0m" ∧
    strip (colorStyle (js "dim") (dashes 1 ++ js "─┼─" ++ dashes 2)) =
      dashes 1 ++ js "─┼─" ++ dashes 2 ∧
    (dashes 1 ++ js "─┼─" ++ dashes 2).count 0x2500 = 5 ∧
    (dashes 1 ++ js "─┼─" ++ dashes 2).count 0x253C = 1 ∧
    visibleLength (colorStyle (js "bold") (js "A │ BB")) = 6 ∧
    visibleLength (colorStyle (js "dim") (dashes 1 ++ js "─┼─" ++ dashes 2)) = 6 ∧
    visibleLength (js "1 │ 22") = 6 := by
  decide!

/-- Witness of C22 at `pad("abcdef", 3, side, "*")`, a text wider than the width. -/
theorem pad_result_witness :
    (3 : Int) ≤ (visibleLength (js "abcdef") : Int) ∧
    pad (js "abcdef") 3 (js "right") (js "*") = .ok (js "abcdef") ∧
    pad (js "abcdef") 3 (js "left") (js "*") = .ok (js "abcdef") :=
  ⟨by decide!, (pad_result (js "abcdef") 3 (js "*")).2.2 (by decide!)⟩

/-- Witness of C23 at `center("ab", 7)`. -/
theorem center_result_witness :
    (visibleLength (js "ab") : Int) ≤ 7 ∧
    center (js "ab") 7 = .ok (spaces ((7 - (visibleLength (js "ab") : Int)) / 2).toNat ++ js "ab") ∧
    (((7 - (visibleLength (js "ab") : Int)) / 2).toNat : Int) =
      ⌊((7 : ℚ) - (visibleLength (js "ab") : ℚ)) / 2⌋ :=
  ⟨by decide!, (center_result (js "ab") 7).1,
    by exact_mod_cast (center_result (js "ab") 7).2.1 (by decide!)⟩

/-- Witness of C26 at `box("Hi\nHello", {padding: 1})`. -/
theorem box_content_uniform_witness :
    ∃ (top bottom : JSString) (contents : List JSString),
      box (js "Hi\nHello") { padding := some ((1 : Nat) : Int) } =
        .ok (join (js "\n") ([top] ++ contents ++ [bottom])) ∧
      (∀ r, box (js "Hi\nHello") { padding := some ((1 : Nat) : Int) } = .ok r →
        split 10 r = [top] ++ contents ++ [bottom]) ∧
      contents.length = (split 10 (js "Hi\nHello")).length ∧
      ∀ (i : Nat) (line : JSString), (split 10 (js "Hi\nHello"))[i]? = some line →
        ∃ c, contents[i]? = some c ∧
          visibleLength c = maxVisible (split 10 (js "Hi\nHello")) + 3 * 1 + 2 ∧
          ∃ a b, c = a ++ line ++ b :=
  box_content_uniform (js "Hi\nHello") 1

theorem RN_zero : RN 0 = .fin 0 := by simp [RN]

theorem RN_one : RN 1 = .fin 1 := by
  have := RN_natCast 1 (by norm_num)
  simpa using this

theorem floor_add_half (n : Int) : ⌊(n : ℚ) + 1 / 2⌋ = n := by
  rw [Int.floor_eq_iff]
  constructor <;> linarith

/-- At the ratio `0` the mix of mode `normal` is the first channel. -/
theorem normalFormula_zero (a b : Nat) (ha : a ≤ 255) : normalFormula (.fin 0) a b = .fin a := by
  have h := floor_add_half (a : Int)
  simp only [Int.cast_natCast] at h
  unfold normalFormula
  rw [F64.sub_fin, sub_zero, RN_one, F64.mul_fin, mul_one, RN_natCast a (by omega), F64.mul_fin,
    mul_zero, RN_zero, F64.add_fin, add_zero, RN_natCast a (by omega), F64.round_fin, h]
  simp

/-- At the ratio `1` the mix of mode `normal` is the second channel. -/
theorem normalFormula_one (a b : Nat) (hb : b ≤ 255) : normalFormula (.fin 1) a b = .fin b := by
  have h := floor_add_half (b : Int)
  simp only [Int.cast_natCast] at h
  unfold normalFormula
  rw [F64.sub_fin, sub_self, RN_zero, F64.mul_fin, mul_zero, RN_zero, F64.mul_fin, mul_one,
    RN_natCast b (by omega), F64.add_fin, zero_add, RN_natCast b (by omega), F64.round_fin, h]
  simp

/-- The channel of a shade is the mix of mode `normal` of the channel with `255` or `0`. -/
theorem shadeChannel_eq (direction : JSString) (t : F64) (c : Nat) :
    shadeChannel direction t (.fin c) =
      normalFormula t c (if direction = js "lighten" then 255 else 0) := by
  unfold shadeChannel normalFormula F64.ofNat
  by_cases h : direction = js "lighten"
  · simp only [h, if_true, Nat.cast_one, Nat.cast_ofNat]
  · simp only [h, if_false, Nat.cast_one, Nat.cast_zero]

theorem shadeChannel_nan (direction : JSString) (c : F64) :
    shadeChannel direction .nan c = .nan := by
  unfold shadeChannel
  cases c <;> by_cases h : direction = js "lighten" <;>
    simp [h, F64.sub, F64.neg, F64.add, F64.mul, F64.round, F64.ofNat]

theorem rgbStyle_eq (r g b : JSNum) :
    rgbStyle r g b = createStyleObject (trueColorCode (js "38") r g b) := by
  simp only [rgbStyle, get_rgb, color, createStyleObject, List.nil_append]

theorem colorRgb_eq_apply (r g b : JSNum) (text : JSString) :
    colorRgb r g b text = (rgbStyle r g b).apply text := by
  simp only [colorRgb, rgbStyle, get_rgb]

theorem generateShades_eq (base : ColorArg) (r g b : Nat)
    (hbase : toRgb base = .ok [.int r, .int g, .int b]) (count : Nat) (direction : JSString) :
    generateShades base count direction =
      .ok ((List.range count).map (fun i =>
        rgbStyle
          (shadeChannel direction
            ((F64.ofNat i).div ((F64.ofNat count).sub (F64.ofNat 1))) (.fin r)).toJSNum
          (shadeChannel direction
            ((F64.ofNat i).div ((F64.ofNat count).sub (F64.ofNat 1))) (.fin g)).toJSNum
          (shadeChannel direction
            ((F64.ofNat i).div ((F64.ofNat count).sub (F64.ofNat 1))) (.fin b)).toJSNum)) := by
  simp only [generateShades, hbase, destructure3, List.getD_cons_zero, List.getD_cons_succ,
    toF64_nat]

/-- The step ratio of the first shade: `0 / 0` for one shade, else `0`. -/
theorem shadeRatio_first (count : Nat) (hc : 1 ≤ count) (hlt : count < 2 ^ 32) :
    (F64.ofNat 0).div ((F64.ofNat count).sub (F64.ofNat 1)) =
      if count = 1 then .nan else .fin 0 := by
  unfold F64.ofNat
  rw [F64.sub_fin]
  have hsub : RN ((count : ℚ) - ((1 : Nat) : ℚ)) = .fin ((count - 1 : Nat) : ℚ) := by
    have := RN_natCast (count - 1) (by omega)
    rw [← this]
    congr 1
    push_cast [Nat.cast_sub hc]
    ring
  rw [hsub]
  by_cases h1 : count = 1
  · subst h1
    simp [F64.div]
  · rw [if_neg h1]
    have hne : ((count - 1 : Nat) : ℚ) ≠ 0 := by
      have : 0 < count - 1 := by omega
      exact_mod_cast (ne_of_gt this)
    rw [F64.div_fin _ _ hne]
    simp [RN_zero]

/-- The step ratio of the last shade of two or more: `(count - 1) / (count - 1) = 1`. -/
theorem shadeRatio_last (count : Nat) (hc : 2 ≤ count) (hlt : count < 2 ^ 32) :
    (F64.ofNat (count - 1)).div ((F64.ofNat count).sub (F64.ofNat 1)) = .fin 1 := by
  unfold F64.ofNat
  rw [F64.sub_fin]
  have hsub : RN ((count : ℚ) - ((1 : Nat) : ℚ)) = .fin ((count - 1 : Nat) : ℚ) := by
    have := RN_natCast (count - 1) (by omega)
    rw [← this]
    congr 1
    push_cast [Nat.cast_sub (show 1 ≤ count by omega)]
    ring
  rw [hsub]
  have hne : ((count - 1 : Nat) : ℚ) ≠ 0 := by
    have : 0 < count - 1 := by omega
    exact_mod_cast (ne_of_gt this)
  rw [F64.div_fin _ _ hne, div_self hne, RN_one]

/-- C32. Blend ratio endpoints: for every text and colours `A` and `B` with channels in
`0..255`, in mode `normal` `blend(text, A, B, 0)` is `color.rgb(A)(text)`, the pure first
colour, and `blend(text, A, B, 1)` is `color.rgb(B)(text)`, the pure second colour. -/
theorem blend_endpoints (text : JSString) (A B : ColorArg) (a1 a2 a3 b1 b2 b3 : Nat)
    (hA : toRgb A = .ok [.int a1, .int a2, .int a3])
    (hB : toRgb B = .ok [.int b1, .int b2, .int b3])
    (h1 : a1 ≤ 255 ∧ a2 ≤ 255 ∧ a3 ≤ 255) (h2 : b1 ≤ 255 ∧ b2 ≤ 255 ∧ b3 ≤ 255) :
    blend text A B (.fin 0) (js "normal") =
      .ok ((rgbStyle (.int a1) (.int a2) (.int a3)).apply text) ∧
    blend text A B (.fin 1) (js "normal") =
      .ok ((rgbStyle (.int b1) (.int b2) (.int b3)).apply text) := by
  have hm : js "normal" ≠ js "multiply" := by decide
  have hs : js "normal" ≠ js "screen" := by decide
  constructor
  · rw [blend_eq text A B a1 a2 a3 b1 b2 b3 hA hB, ← colorRgb_eq_apply, colorRgb_eq_span]
    simp only [blendChannel_other _ hm hs, normalFormula_zero _ _ h1.1,
      normalFormula_zero _ _ h1.2.1, normalFormula_zero _ _ h1.2.2, toJSNum_nat]
  · rw [blend_eq text A B a1 a2 a3 b1 b2 b3 hA hB, ← colorRgb_eq_apply, colorRgb_eq_span]
    simp only [blendChannel_other _ hm hs, normalFormula_one _ _ h2.1,
      normalFormula_one _ _ h2.2.1, normalFormula_one _ _ h2.2.2, toJSNum_nat]

/-- Witness of C32 at `blend("Hi", [205, 0, 0], 'brightBlue', t)` for `t = 0` and `t = 1`. -/
theorem blend_endpoints_witness :
    blend (js "Hi") (rgbArg 205 0 0) (rgbArg 0 0 255) (.fin 0) (js "normal") =
      .ok ((rgbStyle (.int (205 : Nat)) (.int (0 : Nat)) (.int (0 : Nat))).apply (js "Hi")) ∧
    blend (js "Hi") (rgbArg 205 0 0) (rgbArg 0 0 255) (.fin 1) (js "normal") =
      .ok ((rgbStyle (.int (0 : Nat)) (.int (0 : Nat)) (.int (255 : Nat))).apply (js "Hi")) :=
  blend_endpoints (js "Hi") (rgbArg 205 0 0) (rgbArg 0 0 255) 205 0 0 0 0 255 (by decide)
    (by decide) (by decide) (by decide)

/-- C35, the code: for a base colour `[r, g, b]` with channels in `0..255`, a count from `1`
on and either direction, `generateShades` returns exactly `count` shades. For a count of
`2` or more the first one is `color.rgb(r, g, b)`, the base colour, and the last one is
`color.rgb(255, 255, 255)` for `'lighten'` and `color.rgb(0, 0, 0)` otherwise. For the
count `1` the step ratio is `0 / 0`, and the only shade is `color.rgb(NaN, NaN, NaN)`, not
the base colour. -/
theorem generateShades_shades (base : ColorArg) (r g b : Nat)
    (hbase : toRgb base = .ok [.int r, .int g, .int b])
    (hr : r ≤ 255) (hg : g ≤ 255) (hb : b ≤ 255) (count : Nat) (hc : 1 ≤ count)
    (hlt : count < 2 ^ 32) (direction : JSString) :
    ∃ shades, generateShades base count direction = .ok shades ∧ shades.length = count ∧
      (count = 1 → shades = [rgbStyle .nan .nan .nan] ∧
        rgbStyle .nan .nan .nan ≠ rgbStyle (.int r) (.int g) (.int b)) ∧
      (2 ≤ count → shades.head? = some (rgbStyle (.int r) (.int g) (.int b)) ∧
        shades.getLast? =
          some (if direction = js "lighten" then rgbStyle (.int 255) (.int 255) (.int 255)
            else rgbStyle (.int 0) (.int 0) (.int 0))) := by
  refine ⟨_, generateShades_eq base r g b hbase count direction, by simp, ?_, ?_⟩
  · intro h1
    subst h1
    constructor
    · have h0 := shadeRatio_first 1 (le_refl 1) (by norm_num)
      rw [if_pos rfl] at h0
      simp only [List.range_succ, List.range_zero, List.nil_append, List.map_cons, List.map_nil,
        h0, shadeChannel_nan, F64.toJSNum]
    · intro h
      rw [rgbStyle_eq, rgbStyle_eq] at h
      have h2 := congrArg (fun x : Builder => x.pfx.getD 7 0) h
      have e : ∀ n : Nat, (trueColorCode (js "38") .nan .nan .nan).getD 7 0 = 78 := fun _ => rfl
      have hne : ∀ x : JSNum, inByteRange x = true →
          ∀ g b : JSNum, (trueColorCode (js "38") x g b).getD 7 0 ≠ 78 := by
        intro x hx g b
        have hd := (numberToString_digitsOK x hx)
        rw [trueColorCode_eq_sgr]
        obtain ⟨hall, hlen, _⟩ := hd
        cases hs : numberToString x with
        | nil => rw [hs] at hlen; simp at hlen
        | cons d t =>
          have hdd : isDigit d := hall d (by rw [hs]; exact List.mem_cons_self _ _)
          simp only [sgr, semiParams, List.flatMap_cons, hs, List.cons_append, List.getD_cons_succ,
            List.getD_cons_zero, List.nil_append]
          unfold isDigit at hdd
          have e38 : js "38" = [51, 56] := rfl
          simp only [e38, List.cons_append, List.nil_append, List.getD_cons_succ,
            List.getD_cons_zero]
          omega
      simp only [createStyleObject] at h2
      exact hne (.int r) (by simp [inByteRange]; omega) _ _ (by rw [← h2]; exact e 0)
  · intro h2
    constructor
    · have h0 := shadeRatio_first count hc hlt
      rw [if_neg (by omega)] at h0
      obtain ⟨n, rfl⟩ : ∃ n, count = n + 1 := ⟨count - 1, by omega⟩
      rw [List.range_succ_eq_map]
      simp only [List.map_cons, List.head?_cons, h0, shadeChannel_eq, normalFormula_zero _ _ hr,
        normalFormula_zero _ _ hg, normalFormula_zero _ _ hb, toJSNum_nat]
    · have h1 := shadeRatio_last count h2 hlt
      obtain ⟨n, rfl⟩ : ∃ n, count = n + 1 := ⟨count - 1, by omega⟩
      rw [Nat.add_sub_cancel] at h1
      rw [List.range_succ, List.map_append, List.map_cons, List.map_nil, List.getLast?_concat]
      simp only [h1, shadeChannel_eq]
      by_cases hd : direction = js "lighten"
      · simp only [hd, if_true, normalFormula_one _ 255 (le_refl _)]
        rfl
      · simp only [hd, if_false, normalFormula_one _ 0 (by norm_num)]
        rfl

/-- Witness of C35 at the failing input `generateShades([205, 0, 0], 1)`: the only shade
has the prefix `ESC[38;2;NaN;NaN;NaNm`. -/
theorem generateShades_shades_witness :
    toRgb (rgbArg 205 0 0) = .ok [.int (205 : Nat), .int (0 : Nat), .int (0 : Nat)] ∧
    generateShades (rgbArg 205 0 0) 1 (js "darken") = .ok [rgbStyle .nan .nan .nan] ∧
    (rgbStyle .nan .nan .nan).pfx = js "\x1b[38;2;NaN;NaN;NaNm" ∧
    rgbStyle .nan .nan .nan ≠ rgbStyle (.int (205 : Nat)) (.int (0 : Nat)) (.int (0 : Nat)) := by
  obtain ⟨shades, h, _, h1, _⟩ := generateShades_shades (rgbArg 205 0 0) 205 0 0 (by decide)
    (by decide) (by decide) (by decide) 1 (by decide) (by norm_num) (js "darken")
  obtain ⟨e, hne⟩ := h1 rfl
  exact ⟨by decide, by rw [h, e], by decide, hne⟩

/-- C33. The three-digit hex writing is expanded by digit doubling: for all hex digits
`x`, `y`, `z`, `toRgb("#xyz")` and `toRgb("#xxyyzz")` are both `[17 * x, 17 * y, 17 * z]`,
with the values of the digits. -/
theorem hex3_doubling (x y z : Nat) (hx : isHexDigit x = true) (hy : isHexDigit y = true)
    (hz : isHexDigit z = true) :
    toRgb (.str (js "#" ++ [x, y, z])) =
      .ok [.int (17 * hexValue x : Nat), .int (17 * hexValue y : Nat),
        .int (17 * hexValue z : Nat)] ∧
    toRgb (.str (js "#" ++ [x, x, y, y, z, z])) = toRgb (.str (js "#" ++ [x, y, z])) := by
  have e : js "#" = [35] := rfl
  have h3 := toRgb_hash3 x y z hx hy hz
  have h6 := toRgb_hash6 [x, x, y, y, z, z] rfl (by simp [allHexDigits, hx, hy, hz])
  rw [e]
  refine ⟨h3, ?_⟩
  simp only [List.singleton_append]
  rw [h3, h6]
  simp only [pairValues, pairNat, List.getD_cons_zero, List.getD_cons_succ, Nat.mul_zero,
    Nat.mul_one, Nat.zero_add]
  have h17 : ∀ v : Nat, 16 * v + v = 17 * v := fun v => by omega
  simp [h17]

/-- Witness of C33 at `"#1aF"` and `"#11aaFF"`: both are `[17, 170, 255]`. -/
theorem hex3_doubling_witness :
    toRgb (.str (js "#1aF")) = .ok [.int 17, .int 170, .int 255] ∧
    toRgb (.str (js "#11aaFF")) = toRgb (.str (js "#1aF")) :=
  hex3_doubling 49 97 70 (by decide) (by decide) (by decide)

theorem lookup_cons_self (k v : JSString) (t : Table) :
    List.lookup k ((k, v) :: t) = some v := by
  simp [List.lookup]

theorem lookup_cons_ne (k1 k v : JSString) (t : Table) (h : k1 ≠ k) :
    List.lookup k1 ((k, v) :: t) = List.lookup k1 t := by
  have hb : (k1 == k) = false := by simpa using h
  simp [List.lookup, hb]

theorem lookup_append_new (k v k1 : JSString) :
    ∀ t : Table, (t ++ [(k, v)]).lookup k1 =
      match t.lookup k1 with
      | some x => some x
      | none => if k1 = k then some v else none := by
  intro t
  induction t with
  | nil =>
    by_cases h : k1 = k
    · subst h
      rw [List.nil_append, lookup_cons_self]
      simp [List.lookup]
    · rw [List.nil_append, lookup_cons_ne _ _ _ _ h]
      simp [List.lookup, h]
  | cons kv rest ih =>
    obtain ⟨k0, v0⟩ := kv
    by_cases h : k1 = k0
    · subst h
      rw [List.cons_append, lookup_cons_self, lookup_cons_self]
    · rw [List.cons_append, lookup_cons_ne _ _ _ _ h, lookup_cons_ne _ _ _ _ h]
      exact ih

theorem lookup_map_set (k v k1 : JSString) :
    ∀ t : Table, (t.map (fun kv => if kv.1 = k then (kv.1, v) else kv)).lookup k1 =
      if k1 = k then (t.lookup k).map (fun _ => v) else t.lookup k1 := by
  intro t
  induction t with
  | nil => simp [List.lookup]
  | cons kv rest ih =>
    obtain ⟨k0, v0⟩ := kv
    rw [List.map_cons]
    by_cases hk : k0 = k
    · subst hk
      rw [if_pos rfl]
      by_cases h1 : k1 = k0
      · subst h1
        rw [lookup_cons_self, if_pos rfl, lookup_cons_self]
        rfl
      · rw [lookup_cons_ne _ _ _ _ h1, ih, if_neg h1, if_neg h1, lookup_cons_ne _ _ _ _ h1]
    · rw [if_neg hk]
      by_cases h1 : k1 = k
      · subst h1
        rw [lookup_cons_ne _ _ _ _ (fun e => hk e.symm), ih, if_pos rfl, if_pos rfl,
          lookup_cons_ne _ _ _ _ (fun e => hk e.symm)]
      · rw [if_neg h1]
        by_cases h2 : k1 = k0
        · subst h2
          rw [lookup_cons_self, lookup_cons_self]
        · rw [lookup_cons_ne _ _ _ _ h2, lookup_cons_ne _ _ _ _ h2, ih, if_neg h1]

/-- Reading a property after an assignment. -/
theorem lookup_setProperty (t : Table) (k v k1 : JSString) :
    (setProperty t k v).lookup k1 = if k1 = k then some v else t.lookup k1 := by
  unfold setProperty
  by_cases h : t.lookup k = none
  · rw [if_pos h, lookup_append_new]
    by_cases h1 : k1 = k
    · subst h1
      rw [h, if_pos rfl]
    · rw [if_neg h1, if_neg h1]
      cases t.lookup k1 <;> rfl
  · rw [if_neg h, lookup_map_set]
    by_cases h1 : k1 = k
    · rw [if_pos h1, if_pos h1]
      cases hl : t.lookup k with
      | none => exact absurd hl h
      | some x => rfl
    · rw [if_neg h1, if_neg h1]

/-- Reading a property after the assignments of a table with distinct keys, in order. -/
theorem lookup_foldl_setProperty (k : JSString) :
    ∀ (l acc : Table), (keys l).Nodup →
      (l.foldl (fun acc kv => setProperty acc kv.1 kv.2) acc).lookup k =
        match l.lookup k with
        | some v => some v
        | none => acc.lookup k := by
  intro l
  induction l with
  | nil => intro acc _; rfl
  | cons kv rest ih =>
    intro acc hnd
    simp only [keys, List.map_cons, List.nodup_cons] at hnd
    rw [List.foldl_cons, ih _ hnd.2, lookup_setProperty]
    obtain ⟨k0, v0⟩ := kv
    by_cases h : k = k0
    · subst h
      have hnone : rest.lookup k = none := by
        rw [List.lookup_eq_none_iff]
        intro p hp
        simp only [bne_iff_ne, ne_eq]
        intro e
        exact hnd.1 (List.mem_map.mpr ⟨p, hp, e.symm⟩)
      rw [hnone, lookup_cons_self, if_pos rfl]
    · rw [lookup_cons_ne _ _ _ _ h, if_neg h]

/-- The spread `{...a, ...b}` read at a key: the value of `b` when `b` has the key, else
the value of `a`. -/
theorem lookup_spread (a b : Table) (ha : (keys a).Nodup) (hb : (keys b).Nodup)
    (k : JSString) :
    (spread a b).lookup k =
      match b.lookup k with
      | some v => some v
      | none => a.lookup k := by
  unfold spread
  rw [lookup_foldl_setProperty k b _ hb, lookup_foldl_setProperty k a _ ha]
  cases b.lookup k with
  | some v => rfl
  | none =>
    cases a.lookup k <;> rfl

/-- The extended table and the ANSI-hex table share no key. -/
theorem extended_ansi_disjoint : ∀ k ∈ keys extendedColors, k ∉ keys ansiHexMapping := by
  intro k hk hk2
  obtain ⟨kv, hkv, e1⟩ := mem_keys hk
  obtain ⟨kw, hkw, e2⟩ := mem_keys hk2
  have h3 := (extendedColors_own kv hkv).2.2.1
  have h1 := (ansiHexMapping_own kw hkw).1
  rw [e1] at h3
  rw [e2, h3] at h1
  cases h1

theorem mem_of_lookup (k v : JSString) :
    ∀ t : Table, t.lookup k = some v → (k, v) ∈ t := by
  intro t
  induction t with
  | nil => intro h; simp [List.lookup] at h
  | cons kv rest ih =>
    obtain ⟨k0, v0⟩ := kv
    intro h
    by_cases e : k = k0
    · subst e
      rw [lookup_cons_self] at h
      rw [Option.some.inj h]
      exact List.mem_cons_self _ _
    · rw [lookup_cons_ne _ _ _ _ e] at h
      exact List.mem_cons_of_mem _ (ih h)

theorem mem_of_getProperty_own (t : Table) (k v : JSString) (h : getProperty t k = .own v) :
    (k, v) ∈ t := by
  unfold getProperty at h
  cases hl : t.lookup k with
  | some w =>
    rw [hl] at h
    simp only [Lookup.own.injEq] at h
    rw [← h]
    exact mem_of_lookup k w t hl
  | none =>
    rw [hl] at h
    simp only at h
    split_ifs at h

theorem lookup_of_getProperty_own (t : Table) (k v : JSString) (h : getProperty t k = .own v) :
    t.lookup k = some v := by
  unfold getProperty at h
  cases hl : t.lookup k with
  | some w =>
    rw [hl] at h
    simp only [Lookup.own.injEq] at h
    rw [h]
  | none =>
    rw [hl] at h
    simp only at h
    split_ifs at h

theorem getProperty_of_lookup (t : Table) (k v : JSString) (h : t.lookup k = some v) :
    getProperty t k = .own v := by
  unfold getProperty
  rw [h]

/-- A name that is not inherited is an own key or is not defined. -/
theorem getProperty_not_inherited (t : Table) (k : JSString) (hk : k ∉ objectPrototypeKeys) :
    getProperty t k ≠ .inherited := by
  unfold getProperty
  cases t.lookup k with
  | some w => simp
  | none => simp [hk]

/-- The names inherited from `Object.prototype` are own keys of neither table, and none of
them is the name of a colour function. -/
theorem inherited_facts : ∀ k ∈ objectPrototypeKeys,
    k ∉ functionNames ∧ getProperty styleCodes k = .inherited ∧
      getProperty extendedColors k = .inherited := by
  decide!

/-- The names of the colour functions are keys of neither table. -/
theorem functionNames_facts : ∀ n ∈ functionNames,
    n ∉ objectPrototypeKeys ∧ getProperty styleCodes n = .undefined ∧
      getProperty extendedColors n = .undefined := by
  decide!

theorem tryClass_functions_none (self : Builder) (prop : JSString) (h : prop ∉ functionNames) :
    self.tryClass prop .functions = none := by
  simp only [functionNames, List.mem_cons, List.mem_singleton, List.not_mem_nil, or_false,
    not_or] at h
  obtain ⟨h1, h2, h3, h4, h5, h6⟩ := h
  simp only [Builder.tryClass, h1, h2, h3, h4, h5, h6, if_false]

theorem tryClass_undefined (self : Builder) (prop : JSString) :
    (getProperty styleCodes prop = .undefined → self.tryClass prop .styles = none) ∧
    (getProperty extendedColors prop = .undefined → self.tryClass prop .extended = none) := by
  constructor <;> intro h <;> simp only [Builder.tryClass, h, truthyString]

/-- The `get` trap is its three groups of tests in the source's order. -/
theorem get_eq_getInOrder (self : Builder) (prop : JSString) :
    self.get prop = self.getInOrder prop sourceOrder := by
  by_cases hf : prop ∈ functionNames
  · simp only [functionNames, List.mem_cons, List.mem_singleton, List.not_mem_nil,
      or_false] at hf
    rcases hf with h | h | h | h | h | h <;> subst h <;> rfl
  · have hnone := tryClass_functions_none self prop hf
    have hf2 := hf
    simp only [functionNames, List.mem_cons, List.mem_singleton, List.not_mem_nil, or_false,
      not_or] at hf2
    obtain ⟨h1, h2, h3, h4, h5, h6⟩ := hf2
    unfold Builder.get sourceOrder
    simp only [h1, h2, h3, h4, h5, h6, if_false, Builder.getInOrder, hnone]
    by_cases hi : prop ∈ objectPrototypeKeys
    · obtain ⟨_, hs, _⟩ := inherited_facts prop hi
      simp only [Builder.tryClass, hs]
    · have he := getProperty_not_inherited extendedColors prop hi
      cases hs : getProperty styleCodes prop with
      | inherited => simp only [Builder.tryClass, hs]
      | own v =>
        by_cases hv : v = []
        · subst hv
          cases hx : getProperty extendedColors prop with
          | inherited => exact absurd hx he
          | own w =>
            by_cases hw : w = [] <;> simp [Builder.tryClass, hs, hx, truthyString, hw]
          | undefined => simp [Builder.tryClass, hs, hx, truthyString]
        · simp [Builder.tryClass, hs, truthyString, hv]
      | undefined =>
        cases hx : getProperty extendedColors prop with
        | inherited => exact absurd hx he
        | own w =>
          by_cases hw : w = [] <;> simp [Builder.tryClass, hs, hx, truthyString, hw]
        | undefined => simp [Builder.tryClass, hs, hx, truthyString]

theorem getInOrder_none (self : Builder) (prop : JSString) :
    ∀ l : List DispatchClass, (∀ b ∈ l, self.tryClass prop b = none) →
      self.getInOrder prop l = .ok (.target prop) := by
  intro l
  induction l with
  | nil => intro _; rfl
  | cons c rest ih =>
    intro h
    simp only [Builder.getInOrder, h c (List.mem_cons_self _ _)]
    exact ih (fun b hb => h b (List.mem_cons_of_mem _ hb))

/-- When at most the group `a` succeeds, the result is what `a` gives, in whatever order
the groups are tried. -/
theorem getInOrder_unique (self : Builder) (prop : JSString) (a : DispatchClass) :
    ∀ l : List DispatchClass, a ∈ l → (∀ b ∈ l, b ≠ a → self.tryClass prop b = none) →
      self.getInOrder prop l = (self.tryClass prop a).getD (.ok (.target prop)) := by
  intro l
  induction l with
  | nil => intro h; simp at h
  | cons c rest ih =>
    intro hmem hnone
    by_cases hc : c = a
    · subst hc
      cases ht : self.tryClass prop c with
      | some r => simp only [Builder.getInOrder, ht, Option.getD_some]
      | none =>
        simp only [Builder.getInOrder, ht, Option.getD_none]
        apply getInOrder_none
        intro b hb
        by_cases hbc : b = c
        · rw [hbc]; exact ht
        · exact hnone b (List.mem_cons_of_mem _ hb) hbc
    · have hmem2 : a ∈ rest := by
        rcases List.mem_cons.mp hmem with h | h
        · exact absurd h.symm hc
        · exact h
      simp only [Builder.getInOrder, hnone c (List.mem_cons_self _ _) hc]
      exact ih hmem2 (fun b hb hne => hnone b (List.mem_cons_of_mem _ hb) hne)

/-- For a name that is not inherited from `Object.prototype` at most one group of tests
succeeds. -/
theorem tryClass_unique (self : Builder) (prop : JSString) (hprop : prop ∉ objectPrototypeKeys) :
    ∃ a : DispatchClass, ∀ b, b ≠ a → self.tryClass prop b = none := by
  obtain ⟨tu1, tu2⟩ := tryClass_undefined self prop
  by_cases hf : prop ∈ functionNames
  · obtain ⟨_, hs, he⟩ := functionNames_facts prop hf
    refine ⟨.functions, fun b hb => ?_⟩
    cases b with
    | functions => exact absurd rfl hb
    | styles => exact tu1 hs
    | extended => exact tu2 he
  · have hfn := tryClass_functions_none self prop hf
    cases hs : getProperty styleCodes prop with
    | inherited => exact absurd hs (getProperty_not_inherited _ _ hprop)
    | undefined =>
      refine ⟨.extended, fun b hb => ?_⟩
      cases b with
      | functions => exact hfn
      | styles => exact tu1 hs
      | extended => exact absurd rfl hb
    | own v =>
      refine ⟨.styles, fun b hb => ?_⟩
      cases b with
      | functions => exact hfn
      | styles => exact absurd rfl hb
      | extended =>
        apply tu2
        cases hx : getProperty extendedColors prop with
        | inherited => exact absurd hx (getProperty_not_inherited _ _ hprop)
        | undefined => rfl
        | own w =>
          have hmem := mem_of_getProperty_own _ _ _ hx
          obtain ⟨_, hu, _⟩ := extendedColors_facts _ hmem
          rw [hs] at hu
          exact absurd hu (by simp)

/-- The keys of the registry are no keys of the extended table. -/
theorem style_extended_disjoint : ∀ n ∈ keys styleCodes, n ∉ keys extendedColors := by
  intro n hn he
  obtain ⟨kv, hkv, e1⟩ := mem_keys hn
  obtain ⟨kw, hkw, e2⟩ := mem_keys he
  obtain ⟨_, hown, _⟩ := styleCodes_facts kv hkv
  obtain ⟨_, hu, _⟩ := extendedColors_facts kw hkw
  rw [e1] at hown
  rw [e2, hown] at hu
  exact absurd hu (by simp)

theorem functionNames_disjoint :
    ∀ n ∈ functionNames, n ∉ keys styleCodes ∧ n ∉ keys extendedColors := by
  intro n hn
  constructor
  · intro h
    obtain ⟨kv, hkv, e1⟩ := mem_keys h
    obtain ⟨hnf, _⟩ := styleCodes_facts kv hkv
    rw [e1] at hnf
    exact hnf hn
  · intro h
    obtain ⟨kv, hkv, e1⟩ := mem_keys h
    obtain ⟨hnf, _⟩ := extendedColors_facts kv hkv
    rw [e1] at hnf
    exact hnf hn

set_option maxRecDepth 100000 in
/-- C31. The merge step is the spread `{...extendedColors, ...ansiHexMapping}`, and the
combined table holds, at every key of the extended table, the hex value of the extended
table; so it does at every key defined in both tables. No key is defined in both: the
tables share none, every ANSI-hex name is undefined in the extended table, and the combined
table holds it with its ANSI-hex value. -/
theorem merge_precedence :
    allNamedColors = spread extendedColors ansiHexMapping ∧
    (∀ k x, getProperty extendedColors k = .own x → getProperty allNamedColors k = .own x) ∧
    (∀ k x y, getProperty extendedColors k = .own x → getProperty ansiHexMapping k = .own y →
      getProperty allNamedColors k = .own x) ∧
    (∀ k ∈ keys extendedColors, k ∉ keys ansiHexMapping) ∧
    (∀ k y, getProperty ansiHexMapping k = .own y →
      getProperty extendedColors k = .undefined ∧ getProperty allNamedColors k = .own y) := by
  have hext : ∀ k x, getProperty extendedColors k = .own x →
      getProperty allNamedColors k = .own x := by
    intro k x h
    have hmem : (k, x) ∈ allNamedColors := by
      rw [allNamedColors_eq]
      exact List.mem_append_left _ (mem_of_getProperty_own _ k x h)
    exact (allNamedColors_facts (k, x) hmem).2.2.1
  refine ⟨rfl, hext, fun k x _ hx _ => hext k x hx, extended_ansi_disjoint, ?_⟩
  intro k y h
  have hm := mem_of_getProperty_own _ k y h
  have hmem : (k, y) ∈ allNamedColors := by
    rw [allNamedColors_eq]
    exact List.mem_append_right _ hm
  exact ⟨(ansiHexMapping_own (k, y) hm).1, (allNamedColors_facts (k, y) hmem).2.2.1⟩

/-- C40, the code at the name `constructor`, which both tables inherit from
`Object.prototype`: the test of the registry and the test of the extended table both
succeed, and with the extended table tried before the registry the access gives a builder
with the prefix `ESC[38;2;0;0;0m`, not what the `get` trap gives. -/
theorem dispatch_inherited_overlap :
    (color.tryClass (js "constructor") .styles).isSome = true ∧
    (color.tryClass (js "constructor") .extended).isSome = true ∧
    color.getInOrder (js "constructor") [.functions, .extended, .styles] =
      .ok (.builder ⟨js "\x1b[38;2;0;0;0m"⟩) ∧
    color.get (js "constructor") = .ok (.inheritedBuilder [] (js "constructor")) ∧
    color.getInOrder (js "constructor") [.functions, .extended, .styles] ≠
      color.get (js "constructor") := by
  have h1 : color.getInOrder (js "constructor") [.functions, .extended, .styles] =
      .ok (.builder ⟨js "\x1b[38;2;0;0;0m"⟩) := by rfl
  have h2 : color.get (js "constructor") = .ok (.inheritedBuilder [] (js "constructor")) := by
    rfl
  refine ⟨by rfl, by rfl, h1, h2, ?_⟩
  rw [h1, h2]
  intro h
  cases h

/-- C40, amended. The dispatch classes are disjoint as sets of keys: no name of a colour
function is a key of the registry or of the extended table, no key of the registry is a
key of the extended table, and the extended table and the ANSI-hex table share no key.
For every name that is not inherited from `Object.prototype` the result of an attribute
access on a builder is the same in whatever order the three groups of tests are tried. -/
theorem dispatch_order_free (self : Builder) (prop : JSString)
    (hprop : prop ∉ objectPrototypeKeys) (order : List DispatchClass)
    (hall : ∀ c : DispatchClass, c ∈ order) :
    self.getInOrder prop order = self.get prop ∧
    (∀ n ∈ functionNames, n ∉ keys styleCodes ∧ n ∉ keys extendedColors) ∧
    (∀ n ∈ keys styleCodes, n ∉ keys extendedColors) ∧
    (∀ n ∈ keys extendedColors, n ∉ keys ansiHexMapping) := by
  refine ⟨?_, functionNames_disjoint, style_extended_disjoint, extended_ansi_disjoint⟩
  obtain ⟨a, ha⟩ := tryClass_unique self prop hprop
  rw [get_eq_getInOrder,
    getInOrder_unique self prop a order (hall a) (fun b _ hb => ha b hb),
    getInOrder_unique self prop a sourceOrder (by cases a <;> decide) (fun b _ hb => ha b hb)]

/-- Witness of C40 at the name `red`, with the extended table tried first and the colour
functions last. -/
theorem dispatch_order_free_witness :
    color.getInOrder (js "red") [.extended, .styles, .functions] = color.get (js "red") :=
  (dispatch_order_free color (js "red") (by decide) [.extended, .styles, .functions]
    (fun c => by cases c <;> decide)).1

/-- The channel of a gradient stays in `0..255`. -/
theorem gradientFormula_range (s e i N : Nat) (hs : s ≤ 255) (he : e ≤ 255) (hi : i < N) :
    0 ≤ gradientFormula s e i N ∧ gradientFormula s e i N ≤ 255 := by
  have hN : (0 : ℚ) < N := by exact_mod_cast (show 0 < N by omega)
  have ht0 : (0 : ℚ) ≤ (i : ℚ) / N := by positivity
  have ht1 : (i : ℚ) / N ≤ 1 := by
    rw [div_le_one hN]
    exact_mod_cast le_of_lt hi
  have hsq : (0 : ℚ) ≤ s := by positivity
  have heq : (0 : ℚ) ≤ e := by positivity
  have hs2 : (s : ℚ) ≤ 255 := by exact_mod_cast hs
  have he2 : (e : ℚ) ≤ 255 := by exact_mod_cast he
  have hv : (s : ℚ) + ((e : ℚ) - s) * i / N = s * (1 - (i : ℚ) / N) + e * ((i : ℚ) / N) := by
    ring
  have h1 : (0 : ℚ) ≤ 1 - (i : ℚ) / N := by linarith
  have hlo : (0 : ℚ) ≤ s * (1 - (i : ℚ) / N) + e * ((i : ℚ) / N) := by positivity
  have hhi : (s : ℚ) * (1 - (i : ℚ) / N) + e * ((i : ℚ) / N) ≤ 255 := by
    have a1 : (s : ℚ) * (1 - (i : ℚ) / N) ≤ 255 * (1 - (i : ℚ) / N) :=
      mul_le_mul_of_nonneg_right hs2 h1
    have a2 : (e : ℚ) * ((i : ℚ) / N) ≤ 255 * ((i : ℚ) / N) :=
      mul_le_mul_of_nonneg_right he2 ht0
    linarith
  unfold gradientFormula roundHalfUp
  rw [hv]
  constructor
  · apply Int.floor_nonneg.mpr
    linarith
  · have : ⌊(s : ℚ) * (1 - (i : ℚ) / N) + e * ((i : ℚ) / N) + 1 / 2⌋ < 256 := by
      rw [Int.floor_lt]
      push_cast
      linarith
    omega

theorem inByteRange_gradientFormula (s e i N : Nat) (hs : s ≤ 255) (he : e ≤ 255)
    (hi : i < N) : inByteRange (.int (gradientFormula s e i N)) = true := by
  obtain ⟨h0, h1⟩ := gradientFormula_range s e i N hs he hi
  simp [inByteRange, h0, h1]

/-- Where the channel of the last character is the end channel. -/
theorem gradientFormula_last (s e n : Nat) :
    gradientFormula s e n (n + 1) = e ↔
      2 * ((e : Int) - s) ≤ n + 1 ∧ 2 * ((s : Int) - e) < n + 1 := by
  have hN : (0 : ℚ) < (n : ℚ) + 1 := by positivity
  have hv : (s : ℚ) + ((e : ℚ) - s) * n / ((n + 1 : Nat) : ℚ) + 1 / 2 =
      e - ((e : ℚ) - s) / (n + 1) + 1 / 2 := by
    push_cast
    field_simp
    ring
  unfold gradientFormula roundHalfUp
  rw [hv, show ((e : Nat) : Int) = ((e : Int)) from rfl, Int.floor_eq_iff]
  have key1 : ((e : Int) : ℚ) ≤ e - ((e : ℚ) - s) / (n + 1) + 1 / 2 ↔
      2 * ((e : ℚ) - s) ≤ n + 1 := by
    push_cast
    rw [show ((e : ℚ) ≤ e - ((e : ℚ) - s) / (n + 1) + 1 / 2) ↔
      (((e : ℚ) - s) / (n + 1) ≤ 1 / 2) from by constructor <;> intro h <;> linarith]
    rw [div_le_iff₀ hN]
    constructor <;> intro h <;> linarith
  have key2 : (e : ℚ) - ((e : ℚ) - s) / (n + 1) + 1 / 2 < ((e : Int) : ℚ) + 1 ↔
      2 * ((s : ℚ) - e) < n + 1 := by
    push_cast
    rw [show ((e : ℚ) - ((e : ℚ) - s) / (n + 1) + 1 / 2 < e + 1) ↔
      (((s : ℚ) - e) / (n + 1) < 1 / 2) from by
        constructor <;> intro h <;> [skip; skip] <;>
          (have e1 : ((s : ℚ) - e) / (n + 1) = -(((e : ℚ) - s) / (n + 1)) := by ring
           linarith)]
    rw [div_lt_iff₀ hN]
    constructor <;> intro h <;> linarith
  rw [key1, key2]
  constructor
  · rintro ⟨h1, h2⟩
    constructor
    · have : ((2 * ((e : Int) - s) : Int) : ℚ) ≤ ((n + 1 : Int) : ℚ) := by push_cast; linarith
      exact_mod_cast this
    · have : ((2 * ((s : Int) - e) : Int) : ℚ) < ((n + 1 : Int) : ℚ) := by push_cast; linarith
      exact_mod_cast this
  · rintro ⟨h1, h2⟩
    constructor
    · have : ((2 * ((e : Int) - s) : Int) : ℚ) ≤ ((n + 1 : Int) : ℚ) := by exact_mod_cast h1
      push_cast at this; linarith
    · have : ((2 * ((s : Int) - e) : Int) : ℚ) < ((n + 1 : Int) : ℚ) := by exact_mod_cast h2
      push_cast at this; linarith

/-- What `strip` leaves of a wrapped text in front of anything: the text. -/
theorem strip_wrapped (P text rest : JSString) (hP : Strippable P) (ht : escapeFree text) :
    strip ((P ++ text ++ resetCode) ++ rest) = text ++ strip rest := by
  rw [List.append_assoc, List.append_assoc, hP, strip_plain_append text _ ht, clean_resetCode]

theorem strip_colorRgb_append (r g b : JSNum) (hr : inByteRange r = true)
    (hg : inByteRange g = true) (hb : inByteRange b = true) (text rest : JSString)
    (ht : escapeFree text) : strip (colorRgb r g b text ++ rest) = text ++ strip rest := by
  rw [colorRgb_eq_apply, rgbStyle_eq]
  exact strip_wrapped _ text rest (clean_trueColorCode _ r g b digitsOK_38 hr hg hb) ht

theorem strip_flatMap {α : Type} (f g : α → JSString) :
    ∀ l : List α, (∀ x ∈ l, ∀ rest, strip (f x ++ rest) = g x ++ strip rest) →
      strip (l.flatMap f) = l.flatMap g := by
  intro l
  induction l with
  | nil => intro _; exact strip_nil
  | cons a l ih =>
    intro h
    rw [List.flatMap_cons, List.flatMap_cons, h a (List.mem_cons_self _ _),
      ih (fun x hx => h x (List.mem_cons_of_mem _ hx))]

theorem flatMap_enum_singleton (text : JSString) :
    text.enum.flatMap (fun ic => [ic.2]) = text := by
  have h1 : ∀ t : JSString, t.flatMap (fun c => [c]) = t := by
    intro t
    induction t with
    | nil => rfl
    | cons c t ih => rw [List.flatMap_cons, ih]; rfl
  rw [List.enum, flatMap_enumFrom_snd (fun c : Nat => [c]) text 0, h1]

theorem escapeFree_singleton (text : JSString) (ht : escapeFree text) (c : Nat)
    (hc : c ∈ text) : escapeFree [c] := by
  intro d hd
  rw [List.mem_singleton] at hd
  rw [hd]
  exact ht c hc

/-- The call `color[name](x)` for a key of the registry. -/
theorem colorStyle_key (kv : JSString × JSString) (h : kv ∈ styleCodes) (x : JSString) :
    colorStyle kv.1 x = kv.2 ++ x ++ resetCode := by
  obtain ⟨f1, f2, f3, _⟩ := styleCodes_facts kv h
  unfold colorStyle
  rw [get_style color kv.1 kv.2 f1 f2 f3]
  simp only [Builder.apply, createStyleObject, color, List.nil_append]

theorem rainbowColors_keys : ∀ n ∈ rainbowColors, n ∈ keys styleCodes := by decide

theorem strip_rainbow_step (i : Nat) (c : Nat) (hc : escapeFree [c]) (rest : JSString) :
    strip (colorStyle (rainbowColors.getD (i % rainbowColors.length) (js "")) [c] ++ rest) =
      [c] ++ strip rest := by
  have hlen : rainbowColors.length = 6 := rfl
  have hlt : i % rainbowColors.length < rainbowColors.length := by
    rw [hlen]; exact Nat.mod_lt _ (by norm_num)
  have hmem : rainbowColors.getD (i % rainbowColors.length) (js "") ∈ rainbowColors := by
    rw [List.getD_eq_getElem _ _ hlt]
    exact List.getElem_mem _
  obtain ⟨kv, hkv, e⟩ := mem_keys (rainbowColors_keys _ hmem)
  rw [← e, colorStyle_key kv hkv]
  exact strip_wrapped _ [c] rest (clean_styleCode kv hkv) hc

/-- C34. `strip` undoes the colouring helpers: for every text `T` without U+001B and U+009B
(shorter than `2^32`) and all colours `A` and `B` with channels in `0..255`,
`strip(gradient(T, A, B)) = T`, `strip(rainbow(T)) = T`, and `strip(blend(T, A, B, t, mode)) = T`
for every ratio `t` in `[0, 1]` and every mode. -/
theorem strip_colouring_helpers (T : JSString) (hT : escapeFree T) (hlen : T.length < 2 ^ 32)
    (A B : ColorArg) (a1 a2 a3 b1 b2 b3 : Nat)
    (hA : toRgb A = .ok [.int a1, .int a2, .int a3])
    (hB : toRgb B = .ok [.int b1, .int b2, .int b3])
    (h1 : a1 ≤ 255 ∧ a2 ≤ 255 ∧ a3 ≤ 255) (h2 : b1 ≤ 255 ∧ b2 ≤ 255 ∧ b3 ≤ 255)
    (t : ℚ) (ht0 : 0 ≤ t) (ht1 : t ≤ 1) (mode : JSString) :
    (∃ g, gradient T A B = .ok g ∧ strip g = T) ∧
    strip (rainbow T) = T ∧
    (∃ r, blend T A B (.fin t) mode = .ok r ∧ strip r = T) := by
  refine ⟨⟨_, gradient_eq T A B a1 a2 a3 b1 b2 b3 hA hB, ?_⟩, ?_,
    ⟨_, blend_eq T A B a1 a2 a3 b1 b2 b3 hA hB (.fin t) mode, ?_⟩⟩
  · rw [strip_flatMap _ (fun ic => [ic.2]), flatMap_enum_singleton]
    intro ic hic rest
    have hi := List.fst_lt_of_mem_enum hic
    have hc : ic.2 ∈ T := List.snd_mem_of_mem_enum hic
    rw [gradientChannel_exact a1 b1 ic.1 _ h1.1 h2.1 hi hlen,
      gradientChannel_exact a2 b2 ic.1 _ h1.2.1 h2.2.1 hi hlen,
      gradientChannel_exact a3 b3 ic.1 _ h1.2.2 h2.2.2 hi hlen, ← colorRgb_eq_span]
    simp only [toJSNum_int]
    exact strip_colorRgb_append _ _ _ (inByteRange_gradientFormula _ _ _ _ h1.1 h2.1 hi)
      (inByteRange_gradientFormula _ _ _ _ h1.2.1 h2.2.1 hi)
      (inByteRange_gradientFormula _ _ _ _ h1.2.2 h2.2.2 hi) [ic.2] rest
      (escapeFree_singleton T hT ic.2 hc)
  · unfold rainbow
    rw [strip_flatMap _ (fun ic => [ic.2]), flatMap_enum_singleton]
    intro ic hic rest
    exact strip_rainbow_step ic.1 ic.2
      (escapeFree_singleton T hT ic.2 (List.snd_mem_of_mem_enum hic)) rest
  · obtain ⟨r, hr, er⟩ := blendChannel_range mode t ht0 ht1 a1 b1 h1.1 h2.1
    obtain ⟨g, hg, eg⟩ := blendChannel_range mode t ht0 ht1 a2 b2 h1.2.1 h2.2.1
    obtain ⟨b, hb, eb⟩ := blendChannel_range mode t ht0 ht1 a3 b3 h1.2.2 h2.2.2
    rw [er, eg, eb, ← colorRgb_eq_span]
    simp only [toJSNum_nat]
    have hin : ∀ n : Nat, n ≤ 255 → inByteRange (.int (n : Int)) = true := by
      intro n hn
      simp [inByteRange, hn]
    have := strip_colorRgb_append _ _ _ (hin r hr) (hin g hg) (hin b hb) T [] hT
    rwa [List.append_nil, strip_nil, List.append_nil] at this

/-- Witness of C34 at the text `"Hi!"`, the colours `[255, 215, 0]` and `[65, 105, 225]`,
the ratio `1/4` and the mode `screen`. -/
theorem strip_colouring_helpers_witness :
    (∃ g, gradient (js "Hi!") (rgbArg 255 215 0) (rgbArg 65 105 225) = .ok g ∧
      strip g = js "Hi!") ∧
    strip (rainbow (js "Hi!")) = js "Hi!" ∧
    (∃ r, blend (js "Hi!") (rgbArg 255 215 0) (rgbArg 65 105 225) (.fin (1 / 4))
      (js "screen") = .ok r ∧ strip r = js "Hi!") :=
  strip_colouring_helpers (js "Hi!") (by decide) (by decide) (rgbArg 255 215 0)
    (rgbArg 65 105 225) 255 215 0 65 105 225 (by decide) (by decide) (by decide) (by decide)
    (1 / 4) (by norm_num) (by norm_num) (js "screen")

/-- C38, the code at `gradient("ab", [0, 0, 0], [1, 1, 1])`: the last character `b` is at
index `1` of `2`, each channel is `Math.round(0 + 1 * 1 / 2) = 1`, and it carries the end
colour `[1, 1, 1]` itself, though the endpoints differ. -/
theorem gradient_last_reaches_end :
    gradient (js "ab") (rgbArg 0 0 0) (rgbArg 1 1 1) =
      .ok (colorRgb (.int 0) (.int 0) (.int 0) (js "a") ++
        colorRgb (.int 1) (.int 1) (.int 1) (js "b")) ∧
    rgbArg 0 0 0 ≠ rgbArg 1 1 1 := by
  decide!

/-- C38, amended. For a text of `n + 1` characters (fewer than `2^32`) and endpoints `S`
and `E` with channels in `0..255`, the last character carries the colour with the
channels `round(s + (e - s) * n / (n + 1))`, and that colour is `E` exactly when every
channel has `2 * (e - s) ≤ n + 1` and `2 * (s - e) < n + 1`: the last character misses the
end colour if and only if some channel of the endpoints differs by more than half the
length of the text (by half of it or more, when the start channel is the greater). -/
theorem gradient_last_colour (text : JSString) (c : Nat) (S E : ColorArg)
    (s1 s2 s3 e1 e2 e3 : Nat)
    (hS : toRgb S = .ok [.int s1, .int s2, .int s3])
    (hE : toRgb E = .ok [.int e1, .int e2, .int e3])
    (h1 : s1 ≤ 255 ∧ s2 ≤ 255 ∧ s3 ≤ 255) (h2 : e1 ≤ 255 ∧ e2 ≤ 255 ∧ e3 ≤ 255)
    (hlen : text.length + 1 < 2 ^ 32) :
    gradient (text ++ [c]) S E =
      .ok (text.enum.flatMap (fun ic =>
          colorRgb (.int (gradientFormula s1 e1 ic.1 (text.length + 1)))
            (.int (gradientFormula s2 e2 ic.1 (text.length + 1)))
            (.int (gradientFormula s3 e3 ic.1 (text.length + 1))) [ic.2]) ++
        colorRgb (.int (gradientFormula s1 e1 text.length (text.length + 1)))
          (.int (gradientFormula s2 e2 text.length (text.length + 1)))
          (.int (gradientFormula s3 e3 text.length (text.length + 1))) [c]) ∧
    ((gradientFormula s1 e1 text.length (text.length + 1) = e1 ∧
        gradientFormula s2 e2 text.length (text.length + 1) = e2 ∧
        gradientFormula s3 e3 text.length (text.length + 1) = e3) ↔
      (2 * ((e1 : Int) - s1) ≤ text.length + 1 ∧ 2 * ((s1 : Int) - e1) < text.length + 1) ∧
      (2 * ((e2 : Int) - s2) ≤ text.length + 1 ∧ 2 * ((s2 : Int) - e2) < text.length + 1) ∧
      (2 * ((e3 : Int) - s3) ≤ text.length + 1 ∧ 2 * ((s3 : Int) - e3) < text.length + 1)) := by
  constructor
  · rw [gradient_eq (text ++ [c]) S E s1 s2 s3 e1 e2 e3 hS hE]
    have hl : (text ++ [c]).length = text.length + 1 := by simp
    rw [hl, List.enum_append, List.flatMap_append]
    congr 2
    · apply List.flatMap_congr
      intro ic hic
      have hi : ic.1 < text.length + 1 := Nat.lt_succ_of_lt (List.fst_lt_of_mem_enum hic)
      rw [gradientChannel_exact s1 e1 ic.1 _ h1.1 h2.1 hi hlen,
        gradientChannel_exact s2 e2 ic.1 _ h1.2.1 h2.2.1 hi hlen,
        gradientChannel_exact s3 e3 ic.1 _ h1.2.2 h2.2.2 hi hlen, colorRgb_eq_span]
      simp only [toJSNum_int]
    · have hi : text.length < text.length + 1 := Nat.lt_succ_self _
      simp only [List.enumFrom_cons, List.enumFrom_nil, List.flatMap_cons, List.flatMap_nil,
        List.append_nil]
      rw [gradientChannel_exact s1 e1 _ _ h1.1 h2.1 hi hlen,
        gradientChannel_exact s2 e2 _ _ h1.2.1 h2.2.1 hi hlen,
        gradientChannel_exact s3 e3 _ _ h1.2.2 h2.2.2 hi hlen, colorRgb_eq_span]
      simp only [toJSNum_int]
  · rw [gradientFormula_last, gradientFormula_last, gradientFormula_last]

/-- Witness of C38 at `gradient("abc", [0, 0, 0], [255, 2, 1])`: the last character has
the colour `[170, 1, 1]`, not the end colour. -/
theorem gradient_last_colour_witness :
    gradient (js "abc") (rgbArg 0 0 0) (rgbArg 255 2 1) =
      .ok (colorRgb (.int 0) (.int 0) (.int 0) (js "a") ++
        (colorRgb (.int 85) (.int 1) (.int 0) (js "b") ++
          colorRgb (.int 170) (.int 1) (.int 1) (js "c"))) :=
  (gradient_last_colour (js "ab") 99 (rgbArg 0 0 0) (rgbArg 255 2 1)
    0 0 0 255 2 1 (by decide) (by decide) (by decide) (by decide) (by decide)).1.trans
    (by decide!)

/-- The pieces of a split text: the first one, and the text as the first piece followed by
the other pieces, each after a separator. An empty first piece is that of the empty text
or of a text that begins with the separator. -/
theorem split_flat (sep : Nat) :
    ∀ s : JSString, ∃ w ws, split sep s = w :: ws ∧ s = w ++ ws.flatMap (sep :: ·) ∧
      (w = [] → s = [] ∨ s.head? = some sep) := by
  intro s
  induction s with
  | nil => exact ⟨[], [], rfl, rfl, fun _ => Or.inl rfl⟩
  | cons c t ih =>
    obtain ⟨w, ws, hs, ht, _⟩ := ih
    by_cases h : c = sep
    · subst h
      refine ⟨[], w :: ws, by rw [split_sep_cons, hs], ?_, fun _ => Or.inr rfl⟩
      rw [List.nil_append, List.flatMap_cons, List.cons_append, ← ht]
    · refine ⟨c :: w, ws, ?_, by rw [List.cons_append, ← ht], fun e => by simp at e⟩
      conv_lhs => unfold split
      rw [if_neg h, hs]

theorem stops_flatMap_space (ws : List JSString) : stops (ws.flatMap (32 :: ·)) := by
  cases ws with
  | nil => exact stops_nil
  | cons w rest =>
    rw [List.flatMap_cons, List.cons_append]
    exact stops_cons 32 _ inert_space

/-- The loop of `wrap` over words that all fit on the current, non-empty line. -/
theorem wrap_fits_fold (width : Int) :
    ∀ (ws : List JSString) (line r : JSString), line ≠ [] →
      ((strip (line ++ ws.flatMap (32 :: ·))).length : Int) ≤ width →
      ws.foldl (wrapStep width) (line, r) = (line ++ ws.flatMap (32 :: ·), r) := by
  intro ws
  induction ws with
  | nil => intro line r _ _; simp
  | cons w rest ih =>
    intro line r hne hfit
    have e : js " " = [32] := rfl
    have hassoc : line ++ (w :: rest).flatMap (32 :: ·) =
        (line ++ (32 :: w)) ++ rest.flatMap (32 :: ·) := by
      rw [List.flatMap_cons, List.append_assoc]
    rw [hassoc] at hfit ⊢
    have htest : ((strip (line ++ js " " ++ w)).length : Int) ≤ width := by
      rw [strip_append_stops _ _ (stops_flatMap_space rest), List.length_append] at hfit
      have e2 : line ++ js " " ++ w = line ++ (32 :: w) := by
        rw [e, List.append_assoc]; rfl
      rw [e2]
      push_cast at hfit
      omega
    have hpos : line.length > 0 := List.length_pos.mpr hne
    have hstep : wrapStep width (line, r) w = (line ++ (32 :: w), r) := by
      unfold wrapStep
      simp only
      rw [if_pos htest, if_pos hpos, e]
      rfl
    rw [List.foldl_cons, hstep]
    exact ih (line ++ (32 :: w)) r (by simp) hfit

theorem formatCell_eq (align : List JSString) (widths : List Nat) (i w : Nat)
    (cell : JSString) (hw : widths[i]? = some w) (hle : visibleLength cell ≤ w) :
    (align[i]? = some (js "right") →
      formatCell align widths i cell = .ok (spaces (w - visibleLength cell) ++ cell)) ∧
    (align[i]? = some (js "center") →
      formatCell align widths i cell =
        .ok (spaces ((w - visibleLength cell) / 2) ++ cell ++
          spaces (w - visibleLength cell - (w - visibleLength cell) / 2))) ∧
    ((align[i]? = none ∨ align[i]? = some (js "left")) →
      formatCell align widths i cell = .ok (cell ++ spaces (w - visibleLength cell))) := by
  have hpad : ((w : Int) - ((strip cell).length : Int)) =
      ((w - visibleLength cell : Nat) : Int) := by
    unfold visibleLength at *; omega
  have e1 : ((w - visibleLength cell : Nat) : Int) / 2 =
      (((w - visibleLength cell) / 2 : Nat) : Int) := by
    omega
  have e2 : ((w - visibleLength cell : Nat) : Int) - (((w - visibleLength cell) / 2 : Nat) : Int) =
      ((w - visibleLength cell - (w - visibleLength cell) / 2 : Nat) : Int) := by
    omega
  have a1 : (if js "right" = js "" then js "left" else js "right") = js "right" := by decide
  have a2 : (if js "center" = js "" then js "left" else js "center") = js "center" := by decide
  have a3 : (if js "left" = js "" then js "left" else js "left") = js "left" := by decide
  have n1 : js "center" ≠ js "right" := by decide
  have n2 : js "left" ≠ js "right" := by decide
  have n3 : js "left" ≠ js "center" := by decide
  refine ⟨fun h => ?_, fun h => ?_, fun h => ?_⟩
  · unfold formatCell
    dsimp only
    rw [hw, h]
    dsimp only
    rw [a1, hpad, if_pos rfl, jsRepeat_space]
  · unfold formatCell
    dsimp only
    rw [hw, h]
    dsimp only
    rw [a2, hpad, if_neg n1, if_pos rfl, floorHalf_eq, e1, e2, jsRepeat_space, jsRepeat_space]
  · unfold formatCell
    dsimp only
    rw [hw]
    rcases h with h | h
    · rw [h]
      dsimp only
      rw [hpad, if_neg n2, if_neg n3, jsRepeat_space]
    · rw [h]
      dsimp only
      rw [a3, hpad, if_neg n2, if_neg n3, jsRepeat_space]

theorem pad_spaces (cell : JSString) (w : Nat) (hle : visibleLength cell ≤ w) :
    pad cell (w : Int) (js "right") = .ok (cell ++ spaces (w - visibleLength cell)) ∧
    pad cell (w : Int) (js "left") = .ok (spaces (w - visibleLength cell) ++ cell) := by
  have hk : ((w : Int) - (visibleLength cell : Int)).toNat = w - visibleLength cell := by omega
  have hsp : ∀ k, (List.replicate k (js " ")).flatten = spaces k :=
    fun k => replicate_flatten_single 32 k
  constructor
  · rw [pad_eq, if_neg (by decide), hk, hsp]
  · rw [pad_eq, if_pos rfl, hk, hsp]

/-- The fitting texts that stay on one line: for every text that does not begin with a
space, whose visible length is at most `width`, and which holds a space or is shorter than
`width`, `wrap(text, width)` is the text itself. -/
theorem wrap_fitting (text : JSString) (width : Int)
    (h1 : (visibleLength text : Int) ≤ width)
    (h2 : (visibleLength text : Int) < width ∨ 32 ∈ text)
    (h3 : text.head? ≠ some 32) : wrap text width = text := by
  obtain ⟨w, ws, hs, ht, hw⟩ := split_flat 32 text
  have e : js " " = [32] := rfl
  have hfirst : ((strip (js "" ++ js " " ++ w)).length : Int) ≤ width := by
    have e2 : js "" ++ js " " ++ w = 32 :: w := rfl
    rw [e2, strip_plain_cons 32 w plain_space, List.length_cons]
    cases ws with
    | nil =>
      rw [List.flatMap_nil, List.append_nil] at ht
      rcases h2 with h2 | h2
      · rw [ht] at h2
        unfold visibleLength at h2
        push_cast
        omega
      · have hmem : w ∈ split 32 text := by rw [hs]; exact List.mem_cons_self _ _
        rw [ht] at h2
        exact absurd h2 (not_mem_of_mem_split 32 text w hmem)
    | cons w2 rest =>
      rw [ht] at h1
      unfold visibleLength at h1
      rw [strip_append_stops _ _ (stops_flatMap_space (w2 :: rest)), List.flatMap_cons,
        List.cons_append, strip_plain_cons 32 _ plain_space, List.length_append,
        List.length_cons] at h1
      push_cast at h1 ⊢
      omega
  have hstep : wrapStep width (js "", js "") w = (w, js "") := by
    unfold wrapStep
    simp only
    rw [if_pos hfirst]
    rfl
  unfold wrap
  simp only
  rw [hs, List.foldl_cons, hstep]
  cases ws with
  | nil =>
    rw [List.flatMap_nil, List.append_nil] at ht
    rw [List.foldl_nil, ht]
    rfl
  | cons w2 rest =>
    have hne : w ≠ [] := by
      intro hnil
      rcases hw hnil with h | h
      · rw [h] at hs
        simp [split] at hs
      · exact h3 h
    have hfit : ((strip (w ++ (w2 :: rest).flatMap (32 :: ·))).length : Int) ≤ width := by
      rw [← ht]; exact h1
    rw [wrap_fits_fold width (w2 :: rest) w (js "") hne hfit, ← ht]
    rfl

/-- The text `ab cd` at the width 5 stays on one line. -/
theorem wrap_fitting_witness : wrap (js "ab cd") 5 = js "ab cd" :=
  wrap_fitting (js "ab cd") 5 (by decide!) (Or.inr (by decide)) (by decide)

/-- A text without a space, at the width equal to its visible length, is put after an
empty line: the test of the first word counts a joining space that the line does not get. -/
theorem wrap_word_of_width (word : JSString) (h : 32 ∉ word) :
    wrap word (visibleLength word) = js "\n" ++ word := by
  unfold wrap
  simp only
  rw [split_of_not_mem 32 word h, List.foldl_cons, List.foldl_nil]
  have e2 : js "" ++ js " " ++ word = 32 :: word := rfl
  have hstep : wrapStep (visibleLength word) (js "", js "") word = (word, js "\n") := by
    unfold wrapStep
    simp only
    rw [e2, strip_plain_cons 32 word plain_space, List.length_cons, if_neg]
    · rfl
    · unfold visibleLength
      push_cast
      omega
  rw [hstep]

/-- C36, the code on fitting texts: `wrap("abc", 3)` is `"\nabc"`, an empty line put
first, and `wrap(" a", 5)` is `"a"`, the leading space dropped; every text without a space
gets the empty line at the width equal to its visible length, and so does the first word of
a longer text, as in `wrap("hello world", 5)`, which is `"\nhello\nworld"`. The test
`strip(line + ' ' + word).length <= width` counts a joining space also on the empty line,
where the append `(line.length > 0 ? ' ' : '') + word` adds none. The other fitting texts
are returned as they are: those that do not begin with a space and that hold a space or are
shorter than the width. -/
theorem wrap_blank_first_line :
    (visibleLength (js "abc") : Int) ≤ 3 ∧ wrap (js "abc") 3 = js "\nabc" ∧
    (visibleLength (js "hello") : Int) ≤ 5 ∧ wrap (js "hello world") 5 = js "\nhello\nworld" ∧
    (visibleLength (js " a") : Int) ≤ 5 ∧ wrap (js " a") 5 = js "a" ∧
    (∀ word : JSString, 32 ∉ word → wrap word (visibleLength word) = js "\n" ++ word) ∧
    (∀ (text : JSString) (width : Int), (visibleLength text : Int) ≤ width →
      ((visibleLength text : Int) < width ∨ 32 ∈ text) → text.head? ≠ some 32 →
        wrap text width = text) := by
  refine ⟨by decide!, by decide!, by decide!, by decide!, by decide!, by decide!,
    wrap_word_of_width, wrap_fitting⟩

/-- C37. Table cells are aligned as `pad` aligns: in a table whose rows all have the cells
of the header, with the column widths `w_i` (the greatest visible length of the cells of
column `i`), the cell of column `i` is written as `pad(cell, w_i, 'right')` when the
alignment of the column is `'left'` or absent, as `pad(cell, w_i, 'left')` when it is
`'right'`, and for `'center'` as `floor(d / 2)` spaces, the cell, and `d - floor(d / 2)`
spaces, with `d = w_i - visibleLength(cell)`. -/
theorem table_cell_pad (header : List JSString) (body : List (List JSString))
    (align : List JSString)
    (hcells : ∀ row ∈ header :: body, row.length = header.length)
    (row : List JSString) (hrow : row ∈ header :: body) (i : Nat) (cell : JSString)
    (hcell : row[i]? = some cell) :
    mapThrowing (fun colIndex => columnWidth colIndex (header :: body) 0)
        (List.range header.length) =
      .ok ((List.range header.length).map (columnMax (header :: body))) ∧
    visibleLength cell ≤ columnMax (header :: body) i ∧
    ((align[i]? = none ∨ align[i]? = some (js "left")) →
      formatCell align ((List.range header.length).map (columnMax (header :: body))) i cell =
        pad cell (columnMax (header :: body) i) (js "right")) ∧
    (align[i]? = some (js "right") →
      formatCell align ((List.range header.length).map (columnMax (header :: body))) i cell =
        pad cell (columnMax (header :: body) i) (js "left")) ∧
    (align[i]? = some (js "center") →
      formatCell align ((List.range header.length).map (columnMax (header :: body))) i cell =
        .ok (spaces ((columnMax (header :: body) i - visibleLength cell) / 2) ++ cell ++
          spaces (columnMax (header :: body) i - visibleLength cell -
            (columnMax (header :: body) i - visibleLength cell) / 2))) := by
  have hle := le_columnMax i cell (header :: body) row hrow hcell
  have hi : i < header.length := by
    rw [← hcells row hrow]
    by_contra hge
    rw [List.getElem?_eq_none (by omega)] at hcell
    simp at hcell
  have hw : ((List.range header.length).map (columnMax (header :: body)))[i]? =
      some (columnMax (header :: body) i) := by
    rw [List.getElem?_map, List.getElem?_range hi]
    rfl
  obtain ⟨f1, f2, f3⟩ := formatCell_eq align _ i _ cell hw hle
  obtain ⟨p1, p2⟩ := pad_spaces cell _ hle
  exact ⟨widths_eq (header :: body) header.length hcells, hle,
    fun h => by rw [f3 h, p1], fun h => by rw [f1 h, p2], f2⟩

/-- Witness of C37 at the table `[["A", "BB"], ["1", "22"]]`, the row `["1", "22"]` and its
first cell, in a column aligned to the right. -/
theorem table_cell_pad_witness :
    formatCell [js "right"] ((List.range [js "A", js "BB"].length).map
        (columnMax [[js "A", js "BB"], [js "1", js "22"]])) 0 (js "1") =
      pad (js "1") (columnMax [[js "A", js "BB"], [js "1", js "22"]] 0) (js "left") :=
  (table_cell_pad [js "A", js "BB"] [[js "1", js "22"]] [js "right"] (by decide)
    [js "1", js "22"] (by decide) 0 (js "1") (by decide)).2.2.2.1 (by decide)

set_option maxRecDepth 100000 in
/-- The default padding of `box` is `1`. -/
theorem box_default (text : JSString) :
    box text = box text { padding := some ((1 : Nat) : Int) } := by
  unfold box
  rfl

/-- C39, the code: with the default style and border colour and a padding `p`, the two
borders of `box(text, {padding: p})` have the visible width `maxLen + 2 * p + 4` and every
content line has the visible width `maxLen + 3 * p + 2`, `maxLen` being the greatest
visible length of the lines of the text: the widths agree only for `p = 2`. For
`box("Hi")`, with the default padding `1`, the lines are 8, 7 and 8 columns wide. -/
theorem box_not_rectangle :
    (∀ (text : JSString) (p : Nat), ∃ top bottom : JSString, ∃ contents : List JSString,
      box text { padding := some (p : Int) } =
        .ok (join (js "\n") ([top] ++ contents ++ [bottom])) ∧
      contents ≠ [] ∧
      visibleLength top = maxVisible (split 10 text) + 2 * p + 4 ∧
      visibleLength bottom = maxVisible (split 10 text) + 2 * p + 4 ∧
      (∀ c ∈ contents, visibleLength c = maxVisible (split 10 text) + 3 * p + 2) ∧
      (p ≠ 2 → ∀ c ∈ contents, visibleLength c ≠ visibleLength top)) ∧
    (box (js "Hi")).map (fun r => (split 10 r).map visibleLength) = .ok [8, 7, 8] := by
  constructor
  · intro text p
    have hplain : ∀ (a b : JSString) (k : Nat), (∀ c ∈ a, plain c) → (∀ c ∈ b, plain c) →
        visibleLength (whiteBorder (a ++ dashes k ++ b)) = a.length + k + b.length := by
      intro a b k ha hb
      have hx : ∀ c ∈ a ++ dashes k ++ b, plain c := by
        intro c hc
        simp only [List.mem_append] at hc
        rcases hc with (hc | hc) | hc
        · exact ha c hc
        · rw [List.eq_of_mem_replicate hc]; exact plain_dash
        · exact hb c hc
      have := strip_whiteBorder (a ++ dashes k ++ b) [] hx
      rw [List.append_nil, strip_nil, List.append_nil] at this
      unfold visibleLength
      rw [this]
      simp only [List.length_append, dashes, List.length_replicate]
    have hcorner : ∀ g : JSString, g = js "╭" ∨ g = js "╮" ∨ g = js "╰" ∨ g = js "╯" →
        (∀ c ∈ g, plain c) ∧ g.length = 1 := by
      intro g hg
      rcases hg with h | h | h | h <;> subst h <;>
        exact ⟨by unfold plain ESC CSI; decide, rfl⟩
    have htop := hplain (js "╭") (js "╮") (maxVisible (split 10 text) + 2 + 2 * p)
      (hcorner _ (Or.inl rfl)).1 (hcorner _ (Or.inr (Or.inl rfl))).1
    have hbot := hplain (js "╰") (js "╯") (maxVisible (split 10 text) + 2 + 2 * p)
      (hcorner _ (Or.inr (Or.inr (Or.inl rfl)))).1 (hcorner _ (Or.inr (Or.inr (Or.inr rfl)))).1
    have hcont : ∀ c ∈ (split 10 text).map (boxContent p (maxVisible (split 10 text))),
        visibleLength c = maxVisible (split 10 text) + 3 * p + 2 := by
      intro c hc
      obtain ⟨line, hline, rfl⟩ := List.mem_map.mp hc
      apply visibleLength_boxContent
      exact le_foldl_max (fun l => (strip l).length) _ 0 line hline
    refine ⟨_, _, _, box_eq text p none (Or.inl rfl), ?_, ?_, ?_, hcont, ?_⟩
    · intro h
      exact split_ne_nil 10 text (List.map_eq_nil_iff.mp h)
    · rw [htop]
      simp only [(hcorner _ (Or.inl rfl)).2, (hcorner _ (Or.inr (Or.inl rfl))).2]
      omega
    · rw [hbot]
      simp only [(hcorner _ (Or.inr (Or.inr (Or.inl rfl)))).2,
        (hcorner _ (Or.inr (Or.inr (Or.inr rfl)))).2]
      omega
    · intro hp c hc
      rw [hcont c hc, htop]
      simp only [(hcorner _ (Or.inl rfl)).2, (hcorner _ (Or.inr (Or.inl rfl))).2]
      omega
  · rw [box_default, box_eq (js "Hi") 1 none (Or.inl rfl)]
    decide!

end Adclours
